import Mathlib

/-!
# Decoders and command dispatcher of the Tezos wallet application

A shallow embedding of `parse_operations` (src/protocol.c) and of the macros it
is written with (`NEXT_TYPE`, `NEXT_BYTE`, `PARSE_Z`), of `parse_baking_data`
(src/protocol.c), of the command loop `sample_main` with its button
callbacks and of `path_to_string` (src/main.c), followed by theorems about
them.  The conventions
below are those of the decoder; the section on the dispatcher states its own.

Conventions of the embedding

* The input `const void *data, size_t length` is a memory function
  `data : Nat → Nat` (the byte stored at each offset from the pointer) together
  with `length`.  The buffer proper is `slice data 0 length`; what `data` holds at
  offsets `≥ length` is memory that does not belong to the buffer.
* A byte is a natural number; the bit operations of the source are the bit
  operations of `Nat`.
* `size_t` cursor arithmetic is done in `Nat`: a cursor never exceeds `length`
  (proved below) and the sizes added to it are at most a few dozen bytes, so
  it cannot wrap (`size_t_check_no_wrap`: for a buffer that ends below the top
  of the address space the 32-bit comparison is the comparison in `Nat`).
  64-bit quantities (`total_fee`, the varint accumulator and shift counter)
  are reduced modulo `2 ^ 64` where the source can overflow.
* The three pointers are not null: the `check_null` statements pass.
* A `return code;` in the middle of the function is an explicit result that
  carries the code and the state (cursor, output structure) at that point.
* The two loops take a fuel argument and answer `none` when it runs out; the
  theorems `PARSE_Z_total` and `parse_operations_total` show that the fuel the
  embedding supplies is always enough.
-/

namespace Tezos

/-! ## Data model -/

/-- Modelled from the spec: the SDK type `cx_ecfp_public_key_t` is not declared
in the sources at hand.  `W` holds the meaningful bytes `W[0 .. W_len)` of the
key. -/
structure cx_ecfp_public_key_t where
  W : List Nat
deriving DecidableEq

/-- The field `W_len` of a public key. -/
def cx_ecfp_public_key_t.W_len (k : cx_ecfp_public_key_t) : Nat := k.W.length

/-- Modelled from the spec: `struct parsed_contract` of protocol.h (a parsed
account reference: originated flag, curve code, hash of `HASH_SIZE` bytes). -/
structure parsed_contract where
  originated : Nat
  curve_code : Nat
  hash : List Nat
deriving DecidableEq

/-- Modelled from the spec: `struct parsed_operation` of protocol.h (tag,
source, destination, amount). -/
structure parsed_operation where
  tag : Int
  source : parsed_contract
  destination : parsed_contract
  amount : Nat
deriving DecidableEq

/-- Modelled from the spec: `struct parsed_operation_group` of protocol.h
(signing identity and its public key, total fee, operation array). -/
structure parsed_operation_group where
  public_key : cx_ecfp_public_key_t
  signing : parsed_contract
  total_fee : Nat
  operations : List parsed_operation
deriving DecidableEq

/-- Everything `parse_operations` uses that is declared outside protocol.c:
the constants of protocol.h, the key-derivation oracle, and the value an
`int` left shift yields where C leaves it undefined.

The three `case` labels of the `switch` are pairwise distinct (a C compiler
rejects duplicate labels). -/
structure Env where
  HASH_SIZE : Nat
  MAX_OPERATIONS_PER_GROUP : Nat
  MAGIC_BYTE_UNSAFE_OP : Nat
  TEZOS_NO_CURVE : Nat
  OPERATION_TAG_NONE : Int
  OPERATION_TAG_REVEAL : Int
  OPERATION_TAG_DELEGATION : Int
  OPERATION_TAG_TRANSACTION : Int
  reveal_ne_delegation : OPERATION_TAG_REVEAL ≠ OPERATION_TAG_DELEGATION
  reveal_ne_transaction : OPERATION_TAG_REVEAL ≠ OPERATION_TAG_TRANSACTION
  delegation_ne_transaction : OPERATION_TAG_DELEGATION ≠ OPERATION_TAG_TRANSACTION
  generate_key_pair : Nat → List Nat → cx_ecfp_public_key_t
  public_key_hash : Nat → cx_ecfp_public_key_t → List Nat × cx_ecfp_public_key_t
  curve_to_curve_code : Nat → Nat
  shl_undefined : Nat → Nat → Int

/-- State of `parse_operations` between two statements: the cursor `ix`, the
record counter `op_index` and the output structure `*out`. -/
structure PState where
  ix : Nat
  op_index : Nat
  out : parsed_operation_group
deriving DecidableEq

/-- Result of a macro: either it yields a value and the new cursor, or it
executes `return code;` with the cursor where it stands. -/
inductive Res (α : Type) where
  | val (a : α) (ix : Nat) : Res α
  | ret (code : Nat) (ix : Nat) : Res α
deriving DecidableEq

/-- Result of one turn of the `while` loop: fall through to the next turn, or
`return code;`. -/
inductive Flow where
  | next (s : PState) : Flow
  | ret (code : Nat) (s : PState) : Flow
deriving DecidableEq

/-- What `parse_operations` returns, with the state it leaves behind. -/
structure Returned where
  code : Nat
  state : PState
deriving DecidableEq

/-! ## Memory and structure layouts -/

/-- The `n` bytes stored at offsets `ix .. ix + n - 1`. -/
def slice (data : Nat → Nat) : Nat → Nat → List Nat
  | _, 0 => []
  | ix, n + 1 => data ix :: slice data (ix + 1) n

/-- Memory holding the bytes of `l` at offsets `0 .. l.length - 1` (and zero
elsewhere). -/
def ofList (l : List Nat) : Nat → Nat := fun i => l.getD i 0

/-- `sizeof(struct operation_group_header)`: magic byte and 32-byte hash. -/
def sizeof_operation_group_header : Nat := 1 + 32

/-- `sizeof(struct contract)`: `originated`, then a union of two members of
`HASH_SIZE + 1` bytes each. -/
def sizeof_contract (env : Env) : Nat := 1 + (env.HASH_SIZE + 1)

/-- `sizeof(struct operation_header)`: `tag`, then a `struct contract`. -/
def sizeof_operation_header (env : Env) : Nat := 1 + sizeof_contract env

/-- `sizeof(struct delegation_contents)`: `delegate_present`, `curve_code`,
`hash[HASH_SIZE]`. -/
def sizeof_delegation_contents (env : Env) : Nat := 1 + 1 + env.HASH_SIZE

/-! ## The macros -/

/-- `NEXT_TYPE(type)` for a type of `sz` bytes: the structure at the cursor
(its `sz` bytes) and the advanced cursor, or `return sizeof(type)`. -/
def NEXT_TYPE (data : Nat → Nat) (length sz ix : Nat) : Res (List Nat) :=
  if ix + sz > length then Res.ret sz ix
  else Res.val (slice data ix sz) (ix + sz)

/-- `NEXT_BYTE()`, that is `*NEXT_TYPE(uint8_t)`. -/
def NEXT_BYTE (data : Nat → Nat) (length ix : Nat) : Res Nat :=
  match NEXT_TYPE data length 1 ix with
  | Res.ret code ix1 => Res.ret code ix1
  | Res.val v ix1 => Res.val (v.getD 0 0) ix1

/-- Reduction of an integer to the range of a 32-bit `int`. -/
def wrap_int32 (i : Int) : Int := (i + 2 ^ 31) % 2 ^ 32 - 2 ^ 31

/-- Conversion of an `int` to `uint64_t`. -/
def int_to_uint64 (i : Int) : Nat := (i % 2 ^ 64).toNat

/-- The expression `(next_byte & 0x7F) << shift` of `PARSE_Z`.  Its left
operand is promoted to `int`, so the shift is an `int` shift whatever the type
of `shift`: the result is `v * 2 ^ shift` when the count is below the width of
`int` and the product is representable; otherwise C leaves the result
undefined and the embedding takes it from the environment. -/
def shl_int (env : Env) (v shift : Nat) : Int :=
  if shift < 32 ∧ v * 2 ^ shift ≤ 2 ^ 31 - 1 then ((v * 2 ^ shift : Nat) : Int)
  else wrap_int32 (env.shl_undefined v shift)

/-- The `while (true)` loop of `PARSE_Z`, with `acc` and `shift` as arguments. -/
def PARSE_Z_loop (env : Env) (data : Nat → Nat) (length : Nat) :
    Nat → Nat → Nat → Nat → Option (Res Nat)
  | 0, _, _, _ => none
  | fuel + 1, acc, shift, ix =>
    if ix ≥ length then some (Res.ret 23 ix)
    else
      match NEXT_BYTE data length ix with
      | Res.ret code ix1 => some (Res.ret code ix1)
      | Res.val next_byte ix1 =>
        let acc1 := acc ||| int_to_uint64 (shl_int env (next_byte &&& 0x7F) shift)
        let shift1 := (shift + 7) % 2 ^ 64
        if next_byte &&& 0x80 = 0 then some (Res.val acc1 ix1)
        else PARSE_Z_loop env data length fuel acc1 shift1 ix1

/-- `PARSE_Z()`: read one base-128 varint at the cursor. -/
def PARSE_Z (env : Env) (data : Nat → Nat) (length ix : Nat) : Option (Res Nat) :=
  PARSE_Z_loop env data length (length - ix + 1) 0 0 ix

/-! ## The functions of protocol.c -/

/-- `compute_pkh`: fills the `signing` and `public_key` members of `*out`
from the key-derivation oracle. -/
def compute_pkh (env : Env) (curve : Nat) (bip32_path : List Nat)
    (out : parsed_operation_group) : parsed_operation_group :=
  let public_key_init := env.generate_key_pair curve bip32_path
  let hashed := env.public_key_hash curve public_key_init
  { out with
    public_key := hashed.2
    signing :=
      { hash := hashed.1
        curve_code := env.curve_to_curve_code curve
        originated := 0 } }

/-- `parse_implicit`: the returned code and the value written to `*out`. -/
def parse_implicit (curve_code : Nat) (hash : List Nat) : Nat × parsed_contract :=
  (0, { originated := 0, curve_code := curve_code, hash := hash })

/-- `parse_contract` on the bytes of a `struct contract`: the returned code
and the value written to `*out`. -/
def parse_contract (env : Env) (c : List Nat) : Nat × parsed_contract :=
  let originated := c.getD 0 0
  if originated = 0 then
    (0, { originated := originated
          curve_code := c.getD 1 0
          hash := (c.drop 2).take env.HASH_SIZE })
  else
    (0, { originated := originated
          curve_code := env.TEZOS_NO_CURVE
          hash := (c.drop 1).take env.HASH_SIZE })

/-- Apply `f` to the entry `i` of the operation array (`cur->field = ...` with
`cur = &out->operations[i]`). -/
def update_op (f : parsed_operation → parsed_operation) :
    List parsed_operation → Nat → List parsed_operation
  | [], _ => []
  | op :: ops, 0 => f op :: ops
  | op :: ops, i + 1 => op :: update_op f ops i

/-- The state after a write through `cur`. -/
def PState.with_cur (s : PState) (f : parsed_operation → parsed_operation) : PState :=
  { s with out := { s.out with operations := update_op f s.out.operations s.op_index } }

/-- The `switch (cur->tag)` statement of `parse_operations`. -/
def parse_operations_switch (env : Env) (data : Nat → Nat) (length : Nat)
    (tag : Int) (s : PState) : Option Flow :=
  if tag = env.OPERATION_TAG_REVEAL then
    match NEXT_BYTE data length s.ix with
    | Res.ret code _ => some (Flow.ret code s)
    | Res.val b ix1 =>
      let s1 := { s with ix := ix1 }
      if b ≠ s1.out.signing.curve_code then some (Flow.ret 64 s1)
      else
        let klen := s1.out.public_key.W_len
        if s1.ix + klen > length then some (Flow.ret klen s1)
        else if s1.out.public_key.W ≠ slice data s1.ix klen then some (Flow.ret 4 s1)
        else some (Flow.next { s1 with ix := s1.ix + klen })
  else if tag = env.OPERATION_TAG_DELEGATION then
    match NEXT_TYPE data length (sizeof_delegation_contents env) s.ix with
    | Res.ret code _ => some (Flow.ret code s)
    | Res.val dlg ix1 =>
      let res := parse_implicit (dlg.getD 1 0) ((dlg.drop 2).take env.HASH_SIZE)
      let s1 := { s with ix := ix1 }.with_cur (fun cur => { cur with destination := res.2 })
      if res.1 ≠ 0 then some (Flow.ret res.1 s1) else some (Flow.next s1)
  else if tag = env.OPERATION_TAG_TRANSACTION then
    match PARSE_Z env data length s.ix with
    | none => none
    | some (Res.ret code ix1) => some (Flow.ret code { s with ix := ix1 })
    | some (Res.val amount ix1) =>
      let s1 := { s with ix := ix1 }.with_cur (fun cur => { cur with amount := amount })
      match NEXT_TYPE data length (sizeof_contract env) s1.ix with
      | Res.ret code _ => some (Flow.ret code s1)
      | Res.val destination ix2 =>
        let res := parse_contract env destination
        let s2 := { s1 with ix := ix2 }.with_cur (fun cur => { cur with destination := res.2 })
        if res.1 ≠ 0 then some (Flow.ret res.1 s2)
        else
          match NEXT_BYTE data length s2.ix with
          | Res.ret code _ => some (Flow.ret code s2)
          | Res.val params ix3 =>
            if params ≠ 0 then some (Flow.ret 101 { s2 with ix := ix3 })
            else some (Flow.next { s2 with ix := ix3 })
  else some (Flow.ret 8 s)

/-- The four `PARSE_Z()` statements of a record: the first value is added to
`out->total_fee`, the other three are dropped. -/
def parse_operations_varints (env : Env) (data : Nat → Nat) (length : Nat)
    (s : PState) : Option Flow :=
  match PARSE_Z env data length s.ix with
  | none => none
  | some (Res.ret code ix1) => some (Flow.ret code { s with ix := ix1 })
  | some (Res.val fee ix1) =>
    let s1 : PState :=
      { s with ix := ix1, out := { s.out with total_fee := (s.out.total_fee + fee) % 2 ^ 64 } }
    match PARSE_Z env data length s1.ix with
    | none => none
    | some (Res.ret code ix2) => some (Flow.ret code { s1 with ix := ix2 })
    | some (Res.val _ ix2) =>
      match PARSE_Z env data length ix2 with
      | none => none
      | some (Res.ret code ix3) => some (Flow.ret code { s1 with ix := ix3 })
      | some (Res.val _ ix3) =>
        match PARSE_Z env data length ix3 with
        | none => none
        | some (Res.ret code ix4) => some (Flow.ret code { s1 with ix := ix4 })
        | some (Res.val _ ix4) => some (Flow.next { s1 with ix := ix4 })

/-- The body of the `while (ix < length)` loop of `parse_operations`. -/
def parse_operations_body (env : Env) (data : Nat → Nat) (length : Nat)
    (s : PState) : Option Flow :=
  if s.op_index ≥ env.MAX_OPERATIONS_PER_GROUP then some (Flow.ret 55 s)
  else
    match NEXT_TYPE data length (sizeof_operation_header env) s.ix with
    | Res.ret code _ => some (Flow.ret code s)
    | Res.val hdr ix1 =>
      let res := parse_contract env (hdr.drop 1)
      let s1 := { s with ix := ix1 }.with_cur (fun cur => { cur with source := res.2 })
      if res.1 ≠ 0 then some (Flow.ret res.1 s1)
      else
        match parse_operations_varints env data length s1 with
        | none => none
        | some (Flow.ret code s2) => some (Flow.ret code s2)
        | some (Flow.next s2) =>
          let s3 := s2.with_cur (fun cur => { cur with tag := (hdr.getD 0 0 : Nat) })
          match parse_operations_switch env data length (hdr.getD 0 0 : Nat) s3 with
          | none => none
          | some (Flow.ret code s4) => some (Flow.ret code s4)
          | some (Flow.next s4) => some (Flow.next { s4 with op_index := s4.op_index + 1 })

/-- The `while (ix < length)` loop of `parse_operations`. -/
def parse_operations_loop (env : Env) (data : Nat → Nat) (length : Nat) :
    Nat → PState → Option Returned
  | 0, _ => none
  | fuel + 1, s =>
    if s.ix < length then
      match parse_operations_body env data length s with
      | none => none
      | some (Flow.ret code s1) => some { code := code, state := s1 }
      | some (Flow.next s1) => parse_operations_loop env data length fuel s1
    else some { code := 0, state := s }

/-- The all-zero account reference left by `memset`. -/
def zero_contract (env : Env) : parsed_contract :=
  { originated := 0, curve_code := 0, hash := List.replicate env.HASH_SIZE 0 }

/-- An entry of the operation array after `memset` and the `for` loop that
sets every tag to `OPERATION_TAG_NONE`. -/
def empty_operation (env : Env) : parsed_operation :=
  { tag := env.OPERATION_TAG_NONE
    source := zero_contract env
    destination := zero_contract env
    amount := 0 }

/-- The output structure after `memset`, the tag loop and `compute_pkh`. -/
def initial_out (env : Env) (curve : Nat) (bip32_path : List Nat) : parsed_operation_group :=
  compute_pkh env curve bip32_path
    { public_key := { W := [] }
      signing := zero_contract env
      total_fee := 0
      operations := List.replicate env.MAX_OPERATIONS_PER_GROUP (empty_operation env) }

/-- `parse_operations`; `bip32_path` holds the `path_length` entries of the
path. -/
def parse_operations (env : Env) (data : Nat → Nat) (length : Nat) (curve : Nat)
    (bip32_path : List Nat) : Option Returned :=
  let s0 : PState := { ix := 0, op_index := 0, out := initial_out env curve bip32_path }
  match NEXT_TYPE data length sizeof_operation_group_header s0.ix with
  | Res.ret code _ => some { code := code, state := s0 }
  | Res.val ogh ix1 =>
    let s1 := { s0 with ix := ix1 }
    if ogh.getD 0 0 ≠ env.MAGIC_BYTE_UNSAFE_OP then some { code := 15, state := s1 }
    else parse_operations_loop env data length (env.MAX_OPERATIONS_PER_GROUP + 1) s1

/-! ## A concrete environment -/

/-- The usual two's-complement outcome of an `int` shift: the low 32 bits of
the product for counts below 32, zero from 32 on. -/
def shl_wrap (v shift : Nat) : Int :=
  if shift < 32 then ((v * 2 ^ shift : Nat) : Int) else 0

/-- An environment for the examples: 20-byte hashes, at most 3 operations per
group, marker 3, tags 7 / 10 / 8 for reveal / delegation / transaction, a toy
key oracle whose 33-byte key is derived from the curve and the path length,
and the two's-complement outcome for the undefined shifts. -/
def sampleEnv : Env where
  HASH_SIZE := 20
  MAX_OPERATIONS_PER_GROUP := 3
  MAGIC_BYTE_UNSAFE_OP := 3
  TEZOS_NO_CURVE := 255
  OPERATION_TAG_NONE := -1
  OPERATION_TAG_REVEAL := 7
  OPERATION_TAG_DELEGATION := 10
  OPERATION_TAG_TRANSACTION := 8
  reveal_ne_delegation := by decide
  reveal_ne_transaction := by decide
  delegation_ne_transaction := by decide
  generate_key_pair := fun curve path => { W := (2 + curve) :: List.replicate 32 path.length }
  public_key_hash := fun curve key => (List.replicate 20 (curve + key.W.length), key)
  curve_to_curve_code := fun curve => curve
  shl_undefined := shl_wrap

/-! ## Varints and records as byte sequences -/

/-- A terminated varint: the first byte with its high bit clear is the last
byte of the sequence. -/
def is_varint : List Nat → Bool
  | [] => false
  | b :: v => if b &&& 0x80 = 0 then v.isEmpty else is_varint v

/-- The accumulator of `PARSE_Z` after the bytes of `v` have been absorbed,
starting from `acc` and `shift`. -/
def z_fold (env : Env) : List Nat → Nat → Nat → Nat
  | [], acc, _ => acc
  | b :: v, acc, shift =>
    z_fold env v (acc ||| int_to_uint64 (shl_int env (b &&& 0x7F) shift)) ((shift + 7) % 2 ^ 64)

/-- The value `PARSE_Z` yields for the varint `v`. -/
def z_value (env : Env) (v : List Nat) : Nat := z_fold env v 0 0

/-- The integer a varint encodes: the sum of `(b_i & 0x7F) * 2 ^ (7 * i)`. -/
def z_ideal : List Nat → Nat
  | [] => 0
  | b :: v => (b &&& 0x7F) + 2 ^ 7 * z_ideal v

/-- The kind-specific part of an operation record, field by field. -/
inductive Contents where
  | reveal (curve_code : Nat) (key : List Nat) : Contents
  | delegation (delegate_present curve_code : Nat) (hash : List Nat) : Contents
  | transaction (amount destination : List Nat) (params : Nat) : Contents
deriving DecidableEq

/-- The bytes of the kind-specific part, in the order the decoder reads them. -/
def Contents.encode : Contents → List Nat
  | Contents.reveal curve_code key => curve_code :: key
  | Contents.delegation delegate_present curve_code hash => delegate_present :: curve_code :: hash
  | Contents.transaction amount destination params => amount ++ (destination ++ [params])

/-- The `case` label under which the decoder reads this kind of contents. -/
def Contents.tag (env : Env) : Contents → Int
  | Contents.reveal _ _ => env.OPERATION_TAG_REVEAL
  | Contents.delegation _ _ _ => env.OPERATION_TAG_DELEGATION
  | Contents.transaction _ _ _ => env.OPERATION_TAG_TRANSACTION

/-- The contents the decoder accepts when it signs with `signing` / `key`: a
reveal carries the signing curve code and the signing key, a delegation a hash
of `HASH_SIZE` bytes, a transaction a terminated amount varint, a full
`struct contract` and a zero parameters byte. -/
def Contents.WellFormed (env : Env) (signing : parsed_contract) (key : cx_ecfp_public_key_t) :
    Contents → Prop
  | Contents.reveal curve_code k => curve_code = signing.curve_code ∧ k = key.W
  | Contents.delegation _ _ hash => hash.length = env.HASH_SIZE
  | Contents.transaction amount destination params =>
    is_varint amount = true ∧ destination.length = sizeof_contract env ∧ params = 0

/-- An operation record, field by field: the `struct operation_header` (tag
byte, then the bytes of the source `struct contract`), the four varints in the
order they are read, and the kind-specific contents. -/
structure OpRecord where
  tag : Nat
  source : List Nat
  fee : List Nat
  counter : List Nat
  gas_limit : List Nat
  storage_limit : List Nat
  contents : Contents
deriving DecidableEq

/-- The bytes of the four varints of a record. -/
def OpRecord.varints (r : OpRecord) : List Nat :=
  r.fee ++ (r.counter ++ (r.gas_limit ++ r.storage_limit))

/-- The bytes of a record. -/
def OpRecord.encode (r : OpRecord) : List Nat :=
  r.tag :: (r.source ++ (r.varints ++ r.contents.encode))

/-- A complete record the decoder accepts. -/
def OpRecord.WellFormed (env : Env) (signing : parsed_contract) (key : cx_ecfp_public_key_t)
    (r : OpRecord) : Prop :=
  (r.tag : Int) = r.contents.tag env ∧ r.source.length = sizeof_contract env ∧
    is_varint r.fee = true ∧ is_varint r.counter = true ∧ is_varint r.gas_limit = true ∧
    is_varint r.storage_limit = true ∧ r.contents.WellFormed env signing key

/-- What decoding the contents writes to the entry `cur` of the operation
array: nothing for a reveal, an implicit destination for a delegation, amount
and destination for a transaction. -/
def Contents.apply (env : Env) (c : Contents) (cur : parsed_operation) : parsed_operation :=
  match c with
  | Contents.reveal _ _ => cur
  | Contents.delegation _ curve_code hash =>
    { cur with destination := { originated := 0, curve_code := curve_code, hash := hash } }
  | Contents.transaction amount destination _ =>
    { cur with amount := z_value env amount, destination := (parse_contract env destination).2 }

/-- What decoding the record `r` writes to the entry `cur` of the operation
array: the source, the tag, and what the contents write. -/
def OpRecord.apply (env : Env) (r : OpRecord) (cur : parsed_operation) : parsed_operation :=
  r.contents.apply env { cur with source := (parse_contract env r.source).2, tag := (r.tag : Int) }

/-- The state after the record `r`, stored at the cursor, has been decoded. -/
def OpRecord.step (env : Env) (s : PState) (r : OpRecord) : PState :=
  { ix := s.ix + r.encode.length
    op_index := s.op_index + 1
    out :=
      { s.out with
        total_fee := (s.out.total_fee + z_value env r.fee) % 2 ^ 64
        operations := update_op (r.apply env) s.out.operations s.op_index } }

/-- The bytes of a sequence of records. -/
def encode_records : List OpRecord → List Nat
  | [] => []
  | r :: rs => r.encode ++ encode_records rs

/-- The bytes of an operation group whose header carries the branch hash
`hash`. -/
def encode_group (env : Env) (hash : List Nat) (records : List OpRecord) : List Nat :=
  env.MAGIC_BYTE_UNSAFE_OP :: (hash ++ encode_records records)

/-- The state in which the `while` loop of `parse_operations` starts. -/
def loop_start (env : Env) (curve : Nat) (bip32_path : List Nat) : PState :=
  { ix := sizeof_operation_group_header, op_index := 0, out := initial_out env curve bip32_path }

/-- The state of the decoder after the records `records`. -/
def state_after (env : Env) (s : PState) (records : List OpRecord) : PState :=
  records.foldl (OpRecord.step env) s

/-- The state in which the `switch` statement is reached for a record stored
at the cursor of `s` whose header is `tag :: source`, whose first varint is
`fee` and whose header and four varints take `n` bytes. -/
def switch_state (env : Env) (s : PState) (tag : Nat) (source fee : List Nat) (n : Nat) :
    PState :=
  { ix := s.ix + n
    op_index := s.op_index
    out :=
      { s.out with
        total_fee := (s.out.total_fee + z_value env fee) % 2 ^ 64
        operations :=
          update_op (fun cur => { cur with source := (parse_contract env source).2,
                                           tag := (tag : Int) })
            s.out.operations s.op_index } }

/-- How the loop body ends once the `switch` statement has run. -/
def after_switch : Option Flow → Option Flow
  | none => none
  | some (Flow.ret code s) => some (Flow.ret code s)
  | some (Flow.next s) => some (Flow.next { s with op_index := s.op_index + 1 })

instance Contents.decidableWellFormed (env : Env) (signing : parsed_contract)
    (key : cx_ecfp_public_key_t) : (c : Contents) → Decidable (c.WellFormed env signing key)
  | Contents.reveal curve_code k =>
    inferInstanceAs (Decidable (curve_code = signing.curve_code ∧ k = key.W))
  | Contents.delegation _ _ hash => inferInstanceAs (Decidable (hash.length = env.HASH_SIZE))
  | Contents.transaction amount destination params =>
    inferInstanceAs (Decidable (is_varint amount = true ∧
      destination.length = sizeof_contract env ∧ params = 0))

instance OpRecord.decidableWellFormed (env : Env) (signing : parsed_contract)
    (key : cx_ecfp_public_key_t) (r : OpRecord) : Decidable (r.WellFormed env signing key) :=
  inferInstanceAs (Decidable ((r.tag : Int) = r.contents.tag env ∧
    r.source.length = sizeof_contract env ∧
    is_varint r.fee = true ∧ is_varint r.counter = true ∧ is_varint r.gas_limit = true ∧
    is_varint r.storage_limit = true ∧ r.contents.WellFormed env signing key))

/-- The records `r` and `r1` differ at most in the values of the counter, gas
limit and storage limit varints, each of which keeps its encoded length. -/
def same_but_discarded (r r1 : OpRecord) : Prop :=
  r.tag = r1.tag ∧ r.source = r1.source ∧ r.fee = r1.fee ∧ r.contents = r1.contents ∧
    r.counter.length = r1.counter.length ∧ r.gas_limit.length = r1.gas_limit.length ∧
    r.storage_limit.length = r1.storage_limit.length

/-- The part of a record that precedes the `switch` statement, field by
field: the `struct operation_header` and the four varints. -/
structure OpHead where
  tag : Nat
  source : List Nat
  fee : List Nat
  counter : List Nat
  gas_limit : List Nat
  storage_limit : List Nat
deriving DecidableEq

/-- The bytes of the head of a record. -/
def OpHead.encode (hd : OpHead) : List Nat :=
  hd.tag :: (hd.source ++ (hd.fee ++ (hd.counter ++ (hd.gas_limit ++ hd.storage_limit))))

/-- A complete head: a full source `struct contract` and four terminated
varints. -/
def OpHead.WellFormed (env : Env) (hd : OpHead) : Prop :=
  hd.source.length = sizeof_contract env ∧ is_varint hd.fee = true ∧
    is_varint hd.counter = true ∧ is_varint hd.gas_limit = true ∧
    is_varint hd.storage_limit = true

instance OpHead.decidableWellFormed (env : Env) (hd : OpHead) : Decidable (hd.WellFormed env) :=
  inferInstanceAs (Decidable (hd.source.length = sizeof_contract env ∧ is_varint hd.fee = true ∧
    is_varint hd.counter = true ∧ is_varint hd.gas_limit = true ∧
    is_varint hd.storage_limit = true))

/-- The record with head `hd` and contents `c`. -/
def OpHead.with_contents (hd : OpHead) (c : Contents) : OpRecord :=
  { tag := hd.tag, source := hd.source, fee := hd.fee, counter := hd.counter
    gas_limit := hd.gas_limit, storage_limit := hd.storage_limit, contents := c }

/-- The buffer holds a group header, the well-formed records `records`, a
record with the complete head `hd`, and then the bytes `rest`. -/
def RecordAt (env : Env) (data : Nat → Nat) (length curve : Nat) (bip32_path : List Nat)
    (hash : List Nat) (records : List OpRecord) (hd : OpHead) (rest : List Nat) : Prop :=
  hash.length = 32 ∧
    (∀ r ∈ records, r.WellFormed env (initial_out env curve bip32_path).signing
      (initial_out env curve bip32_path).public_key) ∧
    hd.WellFormed env ∧
    slice data 0 length =
      env.MAGIC_BYTE_UNSAFE_OP :: (hash ++ (encode_records records ++ (hd.encode ++ rest)))

/-- The state in which the decoder reaches the `switch` statement of the
record with head `hd` that follows `records`. -/
def reached_state (env : Env) (curve : Nat) (bip32_path : List Nat) (records : List OpRecord)
    (hd : OpHead) : PState :=
  switch_state env (state_after env (loop_start env curve bip32_path) records) hd.tag hd.source
    hd.fee hd.encode.length

/-- How `parse_operations` ends once the loop body has run with `fuel` turns
left. -/
def loop_continue (env : Env) (data : Nat → Nat) (length fuel : Nat) :
    Option Flow → Option Returned
  | none => none
  | some (Flow.ret code s) => some { code := code, state := s }
  | some (Flow.next s) => parse_operations_loop env data length fuel s

/-- The buffer holds a group header, the well-formed records `records`, and a
record cut inside a varint: its header `tag :: source`, the complete varints
`done`, and then `tail`, bytes that all have their high bit set and run to the
end of the buffer. -/
def CutInVarint (env : Env) (data : Nat → Nat) (length curve : Nat) (bip32_path : List Nat)
    (hash : List Nat) (records : List OpRecord) (tag : Nat) (source : List Nat)
    (done : List (List Nat)) (tail : List Nat) : Prop :=
  hash.length = 32 ∧
    (∀ r ∈ records, r.WellFormed env (initial_out env curve bip32_path).signing
      (initial_out env curve bip32_path).public_key) ∧
    source.length = sizeof_contract env ∧ (∀ v ∈ done, is_varint v = true) ∧
    (∀ b ∈ tail, b &&& 0x80 ≠ 0) ∧
    slice data 0 length =
      env.MAGIC_BYTE_UNSAFE_OP ::
        (hash ++ (encode_records records ++ (tag :: (source ++ (done.flatten ++ tail)))))

/-- The fee total once the complete varints `done` of a cut record have been
read: the first of them, if any, is the fee. -/
def fee_after (env : Env) (total_fee : Nat) : List (List Nat) → Nat
  | [] => total_fee
  | fee :: _ => (total_fee + z_value env fee) % 2 ^ 64

/-! ## Sample data -/

/-- A derivation path of two hardened indices. -/
def samplePath : List Nat := [0x8000002C, 0x800006C1]

/-- A branch hash. -/
def sampleHash : List Nat := List.replicate 32 0xAB

/-- An implicit source: curve code 0 and a 20-byte hash. -/
def sampleSource : List Nat := 0 :: 0 :: List.replicate 20 9

/-- An originated account: 20-byte hash and padding byte. -/
def sampleOriginated : List Nat := 1 :: List.replicate 21 5

/-- The key the toy oracle of `sampleEnv` derives for curve 0 and `samplePath`. -/
def sampleKey : List Nat := 2 :: List.replicate 32 2

/-- A reveal of the signing key, fee 10000. -/
def sampleReveal : OpRecord :=
  { tag := 7, source := sampleSource, fee := [0x90, 0x4E], counter := [1], gas_limit := [2]
    storage_limit := [3], contents := Contents.reveal 0 sampleKey }

/-- A delegation, fee 5. -/
def sampleDelegation : OpRecord :=
  { tag := 10, source := sampleSource, fee := [5], counter := [0x81, 0x01], gas_limit := [2]
    storage_limit := [3], contents := Contents.delegation 0xFF 0 (List.replicate 20 7) }

/-- A transaction of amount 128 to an originated account, fee 10. -/
def sampleTransaction : OpRecord :=
  { tag := 8, source := sampleSource, fee := [0x0A], counter := [1], gas_limit := [2]
    storage_limit := [3], contents := Contents.transaction [0x80, 0x01] sampleOriginated 0 }

/-- An operation group of three records. -/
def sampleGroup : List Nat :=
  encode_group sampleEnv sampleHash [sampleReveal, sampleDelegation, sampleTransaction]

/-- The delegation with other counter, gas limit and storage limit values. -/
def sampleDelegation1 : OpRecord :=
  { sampleDelegation with counter := [0xFF, 0x7F], gas_limit := [0x11], storage_limit := [0] }

/-- The head of `sampleReveal`. -/
def sampleRevealHead : OpHead :=
  { tag := 7, source := sampleSource, fee := [0x90, 0x4E], counter := [1], gas_limit := [2]
    storage_limit := [3] }

/-- The head of `sampleTransaction`. -/
def sampleTransactionHead : OpHead :=
  { tag := 8, source := sampleSource, fee := [0x0A], counter := [1], gas_limit := [2]
    storage_limit := [3] }

/-- A complete head with a tag (9) that is none of reveal, delegation and
transaction. -/
def sampleUnknownHead : OpHead :=
  { tag := 9, source := sampleSource, fee := [0x0A], counter := [1], gas_limit := [2]
    storage_limit := [3] }

/-- The signing key `sampleKey` with its last byte changed. -/
def sampleOtherKey : List Nat := 2 :: (List.replicate 31 2 ++ [3])

/-- The head of a delegation whose counter varint is cut: tag, source, one
complete varint (the fee), then bytes with the high bit set. -/
def sampleCutBuffer : List Nat :=
  sampleEnv.MAGIC_BYTE_UNSAFE_OP ::
    (sampleHash ++ (encode_records [sampleReveal] ++
      (10 :: (sampleSource ++ ([[0x0A]].flatten ++ [0x80, 0xFF])))))

/-- The five-byte varint that encodes `2 ^ 31`. -/
def sampleVarint31 : List Nat := [0x80, 0x80, 0x80, 0x80, 0x08]

/-- A group whose only record is a transaction of amount `2 ^ 31` with fee
`2 ^ 31`. -/
def sampleGroup31 : List Nat :=
  encode_group sampleEnv sampleHash
    [{ tag := 8, source := sampleSource, fee := sampleVarint31, counter := [1], gas_limit := [2]
       storage_limit := [3]
       contents := Contents.transaction sampleVarint31 sampleOriginated 0 }]

/-- The transaction of `sampleGroup31`: amount `2 ^ 31`, fee `2 ^ 31`. -/
def sampleTransaction31 : OpRecord :=
  { tag := 8, source := sampleSource, fee := sampleVarint31, counter := [1], gas_limit := [2]
    storage_limit := [3]
    contents := Contents.transaction sampleVarint31 sampleOriginated 0 }

/-- The bytes of a record in the order the specification gives in words: the
account-reference header, the four varints, the one-byte operation-kind tag,
the kind-specific fields.  (The decoder reads `OpRecord.encode`.) -/
def OpRecord.encode_as_specified (r : OpRecord) : List Nat :=
  r.source ++ (r.varints ++ (r.tag :: r.contents.encode))

/-- The group header followed by `sampleReveal` in the order of
`OpRecord.encode_as_specified`. -/
def sampleGroupAsSpecified : List Nat :=
  sampleEnv.MAGIC_BYTE_UNSAFE_OP :: (sampleHash ++ sampleReveal.encode_as_specified)

/-- The group header followed by `sampleReveal` in the order the decoder
reads. -/
def sampleGroupReveal : List Nat := encode_group sampleEnv sampleHash [sampleReveal]

/-- A group header followed by the first five bytes of an operation header. -/
def sampleCutHeader : List Nat :=
  sampleEnv.MAGIC_BYTE_UNSAFE_OP :: (sampleHash ++ [7, 0, 0, 9, 9])

/-- A group header followed by a complete operation header and a fee varint
that is cut after its first byte. -/
def sampleCutFee : List Nat :=
  sampleEnv.MAGIC_BYTE_UNSAFE_OP :: (sampleHash ++ (7 :: (sampleSource ++ [0x90])))

/-- The buffer `data1`, `length1` extends the buffer `data`, `length`: it is at
least as long and holds the same bytes below `length`. -/
def Extends (data : Nat → Nat) (length : Nat) (data1 : Nat → Nat) (length1 : Nat) : Prop :=
  length ≤ length1 ∧ ∀ i, i < length → data1 i = data i

/-- The codes `parse_operations` returns where a read does not fit in the
buffer: the sizes `NEXT_TYPE` returns for the group header, the operation
header, the account reference, the delegation contents and a single byte, the
key length the reveal case returns, and the code of a truncated varint. -/
def insufficient_codes (env : Env) (key : cx_ecfp_public_key_t) : List Nat :=
  [sizeof_operation_group_header, sizeof_operation_header env, sizeof_contract env,
    sizeof_delegation_contents env, 1, key.W_len, 23]

/-- The literal codes of the other `return` statements of `parse_operations`:
bad magic byte, key mismatch, curve mismatch, unsupported tag, unsupported
parameters, capacity exceeded. -/
def semantic_codes : List Nat := [15, 4, 64, 8, 101, 55]

/-- A `return code;` with `code` among `codes`, executed where the `code`
bytes counted from the cursor run past the end of the buffer. -/
def Flow.Short (codes : List Nat) (length : Nat) : Flow → Prop
  | Flow.next _ => False
  | Flow.ret code s => code ∈ codes ∧ length < s.ix + code

/-- Either no `return`, or a `return code;` with `code` among `codes`. -/
def Flow.CodeIn (codes : List Nat) : Flow → Prop
  | Flow.next _ => True
  | Flow.ret code _ => code ∈ codes

/-! ## The baking-data classifier (`parse_baking_data`) -/

/-- Modelled from the spec: `struct parsed_baking_data` of protocol.h (a
boolean discriminator and a level). -/
structure parsed_baking_data where
  is_endorsement : Bool
  level : Nat
deriving DecidableEq

/-- What `parse_baking_data` uses that is declared outside protocol.c: the
three `case` labels and the function `get_magic_byte`, which yields the magic
byte of the message `data`, `length`.

The `case` labels are pairwise distinct (a C compiler rejects duplicate
labels). -/
structure BakingEnv where
  MAGIC_BYTE_BAKING_OP : Nat
  MAGIC_BYTE_BLOCK : Nat
  MAGIC_BYTE_INVALID : Nat
  baking_op_ne_block : MAGIC_BYTE_BAKING_OP ≠ MAGIC_BYTE_BLOCK
  baking_op_ne_invalid : MAGIC_BYTE_BAKING_OP ≠ MAGIC_BYTE_INVALID
  block_ne_invalid : MAGIC_BYTE_BLOCK ≠ MAGIC_BYTE_INVALID
  get_magic_byte : (Nat → Nat) → Nat → Nat

/-- Modelled from the spec: `sizeof(level_t)`; `level_t` of protocol.h is the
32-bit level, as the `uint32_t level` member of `struct endorsement` that is
read through it. -/
def sizeof_level_t : Nat := 4

/-- `sizeof(struct block)` (packed): `magic_byte`, `chain_id`, `level`,
`proto`. -/
def sizeof_block : Nat := 1 + 4 + sizeof_level_t + 1

/-- `sizeof(struct endorsement)` (packed): `magic_byte`, `chain_id`,
`branch[32]`, `tag`, `level`. -/
def sizeof_endorsement : Nat := 1 + 4 + 32 + 1 + 4

/-- Offset of the member `level` of `struct block`. -/
def offsetof_block_level : Nat := 1 + 4

/-- Offset of the member `level` of `struct endorsement`. -/
def offsetof_endorsement_level : Nat := 1 + 4 + 32 + 1

/-- Modelled from the spec: the macro `READ_UNALIGNED_BIG_ENDIAN(type, ptr)` is
defined outside the sources; it reads the `sizeof(type)` bytes at `ptr` as a
big-endian integer.  The argument is the list of these bytes. -/
def READ_UNALIGNED_BIG_ENDIAN (bytes : List Nat) : Nat :=
  bytes.foldl (fun acc b => acc * 256 + b) 0

/-- `parse_baking_data`: the returned boolean and the structure `*out` after
the call. -/
def parse_baking_data (benv : BakingEnv) (data : Nat → Nat) (length : Nat)
    (out : parsed_baking_data) : Bool × parsed_baking_data :=
  let magic := benv.get_magic_byte data length
  if magic = benv.MAGIC_BYTE_BAKING_OP then
    if length ≠ sizeof_endorsement then (false, out)
    else
      (true,
        { out with
          is_endorsement := true
          level := READ_UNALIGNED_BIG_ENDIAN (slice data offsetof_endorsement_level sizeof_level_t) })
  else if magic = benv.MAGIC_BYTE_BLOCK then
    if length < sizeof_block then (false, out)
    else
      (true,
        { out with
          is_endorsement := false
          level := READ_UNALIGNED_BIG_ENDIAN (slice data offsetof_block_level sizeof_level_t) })
  else (false, out)

/-- An environment for the examples: magic bytes 2 (endorsement), 1 (block)
and 0 (invalid); the magic byte of a message is its first byte, and the
invalid one for an empty message. -/
def sampleBakingEnv : BakingEnv where
  MAGIC_BYTE_BAKING_OP := 2
  MAGIC_BYTE_BLOCK := 1
  MAGIC_BYTE_INVALID := 0
  baking_op_ne_block := by decide
  baking_op_ne_invalid := by decide
  block_ne_invalid := by decide
  get_magic_byte := fun data length => if length = 0 then 0 else data 0

/-- A block header of 10 bytes with level `0x01020304`, followed by two more
bytes. -/
def sampleBlock : List Nat := [1, 0xAA, 0xBB, 0xCC, 0xDD, 1, 2, 3, 4, 0, 0x77, 0x78]

/-- An endorsement of exactly 42 bytes with level `0x0A0B0C0D`. -/
def sampleEndorsement : List Nat :=
  2 :: ([0xAA, 0xBB, 0xCC, 0xDD] ++ (List.replicate 32 0xAB ++ [0, 0x0A, 0x0B, 0x0C, 0x0D]))

/-- The endorsement `sampleEndorsement` followed by one more byte. -/
def sampleLongEndorsement : List Nat := sampleEndorsement ++ [0]

/-- An output structure before the call. -/
def sampleBakingOut : parsed_baking_data := { is_endorsement := false, level := 99 }

/-! ## The command dispatcher (`sample_main` of main.c)

Conventions of the embedding

* One turn of the `for (;;)` loop of `sample_main`, from the return of
  `io_exchange` to the end of the `TRY` / `CATCH_OTHER` block, is the function
  `sample_main_command`.  Its arguments are the session context
  `operationContext` before the turn, the content `buf` of `G_io_apdu_buffer`
  after `io_exchange` has stored the command in it, and the number `rx` of bytes
  received.  The source reads `buf` without looking at `rx` (beyond `rx == 0`),
  so `buf` is the whole array, stale bytes included.
* `THROW(e)` ends the turn in `CATCH_OTHER`, which stores the two bytes of the
  status word at offset `tx = 0`; they are sent by the next `io_exchange`.  A
  turn that ends without `THROW` has displayed a confirmation screen and set
  `IO_ASYNCH_REPLY`: the reply is sent later by the button callback.
* `G_io_apdu_buffer` holds `unsigned char` values: the conversions of a byte to
  `uint8_t` and `uint32_t` are the identity.
* The SDK calls are functions taken from the structure `Sdk`.  In the
  dispatcher they return; the exits through an exception thrown inside an SDK
  call are followed in the section on private key material.
* `operationContext.bip32Path` has `MAX_BIP32_PATH` entries and `keyPath` has
  200 bytes.  A turn that reads or writes one of them outside these bounds ends
  as `Outcome.undefined`: C defines nothing from there on, and the device has
  no defined reaction (`Device.step` gives `none`). -/

/-- `MAX_BIP32_PATH`. -/
def MAX_BIP32_PATH : Nat := 10

/-- `CLA`. -/
def CLA : Nat := 0x80

/-- `INS_GET_PUBLIC_KEY`. -/
def INS_GET_PUBLIC_KEY : Nat := 0x02

/-- `INS_SIGN_BLOB`. -/
def INS_SIGN_BLOB : Nat := 0x04

/-- `P1_FIRST`. -/
def P1_FIRST : Nat := 0x00

/-- `P1_NEXT`. -/
def P1_NEXT : Nat := 0x01

/-- `P1_LAST_MARKER`. -/
def P1_LAST_MARKER : Nat := 0x80

/-- `OFFSET_CLA`. -/
def OFFSET_CLA : Nat := 0

/-- `OFFSET_INS`. -/
def OFFSET_INS : Nat := 1

/-- `OFFSET_P1`. -/
def OFFSET_P1 : Nat := 2

/-- `OFFSET_P2`. -/
def OFFSET_P2 : Nat := 3

/-- `OFFSET_LC`. -/
def OFFSET_LC : Nat := 4

/-- `OFFSET_CDATA`. -/
def OFFSET_CDATA : Nat := 5

/-- Modelled from the spec: the SDK type `cx_sha256_t`, a streaming hash
accumulator with the three operations initialize, update and finalize.  The
model records the bytes absorbed since the last initialization and whether the
accumulator has been finalized since. -/
structure cx_sha256_t where
  absorbed : List Nat
  finalized : Bool
deriving DecidableEq

/-- Modelled from the spec: `cx_sha256_init`, the initialize operation. -/
def cx_sha256_init (_ : cx_sha256_t) : cx_sha256_t := { absorbed := [], finalized := false }

/-- Modelled from the spec: `cx_hash(&h, 0, data, len, NULL)`, the update
operation, with `bytes` the `len` bytes at `data`. -/
def cx_hash_update (h : cx_sha256_t) (bytes : List Nat) : cx_sha256_t :=
  { h with absorbed := h.absorbed ++ bytes }

/-- Modelled from the spec: `cx_hash(&h, CX_LAST, hash, 0, hash)`, the finalize
operation (no further input); the digest is `Sdk.sha256` of the bytes
absorbed. -/
def cx_hash_last (h : cx_sha256_t) : cx_sha256_t := { h with finalized := true }

/-- `operationContext_t`: the session context. -/
structure operationContext_t where
  pathLength : Nat
  bip32Path : List Nat
  hash : cx_sha256_t
  publicKey : cx_ecfp_public_key_t
deriving DecidableEq

/-- What the dispatcher takes from the SDK: the private key data
`os_perso_derive_seed_bip32` derives for a path, the public key
`cx_ecfp_generate_pair` computes for a private key, the digest of the bytes a
hash accumulator has absorbed, the signature `cx_ecdsa_sign` returns for a
private key and a digest (one outcome of the randomized signature), and the
value an `int` left shift yields where C leaves it undefined. -/
structure Sdk where
  os_perso_derive_seed_bip32 : List Nat → List Nat
  cx_ecfp_generate_pair : List Nat → cx_ecfp_public_key_t
  sha256 : List Nat → List Nat
  cx_ecdsa_sign : List Nat → List Nat → List Nat
  shl_undefined : Nat → Nat → Int

/-- The confirmation screen a turn displays. -/
inductive Screen where
  | idle : Screen
  | address : Screen
  | approval : Screen
deriving DecidableEq

/-- How a turn of the loop ends: with response bytes in `G_io_apdu_buffer`
that the next `io_exchange` sends, with a confirmation screen displayed and
the reply deferred (`IO_ASYNCH_REPLY`), in `os_sched_exit`, or with an access
outside the bounds of an array, for which C defines no behaviour. -/
inductive Outcome where
  | reply (bytes : List Nat) : Outcome
  | display (screen : Screen) : Outcome
  | exit : Outcome
  | undefined : Outcome
deriving DecidableEq

/-- The `CATCH_OTHER(e)` block: the two bytes stored at offset `tx = 0`. -/
def CATCH_OTHER (e : Nat) : List Nat :=
  let sw := if e &&& 0xF000 = 0x6000 ∨ e &&& 0xF000 = 0x9000 then e else 0x6800 ||| (e &&& 0x7FF)
  [(sw >>> 8) % 256, sw % 256]

/-- An `int` left shift `v << shift` of a promoted byte: exact when the count
is below 32 and the product is representable, otherwise the value the SDK
environment gives, reduced to the range of `int`. -/
def shl_int_with (undefined : Nat → Nat → Int) (v shift : Nat) : Int :=
  if shift < 32 ∧ v * 2 ^ shift ≤ 2 ^ 31 - 1 then ((v * 2 ^ shift : Nat) : Int)
  else wrap_int32 (undefined v shift)

/-- Conversion of an `int` to `uint32_t`. -/
def int_to_uint32 (i : Int) : Nat := (i % 2 ^ 32).toNat

/-- The value stored by `operationContext.bip32Path[i] = (dataBuffer[0] << 24)
| (dataBuffer[1] << 16) | (dataBuffer[2] << 8) | (dataBuffer[3])` with
`dataBuffer` at offset `p`: the four operands are `int`s, and the conversion to
`uint32_t` of their bitwise or is the bitwise or of their conversions. -/
def read_path_entry (sdk : Sdk) (buf : Nat → Nat) (p : Nat) : Nat :=
  int_to_uint32 (shl_int_with sdk.shl_undefined (buf p) 24) |||
    int_to_uint32 (shl_int_with sdk.shl_undefined (buf (p + 1)) 16) |||
    int_to_uint32 (shl_int_with sdk.shl_undefined (buf (p + 2)) 8) |||
    int_to_uint32 (buf (p + 3) : Int)

/-- The entries the `for (i = 0; i < pathLength; i++)` loop reads: entry `i`
from the four bytes at offset `base + 4 * i`. -/
def read_path (sdk : Sdk) (buf : Nat → Nat) (base n : Nat) : List Nat :=
  (List.range n).map (fun i => read_path_entry sdk buf (base + 4 * i))

/-- The array `bip32Path` after its first entries have been overwritten by
`entries`. -/
def store_path (bip32Path entries : List Nat) : List Nat :=
  entries ++ bip32Path.drop entries.length

/-! ### The path shown on the confirmation screens (`path_to_string`) -/

/-- The memory `mem` after `mem[p] = v`. -/
def write (mem : Nat → Nat) (p v : Nat) : Nat → Nat := fun j => if j = p then v else mem j

/-- The first `while` loop of `path_item_to_string`.  The local array `tmp` is
the list of the entries `tmp[0 .. offset)` written so far, so `offset` is its
length. -/
def path_item_digits (number : Nat) : Nat → Nat → List Nat → Option (List Nat)
  | 0, _, _ => none
  | fuel + 1, divIndex, tmp =>
    if divIndex ≠ 0 then
      path_item_digits number fuel (divIndex / 10) (tmp ++ [48 + (number / divIndex) % 10])
    else some tmp

/-- The second `while` loop of `path_item_to_string`: the value of
`startOffset` when it ends. -/
def path_item_skip (tmp : List Nat) (offset : Nat) : Nat → Nat → Option Nat
  | 0, _ => none
  | fuel + 1, startOffset =>
    if tmp.getD startOffset 0 = 48 ∧ startOffset < offset then
      path_item_skip tmp offset fuel (startOffset + 1)
    else some startOffset

/-- The `for` loop of `path_item_to_string`, with `dest` at offset `base` of
the memory: the memory and `destOffset` when it ends. -/
def path_item_copy (tmp : List Nat) (offset base : Nat) :
    Nat → Nat → (Nat → Nat) → Nat → Option ((Nat → Nat) × Nat)
  | 0, _, _, _ => none
  | fuel + 1, i, mem, destOffset =>
    if i < offset then
      path_item_copy tmp offset base fuel (i + 1) (write mem (base + destOffset) (tmp.getD i 0))
        (destOffset + 1)
    else some (mem, destOffset)

/-- `path_item_to_string(dest, number)` with `dest` at offset `base` of the
memory: the memory after the call and the value returned. -/
def path_item_to_string (mem : Nat → Nat) (base number : Nat) : Option ((Nat → Nat) × Nat) :=
  let hardened := number &&& 0x80000000 != 0
  let number := number &&& 0x7FFFFFFF
  match path_item_digits number 11 0x3b9aca00 [] with
  | none => none
  | some digits =>
    let offset := digits.length
    let tmp := digits ++ [0]
    match path_item_skip tmp offset 12 0 with
    | none => none
    | some startOffset =>
      match
        (if startOffset = offset then some (write mem (base + 0) 48, 1)
         else path_item_copy tmp offset base 11 startOffset mem 0) with
      | none => none
      | some (mem1, destOffset) =>
        let res :=
          if hardened then (write mem1 (base + destOffset) 39, destOffset + 1)
          else (mem1, destOffset)
        some (write res.1 (base + res.2) 0, res.2 + 1)

/-- The `for` loop of `path_to_string`, with `dest` at offset 0 of the memory:
the memory and `offset` when it ends. -/
def path_to_string_loop (ctx : operationContext_t) :
    Nat → Nat → (Nat → Nat) → Nat → Option ((Nat → Nat) × Nat)
  | 0, _, _, _ => none
  | fuel + 1, i, mem, offset =>
    if i < ctx.pathLength then
      match path_item_to_string mem offset (ctx.bip32Path.getD i 0) with
      | none => none
      | some (mem1, length) =>
        let offset1 := offset + length - 1
        if i ≠ ctx.pathLength - 1 then
          path_to_string_loop ctx fuel (i + 1) (write mem1 offset1 47) (offset1 + 1)
        else path_to_string_loop ctx fuel (i + 1) mem1 offset1
    else some (mem, offset)

/-- `path_to_string(dest)` with `dest` at offset 0 of the memory: the memory
after the call and the value returned. -/
def path_to_string (ctx : operationContext_t) (mem : Nat → Nat) : Option ((Nat → Nat) × Nat) :=
  match path_to_string_loop ctx (ctx.pathLength + 1) 0 mem 0 with
  | none => none
  | some (mem1, offset) => some (write mem1 offset 0, offset + 1)

/-- `sizeof(keyPath)`, for the global `char keyPath[200]`. -/
def sizeof_keyPath : Nat := 200

/-- The call `path_to_string(keyPath)` of the dispatcher, with `keyPath` the
memory from offset 0 on: the content of `keyPath` after the call, or `none`
when the call leaves the bounds of an array.  The call reads
`operationContext.bip32Path[i]` for every `i` below the stored path length,
which is outside the `MAX_BIP32_PATH` entries of the array when the stored
length exceeds `MAX_BIP32_PATH`, and it writes as many bytes as it returns,
which have to fit `keyPath`. -/
def path_to_string_keyPath (ctx : operationContext_t) (keyPath : Nat → Nat) :
    Option (Nat → Nat) :=
  if ctx.pathLength > MAX_BIP32_PATH then none
  else
    match path_to_string ctx keyPath with
    | none => none
    | some (keyPath1, offset) => if offset ≤ sizeof_keyPath then some keyPath1 else none

/-- The end of the `INS_SIGN_BLOB` case, from the check of P2 on, with
`dataBuffer` at offset `off`.  The content of `keyPath` is not part of the
session context (only the screens read it); whether `path_to_string(keyPath)`
stays inside the arrays does not depend on it, and the call is made here on a
zero-filled `keyPath`. -/
def sign_blob_tail (ctx : operationContext_t) (buf : Nat → Nat) (off dataLength : Nat)
    (last : Bool) : operationContext_t × Outcome :=
  if buf OFFSET_P2 ≠ 0 then (ctx, Outcome.reply (CATCH_OTHER 0x6B00))
  else
    let ctx1 := { ctx with hash := cx_hash_update ctx.hash (slice buf off dataLength) }
    if !last then (ctx1, Outcome.reply (CATCH_OTHER 0x9000))
    else
      match path_to_string_keyPath ctx1 (fun _ => 0) with
      | none => (ctx1, Outcome.undefined)
      | some _ => (ctx1, Outcome.display Screen.approval)

/-- One turn of the loop of `sample_main`: the session context after the turn
and how the turn ends. -/
def sample_main_command (sdk : Sdk) (ctx : operationContext_t) (buf : Nat → Nat) (rx : Nat) :
    operationContext_t × Outcome :=
  if rx = 0 then (ctx, Outcome.reply (CATCH_OTHER 0x6982))
  else if buf OFFSET_CLA ≠ CLA then (ctx, Outcome.reply (CATCH_OTHER 0x6E00))
  else if buf OFFSET_INS = INS_GET_PUBLIC_KEY then
    let ctx1 := { ctx with pathLength := buf OFFSET_CDATA }
    if ctx1.pathLength < 0x01 ∨ ctx1.pathLength > MAX_BIP32_PATH then
      (ctx1, Outcome.reply (CATCH_OTHER 0x6a80))
    else if buf OFFSET_P1 ≠ 0 ∨ buf OFFSET_P2 ≠ 0 then
      (ctx1, Outcome.reply (CATCH_OTHER 0x6B00))
    else
      let ctx2 :=
        { ctx1 with
          bip32Path :=
            store_path ctx1.bip32Path (read_path sdk buf (OFFSET_CDATA + 1) ctx1.pathLength) }
      let privateKeyData := sdk.os_perso_derive_seed_bip32 (ctx2.bip32Path.take ctx2.pathLength)
      let ctx3 := { ctx2 with publicKey := sdk.cx_ecfp_generate_pair privateKeyData }
      match path_to_string_keyPath ctx3 (fun _ => 0) with
      | none => (ctx3, Outcome.undefined)
      | some _ => (ctx3, Outcome.display Screen.address)
  else if buf OFFSET_INS = INS_SIGN_BLOB then
    let p1 := buf OFFSET_P1
    let dataLength := buf OFFSET_LC
    let last := p1 &&& P1_LAST_MARKER != 0
    let p1 := p1 &&& 0x7F
    if p1 = P1_FIRST then
      let ctx1 := { ctx with pathLength := buf OFFSET_CDATA }
      if ctx1.pathLength < 0x01 ∨ ctx1.pathLength > MAX_BIP32_PATH then
        (ctx1, Outcome.reply (CATCH_OTHER 0x6a80))
      else
        let ctx2 :=
          { ctx1 with
            bip32Path :=
              store_path ctx1.bip32Path (read_path sdk buf (OFFSET_CDATA + 1) ctx1.pathLength)
            hash := cx_sha256_init ctx1.hash }
        sign_blob_tail ctx2 buf (OFFSET_CDATA + 1 + 4 * ctx1.pathLength)
          ((dataLength + 2 ^ 32 - (1 + 4 * ctx1.pathLength)) % 2 ^ 32) last
    else if p1 ≠ P1_NEXT then (ctx, Outcome.reply (CATCH_OTHER 0x6B00))
    else sign_blob_tail ctx buf OFFSET_CDATA dataLength last
  else if buf OFFSET_INS = 0xFF then (ctx, Outcome.exit)
  else (ctx, Outcome.reply (CATCH_OTHER 0x6D00))

/-- `io_seproxyhal_touch_sign_ok`: the session context after the call and the
bytes sent.  `os_perso_derive_seed_bip32` is given the array
`operationContext.bip32Path` and the stored path length: it reads outside the
`MAX_BIP32_PATH` entries of the array when the stored length exceeds
`MAX_BIP32_PATH`, and the call then has no defined result (`none`). -/
def io_seproxyhal_touch_sign_ok (sdk : Sdk) (ctx : operationContext_t) :
    Option (operationContext_t × List Nat) :=
  let hash := sdk.sha256 ctx.hash.absorbed
  let ctx1 := { ctx with hash := cx_hash_last ctx.hash }
  if ctx1.pathLength > MAX_BIP32_PATH then none
  else
    let privateKeyData := sdk.os_perso_derive_seed_bip32 (ctx1.bip32Path.take ctx1.pathLength)
    some (ctx1, sdk.cx_ecdsa_sign privateKeyData hash ++ [0x90, 0x00])

/-- `io_seproxyhal_touch_sign_cancel`: the bytes sent. -/
def io_seproxyhal_touch_sign_cancel : List Nat := [0x69, 0x85]

/-- `io_seproxyhal_touch_address_ok`: the bytes sent. -/
def io_seproxyhal_touch_address_ok (ctx : operationContext_t) : List Nat :=
  65 :: (slice (ofList ctx.publicKey.W) 0 65 ++ [0x90, 0x00])

/-- `io_seproxyhal_touch_address_cancel`: the bytes sent. -/
def io_seproxyhal_touch_address_cancel : List Nat := [0x69, 0x85]

/-- The device between two events: the session context and the screen
displayed. -/
structure Device where
  operationContext : operationContext_t
  screen : Screen
deriving DecidableEq

/-- What the device reacts to: a command arriving in `G_io_apdu_buffer` (`rx`
bytes), or the confirm or cancel button of a confirmation screen. -/
inductive Event where
  | apdu (buf : Nat → Nat) (rx : Nat) : Event
  | confirm : Event
  | cancel : Event

/-- The reaction of the device to an event.  A command is taken while the idle
screen is displayed (with a confirmation screen up, `io_exchange` is waiting for
the deferred reply); the buttons act on the confirmation screen displayed.
There is no reaction (`none`) to an event that does not apply to the screen
displayed, and none is defined when the code accesses an array outside its
bounds. -/
def Device.step (sdk : Sdk) (d : Device) : Event → Option (Device × Outcome)
  | Event.apdu buf rx =>
    match d.screen with
    | Screen.idle =>
      let res := sample_main_command sdk d.operationContext buf rx
      match res.2 with
      | Outcome.undefined => none
      | Outcome.display screen => some ({ operationContext := res.1, screen := screen }, res.2)
      | _ => some ({ operationContext := res.1, screen := Screen.idle }, res.2)
    | _ => none
  | Event.confirm =>
    match d.screen with
    | Screen.approval =>
      match io_seproxyhal_touch_sign_ok sdk d.operationContext with
      | none => none
      | some res => some ({ operationContext := res.1, screen := Screen.idle }, Outcome.reply res.2)
    | Screen.address =>
      some ({ d with screen := Screen.idle },
        Outcome.reply (io_seproxyhal_touch_address_ok d.operationContext))
    | Screen.idle => none
  | Event.cancel =>
    match d.screen with
    | Screen.approval =>
      some ({ d with screen := Screen.idle }, Outcome.reply io_seproxyhal_touch_sign_cancel)
    | Screen.address =>
      some ({ d with screen := Screen.idle }, Outcome.reply io_seproxyhal_touch_address_cancel)
    | Screen.idle => none

/-- The device after a sequence of events, with the outcome of each. -/
def Device.run (sdk : Sdk) : Device → List Event → Option (Device × List Outcome)
  | d, [] => some (d, [])
  | d, e :: es =>
    match d.step sdk e with
    | none => none
    | some (d1, out) =>
      match Device.run sdk d1 es with
      | none => none
      | some (d2, outs) => some (d2, out :: outs)

/-- The session context at the start of `sample_main`: the zero-filled global
`operationContext` (no path, nothing absorbed). -/
def boot_context : operationContext_t :=
  { pathLength := 0
    bip32Path := List.replicate MAX_BIP32_PATH 0
    hash := { absorbed := [], finalized := false }
    publicKey := { W := [] } }

/-- The device at the start of `sample_main`, idle screen displayed. -/
def boot_device : Device := { operationContext := boot_context, screen := Screen.idle }

/-- An SDK for the examples: toy oracles, and the two's-complement outcome for
the undefined shifts. -/
def sampleSdk : Sdk where
  os_perso_derive_seed_bip32 := fun path => List.replicate 32 (path.length + 1)
  cx_ecfp_generate_pair := fun d => { W := 4 :: List.replicate 64 (d.length + 1) }
  sha256 := fun bytes => List.replicate 32 (bytes.length + 1)
  cx_ecdsa_sign := fun d hash => 0x30 :: (d.take 1 ++ hash.take 1)
  shl_undefined := shl_wrap

/-- A get-public-key command whose path length byte is 11. -/
def sampleGetKeyLongPath : List Nat := [0x80, 0x02, 0x00, 0x00, 0x01, 11]

/-- A sign command, first and last chunk at once, for the one-entry path
`0x8000002C` and the one-byte payload `0x00`. -/
def sampleSignOnly : List Nat := [0x80, 0x04, 0x80, 0x00, 0x06, 1, 0x80, 0x00, 0x00, 0x2C, 0x00]

/-- A sign continuation chunk, not last, with the payload `0xAA 0xBB`. -/
def sampleSignNext : List Nat := [0x80, 0x04, 0x01, 0x00, 0x02, 0xAA, 0xBB]

/-- A sign continuation chunk with P2 = 1. -/
def sampleSignBadP2Next : List Nat := [0x80, 0x04, 0x01, 0x01, 0x02, 0xAA, 0xBB]

/-- A session context in the middle of a signing request: a two-entry path
and three bytes absorbed. -/
def sampleBusyContext : operationContext_t :=
  { pathLength := 2
    bip32Path := samplePath ++ List.replicate 8 0
    hash := { absorbed := [1, 2, 3], finalized := false }
    publicKey := { W := [] } }

/-- A command as the dispatcher sees it: the content of `G_io_apdu_buffer`
after `io_exchange` and the number of bytes received. -/
structure Command where
  buf : Nat → Nat
  rx : Nat

/-- The event of the command arriving. -/
def Command.event (c : Command) : Event := Event.apdu c.buf c.rx

/-- A sign first chunk that passes the checks of the dispatcher (class 0x80,
instruction 0x04, P1 low bits 0, P2 zero, path length `n` in 1 .. 10) and
whose declared length `LC`, a byte, covers the `1 + 4 * n` path bytes. -/
def Command.SignFirst (c : Command) : Prop :=
  c.rx ≠ 0 ∧ c.buf 0 = 0x80 ∧ c.buf 1 = 0x04 ∧ c.buf 2 &&& 0x7F = 0 ∧ c.buf 3 = 0 ∧
    1 ≤ c.buf 5 ∧ c.buf 5 ≤ 10 ∧ 1 + 4 * c.buf 5 ≤ c.buf 4 ∧ c.buf 4 ≤ 255

/-- A sign continuation chunk that passes the checks of the dispatcher (class
0x80, instruction 0x04, P1 low bits 1, P2 zero). -/
def Command.SignNext (c : Command) : Prop :=
  c.rx ≠ 0 ∧ c.buf 0 = 0x80 ∧ c.buf 1 = 0x04 ∧ c.buf 2 &&& 0x7F = 1 ∧ c.buf 3 = 0

instance Command.decidableSignFirst (c : Command) : Decidable c.SignFirst :=
  inferInstanceAs (Decidable (c.rx ≠ 0 ∧ c.buf 0 = 0x80 ∧ c.buf 1 = 0x04 ∧
    c.buf 2 &&& 0x7F = 0 ∧ c.buf 3 = 0 ∧ 1 ≤ c.buf 5 ∧ c.buf 5 ≤ 10 ∧
    1 + 4 * c.buf 5 ≤ c.buf 4 ∧ c.buf 4 ≤ 255))

instance Command.decidableSignNext (c : Command) : Decidable c.SignNext :=
  inferInstanceAs (Decidable (c.rx ≠ 0 ∧ c.buf 0 = 0x80 ∧ c.buf 1 = 0x04 ∧
    c.buf 2 &&& 0x7F = 1 ∧ c.buf 3 = 0))

/-- The chunk is marked last (bit `P1_LAST_MARKER` of P1). -/
def Command.last (c : Command) : Bool := c.buf 2 &&& 0x80 != 0

/-- The payload of a first chunk: the `LC - (1 + 4 * n)` data bytes that
follow the path length byte and the `n` path entries. -/
def Command.first_payload (c : Command) : List Nat :=
  slice c.buf (5 + (1 + 4 * c.buf 5)) (c.buf 4 - (1 + 4 * c.buf 5))

/-- The payload of a continuation chunk: its `LC` data bytes. -/
def Command.next_payload (c : Command) : List Nat := slice c.buf 5 (c.buf 4)

/-- The outcome of an accepted sign chunk: the status bytes 0x90 0x00 when it
is not marked last, the approval screen when it is. -/
def Command.sign_outcome (c : Command) : Outcome :=
  if c.last = false then Outcome.reply [0x90, 0x00] else Outcome.display Screen.approval

/-- The command held by the first bytes of the buffer, `bytes.length` bytes
received. -/
def Command.ofBytes (bytes : List Nat) : Command := { buf := ofList bytes, rx := bytes.length }

/-- A sign first chunk, not last, for the one-entry path `0x8000002C`, with
the payload `0x01 0x02`. -/
def sampleSignFirst : List Nat :=
  [0x80, 0x04, 0x00, 0x00, 0x07, 1, 0x80, 0x00, 0x00, 0x2C, 0x01, 0x02]

/-- A sign continuation chunk marked last, with the payload `0xCC`. -/
def sampleSignLast : List Nat := [0x80, 0x04, 0x81, 0x00, 0x01, 0xCC]

/-- A sign first chunk with path length byte 0 and P2 = 1. -/
def sampleSignNoPathBadP2 : List Nat := [0x80, 0x04, 0x00, 0x01, 0x01, 0x00]

/-- The 32-bit integer whose big-endian bytes are `b0 b1 b2 b3`. -/
def be32 (b0 b1 b2 b3 : Nat) : Nat := b0 * 2 ^ 24 + b1 * 2 ^ 16 + b2 * 2 ^ 8 + b3

/-- The `n` path entries of a command, each the big-endian value of its four
bytes; the first entry starts at offset 6, after the path length byte. -/
def command_path (buf : Nat → Nat) (n : Nat) : List Nat :=
  (List.range n).map
    (fun i => be32 (buf (6 + 4 * i)) (buf (6 + 4 * i + 1)) (buf (6 + 4 * i + 2))
      (buf (6 + 4 * i + 3)))

/-- A get-public-key command whose path length byte is 255. -/
def sampleGetKeyPath255 : List Nat := [0x80, 0x02, 0x00, 0x00, 0x01, 0xFF]

/-- A sign continuation chunk marked last, without payload. -/
def sampleSignLastEmpty : List Nat := [0x80, 0x04, 0x81, 0x00, 0x00]

/-- A get-public-key command for the one-entry path `0x8000002C`. -/
def sampleGetKey : List Nat := [0x80, 0x02, 0x00, 0x00, 0x05, 1, 0x80, 0x00, 0x00, 0x2C]

/-- A sign first chunk, not last, with `LC = 1`: its only data byte is the
path length 1, the path entry is missing. -/
def sampleSignShort : List Nat := [0x80, 0x04, 0x00, 0x00, 0x01, 0x01]

/-! ## Private key material

The functions below follow the local variables that hold private key
material through the three places that derive a key: `compute_pkh`
(protocol.c), the `INS_GET_PUBLIC_KEY` case of `sample_main` and
`io_seproxyhal_touch_sign_ok` (main.c).  An SDK call returns or throws an
exception.  A `THROW`, in the SDK as in the application, unwinds to the
`CATCH_OTHER` block of `sample_main`, which stores the status word and writes
nothing else: the locals keep what they hold when the exception is thrown.
Which calls throw is taken from the structure `SdkThrows`. -/

/-- Modelled from the spec: the SDK type `cx_ecfp_private_key_t`: the curve,
the length `d_len` of the secret and the array `d` that holds it. -/
structure cx_ecfp_private_key_t where
  curve : Nat
  d_len : Nat
  d : List Nat
deriving DecidableEq

/-- `os_memset(a, c, n)` on a byte array `a`: its first `n` bytes become
`c`. -/
def os_memset (a : List Nat) (c n : Nat) : List Nat :=
  List.replicate (min n a.length) c ++ a.drop n

/-- `os_memmove(a, src, n)` on a byte array `a`: its first `n` bytes become
the first `n` bytes of `src`. -/
def os_memmove (a src : List Nat) (n : Nat) : List Nat :=
  (src.take n).take a.length ++ a.drop (min n src.length)

/-- `os_memset(&key, 0, sizeof(key))` on a private key structure: every byte
of every member becomes zero. -/
def cx_ecfp_private_key_t.os_memset_zero (key : cx_ecfp_private_key_t) :
    cx_ecfp_private_key_t :=
  { curve := 0, d_len := 0, d := os_memset key.d 0 key.d.length }

/-- Every byte of the private key structure is zero. -/
def cx_ecfp_private_key_t.IsZero (key : cx_ecfp_private_key_t) : Prop :=
  key.curve = 0 ∧ key.d_len = 0 ∧ ∀ b ∈ key.d, b = 0

instance cx_ecfp_private_key_t.decidableIsZero (key : cx_ecfp_private_key_t) :
    Decidable key.IsZero :=
  inferInstanceAs (Decidable (key.curve = 0 ∧ key.d_len = 0 ∧ ∀ b ∈ key.d, b = 0))

/-- `app_cx_ecfp_init_private_key(curve, rawkey, key_len, key)` with a
non-null `rawkey`: the structure `*key` after the call. -/
def app_cx_ecfp_init_private_key (curve : Nat) (rawkey : List Nat) (key_len : Nat)
    (key : cx_ecfp_private_key_t) : cx_ecfp_private_key_t :=
  { curve := curve, d_len := key_len, d := os_memmove key.d rawkey key_len }

/-- The two locals that hold private key material in main.c: the array
`privateKeyData` and the structure `privateKey`. -/
structure KeyLocals where
  privateKeyData : List Nat
  privateKey : cx_ecfp_private_key_t
deriving DecidableEq

/-- How a place that derives a key is left: at its end (`finished`), by a
`THROW` of one of its own checks (`rejected`, with the status word), or by an
exception thrown inside an SDK call (`raised`, with the exception). -/
inductive KeyExit where
  | finished : KeyExit
  | rejected (sw : Nat) : KeyExit
  | raised (e : Nat) : KeyExit
deriving DecidableEq

/-- Which SDK calls throw: for each call made where key material is derived,
the exception it throws for its arguments, or `none` when it returns the
result `Sdk` gives.  `cx_hash` is the finalizing call of
`io_seproxyhal_touch_sign_ok`, on the bytes absorbed;
`os_perso_derive_seed_bip32` comes with the bytes it has stored in its output
buffer when it throws; `cx_ecfp_generate_pair` and `cx_ecdsa_sign` read the
private key and leave it as it is. -/
structure SdkThrows where
  cx_hash : List Nat → Option Nat
  os_perso_derive_seed_bip32 : List Nat → Option (Nat × List Nat)
  cx_ecfp_generate_pair : List Nat → Option Nat
  cx_ecdsa_sign : List Nat → List Nat → Option Nat

/-- Every SDK call returns. -/
def SdkThrows.never : SdkThrows where
  cx_hash := fun _ => none
  os_perso_derive_seed_bip32 := fun _ => none
  cx_ecfp_generate_pair := fun _ => none
  cx_ecdsa_sign := fun _ _ => none

/-- The local `private_key` of `compute_pkh` when the function is left, and
how it is left.  `generate_key_pair` (not among the sources) is given
`&private_key`: `generated` is what the local holds when that call ends and
`thrown` the exception it ends with, if any.  When the call returns,
`os_memset(&private_key, 0, sizeof(private_key))` runs next. -/
def compute_pkh_private_key (generated : cx_ecfp_private_key_t) (thrown : Option Nat) :
    cx_ecfp_private_key_t × KeyExit :=
  let private_key := generated
  match thrown with
  | some e => (private_key, KeyExit.raised e)
  | none => (private_key.os_memset_zero, KeyExit.finished)

/-- The locals `privateKeyData` and `privateKey` of the `INS_GET_PUBLIC_KEY`
case when the case is left, and how it is left; `locals` is their content when
the case is entered (they are not initialized) and `curve` stands for
`CX_CURVE_256R1`.  `cx_ecfp_generate_pair` is called with `keepprivate = 1`.
The case is `finished` when the two `os_memset` calls have run; what follows
them (`path_to_string`, `UX_DISPLAY`) does not touch the locals. -/
def get_public_key_locals (sdk : Sdk) (throws : SdkThrows) (curve : Nat)
    (ctx : operationContext_t) (buf : Nat → Nat) (locals : KeyLocals) : KeyLocals × KeyExit :=
  let ctx1 := { ctx with pathLength := buf OFFSET_CDATA }
  if ctx1.pathLength < 0x01 ∨ ctx1.pathLength > MAX_BIP32_PATH then
    (locals, KeyExit.rejected 0x6a80)
  else if buf OFFSET_P1 ≠ 0 ∨ buf OFFSET_P2 ≠ 0 then (locals, KeyExit.rejected 0x6B00)
  else
    let ctx2 :=
      { ctx1 with
        bip32Path :=
          store_path ctx1.bip32Path (read_path sdk buf (OFFSET_CDATA + 1) ctx1.pathLength) }
    let path := ctx2.bip32Path.take ctx2.pathLength
    match throws.os_perso_derive_seed_bip32 path with
    | some (e, stored) =>
      ({ locals with
          privateKeyData :=
            os_memmove locals.privateKeyData stored locals.privateKeyData.length },
        KeyExit.raised e)
    | none =>
      let privateKeyData :=
        os_memmove locals.privateKeyData (sdk.os_perso_derive_seed_bip32 path)
          locals.privateKeyData.length
      let privateKey := app_cx_ecfp_init_private_key curve privateKeyData 32 locals.privateKey
      match throws.cx_ecfp_generate_pair privateKeyData with
      | some e => ({ privateKeyData := privateKeyData, privateKey := privateKey }, KeyExit.raised e)
      | none =>
        let privateKey := privateKey.os_memset_zero
        let privateKeyData := os_memset privateKeyData 0 privateKeyData.length
        ({ privateKeyData := privateKeyData, privateKey := privateKey }, KeyExit.finished)

/-- The locals `privateKeyData` and `privateKey` of
`io_seproxyhal_touch_sign_ok` when the function is left, and how it is left;
`locals` is their content when the function is entered and `curve` stands for
`CX_CURVE_256R1`.  The result is `none` when the stored path length exceeds
`MAX_BIP32_PATH` (`os_perso_derive_seed_bip32` then reads outside the array
`bip32Path`).  `cx_ecdsa_sign` reads `privateKey` between the two `os_memset`
calls; the function is `finished` when the second one has run. -/
def io_seproxyhal_touch_sign_ok_locals (sdk : Sdk) (throws : SdkThrows) (curve : Nat)
    (ctx : operationContext_t) (locals : KeyLocals) : Option (KeyLocals × KeyExit) :=
  match throws.cx_hash ctx.hash.absorbed with
  | some e => some (locals, KeyExit.raised e)
  | none =>
    let hash := sdk.sha256 ctx.hash.absorbed
    if ctx.pathLength > MAX_BIP32_PATH then none
    else
      let path := ctx.bip32Path.take ctx.pathLength
      match throws.os_perso_derive_seed_bip32 path with
      | some (e, stored) =>
        some
          ({ locals with
              privateKeyData :=
                os_memmove locals.privateKeyData stored locals.privateKeyData.length },
            KeyExit.raised e)
      | none =>
        let privateKeyData :=
          os_memmove locals.privateKeyData (sdk.os_perso_derive_seed_bip32 path)
            locals.privateKeyData.length
        let privateKey := app_cx_ecfp_init_private_key curve privateKeyData 32 locals.privateKey
        let privateKeyData := os_memset privateKeyData 0 privateKeyData.length
        match throws.cx_ecdsa_sign privateKey.d hash with
        | some e =>
          some ({ privateKeyData := privateKeyData, privateKey := privateKey }, KeyExit.raised e)
        | none =>
          let privateKey := privateKey.os_memset_zero
          some ({ privateKeyData := privateKeyData, privateKey := privateKey }, KeyExit.finished)

/-- Locals of main.c before a call: stack bytes that are not zero. -/
def sampleLocals : KeyLocals :=
  { privateKeyData := List.replicate 32 0x55
    privateKey := { curve := 7, d_len := 9, d := List.replicate 32 0x66 } }

/-- An SDK whose `cx_ecfp_generate_pair` and `cx_ecdsa_sign` throw the
exception 2 (`INVALID_PARAMETER`) whatever their arguments. -/
def sampleThrows : SdkThrows where
  cx_hash := fun _ => none
  os_perso_derive_seed_bip32 := fun _ => none
  cx_ecfp_generate_pair := fun _ => some 2
  cx_ecdsa_sign := fun _ _ => some 2

/-- A private key structure as `generate_key_pair` leaves it: curve 1 and a
32-byte secret. -/
def sampleGenerated : cx_ecfp_private_key_t :=
  { curve := 1, d_len := 32, d := List.replicate 32 0x42 }

/-! ## The path shown on the confirmation screens: its specification -/

/-- The memory after the bytes of `l` have been written from offset `p` on. -/
def write_list (mem : Nat → Nat) : Nat → List Nat → Nat → Nat
  | _, [] => mem
  | p, v :: l => write_list (write mem p v) (p + 1) l

/-- The decimal representation of `n` in ASCII, most significant digit first,
without leading zeros; `"0"` for zero. -/
def decimal (n : Nat) : List Nat :=
  if n = 0 then [48] else (Nat.digits 10 n).reverse.map (fun d => 48 + d)

/-- The rendering of one path entry: the decimal representation of its low 31
bits, followed by an apostrophe (39) when bit 31 is set. -/
def render_item (entry : Nat) : List Nat :=
  decimal (entry &&& 0x7FFFFFFF) ++ (if entry &&& 0x80000000 = 0 then [] else [39])

/-- The renderings of the entries joined with `/` (47). -/
def render_path : List Nat → List Nat
  | [] => []
  | [entry] => render_item entry
  | entry :: entries => render_item entry ++ (47 :: render_path entries)

/-- A session context with the path `44'/1729'/0/5`. -/
def samplePathContext : operationContext_t :=
  { boot_context with
    pathLength := 4
    bip32Path := [0x8000002C, 0x800006C1, 0, 5] ++ List.replicate 6 0 }

/-- The `k` low decimal digits of `n`, most significant first. -/
def msd_digits : Nat → Nat → List Nat
  | 0, _ => []
  | k + 1, n => msd_digits k (n / 10) ++ [n % 10]

/-- The value of `divIndex` when `k` turns of the first loop of
`path_item_to_string` remain: `10 ^ (k - 1)`, and 0 when none remains. -/
def div_index : Nat → Nat
  | 0 => 0
  | k + 1 => 10 ^ k

/-! ## Lemmas on memory slices -/

theorem slice_length (data : Nat → Nat) (n : Nat) : ∀ ix, (slice data ix n).length = n := by
  induction n with
  | zero => intro ix; rfl
  | succ n ih => intro ix; simp [slice, ih]

theorem slice_add (data : Nat → Nat) (n m : Nat) :
    ∀ ix, slice data ix (n + m) = slice data ix n ++ slice data (ix + n) m := by
  induction n with
  | zero => intro ix; simp [slice]
  | succ n ih =>
    intro ix
    have h : n + 1 + m = (n + m) + 1 := by omega
    rw [h]
    simp only [slice, ih, List.cons_append]
    have h2 : ix + 1 + n = ix + (n + 1) := by omega
    rw [h2]

theorem slice_congr (data data1 : Nat → Nat) (n : Nat) :
    ∀ ix, (∀ i, ix ≤ i → i < ix + n → data i = data1 i) →
      slice data ix n = slice data1 ix n := by
  induction n with
  | zero => intro ix _; rfl
  | succ n ih =>
    intro ix h
    simp only [slice]
    rw [h ix (le_refl _) (by omega), ih (ix + 1) (fun i h1 h2 => h i (by omega) (by omega))]

theorem slice_append_inv (data : Nat → Nat) (a b : List Nat) (ix n : Nat)
    (h : slice data ix n = a ++ b) :
    n = a.length + b.length ∧ slice data ix a.length = a ∧
      slice data (ix + a.length) b.length = b := by
  have hn : n = a.length + b.length := by
    have := congrArg List.length h
    simpa [slice_length] using this
  subst hn
  rw [slice_add] at h
  have h1 := List.append_inj h (by simp [slice_length])
  exact ⟨rfl, h1.1, h1.2⟩

theorem slice_append_intro (data : Nat → Nat) (a b : List Nat) (ix : Nat)
    (ha : slice data ix a.length = a) (hb : slice data (ix + a.length) b.length = b) :
    slice data ix (a ++ b).length = a ++ b := by
  rw [List.length_append, slice_add, ha, hb]

theorem slice_ofList (l : List Nat) : slice (ofList l) 0 l.length = l := by
  have key : ∀ (n : Nat) (ix : Nat), ix + n = l.length →
      slice (ofList l) ix n = l.drop ix := by
    intro n
    induction n with
    | zero =>
      intro ix h
      simp only [slice]
      rw [List.drop_eq_nil_of_le (by omega)]
    | succ n ih =>
      intro ix h
      simp only [slice]
      rw [ih (ix + 1) (by omega)]
      have hlt : ix < l.length := by omega
      rw [List.drop_eq_getElem_cons hlt]
      simp [ofList, List.getD_eq_getElem?_getD, List.getElem?_eq_getElem hlt]
  simpa using key l.length 0 (by simp)

/-! ## Lemmas on the macros -/

theorem NEXT_TYPE_val (data : Nat → Nat) (length sz ix : Nat) (h : ix + sz ≤ length) :
    NEXT_TYPE data length sz ix = Res.val (slice data ix sz) (ix + sz) := by
  simp [NEXT_TYPE, Nat.not_lt.mpr h]

theorem NEXT_TYPE_ret (data : Nat → Nat) (length sz ix : Nat) (h : length < ix + sz) :
    NEXT_TYPE data length sz ix = Res.ret sz ix := by
  simp [NEXT_TYPE, h]

/-- The bounds check of `NEXT_TYPE` on 32-bit `size_t`: when the buffer ends
below the top of the address space, `ix + sizeof(type) > length` computed
modulo `2 ^ 32` is the same comparison in `Nat`. -/
theorem size_t_check_no_wrap (data : Nat → Nat) (length sz ix : Nat) (h : ix ≤ length)
    (hb : length + sz < 2 ^ 32) :
    ((ix + sz) % 2 ^ 32 > length ↔ ix + sz > length) ∧
      (NEXT_TYPE data length sz ix =
        if (ix + sz) % 2 ^ 32 > length then Res.ret sz ix
        else Res.val (slice data ix sz) ((ix + sz) % 2 ^ 32)) := by
  have e : (ix + sz) % 2 ^ 32 = ix + sz := Nat.mod_eq_of_lt (by omega)
  rw [e]
  exact ⟨Iff.rfl, rfl⟩

theorem NEXT_BYTE_val (data : Nat → Nat) (length ix : Nat) (h : ix < length) :
    NEXT_BYTE data length ix = Res.val (data ix) (ix + 1) := by
  simp [NEXT_BYTE, NEXT_TYPE_val data length 1 ix (by omega), slice]

theorem NEXT_BYTE_ret (data : Nat → Nat) (length ix : Nat) (h : length ≤ ix) :
    NEXT_BYTE data length ix = Res.ret 1 ix := by
  simp [NEXT_BYTE, NEXT_TYPE_ret data length 1 ix (by omega)]

theorem PARSE_Z_loop_step (env : Env) (data : Nat → Nat) (length fuel acc shift ix : Nat)
    (h : ix < length) :
    PARSE_Z_loop env data length (fuel + 1) acc shift ix =
      if data ix &&& 0x80 = 0 then
        some (Res.val (acc ||| int_to_uint64 (shl_int env (data ix &&& 0x7F) shift)) (ix + 1))
      else
        PARSE_Z_loop env data length fuel
          (acc ||| int_to_uint64 (shl_int env (data ix &&& 0x7F) shift))
          ((shift + 7) % 2 ^ 64) (ix + 1) := by
  rw [PARSE_Z_loop]
  simp only [ge_iff_le, Nat.not_le.mpr h, if_false, NEXT_BYTE_val data length ix h]

theorem PARSE_Z_loop_end (env : Env) (data : Nat → Nat) (length fuel acc shift ix : Nat)
    (h : length ≤ ix) :
    PARSE_Z_loop env data length (fuel + 1) acc shift ix = some (Res.ret 23 ix) := by
  rw [PARSE_Z_loop]
  simp [h]

/-- Reading a terminated varint stored at the cursor. -/
theorem PARSE_Z_loop_of_varint (env : Env) (data : Nat → Nat) (length : Nat) :
    ∀ (v : List Nat) (fuel acc shift ix : Nat), is_varint v = true →
      slice data ix v.length = v → ix + v.length ≤ length → v.length ≤ fuel →
      PARSE_Z_loop env data length fuel acc shift ix =
        some (Res.val (z_fold env v acc shift) (ix + v.length)) := by
  intro v
  induction v with
  | nil => intro fuel acc shift ix hv; simp [is_varint] at hv
  | cons b v ih =>
    intro fuel acc shift ix hv hs hlen hfuel
    simp only [List.length_cons] at hs hlen hfuel
    simp only [slice, List.cons.injEq] at hs
    obtain ⟨hb, hs⟩ := hs
    obtain ⟨fuel, rfl⟩ : ∃ f, fuel = f + 1 := ⟨fuel - 1, by omega⟩
    rw [PARSE_Z_loop_step env data length fuel acc shift ix (by omega), hb]
    simp only [is_varint] at hv
    by_cases hb0 : b &&& 0x80 = 0
    · simp only [hb0, if_true] at hv ⊢
      have : v = [] := by simpa using hv
      subst this
      simp [z_fold]
    · simp only [hb0, if_false] at hv ⊢
      rw [ih fuel _ _ (ix + 1) hv hs (by omega) (by omega)]
      simp only [z_fold, List.length_cons]
      have : ix + 1 + v.length = ix + (v.length + 1) := by omega
      rw [this]

theorem PARSE_Z_of_varint (env : Env) (data : Nat → Nat) (length : Nat) (v : List Nat)
    (ix : Nat) (hv : is_varint v = true) (hs : slice data ix v.length = v)
    (hlen : ix + v.length ≤ length) :
    PARSE_Z env data length ix = some (Res.val (z_value env v) (ix + v.length)) := by
  unfold PARSE_Z z_value
  exact PARSE_Z_loop_of_varint env data length v _ 0 0 ix hv hs hlen (by omega)

/-- What a successful varint read has read. -/
theorem PARSE_Z_loop_val_inv (env : Env) (data : Nat → Nat) (length : Nat) :
    ∀ (fuel acc shift ix a ix1 : Nat),
      PARSE_Z_loop env data length fuel acc shift ix = some (Res.val a ix1) →
      ∃ n, ix1 = ix + n ∧ ix1 ≤ length ∧ is_varint (slice data ix n) = true ∧
        a = z_fold env (slice data ix n) acc shift := by
  intro fuel
  induction fuel with
  | zero => intro acc shift ix a ix1 h; simp [PARSE_Z_loop] at h
  | succ fuel ih =>
    intro acc shift ix a ix1 h
    by_cases hix : ix < length
    · rw [PARSE_Z_loop_step env data length fuel acc shift ix hix] at h
      by_cases hb0 : data ix &&& 0x80 = 0
      · simp only [hb0, if_true, Option.some.injEq, Res.val.injEq] at h
        refine ⟨1, h.2.symm, by omega, ?_, ?_⟩
        · simp [slice, is_varint, hb0]
        · simp [slice, z_fold, h.1]
      · simp only [hb0, if_false] at h
        obtain ⟨n, h1, h2, h3, h4⟩ := ih _ _ _ _ _ h
        refine ⟨n + 1, by omega, h2, ?_, ?_⟩
        · simp [slice, is_varint, hb0, h3]
        · simp [slice, z_fold, h4]
    · rw [PARSE_Z_loop_end env data length fuel acc shift ix (by omega)] at h
      simp at h

theorem PARSE_Z_val_inv (env : Env) (data : Nat → Nat) (length ix a ix1 : Nat)
    (h : PARSE_Z env data length ix = some (Res.val a ix1)) :
    ∃ v, is_varint v = true ∧ slice data ix v.length = v ∧ ix1 = ix + v.length ∧
      ix1 ≤ length ∧ a = z_value env v := by
  obtain ⟨n, h1, h2, h3, h4⟩ := PARSE_Z_loop_val_inv env data length _ 0 0 ix a ix1 h
  exact ⟨slice data ix n, h3, by rw [slice_length], by rw [slice_length]; exact h1, h2, h4⟩

/-- What a failed varint read has seen: the code is 23, the cursor stands at
the end of the buffer (or was never moved when it started beyond it), and
every byte from the cursor on has its high bit set. -/
theorem PARSE_Z_loop_ret_inv (env : Env) (data : Nat → Nat) (length : Nat) :
    ∀ (fuel acc shift ix code ix1 : Nat),
      PARSE_Z_loop env data length fuel acc shift ix = some (Res.ret code ix1) →
      code = 23 ∧ ix ≤ ix1 ∧ (ix ≤ length → ix1 = length) ∧
        ∀ i, ix ≤ i → i < length → data i &&& 0x80 ≠ 0 := by
  intro fuel
  induction fuel with
  | zero => intro acc shift ix code ix1 h; simp [PARSE_Z_loop] at h
  | succ fuel ih =>
    intro acc shift ix code ix1 h
    by_cases hix : ix < length
    · rw [PARSE_Z_loop_step env data length fuel acc shift ix hix] at h
      by_cases hb0 : data ix &&& 0x80 = 0
      · simp [hb0] at h
      · simp only [hb0, if_false] at h
        obtain ⟨h1, h2, h3, h4⟩ := ih _ _ _ _ _ h
        refine ⟨h1, by omega, fun _ => h3 (by omega), ?_⟩
        intro i hi1 hi2
        by_cases hi : i = ix
        · subst hi; exact hb0
        · exact h4 i (by omega) hi2
    · rw [PARSE_Z_loop_end env data length fuel acc shift ix (by omega)] at h
      simp only [Option.some.injEq, Res.ret.injEq] at h
      refine ⟨h.1.symm, by omega, fun _ => by omega, ?_⟩
      intro i hi1 hi2
      omega

/-- A varint read over bytes that all have the high bit set up to the end of
the buffer executes `return 23` with the cursor at the end. -/
theorem PARSE_Z_loop_truncated (env : Env) (data : Nat → Nat) (length : Nat) :
    ∀ (fuel acc shift ix : Nat), ix ≤ length → length - ix < fuel →
      (∀ i, ix ≤ i → i < length → data i &&& 0x80 ≠ 0) →
      PARSE_Z_loop env data length fuel acc shift ix = some (Res.ret 23 length) := by
  intro fuel
  induction fuel with
  | zero => intro acc shift ix _ h; omega
  | succ fuel ih =>
    intro acc shift ix hle hfuel hall
    by_cases hix : ix < length
    · rw [PARSE_Z_loop_step env data length fuel acc shift ix hix]
      simp only [hall ix (le_refl _) hix, if_false]
      exact ih _ _ (ix + 1) (by omega) (by omega) (fun i h1 h2 => hall i (by omega) h2)
    · rw [PARSE_Z_loop_end env data length fuel acc shift ix (by omega)]
      have : ix = length := by omega
      rw [this]

theorem PARSE_Z_truncated (env : Env) (data : Nat → Nat) (length ix : Nat) (hle : ix ≤ length)
    (hall : ∀ i, ix ≤ i → i < length → data i &&& 0x80 ≠ 0) :
    PARSE_Z env data length ix = some (Res.ret 23 length) :=
  PARSE_Z_loop_truncated env data length _ 0 0 ix hle (by omega) hall

/-- The fuel `PARSE_Z` gives its loop is enough: the loop always answers. -/
theorem PARSE_Z_loop_total (env : Env) (data : Nat → Nat) (length : Nat) :
    ∀ (fuel acc shift ix : Nat), length - ix < fuel →
      ∃ r, PARSE_Z_loop env data length fuel acc shift ix = some r := by
  intro fuel
  induction fuel with
  | zero => intro acc shift ix h; omega
  | succ fuel ih =>
    intro acc shift ix hfuel
    by_cases hix : ix < length
    · rw [PARSE_Z_loop_step env data length fuel acc shift ix hix]
      by_cases hb0 : data ix &&& 0x80 = 0
      · simp [hb0]
      · simp only [hb0, if_false]
        exact ih _ _ (ix + 1) (by omega)
    · rw [PARSE_Z_loop_end env data length fuel acc shift ix (by omega)]
      exact ⟨_, rfl⟩

theorem PARSE_Z_total (env : Env) (data : Nat → Nat) (length ix : Nat) :
    ∃ r, PARSE_Z env data length ix = some r :=
  PARSE_Z_loop_total env data length _ 0 0 ix (by omega)

/-- A varint read looks only at bytes of the buffer. -/
theorem PARSE_Z_loop_congr (env : Env) (data data1 : Nat → Nat) (length : Nat)
    (hd : ∀ i, i < length → data i = data1 i) :
    ∀ (fuel acc shift ix : Nat),
      PARSE_Z_loop env data length fuel acc shift ix =
        PARSE_Z_loop env data1 length fuel acc shift ix := by
  intro fuel
  induction fuel with
  | zero => intro acc shift ix; rfl
  | succ fuel ih =>
    intro acc shift ix
    by_cases hix : ix < length
    · rw [PARSE_Z_loop_step env data length fuel acc shift ix hix,
        PARSE_Z_loop_step env data1 length fuel acc shift ix hix, hd ix hix, ih]
    · rw [PARSE_Z_loop_end env data length fuel acc shift ix (by omega),
        PARSE_Z_loop_end env data1 length fuel acc shift ix (by omega)]

/-! ## The value of a varint -/

theorem int_to_uint64_natCast (n : Nat) (h : n < 2 ^ 64) : int_to_uint64 (n : Int) = n := by
  unfold int_to_uint64
  have : ((n : Int) % 2 ^ 64) = (n : Int) := by
    apply Int.emod_eq_of_lt <;> omega
  rw [this]
  simp

theorem shl_int_exact (env : Env) (v shift : Nat) (h1 : shift < 32)
    (h2 : v * 2 ^ shift ≤ 2 ^ 31 - 1) : shl_int env v shift = ((v * 2 ^ shift : Nat) : Int) := by
  unfold shl_int
  rw [if_pos ⟨h1, h2⟩]

theorem int_to_uint64_wrap_ne (i : Int) : int_to_uint64 (wrap_int32 i) ≠ 2 ^ 31 := by
  unfold int_to_uint64 wrap_int32
  omega

/-- The accumulator of `PARSE_Z` is exact as long as no `int` shift
overflows: at most five bytes in all and an encoded value below `2 ^ 31`. -/
theorem z_fold_exact (env : Env) :
    ∀ (v : List Nat) (acc j : Nat), v.length + j ≤ 5 → acc < 2 ^ (7 * j) →
      acc + z_ideal v * 2 ^ (7 * j) < 2 ^ 31 →
      z_fold env v acc (7 * j) = acc + z_ideal v * 2 ^ (7 * j) := by
  intro v
  induction v with
  | nil => intro acc j _ _ _; simp [z_fold, z_ideal]
  | cons b v ih =>
    intro acc j hlen hacc hlt
    simp only [List.length_cons] at hlen
    simp only [z_ideal] at hlt ⊢
    have hx : b &&& 0x7F ≤ 127 := Nat.and_le_right
    have hpos : 0 < 2 ^ (7 * j) := Nat.two_pow_pos _
    have hmul : ((b &&& 0x7F) + 2 ^ 7 * z_ideal v) * 2 ^ (7 * j) =
        (b &&& 0x7F) * 2 ^ (7 * j) + z_ideal v * 2 ^ (7 * (j + 1)) := by
      rw [Nat.mul_add 7 j 1, Nat.pow_add]
      ring
    rw [hmul] at hlt ⊢
    have hsh : (b &&& 0x7F) * 2 ^ (7 * j) ≤ 2 ^ 31 - 1 := by omega
    have hor : acc ||| (b &&& 0x7F) * 2 ^ (7 * j) = acc + (b &&& 0x7F) * 2 ^ (7 * j) := by
      rw [Nat.or_comm, Nat.mul_comm, ← Nat.mul_add_lt_is_or hacc, Nat.add_comm]
    have hstep : (7 * j + 7) % 2 ^ 64 = 7 * (j + 1) := by omega
    simp only [z_fold]
    rw [shl_int_exact env _ _ (by omega) hsh, int_to_uint64_natCast _ (by omega), hor, hstep,
      ih _ (j + 1) (by omega) ?_ (by omega)]
    · omega
    · have : 2 ^ (7 * (j + 1)) = 2 ^ (7 * j) * 128 := by
        rw [Nat.mul_add 7 j 1, Nat.pow_add]
      have h127 : (b &&& 0x7F) * 2 ^ (7 * j) ≤ 127 * 2 ^ (7 * j) :=
        Nat.mul_le_mul_right _ hx
      omega

theorem z_value_exact (env : Env) (v : List Nat) (hn : v.length ≤ 5)
    (hval : z_ideal v < 2 ^ 31) : z_value env v = z_ideal v := by
  have := z_fold_exact env v 0 0 (by omega) (by simp) (by simpa using hval)
  simp only [Nat.mul_zero, Nat.pow_zero, Nat.mul_one, Nat.zero_add] at this
  rw [z_value, this]

/-- Supporting fact for C6: a terminated varint of at most five bytes that
encodes a value below `2 ^ 31` is read exactly, and its bytes are consumed. -/
theorem PARSE_Z_exact_below_two_pow_31 (env : Env) (data : Nat → Nat) (length ix : Nat)
    (v : List Nat) (hv : is_varint v = true) (hn : v.length ≤ 5) (hval : z_ideal v < 2 ^ 31)
    (hs : slice data ix v.length = v) (hlen : ix + v.length ≤ length) :
    PARSE_Z env data length ix = some (Res.val (z_ideal v) (ix + v.length)) := by
  rw [PARSE_Z_of_varint env data length v ix hv hs hlen, z_value_exact env v hn hval]

/-- C6: the five bytes 80 80 80 80 08 are a terminated varint whose value, the
sum of `(b_i & 0x7F) * 2 ^ (7 * i)`, is `2 ^ 31`.  `PARSE_Z` consumes the five
bytes but does not yield `2 ^ 31`, whatever the `int` shift yields where C
leaves it undefined; with the two's-complement outcome it yields
`0xFFFFFFFF80000000`, and `parse_operations` reports that number as the amount
and the total fee of a transaction that carries the varint twice. -/
theorem PARSE_Z_five_byte_varint_not_exact :
    (0x80 &&& 0x7F) * 2 ^ (7 * 0) + (0x80 &&& 0x7F) * 2 ^ (7 * 1) + (0x80 &&& 0x7F) * 2 ^ (7 * 2)
      + (0x80 &&& 0x7F) * 2 ^ (7 * 3) + (0x08 &&& 0x7F) * 2 ^ (7 * 4) = 2 ^ 31 ∧
    (∀ env : Env, ∃ a, PARSE_Z env (ofList sampleVarint31) 5 0 = some (Res.val a 5) ∧
      a ≠ 2 ^ 31) ∧
    PARSE_Z sampleEnv (ofList sampleVarint31) 5 0 = some (Res.val 0xFFFFFFFF80000000 5) ∧
    (parse_operations sampleEnv (ofList sampleGroup31) sampleGroup31.length 0 samplePath).map
        (fun ret => (ret.code, ret.state.out.total_fee,
          ret.state.out.operations.map (fun op => op.amount))) =
      some (0, 0xFFFFFFFF80000000, [0xFFFFFFFF80000000, 0, 0]) := by
  refine ⟨by decide, ?_, by decide, by rfl⟩
  intro env
  refine ⟨_, PARSE_Z_of_varint env (ofList sampleVarint31) 5 sampleVarint31 0 (by decide)
    (slice_ofList sampleVarint31) (by decide), ?_⟩
  have h0 : ∀ s, s < 32 → int_to_uint64 (shl_int env 0 s) = 0 := by
    intro s hs
    rw [shl_int_exact env 0 s hs (by simp)]
    simp [int_to_uint64]
  have h8 : shl_int env 8 28 = wrap_int32 (env.shl_undefined 8 28) := by
    unfold shl_int
    rw [if_neg (by decide)]
  have e1 : (128 &&& 127 : Nat) = 0 := by decide
  have e2 : (8 &&& 127 : Nat) = 8 := by decide
  simp only [z_value, sampleVarint31, z_fold]
  norm_num
  simp only [e1, e2, h0 0 (by decide), h0 7 (by decide), h0 14 (by decide), h0 21 (by decide),
    h8, Nat.zero_or]
  exact int_to_uint64_wrap_ne _

/-! ## Lemmas on the pieces of `parse_operations` -/

theorem parse_operations_varints_of_varints (env : Env) (data : Nat → Nat) (length : Nat)
    (s : PState) (fee counter gas storage : List Nat)
    (h1 : is_varint fee = true) (h2 : is_varint counter = true) (h3 : is_varint gas = true)
    (h4 : is_varint storage = true)
    (hs : slice data s.ix (fee ++ (counter ++ (gas ++ storage))).length =
      fee ++ (counter ++ (gas ++ storage)))
    (hlen : s.ix + (fee ++ (counter ++ (gas ++ storage))).length ≤ length) :
    parse_operations_varints env data length s =
      some (Flow.next
        { s with
          ix := s.ix + (fee ++ (counter ++ (gas ++ storage))).length
          out := { s.out with total_fee := (s.out.total_fee + z_value env fee) % 2 ^ 64 } }) := by
  obtain ⟨_, hf, hs⟩ := slice_append_inv _ _ _ _ _ hs
  obtain ⟨_, hc, hs⟩ := slice_append_inv _ _ _ _ _ hs
  obtain ⟨_, hg, hst⟩ := slice_append_inv _ _ _ _ _ hs
  simp only [List.length_append] at hlen ⊢
  unfold parse_operations_varints
  rw [PARSE_Z_of_varint env data length fee s.ix h1 hf (by omega)]
  simp only []
  rw [PARSE_Z_of_varint env data length counter _ h2 hc (by omega)]
  simp only []
  rw [PARSE_Z_of_varint env data length gas _ h3 hg (by omega)]
  simp only []
  rw [PARSE_Z_of_varint env data length storage _ h4 hst (by omega)]
  simp only [Nat.add_assoc]

theorem parse_operations_varints_next_inv (env : Env) (data : Nat → Nat) (length : Nat)
    (s s1 : PState) (h : parse_operations_varints env data length s = some (Flow.next s1)) :
    ∃ fee counter gas storage, is_varint fee = true ∧ is_varint counter = true ∧
      is_varint gas = true ∧ is_varint storage = true ∧
      slice data s.ix (fee ++ (counter ++ (gas ++ storage))).length =
        fee ++ (counter ++ (gas ++ storage)) ∧
      s.ix + (fee ++ (counter ++ (gas ++ storage))).length ≤ length ∧
      s1 = { s with
        ix := s.ix + (fee ++ (counter ++ (gas ++ storage))).length
        out := { s.out with total_fee := (s.out.total_fee + z_value env fee) % 2 ^ 64 } } := by
  unfold parse_operations_varints at h
  split at h
  · simp at h
  · simp at h
  · rename_i fee ix1 e1
    simp only [] at h
    split at h
    · simp at h
    · simp at h
    · rename_i cnt ix2 e2
      split at h
      · simp at h
      · simp at h
      · rename_i gas ix3 e3
        split at h
        · simp at h
        · simp at h
        · rename_i sto ix4 e4
          obtain ⟨v1, a1, b1, c1, d1, f1⟩ := PARSE_Z_val_inv _ _ _ _ _ _ e1
          obtain ⟨v2, a2, b2, c2, d2, f2⟩ := PARSE_Z_val_inv _ _ _ _ _ _ e2
          obtain ⟨v3, a3, b3, c3, d3, f3⟩ := PARSE_Z_val_inv _ _ _ _ _ _ e3
          obtain ⟨v4, a4, b4, c4, d4, f4⟩ := PARSE_Z_val_inv _ _ _ _ _ _ e4
          subst c1 c2 c3 c4
          refine ⟨v1, v2, v3, v4, a1, a2, a3, a4, ?_, ?_, ?_⟩
          · refine slice_append_intro _ _ _ _ b1 ?_
            refine slice_append_intro _ _ _ _ b2 ?_
            exact slice_append_intro _ _ _ _ b3 b4
          · simp only [List.length_append]; omega
          · simp only [Option.some.injEq, Flow.next.injEq] at h
            rw [← h, f1]
            simp only [List.length_append, Nat.add_assoc]

theorem parse_operations_varints_ret_inv (env : Env) (data : Nat → Nat) (length : Nat)
    (s s1 : PState) (code : Nat) (hix : s.ix ≤ length)
    (h : parse_operations_varints env data length s = some (Flow.ret code s1)) :
    code = 23 ∧ s1.ix = length ∧ s1.op_index = s.op_index ∧
      s1.out.operations = s.out.operations ∧ s1.out.signing = s.out.signing ∧
      s1.out.public_key = s.out.public_key := by
  unfold parse_operations_varints at h
  split at h
  · simp at h
  · rename_i c ix1 e1
    obtain ⟨a, _, b, _⟩ := PARSE_Z_loop_ret_inv _ _ _ _ _ _ _ _ _ e1
    simp only [Option.some.injEq, Flow.ret.injEq] at h
    obtain ⟨rfl, rfl⟩ := h
    exact ⟨a, b hix, rfl, rfl, rfl, rfl⟩
  · rename_i fee ix1 e1
    obtain ⟨v1, _, _, c1, d1, _⟩ := PARSE_Z_val_inv _ _ _ _ _ _ e1
    simp only [] at h
    split at h
    · simp at h
    · rename_i c ix2 e2
      obtain ⟨a, _, b, _⟩ := PARSE_Z_loop_ret_inv _ _ _ _ _ _ _ _ _ e2
      simp only [Option.some.injEq, Flow.ret.injEq] at h
      obtain ⟨rfl, rfl⟩ := h
      exact ⟨a, b d1, rfl, rfl, rfl, rfl⟩
    · rename_i cnt ix2 e2
      obtain ⟨v2, _, _, c2, d2, _⟩ := PARSE_Z_val_inv _ _ _ _ _ _ e2
      split at h
      · simp at h
      · rename_i c ix3 e3
        obtain ⟨a, _, b, _⟩ := PARSE_Z_loop_ret_inv _ _ _ _ _ _ _ _ _ e3
        simp only [Option.some.injEq, Flow.ret.injEq] at h
        obtain ⟨rfl, rfl⟩ := h
        exact ⟨a, b d2, rfl, rfl, rfl, rfl⟩
      · rename_i gas ix3 e3
        obtain ⟨v3, _, _, c3, d3, _⟩ := PARSE_Z_val_inv _ _ _ _ _ _ e3
        split at h
        · simp at h
        · rename_i c ix4 e4
          obtain ⟨a, _, b, _⟩ := PARSE_Z_loop_ret_inv _ _ _ _ _ _ _ _ _ e4
          simp only [Option.some.injEq, Flow.ret.injEq] at h
          obtain ⟨rfl, rfl⟩ := h
          exact ⟨a, b d3, rfl, rfl, rfl, rfl⟩
        · simp at h

theorem parse_operations_varints_total (env : Env) (data : Nat → Nat) (length : Nat)
    (s : PState) : ∃ r, parse_operations_varints env data length s = some r := by
  unfold parse_operations_varints
  obtain ⟨r1, e1⟩ := PARSE_Z_total env data length s.ix
  rw [e1]
  cases r1 with
  | ret c i => exact ⟨_, rfl⟩
  | val a i =>
    simp only []
    obtain ⟨r2, e2⟩ := PARSE_Z_total env data length i
    rw [e2]
    cases r2 with
    | ret c i => exact ⟨_, rfl⟩
    | val a i =>
      simp only []
      obtain ⟨r3, e3⟩ := PARSE_Z_total env data length i
      rw [e3]
      cases r3 with
      | ret c i => exact ⟨_, rfl⟩
      | val a i =>
        simp only []
        obtain ⟨r4, e4⟩ := PARSE_Z_total env data length i
        rw [e4]
        cases r4 with
        | ret c i => exact ⟨_, rfl⟩
        | val a i => exact ⟨_, rfl⟩

theorem update_op_id (ops : List parsed_operation) :
    ∀ i, update_op (fun cur => cur) ops i = ops := by
  induction ops with
  | nil => intro i; rfl
  | cons op ops ih =>
    intro i
    cases i with
    | zero => rfl
    | succ i => simp [update_op, ih]

theorem update_op_update_op (f g : parsed_operation → parsed_operation)
    (ops : List parsed_operation) :
    ∀ i, update_op f (update_op g ops i) i = update_op (fun cur => f (g cur)) ops i := by
  induction ops with
  | nil => intro i; rfl
  | cons op ops ih =>
    intro i
    cases i with
    | zero => rfl
    | succ i => simp [update_op, ih]

theorem update_op_length (f : parsed_operation → parsed_operation)
    (ops : List parsed_operation) : ∀ i, (update_op f ops i).length = ops.length := by
  induction ops with
  | nil => intro i; rfl
  | cons op ops ih =>
    intro i
    cases i with
    | zero => rfl
    | succ i => simp [update_op, ih]

theorem parse_contract_fst (env : Env) (c : List Nat) : (parse_contract env c).1 = 0 := by
  simp only [parse_contract]
  split <;> rfl

theorem Contents.apply_reveal (env : Env) (curve_code : Nat) (key : List Nat) :
    Contents.apply env (Contents.reveal curve_code key) = fun cur => cur := rfl

theorem Contents.apply_delegation (env : Env) (p curve_code : Nat) (hash : List Nat) :
    Contents.apply env (Contents.delegation p curve_code hash) = fun cur =>
      { cur with destination := { originated := 0, curve_code := curve_code, hash := hash } } :=
  rfl

theorem Contents.apply_transaction (env : Env) (amount destination : List Nat) (params : Nat) :
    Contents.apply env (Contents.transaction amount destination params) = fun cur =>
      { cur with
        amount := z_value env amount
        destination := (parse_contract env destination).2 } := rfl

theorem parse_operations_switch_of_contents (env : Env) (data : Nat → Nat) (length : Nat)
    (tag : Int) (s : PState) (c : Contents)
    (hwf : c.WellFormed env s.out.signing s.out.public_key) (htag : tag = c.tag env)
    (hs : slice data s.ix c.encode.length = c.encode)
    (hlen : s.ix + c.encode.length ≤ length) :
    parse_operations_switch env data length tag s =
      some (Flow.next ({ s with ix := s.ix + c.encode.length }.with_cur (c.apply env))) := by
  subst htag
  cases c with
  | reveal curve_code key =>
    obtain ⟨h1, h2⟩ := hwf
    simp only [Contents.encode, List.length_cons] at hs hlen ⊢
    have hs1 : slice data s.ix (1 + key.length) = [curve_code] ++ key := by
      rw [Nat.add_comm]; exact hs
    rw [slice_add] at hs1
    have hsp := List.append_inj hs1 (by simp [slice_length])
    have hb : data s.ix = curve_code := by simpa [slice] using hsp.1
    unfold parse_operations_switch
    simp only [Contents.tag, if_true]
    rw [NEXT_BYTE_val data length s.ix (by omega)]
    simp only [hb, h1, ne_eq, not_true_eq_false, if_false, cx_ecfp_public_key_t.W_len, ← h2]
    have hk : ¬ (s.ix + 1 + key.length > length) := by omega
    simp only [hk, if_false, hsp.2, not_true_eq_false]
    simp only [PState.with_cur, Contents.apply_reveal, update_op_id]
    have : s.ix + 1 + key.length = s.ix + (key.length + 1) := by omega
    rw [this]
  | delegation delegate_present curve_code hash =>
    have hh : hash.length = env.HASH_SIZE := hwf
    simp only [Contents.encode, List.length_cons] at hs hlen ⊢
    have hsz : sizeof_delegation_contents env = hash.length + 1 + 1 := by
      unfold sizeof_delegation_contents; omega
    unfold parse_operations_switch
    simp only [Contents.tag, env.reveal_ne_delegation.symm, if_false, if_true]
    rw [NEXT_TYPE_val data length _ s.ix (by omega), hsz, hs]
    simp only [parse_implicit, ne_eq, not_true_eq_false, if_false, List.getD_cons_succ,
      List.getD_cons_zero, List.drop_succ_cons, List.drop_zero, ← hh, List.take_length,
      Contents.apply_delegation]
  | transaction amount destination params =>
    obtain ⟨h1, h2, h3⟩ := hwf
    subst h3
    simp only [Contents.encode] at hs hlen ⊢
    obtain ⟨_, ha, hs⟩ := slice_append_inv _ _ _ _ _ hs
    obtain ⟨_, hd, hp⟩ := slice_append_inv _ _ _ _ _ hs
    simp only [List.length_append, List.length_singleton] at hlen hp ⊢
    have hb : data (s.ix + amount.length + destination.length) = 0 := by
      simpa [slice] using hp
    unfold parse_operations_switch
    simp only [Contents.tag, env.reveal_ne_transaction.symm,
      env.delegation_ne_transaction.symm, if_false, if_true]
    rw [PARSE_Z_of_varint env data length amount s.ix h1 ha (by omega)]
    simp only [PState.with_cur]
    rw [NEXT_TYPE_val data length _ _ (by omega), ← h2, hd]
    simp only [parse_contract_fst, ne_eq, not_true_eq_false, if_false]
    rw [NEXT_BYTE_val data length _ (by omega), hb]
    simp only [ne_eq, not_true_eq_false, if_false, update_op_update_op,
      Contents.apply_transaction, Nat.add_assoc]

theorem slice_two (data : Nat → Nat) (ix n : Nat) :
    slice data ix (n + 1 + 1) = data ix :: data (ix + 1) :: slice data (ix + 1 + 1) n := by
  simp [slice]

theorem parse_operations_switch_next_inv (env : Env) (data : Nat → Nat) (length : Nat)
    (tag : Int) (s s1 : PState)
    (h : parse_operations_switch env data length tag s = some (Flow.next s1)) :
    ∃ c : Contents, c.WellFormed env s.out.signing s.out.public_key ∧ tag = c.tag env ∧
      slice data s.ix c.encode.length = c.encode ∧ s.ix + c.encode.length ≤ length ∧
      s1 = { s with ix := s.ix + c.encode.length }.with_cur (c.apply env) := by
  unfold parse_operations_switch at h
  by_cases ht1 : tag = env.OPERATION_TAG_REVEAL
  · simp only [ht1, if_true] at h
    by_cases hix : s.ix < length
    · rw [NEXT_BYTE_val data length s.ix hix] at h
      simp only [ne_eq, ite_not, cx_ecfp_public_key_t.W_len] at h
      by_cases hb : data s.ix = s.out.signing.curve_code
      · simp only [hb, if_true] at h
        by_cases hk : s.ix + 1 + s.out.public_key.W.length > length
        · simp [hk] at h
        · simp only [hk, if_false] at h
          by_cases hw : s.out.public_key.W = slice data (s.ix + 1) s.out.public_key.W.length
          · simp only [← hw, if_true, Option.some.injEq, Flow.next.injEq] at h
            refine ⟨Contents.reveal (data s.ix) s.out.public_key.W, ⟨hb, rfl⟩, ht1, ?_, ?_, ?_⟩
            · simp only [Contents.encode, List.length_cons, slice, List.cons.injEq, true_and]
              exact hw.symm
            · simp only [Contents.encode, List.length_cons]; omega
            · simp only [Contents.encode, List.length_cons, PState.with_cur,
                Contents.apply_reveal, update_op_id]
              rw [← h, Nat.add_assoc, Nat.add_comm 1]
          · simp [hw] at h
      · simp [hb] at h
    · rw [NEXT_BYTE_ret data length s.ix (by omega)] at h
      simp at h
  · simp only [ht1, if_false] at h
    by_cases ht2 : tag = env.OPERATION_TAG_DELEGATION
    · simp only [ht2, if_true] at h
      have hsz : sizeof_delegation_contents env = env.HASH_SIZE + 1 + 1 := by
        unfold sizeof_delegation_contents; omega
      by_cases hix : s.ix + sizeof_delegation_contents env ≤ length
      · rw [NEXT_TYPE_val data length _ s.ix hix, hsz, slice_two] at h
        simp only [parse_implicit, ne_eq, not_true_eq_false, if_false, List.getD_cons_succ,
          List.getD_cons_zero, List.drop_succ_cons, List.drop_zero, Option.some.injEq,
          Flow.next.injEq] at h
        have hl : (slice data (s.ix + 1 + 1) env.HASH_SIZE).length = env.HASH_SIZE :=
          slice_length _ _ _
        have ht : List.take env.HASH_SIZE (slice data (s.ix + 1 + 1) env.HASH_SIZE) =
            slice data (s.ix + 1 + 1) env.HASH_SIZE :=
          List.take_of_length_le (le_of_eq hl)
        rw [ht] at h
        refine ⟨Contents.delegation (data s.ix) (data (s.ix + 1))
          (slice data (s.ix + 1 + 1) env.HASH_SIZE), hl, ht2, ?_, ?_, ?_⟩
        · simp only [Contents.encode, List.length_cons, hl, slice_two]
        · simp only [Contents.encode, List.length_cons, hl]; omega
        · simp only [Contents.encode, List.length_cons, hl, Contents.apply_delegation]
          exact h.symm
      · rw [NEXT_TYPE_ret data length _ s.ix (by omega)] at h
        simp at h
    · simp only [ht2, if_false] at h
      by_cases ht3 : tag = env.OPERATION_TAG_TRANSACTION
      · simp only [ht3, if_true] at h
        split at h
        · simp at h
        · simp at h
        · rename_i amount ix1 e1
          obtain ⟨v, a1, b1, c1, d1, f1⟩ := PARSE_Z_val_inv _ _ _ _ _ _ e1
          subst c1
          simp only [PState.with_cur] at h
          by_cases hix : s.ix + v.length + sizeof_contract env ≤ length
          · rw [NEXT_TYPE_val data length _ _ hix] at h
            simp only [parse_contract_fst, ne_eq, not_true_eq_false, if_false] at h
            by_cases hix2 : s.ix + v.length + sizeof_contract env < length
            · rw [NEXT_BYTE_val data length _ hix2] at h
              by_cases hp : data (s.ix + v.length + sizeof_contract env) = 0
              · simp only [hp, ne_eq, not_true_eq_false, if_false, Option.some.injEq,
                  Flow.next.injEq, update_op_update_op] at h
                have hl : (slice data (s.ix + v.length) (sizeof_contract env)).length =
                    sizeof_contract env := slice_length _ _ _
                refine ⟨Contents.transaction v
                  (slice data (s.ix + v.length) (sizeof_contract env)) 0,
                  ⟨a1, hl, rfl⟩, ht3, ?_, ?_, ?_⟩
                · simp only [Contents.encode]
                  refine slice_append_intro _ _ _ _ b1 ?_
                  refine slice_append_intro _ _ _ _ (by rw [hl]) ?_
                  rw [hl]
                  simp only [List.length_singleton, slice, hp]
                · simp only [Contents.encode, List.length_append, hl, List.length_singleton]
                  omega
                · simp only [Contents.encode, List.length_append, hl, List.length_singleton,
                    Contents.apply_transaction, PState.with_cur]
                  rw [← h, f1]
                  simp only [Nat.add_assoc]
              · simp [hp] at h
            · rw [NEXT_BYTE_ret data length _ (by omega)] at h
              simp at h
          · rw [NEXT_TYPE_ret data length _ _ (by omega)] at h
            simp at h
      · simp [ht3] at h

theorem parse_operations_switch_total (env : Env) (data : Nat → Nat) (length : Nat)
    (tag : Int) (s : PState) : ∃ r, parse_operations_switch env data length tag s = some r := by
  unfold parse_operations_switch
  split
  · split
    · exact ⟨_, rfl⟩
    · simp only []
      split
      · exact ⟨_, rfl⟩
      · split
        · exact ⟨_, rfl⟩
        · split <;> exact ⟨_, rfl⟩
  · split
    · split
      · exact ⟨_, rfl⟩
      · simp only []
        split <;> exact ⟨_, rfl⟩
    · split
      · obtain ⟨r1, e1⟩ := PARSE_Z_total env data length s.ix
        rw [e1]
        cases r1 with
        | ret c i => exact ⟨_, rfl⟩
        | val a i =>
          simp only []
          split
          · exact ⟨_, rfl⟩
          · split
            · exact ⟨_, rfl⟩
            · split
              · exact ⟨_, rfl⟩
              · split <;> exact ⟨_, rfl⟩
      · exact ⟨_, rfl⟩

theorem parse_operations_body_to_switch (env : Env) (data : Nat → Nat) (length : Nat)
    (s : PState) (tag : Nat) (source fee counter gas storage : List Nat)
    (hsrc : source.length = sizeof_contract env)
    (h1 : is_varint fee = true) (h2 : is_varint counter = true) (h3 : is_varint gas = true)
    (h4 : is_varint storage = true)
    (hs : slice data s.ix (tag :: (source ++ (fee ++ (counter ++ (gas ++ storage))))).length =
      tag :: (source ++ (fee ++ (counter ++ (gas ++ storage)))))
    (hlen : s.ix + (tag :: (source ++ (fee ++ (counter ++ (gas ++ storage))))).length ≤ length)
    (hop : s.op_index < env.MAX_OPERATIONS_PER_GROUP) :
    parse_operations_body env data length s =
      after_switch (parse_operations_switch env data length (tag : Int)
        (switch_state env s tag source fee
          (tag :: (source ++ (fee ++ (counter ++ (gas ++ storage))))).length)) := by
  have hs0 : slice data s.ix ([tag] ++ (source ++ (fee ++ (counter ++ (gas ++ storage))))).length
      = [tag] ++ (source ++ (fee ++ (counter ++ (gas ++ storage)))) := hs
  obtain ⟨_, ht, hs1⟩ := slice_append_inv _ _ _ _ _ hs0
  obtain ⟨_, hso, hv⟩ := slice_append_inv _ _ _ _ _ hs1
  simp only [List.length_cons, List.length_append, List.length_singleton, List.length_nil]
    at hlen ht hso hv
  have hhdr : slice data s.ix (sizeof_operation_header env) = tag :: source := by
    have : sizeof_operation_header env = 1 + source.length := by
      unfold sizeof_operation_header; omega
    rw [this, slice_add, ht, hso]; rfl
  have hsz : sizeof_operation_header env = source.length + 1 := by
    unfold sizeof_operation_header; omega
  unfold parse_operations_body
  simp only [ge_iff_le, Nat.not_le.mpr hop, if_false]
  rw [NEXT_TYPE_val data length _ s.ix (by omega), hhdr]
  simp only [parse_contract_fst, ne_eq, not_true_eq_false, if_false, List.drop_succ_cons,
    List.drop_zero, List.getD_cons_zero, PState.with_cur]
  rw [parse_operations_varints_of_varints env data length _ fee counter gas storage h1 h2 h3 h4
    (by
      simp only [List.length_append]
      have e : s.ix + sizeof_operation_header env = s.ix + (0 + 1) + source.length := by omega
      rw [e]; exact hv)
    (by simp only [List.length_append]; omega)]
  simp only [update_op_update_op, switch_state, List.length_cons, List.length_append, hsz]
  have e : s.ix + (source.length + 1) +
      (fee.length + (counter.length + (gas.length + storage.length))) =
      s.ix + (source.length +
        (fee.length + (counter.length + (gas.length + storage.length))) + 1) := by omega
  rw [e]
  cases parse_operations_switch env data length (tag : Int) _ with
  | none => rfl
  | some f => cases f <;> rfl

theorem parse_operations_body_of_record (env : Env) (data : Nat → Nat) (length : Nat)
    (s : PState) (r : OpRecord) (hwf : r.WellFormed env s.out.signing s.out.public_key)
    (hs : slice data s.ix r.encode.length = r.encode)
    (hlen : s.ix + r.encode.length ≤ length)
    (hop : s.op_index < env.MAX_OPERATIONS_PER_GROUP) :
    parse_operations_body env data length s = some (Flow.next (r.step env s)) := by
  obtain ⟨htag, hsrc, h1, h2, h3, h4, hc⟩ := hwf
  have hs0 : slice data s.ix
      ((r.tag :: (r.source ++ (r.fee ++ (r.counter ++ (r.gas_limit ++ r.storage_limit))))) ++
        r.contents.encode).length =
      (r.tag :: (r.source ++ (r.fee ++ (r.counter ++ (r.gas_limit ++ r.storage_limit))))) ++
        r.contents.encode := by
    have e : (r.tag :: (r.source ++ (r.fee ++ (r.counter ++ (r.gas_limit ++ r.storage_limit))))) ++
        r.contents.encode = r.encode := by
      simp [OpRecord.encode, OpRecord.varints]
    rw [e]; exact hs
  have hl : r.encode.length =
      (r.tag :: (r.source ++ (r.fee ++ (r.counter ++ (r.gas_limit ++ r.storage_limit))))).length +
        r.contents.encode.length := by
    simp [OpRecord.encode, OpRecord.varints]
    omega
  obtain ⟨_, hp, hcs⟩ := slice_append_inv _ _ _ _ _ hs0
  rw [parse_operations_body_to_switch env data length s r.tag r.source r.fee r.counter
    r.gas_limit r.storage_limit hsrc h1 h2 h3 h4 hp (by omega) hop]
  rw [parse_operations_switch_of_contents env data length _
    (switch_state env s r.tag r.source r.fee
      (r.tag :: (r.source ++ (r.fee ++ (r.counter ++ (r.gas_limit ++ r.storage_limit))))).length)
    r.contents hc htag hcs (by simp only [switch_state]; omega)]
  simp only [after_switch, PState.with_cur, switch_state, update_op_update_op, OpRecord.step, hl,
    Nat.add_assoc]
  rfl

theorem parse_operations_body_next_inv (env : Env) (data : Nat → Nat) (length : Nat)
    (s s1 : PState) (h : parse_operations_body env data length s = some (Flow.next s1)) :
    ∃ r : OpRecord, r.WellFormed env s.out.signing s.out.public_key ∧
      slice data s.ix r.encode.length = r.encode ∧ s.ix + r.encode.length ≤ length ∧
      s.op_index < env.MAX_OPERATIONS_PER_GROUP ∧ s1 = r.step env s := by
  have h0 := h
  unfold parse_operations_body at h
  by_cases hop : s.op_index < env.MAX_OPERATIONS_PER_GROUP
  swap
  · simp [Nat.not_lt.mp hop] at h
  simp only [ge_iff_le, Nat.not_le.mpr hop, if_false] at h
  by_cases hix : s.ix + sizeof_operation_header env ≤ length
  swap
  · rw [NEXT_TYPE_ret data length _ s.ix (by omega)] at h
    simp at h
  rw [NEXT_TYPE_val data length _ s.ix hix] at h
  simp only [parse_contract_fst, ne_eq, not_true_eq_false, if_false] at h
  split at h
  · simp at h
  · simp at h
  · rename_i s2 e2
    split at h
    · simp at h
    · simp at h
    · rename_i s4 e4
      obtain ⟨fee, counter, gas, storage, h1, h2, h3, h4, hsv, hlv, rfl⟩ :=
        parse_operations_varints_next_inv _ _ _ _ _ e2
      obtain ⟨c, hc, htag, hsc, hlc, _⟩ := parse_operations_switch_next_inv _ _ _ _ _ _ e4
      have hsz : sizeof_operation_header env = sizeof_contract env + 1 := by
        unfold sizeof_operation_header; omega
      simp only [PState.with_cur, hsz, slice, List.getD_cons_zero] at hsv hlv hc hsc hlc htag
      have hl : (slice data (s.ix + 1) (sizeof_contract env)).length = sizeof_contract env :=
        slice_length _ _ _
      have hwf : OpRecord.WellFormed env s.out.signing s.out.public_key
          ⟨data s.ix, slice data (s.ix + 1) (sizeof_contract env), fee, counter, gas, storage, c⟩ :=
        ⟨htag, hl, h1, h2, h3, h4, hc⟩
      have hse : slice data s.ix (OpRecord.encode
          ⟨data s.ix, slice data (s.ix + 1) (sizeof_contract env), fee, counter, gas, storage,
            c⟩).length = OpRecord.encode
          ⟨data s.ix, slice data (s.ix + 1) (sizeof_contract env), fee, counter, gas, storage,
            c⟩ := by
        simp only [OpRecord.encode, OpRecord.varints]
        refine slice_append_intro data [data s.ix] _ s.ix (by simp [slice]) ?_
        refine slice_append_intro data _ _ _ (by rw [hl]) ?_
        refine slice_append_intro data _ _ _ ?_ ?_
        · simp only [List.length_singleton, hl]
          rw [Nat.add_assoc, Nat.add_comm 1]
          exact hsv
        · simp only [List.length_singleton, hl]
          rw [Nat.add_assoc s.ix, Nat.add_comm 1]
          exact hsc
      have hle : s.ix + (OpRecord.encode
          ⟨data s.ix, slice data (s.ix + 1) (sizeof_contract env), fee, counter, gas, storage,
            c⟩).length ≤ length := by
        simp only [OpRecord.encode, OpRecord.varints, List.length_cons, List.length_append, hl]
        simp only [List.length_append] at hlc
        omega
      refine ⟨_, hwf, hse, hle, hop, ?_⟩
      have h5 := parse_operations_body_of_record env data length s _ hwf hse hle hop
      rw [h0] at h5
      simp only [Option.some.injEq, Flow.next.injEq] at h5
      exact h5

theorem parse_operations_switch_ret_inv (env : Env) (data : Nat → Nat) (length : Nat)
    (tag : Int) (s s1 : PState) (code : Nat) (hle : s.ix ≤ length)
    (h : parse_operations_switch env data length tag s = some (Flow.ret code s1)) :
    code ≠ 0 ∧ s1.ix ≤ length := by
  unfold parse_operations_switch at h
  by_cases ht1 : tag = env.OPERATION_TAG_REVEAL
  · simp only [ht1, if_true] at h
    by_cases hix : s.ix < length
    · rw [NEXT_BYTE_val data length s.ix hix] at h
      simp only [] at h
      split at h
      · simp only [Option.some.injEq, Flow.ret.injEq] at h
        obtain ⟨rfl, rfl⟩ := h
        exact ⟨by decide, hix⟩
      · split at h
        · rename_i hk
          simp only [Option.some.injEq, Flow.ret.injEq] at h
          obtain ⟨rfl, rfl⟩ := h
          refine ⟨?_, hix⟩
          intro h0
          rw [h0] at hk
          omega
        · split at h
          · simp only [Option.some.injEq, Flow.ret.injEq] at h
            obtain ⟨rfl, rfl⟩ := h
            exact ⟨by decide, hix⟩
          · simp at h
    · rw [NEXT_BYTE_ret data length s.ix (by omega)] at h
      simp only [Option.some.injEq, Flow.ret.injEq] at h
      obtain ⟨rfl, rfl⟩ := h
      exact ⟨by decide, hle⟩
  · simp only [ht1, if_false] at h
    by_cases ht2 : tag = env.OPERATION_TAG_DELEGATION
    · simp only [ht2, if_true] at h
      by_cases hix : s.ix + sizeof_delegation_contents env ≤ length
      · rw [NEXT_TYPE_val data length _ s.ix hix] at h
        simp [parse_implicit] at h
      · rw [NEXT_TYPE_ret data length _ s.ix (by omega)] at h
        simp only [Option.some.injEq, Flow.ret.injEq] at h
        obtain ⟨rfl, rfl⟩ := h
        exact ⟨by unfold sizeof_delegation_contents; omega, hle⟩
    · simp only [ht2, if_false] at h
      by_cases ht3 : tag = env.OPERATION_TAG_TRANSACTION
      · simp only [ht3, if_true] at h
        split at h
        · simp at h
        · rename_i c ix1 e1
          obtain ⟨a, _, b, _⟩ := PARSE_Z_loop_ret_inv _ _ _ _ _ _ _ _ _ e1
          simp only [Option.some.injEq, Flow.ret.injEq] at h
          obtain ⟨rfl, rfl⟩ := h
          exact ⟨by rw [a]; decide, le_of_eq (b hle)⟩
        · rename_i amount ix1 e1
          obtain ⟨v, _, _, c1, d1, _⟩ := PARSE_Z_val_inv _ _ _ _ _ _ e1
          simp only [PState.with_cur] at h
          by_cases hix : ix1 + sizeof_contract env ≤ length
          · rw [NEXT_TYPE_val data length _ _ hix] at h
            simp only [parse_contract_fst, ne_eq, not_true_eq_false, if_false] at h
            by_cases hix2 : ix1 + sizeof_contract env < length
            · rw [NEXT_BYTE_val data length _ hix2] at h
              simp only [] at h
              by_cases hp : data (ix1 + sizeof_contract env) = 0
              · simp [hp] at h
              · simp only [hp, ne_eq, not_false_eq_true, if_true, Option.some.injEq,
                  Flow.ret.injEq] at h
                obtain ⟨rfl, rfl⟩ := h
                exact ⟨by decide, hix2⟩
            · rw [NEXT_BYTE_ret data length _ (by omega)] at h
              simp only [Option.some.injEq, Flow.ret.injEq] at h
              obtain ⟨rfl, rfl⟩ := h
              exact ⟨by decide, hix⟩
          · rw [NEXT_TYPE_ret data length _ _ (by omega)] at h
            simp only [Option.some.injEq, Flow.ret.injEq] at h
            obtain ⟨rfl, rfl⟩ := h
            exact ⟨by unfold sizeof_contract; omega, d1⟩
      · simp only [ht3, if_false, Option.some.injEq, Flow.ret.injEq] at h
        obtain ⟨rfl, rfl⟩ := h
        exact ⟨by decide, hle⟩

theorem parse_operations_body_ret_inv (env : Env) (data : Nat → Nat) (length : Nat)
    (s s1 : PState) (code : Nat) (hle : s.ix ≤ length)
    (h : parse_operations_body env data length s = some (Flow.ret code s1)) :
    code ≠ 0 ∧ s1.ix ≤ length := by
  unfold parse_operations_body at h
  by_cases hop : s.op_index < env.MAX_OPERATIONS_PER_GROUP
  swap
  · simp only [ge_iff_le, Nat.not_lt.mp hop, if_true, Option.some.injEq, Flow.ret.injEq] at h
    obtain ⟨rfl, rfl⟩ := h
    exact ⟨by decide, hle⟩
  simp only [ge_iff_le, Nat.not_le.mpr hop, if_false] at h
  by_cases hix : s.ix + sizeof_operation_header env ≤ length
  swap
  · rw [NEXT_TYPE_ret data length _ s.ix (by omega)] at h
    simp only [Option.some.injEq, Flow.ret.injEq] at h
    obtain ⟨rfl, rfl⟩ := h
    exact ⟨by unfold sizeof_operation_header; omega, hle⟩
  rw [NEXT_TYPE_val data length _ s.ix hix] at h
  simp only [parse_contract_fst, ne_eq, not_true_eq_false, if_false] at h
  split at h
  · simp at h
  · rename_i c s2 e2
    obtain ⟨a, b, _⟩ := parse_operations_varints_ret_inv _ _ _ _ _ _ hix e2
    simp only [Option.some.injEq, Flow.ret.injEq] at h
    obtain ⟨rfl, rfl⟩ := h
    exact ⟨by rw [a]; decide, le_of_eq b⟩
  · rename_i s2 e2
    obtain ⟨fee, counter, gas, storage, _, _, _, _, _, hlv, rfl⟩ :=
      parse_operations_varints_next_inv _ _ _ _ _ e2
    split at h
    · simp at h
    · rename_i c s4 e4
      simp only [Option.some.injEq, Flow.ret.injEq] at h
      obtain ⟨rfl, rfl⟩ := h
      exact parse_operations_switch_ret_inv _ _ _ _ _ _ _ hlv e4
    · simp at h

theorem parse_operations_body_total (env : Env) (data : Nat → Nat) (length : Nat)
    (s : PState) : ∃ r, parse_operations_body env data length s = some r := by
  unfold parse_operations_body
  split
  · exact ⟨_, rfl⟩
  · split
    · exact ⟨_, rfl⟩
    · simp only []
      split
      · exact ⟨_, rfl⟩
      · rename_i hdr ix1 _ _
        obtain ⟨r1, e1⟩ := parse_operations_varints_total env data length
          ({ s with ix := ix1 }.with_cur
            (fun cur => { cur with source := (parse_contract env (hdr.drop 1)).2 }))
        rw [e1]
        cases r1 with
        | ret c s2 => exact ⟨_, rfl⟩
        | next s2 =>
          simp only []
          obtain ⟨r2, e2⟩ := parse_operations_switch_total env data length
            ((hdr.getD 0 0 : Nat) : Int)
            (s2.with_cur (fun cur => { cur with tag := ((hdr.getD 0 0 : Nat) : Int) }))
          rw [e2]
          cases r2 with
          | ret c s4 => exact ⟨_, rfl⟩
          | next s4 => exact ⟨_, rfl⟩

/-! ## Lemmas on the loop -/

theorem OpRecord.encode_length_pos (r : OpRecord) : 0 < r.encode.length := by
  simp [OpRecord.encode]

theorem state_after_cons (env : Env) (s : PState) (r : OpRecord) (rs : List OpRecord) :
    state_after env s (r :: rs) = state_after env (r.step env s) rs := rfl

theorem state_after_append (env : Env) (s : PState) (rs : List OpRecord) (r : OpRecord) :
    state_after env s (rs ++ [r]) = r.step env (state_after env s rs) := by
  simp [state_after, List.foldl_append]

theorem state_after_ix (env : Env) (rs : List OpRecord) :
    ∀ s, (state_after env s rs).ix = s.ix + (encode_records rs).length := by
  induction rs with
  | nil => intro s; rfl
  | cons r rs ih =>
    intro s
    rw [state_after_cons, ih]
    simp only [OpRecord.step, encode_records, List.length_append]
    omega

theorem state_after_op_index (env : Env) (rs : List OpRecord) :
    ∀ s, (state_after env s rs).op_index = s.op_index + rs.length := by
  induction rs with
  | nil => intro s; rfl
  | cons r rs ih =>
    intro s
    rw [state_after_cons, ih]
    simp only [OpRecord.step, List.length_cons]
    omega

theorem state_after_signing (env : Env) (rs : List OpRecord) :
    ∀ s, (state_after env s rs).out.signing = s.out.signing := by
  induction rs with
  | nil => intro s; rfl
  | cons r rs ih => intro s; rw [state_after_cons, ih]; rfl

theorem state_after_public_key (env : Env) (rs : List OpRecord) :
    ∀ s, (state_after env s rs).out.public_key = s.out.public_key := by
  induction rs with
  | nil => intro s; rfl
  | cons r rs ih => intro s; rw [state_after_cons, ih]; rfl

theorem state_after_total_fee (env : Env) (rs : List OpRecord) :
    ∀ s, (state_after env s rs).out.total_fee =
      if rs = [] then s.out.total_fee
      else (s.out.total_fee + (rs.map (fun r => z_value env r.fee)).sum) % 2 ^ 64 := by
  induction rs with
  | nil => intro s; rfl
  | cons r rs ih =>
    intro s
    rw [state_after_cons, ih]
    simp only [OpRecord.step, List.map_cons, List.sum_cons, reduceCtorEq, if_false]
    split
    · rename_i h; subst h; simp
    · rw [Nat.mod_add_mod, Nat.add_assoc]

theorem state_after_operations (env : Env) (rs : List OpRecord) :
    ∀ (s : PState) (done : List parsed_operation) (e : parsed_operation) (m : Nat),
      s.out.operations = done ++ List.replicate m e → s.op_index = done.length →
      rs.length ≤ m →
      (state_after env s rs).out.operations =
        done ++ (rs.map (fun r => r.apply env e) ++ List.replicate (m - rs.length) e) := by
  induction rs with
  | nil => intro s done e m h _ _; simpa using h
  | cons r rs ih =>
    intro s done e m h hi hm
    simp only [List.length_cons] at hm
    obtain ⟨m, rfl⟩ : ∃ k, m = k + 1 := ⟨m - 1, by omega⟩
    have hupd : ∀ (d : List parsed_operation) (tl : List parsed_operation),
        update_op (r.apply env) (d ++ e :: tl) d.length = d ++ r.apply env e :: tl := by
      intro d tl
      induction d with
      | nil => rfl
      | cons x d ihd => simp [update_op, ihd]
    rw [state_after_cons,
      ih (r.step env s) (done ++ [r.apply env e]) e m
        (by
          simp only [OpRecord.step, h, hi, List.replicate_succ, hupd]
          simp)
        (by simp [OpRecord.step, hi]) (by omega)]
    simp only [List.map_cons, List.length_cons, List.append_assoc, List.singleton_append,
      List.cons_append, Nat.add_sub_add_right, List.nil_append]

theorem parse_operations_loop_end (env : Env) (data : Nat → Nat) (length fuel : Nat)
    (s : PState) (h : length ≤ s.ix) :
    parse_operations_loop env data length (fuel + 1) s = some { code := 0, state := s } := by
  rw [parse_operations_loop]
  simp [Nat.not_lt.mpr h]

theorem parse_operations_loop_step (env : Env) (data : Nat → Nat) (length fuel : Nat)
    (s : PState) (h : s.ix < length) :
    parse_operations_loop env data length (fuel + 1) s =
      match parse_operations_body env data length s with
      | none => none
      | some (Flow.ret code s1) => some { code := code, state := s1 }
      | some (Flow.next s1) => parse_operations_loop env data length fuel s1 := by
  rw [parse_operations_loop]
  simp only [h, if_true]

/-- Decoding a run of well-formed records stored at the cursor. -/
theorem parse_operations_loop_records (env : Env) (data : Nat → Nat) (length : Nat) :
    ∀ (records : List OpRecord) (fuel : Nat) (s : PState),
      (∀ r ∈ records, r.WellFormed env s.out.signing s.out.public_key) →
      slice data s.ix (encode_records records).length = encode_records records →
      s.ix + (encode_records records).length ≤ length →
      s.op_index + records.length ≤ env.MAX_OPERATIONS_PER_GROUP →
      parse_operations_loop env data length (fuel + records.length) s =
        parse_operations_loop env data length fuel (state_after env s records) := by
  intro records
  induction records with
  | nil => intro fuel s _ _ _ _; rfl
  | cons r rs ih =>
    intro fuel s hwf hs hlen hop
    simp only [encode_records, List.length_append, List.length_cons] at hs hlen hop
    rw [← List.length_append] at hs
    obtain ⟨_, hr, hrs⟩ := slice_append_inv _ _ _ _ _ hs
    have hpos := r.encode_length_pos
    have e : fuel + (r :: rs).length = (fuel + rs.length) + 1 := by
      simp only [List.length_cons]; omega
    rw [e, parse_operations_loop_step env data length _ s (by omega),
      parse_operations_body_of_record env data length s r (hwf r (List.mem_cons_self _ _)) hr
        (by omega) (by omega)]
    simp only []
    rw [state_after_cons]
    exact ih fuel (r.step env s) (fun x hx => hwf x (List.mem_cons_of_mem _ hx)) hrs
      (by simp only [OpRecord.step]; omega) (by simp only [OpRecord.step]; omega)

/-- What the loop has read when it ends with success. -/
theorem parse_operations_loop_success_inv (env : Env) (data : Nat → Nat) (length : Nat) :
    ∀ (fuel : Nat) (s : PState) (ret : Returned),
      parse_operations_loop env data length fuel s = some ret → ret.code = 0 →
      s.ix ≤ length → s.op_index ≤ env.MAX_OPERATIONS_PER_GROUP →
      ∃ records : List OpRecord,
        (∀ r ∈ records, r.WellFormed env s.out.signing s.out.public_key) ∧
        slice data s.ix (length - s.ix) = encode_records records ∧
        s.op_index + records.length ≤ env.MAX_OPERATIONS_PER_GROUP ∧
        ret.state = state_after env s records := by
  intro fuel
  induction fuel with
  | zero => intro s ret h; simp [parse_operations_loop] at h
  | succ fuel ih =>
    intro s ret h hc hle hop
    by_cases hix : s.ix < length
    · rw [parse_operations_loop_step env data length fuel s hix] at h
      split at h
      · simp at h
      · rename_i c s1 e1
        simp only [Option.some.injEq] at h
        have := (parse_operations_body_ret_inv _ _ _ _ _ _ hle e1).1
        rw [← h] at hc
        exact absurd hc this
      · rename_i s1 e1
        obtain ⟨r, hwf, hs, hlen, hop1, rfl⟩ := parse_operations_body_next_inv _ _ _ _ _ e1
        obtain ⟨rs, hwfs, hss, hops, hst⟩ := ih _ ret h hc
          (by simp only [OpRecord.step]; omega) (by simp only [OpRecord.step]; omega)
        refine ⟨r :: rs, ?_, ?_, ?_, ?_⟩
        · intro x hx
          rcases List.mem_cons.mp hx with rfl | hx
          · exact hwf
          · exact hwfs x hx
        · simp only [OpRecord.step] at hss
          have e : length - s.ix = r.encode.length + (length - (s.ix + r.encode.length)) := by
            omega
          rw [e, slice_add, hs, hss]
          rfl
        · simp only [OpRecord.step] at hops
          simp only [List.length_cons]
          omega
        · rw [state_after_cons]; exact hst
    · rw [parse_operations_loop_end env data length fuel s (by omega)] at h
      simp only [Option.some.injEq] at h
      refine ⟨[], by simp, ?_, by simpa using hop, ?_⟩
      · have : length - s.ix = 0 := by omega
        rw [this]; rfl
      · rw [← h]; rfl

theorem parse_operations_loop_ix_le (env : Env) (data : Nat → Nat) (length : Nat) :
    ∀ (fuel : Nat) (s : PState) (ret : Returned),
      parse_operations_loop env data length fuel s = some ret → s.ix ≤ length →
      ret.state.ix ≤ length := by
  intro fuel
  induction fuel with
  | zero => intro s ret h; simp [parse_operations_loop] at h
  | succ fuel ih =>
    intro s ret h hle
    by_cases hix : s.ix < length
    · rw [parse_operations_loop_step env data length fuel s hix] at h
      split at h
      · simp at h
      · rename_i c s1 e1
        simp only [Option.some.injEq] at h
        rw [← h]
        exact (parse_operations_body_ret_inv _ _ _ _ _ _ hle e1).2
      · rename_i s1 e1
        obtain ⟨r, _, _, hlen, _, rfl⟩ := parse_operations_body_next_inv _ _ _ _ _ e1
        exact ih _ ret h hlen
    · rw [parse_operations_loop_end env data length fuel s (by omega)] at h
      simp only [Option.some.injEq] at h
      rw [← h]; exact hle

theorem parse_operations_loop_total (env : Env) (data : Nat → Nat) (length : Nat) :
    ∀ (fuel : Nat) (s : PState), env.MAX_OPERATIONS_PER_GROUP - s.op_index < fuel →
      ∃ ret, parse_operations_loop env data length fuel s = some ret := by
  intro fuel
  induction fuel with
  | zero => intro s h; omega
  | succ fuel ih =>
    intro s hfuel
    by_cases hix : s.ix < length
    · rw [parse_operations_loop_step env data length fuel s hix]
      obtain ⟨f, e1⟩ := parse_operations_body_total env data length s
      rw [e1]
      cases f with
      | ret c s1 => exact ⟨_, rfl⟩
      | next s1 =>
        obtain ⟨r, _, _, _, hop, rfl⟩ := parse_operations_body_next_inv _ _ _ _ _ e1
        exact ih _ (by simp only [OpRecord.step]; omega)
    · rw [parse_operations_loop_end env data length fuel s (by omega)]
      exact ⟨_, rfl⟩

/-! ## The decoder reads only the buffer -/

theorem NEXT_TYPE_congr (data data1 : Nat → Nat) (length : Nat)
    (hd : ∀ i, i < length → data i = data1 i) (sz ix : Nat) :
    NEXT_TYPE data length sz ix = NEXT_TYPE data1 length sz ix := by
  by_cases h : ix + sz ≤ length
  · rw [NEXT_TYPE_val data length sz ix h, NEXT_TYPE_val data1 length sz ix h,
      slice_congr data data1 sz ix (fun i _ h2 => hd i (by omega))]
  · rw [NEXT_TYPE_ret data length sz ix (by omega), NEXT_TYPE_ret data1 length sz ix (by omega)]

theorem NEXT_BYTE_congr (data data1 : Nat → Nat) (length : Nat)
    (hd : ∀ i, i < length → data i = data1 i) (ix : Nat) :
    NEXT_BYTE data length ix = NEXT_BYTE data1 length ix := by
  unfold NEXT_BYTE
  rw [NEXT_TYPE_congr data data1 length hd]

theorem PARSE_Z_congr (env : Env) (data data1 : Nat → Nat) (length : Nat)
    (hd : ∀ i, i < length → data i = data1 i) (ix : Nat) :
    PARSE_Z env data length ix = PARSE_Z env data1 length ix :=
  PARSE_Z_loop_congr env data data1 length hd _ 0 0 ix

theorem parse_operations_varints_congr (env : Env) (data data1 : Nat → Nat) (length : Nat)
    (hd : ∀ i, i < length → data i = data1 i) (s : PState) :
    parse_operations_varints env data length s =
      parse_operations_varints env data1 length s := by
  unfold parse_operations_varints
  simp only [PARSE_Z_congr env data data1 length hd]

theorem parse_operations_switch_congr (env : Env) (data data1 : Nat → Nat) (length : Nat)
    (hd : ∀ i, i < length → data i = data1 i) (tag : Int) (s : PState) :
    parse_operations_switch env data length tag s =
      parse_operations_switch env data1 length tag s := by
  unfold parse_operations_switch
  simp only [PARSE_Z_congr env data data1 length hd, NEXT_TYPE_congr data data1 length hd,
    NEXT_BYTE_congr data data1 length hd]
  split
  · split
    · rfl
    · rename_i b ix1 _
      split
      · rfl
      · split
        · rfl
        · rename_i hk
          rw [slice_congr data data1 _ ix1 (fun i _ h2 => hd i (by omega))]
  · rfl

theorem parse_operations_body_congr (env : Env) (data data1 : Nat → Nat) (length : Nat)
    (hd : ∀ i, i < length → data i = data1 i) (s : PState) :
    parse_operations_body env data length s = parse_operations_body env data1 length s := by
  unfold parse_operations_body
  simp only [NEXT_TYPE_congr data data1 length hd,
    parse_operations_varints_congr env data data1 length hd,
    parse_operations_switch_congr env data data1 length hd]

theorem parse_operations_loop_congr (env : Env) (data data1 : Nat → Nat) (length : Nat)
    (hd : ∀ i, i < length → data i = data1 i) :
    ∀ (fuel : Nat) (s : PState),
      parse_operations_loop env data length fuel s =
        parse_operations_loop env data1 length fuel s := by
  intro fuel
  induction fuel with
  | zero => intro s; rfl
  | succ fuel ih =>
    intro s
    rw [parse_operations_loop, parse_operations_loop,
      parse_operations_body_congr env data data1 length hd]
    simp only [ih]

theorem parse_operations_congr (env : Env) (data data1 : Nat → Nat) (length : Nat)
    (hd : ∀ i, i < length → data i = data1 i) (curve : Nat) (bip32_path : List Nat) :
    parse_operations env data length curve bip32_path =
      parse_operations env data1 length curve bip32_path := by
  unfold parse_operations
  simp only [NEXT_TYPE_congr data data1 length hd,
    parse_operations_loop_congr env data data1 length hd]

/-! ## Lemmas on `parse_operations` -/

theorem parse_operations_total (env : Env) (data : Nat → Nat) (length curve : Nat)
    (bip32_path : List Nat) :
    ∃ ret, parse_operations env data length curve bip32_path = some ret := by
  unfold parse_operations
  simp only []
  split
  · exact ⟨_, rfl⟩
  · split
    · exact ⟨_, rfl⟩
    · exact parse_operations_loop_total env data length _ _ (by simp)

theorem parse_operations_short (env : Env) (data : Nat → Nat) (length curve : Nat)
    (bip32_path : List Nat) (h : length < sizeof_operation_group_header) :
    parse_operations env data length curve bip32_path =
      some { code := sizeof_operation_group_header
             state := { ix := 0, op_index := 0, out := initial_out env curve bip32_path } } := by
  unfold parse_operations
  simp only []
  rw [NEXT_TYPE_ret data length _ 0 (by omega)]

theorem parse_operations_bad_magic (env : Env) (data : Nat → Nat) (length curve : Nat)
    (bip32_path : List Nat) (h : sizeof_operation_group_header ≤ length)
    (hm : data 0 ≠ env.MAGIC_BYTE_UNSAFE_OP) :
    parse_operations env data length curve bip32_path =
      some { code := 15, state := loop_start env curve bip32_path } := by
  unfold parse_operations
  simp only []
  rw [NEXT_TYPE_val data length _ 0 (by omega)]
  simp only [sizeof_operation_group_header, slice, List.getD_cons_zero, ne_eq, hm,
    not_false_eq_true, if_true, loop_start, Nat.zero_add]

theorem parse_operations_start (env : Env) (data : Nat → Nat) (length curve : Nat)
    (bip32_path : List Nat) (h : sizeof_operation_group_header ≤ length)
    (hm : data 0 = env.MAGIC_BYTE_UNSAFE_OP) :
    parse_operations env data length curve bip32_path =
      parse_operations_loop env data length (env.MAX_OPERATIONS_PER_GROUP + 1)
        (loop_start env curve bip32_path) := by
  unfold parse_operations
  simp only []
  rw [NEXT_TYPE_val data length _ 0 (by omega)]
  simp only [sizeof_operation_group_header, slice, List.getD_cons_zero, ne_eq, hm,
    not_true_eq_false, if_false, loop_start, Nat.zero_add]

theorem parse_operations_ix_le (env : Env) (data : Nat → Nat) (length curve : Nat)
    (bip32_path : List Nat) (ret : Returned)
    (h : parse_operations env data length curve bip32_path = some ret) :
    ret.state.ix ≤ length := by
  by_cases hl : sizeof_operation_group_header ≤ length
  · by_cases hm : data 0 = env.MAGIC_BYTE_UNSAFE_OP
    · rw [parse_operations_start env data length curve bip32_path hl hm] at h
      exact parse_operations_loop_ix_le env data length _ _ ret h hl
    · rw [parse_operations_bad_magic env data length curve bip32_path hl hm] at h
      simp only [Option.some.injEq] at h
      rw [← h]; exact hl
  · rw [parse_operations_short env data length curve bip32_path (by omega)] at h
    simp only [Option.some.injEq] at h
    rw [← h]; exact Nat.zero_le _

/-- The layout of a buffer that starts with a group header, a run of records
and further bytes. -/
theorem group_layout (env : Env) (data : Nat → Nat) (length : Nat) (hash : List Nat)
    (records : List OpRecord) (tail : List Nat) (hh : hash.length = 32)
    (hbuf : slice data 0 length =
      env.MAGIC_BYTE_UNSAFE_OP :: (hash ++ (encode_records records ++ tail))) :
    length = sizeof_operation_group_header + (encode_records records).length + tail.length ∧
      data 0 = env.MAGIC_BYTE_UNSAFE_OP ∧
      slice data sizeof_operation_group_header (encode_records records).length =
        encode_records records ∧
      slice data (sizeof_operation_group_header + (encode_records records).length) tail.length =
        tail := by
  have hbuf1 : slice data 0 length =
      [env.MAGIC_BYTE_UNSAFE_OP] ++ (hash ++ (encode_records records ++ tail)) := hbuf
  obtain ⟨h1, h2, h3⟩ := slice_append_inv _ _ _ _ _ hbuf1
  obtain ⟨h4, h5, h6⟩ := slice_append_inv _ _ _ _ _ h3
  obtain ⟨h7, h8, h9⟩ := slice_append_inv _ _ _ _ _ h6
  simp only [List.length_append, List.length_singleton, hh, Nat.zero_add] at h1 h2 h8 h9
  refine ⟨by unfold sizeof_operation_group_header; omega, by simpa [slice] using h2, ?_, ?_⟩
  · exact h8
  · exact h9

/-- Decoding the header and a run of well-formed records at the start of the
buffer. -/
theorem parse_operations_after_records (env : Env) (data : Nat → Nat) (length curve : Nat)
    (bip32_path : List Nat) (hash : List Nat) (records : List OpRecord) (tail : List Nat)
    (hh : hash.length = 32)
    (hwf : ∀ r ∈ records, r.WellFormed env (initial_out env curve bip32_path).signing
      (initial_out env curve bip32_path).public_key)
    (hk : records.length ≤ env.MAX_OPERATIONS_PER_GROUP)
    (hbuf : slice data 0 length =
      env.MAGIC_BYTE_UNSAFE_OP :: (hash ++ (encode_records records ++ tail))) :
    parse_operations env data length curve bip32_path =
      parse_operations_loop env data length (env.MAX_OPERATIONS_PER_GROUP - records.length + 1)
        (state_after env (loop_start env curve bip32_path) records) := by
  obtain ⟨hl, hm, hr, _⟩ := group_layout env data length hash records tail hh hbuf
  rw [parse_operations_start env data length curve bip32_path (by omega) hm]
  have e : env.MAX_OPERATIONS_PER_GROUP + 1 =
      (env.MAX_OPERATIONS_PER_GROUP - records.length + 1) + records.length := by omega
  rw [e]
  exact parse_operations_loop_records env data length records _ _ hwf hr
    (by simp only [loop_start]; omega) (by simp only [loop_start]; omega)

theorem encode_records_append (a b : List OpRecord) :
    encode_records (a ++ b) = encode_records a ++ encode_records b := by
  induction a with
  | nil => rfl
  | cons r rs ih => simp [encode_records, ih]

theorem initial_out_operations (env : Env) (curve : Nat) (bip32_path : List Nat) :
    (initial_out env curve bip32_path).operations =
      [] ++ List.replicate env.MAX_OPERATIONS_PER_GROUP (empty_operation env) := rfl

/-- A buffer made of a header and at most `MAX_OPERATIONS_PER_GROUP`
well-formed records is decoded with success, record after record. -/
theorem parse_operations_of_group (env : Env) (data : Nat → Nat) (length curve : Nat)
    (bip32_path : List Nat) (hash : List Nat) (records : List OpRecord)
    (hh : hash.length = 32)
    (hwf : ∀ r ∈ records, r.WellFormed env (initial_out env curve bip32_path).signing
      (initial_out env curve bip32_path).public_key)
    (hk : records.length ≤ env.MAX_OPERATIONS_PER_GROUP)
    (hbuf : slice data 0 length = encode_group env hash records) :
    parse_operations env data length curve bip32_path =
      some { code := 0, state := state_after env (loop_start env curve bip32_path) records } := by
  have hbuf1 : slice data 0 length =
      env.MAGIC_BYTE_UNSAFE_OP :: (hash ++ (encode_records records ++ [])) := by
    rw [List.append_nil]; exact hbuf
  rw [parse_operations_after_records env data length curve bip32_path hash records [] hh hwf hk
    hbuf1]
  obtain ⟨hl, _, _, _⟩ := group_layout env data length hash records [] hh hbuf1
  exact parse_operations_loop_end env data length _ _
    (by rw [state_after_ix]; simp only [loop_start, List.length_nil] at hl ⊢; omega)

/-- A successful decode has read a header and a whole number of well-formed
records that fill the buffer. -/
theorem parse_operations_success_inv (env : Env) (data : Nat → Nat) (length curve : Nat)
    (bip32_path : List Nat) (ret : Returned)
    (h : parse_operations env data length curve bip32_path = some ret) (hc : ret.code = 0) :
    ∃ (hash : List Nat) (records : List OpRecord), hash.length = 32 ∧
      records.length ≤ env.MAX_OPERATIONS_PER_GROUP ∧
      (∀ r ∈ records, r.WellFormed env (initial_out env curve bip32_path).signing
        (initial_out env curve bip32_path).public_key) ∧
      slice data 0 length = encode_group env hash records ∧
      ret.state = state_after env (loop_start env curve bip32_path) records := by
  by_cases hl : sizeof_operation_group_header ≤ length
  · by_cases hm : data 0 = env.MAGIC_BYTE_UNSAFE_OP
    · rw [parse_operations_start env data length curve bip32_path hl hm] at h
      obtain ⟨records, hwf, hs, hk, hst⟩ :=
        parse_operations_loop_success_inv env data length _ _ ret h hc hl (Nat.zero_le _)
      refine ⟨slice data 1 32, records, slice_length _ _ _, by simpa [loop_start] using hk, hwf,
        ?_, hst⟩
      simp only [loop_start, sizeof_operation_group_header] at hs hl
      have e : 1 + (32 + (length - (1 + 32))) = length := by omega
      have h1 := slice_add data 1 (32 + (length - (1 + 32))) 0
      have h2 := slice_add data 32 (length - (1 + 32)) (0 + 1)
      rw [e] at h1
      rw [h1, h2]
      simp only [Nat.zero_add, hs, encode_group, slice, hm, List.singleton_append]
    · rw [parse_operations_bad_magic env data length curve bip32_path hl hm] at h
      simp only [Option.some.injEq] at h
      rw [← h] at hc
      simp at hc
  · rw [parse_operations_short env data length curve bip32_path (by omega)] at h
    simp only [Option.some.injEq] at h
    rw [← h] at hc
    simp [sizeof_operation_group_header] at hc

/-- With `MAX_OPERATIONS_PER_GROUP` records decoded and bytes left, the decoder
returns 55. -/
theorem parse_operations_over_capacity (env : Env) (data : Nat → Nat) (length curve : Nat)
    (bip32_path : List Nat) (hash : List Nat) (records : List OpRecord) (tail : List Nat)
    (hh : hash.length = 32)
    (hwf : ∀ r ∈ records, r.WellFormed env (initial_out env curve bip32_path).signing
      (initial_out env curve bip32_path).public_key)
    (hk : env.MAX_OPERATIONS_PER_GROUP ≤ records.length)
    (hmore : env.MAX_OPERATIONS_PER_GROUP < records.length ∨ tail ≠ [])
    (hbuf : slice data 0 length =
      env.MAGIC_BYTE_UNSAFE_OP :: (hash ++ (encode_records records ++ tail))) :
    parse_operations env data length curve bip32_path =
      some { code := 55
             state := state_after env (loop_start env curve bip32_path)
               (records.take env.MAX_OPERATIONS_PER_GROUP) } := by
  have hsplit : encode_records records ++ tail =
      encode_records (records.take env.MAX_OPERATIONS_PER_GROUP) ++
        (encode_records (records.drop env.MAX_OPERATIONS_PER_GROUP) ++ tail) := by
    rw [← List.append_assoc, ← encode_records_append, List.take_append_drop]
  rw [hsplit] at hbuf
  have hlt : (records.take env.MAX_OPERATIONS_PER_GROUP).length =
      env.MAX_OPERATIONS_PER_GROUP := by
    rw [List.length_take]; omega
  have hne : 0 < (encode_records (records.drop env.MAX_OPERATIONS_PER_GROUP) ++ tail).length := by
    rcases hmore with h1 | h1
    · have hd : 0 < (records.drop env.MAX_OPERATIONS_PER_GROUP).length := by
        rw [List.length_drop]; omega
      cases hrd : records.drop env.MAX_OPERATIONS_PER_GROUP with
      | nil => rw [hrd] at hd; simp at hd
      | cons r rs =>
        have := r.encode_length_pos
        simp only [encode_records, List.length_append]
        omega
    · have : 0 < tail.length := List.length_pos.mpr h1
      simp only [List.length_append]
      omega
  rw [parse_operations_after_records env data length curve bip32_path hash _ _ hh
    (fun r hr => hwf r (List.mem_of_mem_take hr)) (by omega) hbuf]
  obtain ⟨hl, _, _, _⟩ := group_layout env data length hash _ _ hh hbuf
  rw [hlt, Nat.sub_self, parse_operations_loop_step env data length 0 _
    (by rw [state_after_ix]; simp only [loop_start]; omega)]
  unfold parse_operations_body
  simp [state_after_op_index, loop_start, hlt]

/-- C1: `parse_operations` always returns, and when it returns 0 the first
byte of the buffer is the unsafe-operation-group marker, the cursor is at the
end of the buffer, and the buffer is the 33-byte group header followed by a
whole number of complete (well-formed) operation records; so a buffer that is
not of this form yields a non-zero code. -/
theorem parse_operations_success_only_on_whole_records (env : Env) (data : Nat → Nat)
    (length curve : Nat) (bip32_path : List Nat) :
    ∃ ret, parse_operations env data length curve bip32_path = some ret ∧
      (ret.code = 0 →
        data 0 = env.MAGIC_BYTE_UNSAFE_OP ∧ ret.state.ix = length ∧
        ∃ (hash : List Nat) (records : List OpRecord), hash.length = 32 ∧
          records.length ≤ env.MAX_OPERATIONS_PER_GROUP ∧
          (∀ r ∈ records, r.WellFormed env (initial_out env curve bip32_path).signing
            (initial_out env curve bip32_path).public_key) ∧
          slice data 0 length = encode_group env hash records) ∧
      ((¬ ∃ (hash : List Nat) (records : List OpRecord), hash.length = 32 ∧
          (∀ r ∈ records, r.WellFormed env (initial_out env curve bip32_path).signing
            (initial_out env curve bip32_path).public_key) ∧
          slice data 0 length = encode_group env hash records) → ret.code ≠ 0) := by
  obtain ⟨ret, h⟩ := parse_operations_total env data length curve bip32_path
  refine ⟨ret, h, ?_, ?_⟩
  · intro hc
    obtain ⟨hash, records, hh, hk, hwf, hbuf, hst⟩ :=
      parse_operations_success_inv env data length curve bip32_path ret h hc
    have hbuf1 : slice data 0 length =
        env.MAGIC_BYTE_UNSAFE_OP :: (hash ++ (encode_records records ++ [])) := by
      rw [List.append_nil]; exact hbuf
    obtain ⟨hl, hm, _, _⟩ := group_layout env data length hash records [] hh hbuf1
    refine ⟨hm, ?_, hash, records, hh, hk, hwf, hbuf⟩
    rw [hst, state_after_ix]
    simp only [loop_start, List.length_nil] at hl ⊢
    omega
  · intro hno hc
    obtain ⟨hash, records, hh, _, hwf, hbuf, _⟩ :=
      parse_operations_success_inv env data length curve bip32_path ret h hc
    exact hno ⟨hash, records, hh, hwf, hbuf⟩

theorem same_but_discarded_step (env : Env) (s : PState) (r r1 : OpRecord)
    (h : same_but_discarded r r1) : r.step env s = r1.step env s := by
  obtain ⟨h1, h2, h3, h4, h5, h6, h7⟩ := h
  have ha : r.apply env = r1.apply env := by
    funext cur
    simp only [OpRecord.apply, h1, h2, h4]
  have hl : r.encode.length = r1.encode.length := by
    simp only [OpRecord.encode, OpRecord.varints, List.length_cons, List.length_append, h2, h3,
      h4, h5, h6, h7]
  simp only [OpRecord.step, ha, hl, h3]

theorem same_but_discarded_state_after (env : Env) (records records1 : List OpRecord)
    (h : List.Forall₂ same_but_discarded records records1) :
    ∀ s, state_after env s records = state_after env s records1 := by
  induction h with
  | nil => intro s; rfl
  | cons hr _ ih =>
    intro s
    rw [state_after_cons, state_after_cons, same_but_discarded_step env s _ _ hr, ih]

/-- Supporting fact for C9: a buffer made of a group header with the correct
marker followed by `k ≤ MAX_OPERATIONS_PER_GROUP` well-formed records is
decoded with code 0, the cursor at the end, and the output fully populated in
input order: entry `i < k` holds what record `i` writes to an empty entry
(`OpRecord.apply`: its tag and decoded source; for a transaction the value
`PARSE_Z` reads for the amount, which is the encoded amount when the varint
has at most five bytes and encodes less than `2 ^ 31`, and the decoded
destination; for a delegation an implicit destination with the record's curve
code and hash), every entry from `k` on is empty with tag
`OPERATION_TAG_NONE`, and the signing identity and key are the ones the
oracle derives from the curve and the path. -/
theorem parse_operations_populates_output (env : Env) (data : Nat → Nat) (length curve : Nat)
    (bip32_path : List Nat) (hash : List Nat) (records : List OpRecord)
    (hh : hash.length = 32) (hk : records.length ≤ env.MAX_OPERATIONS_PER_GROUP)
    (hwf : ∀ r ∈ records, r.WellFormed env (initial_out env curve bip32_path).signing
      (initial_out env curve bip32_path).public_key)
    (hbuf : slice data 0 length = encode_group env hash records) :
    ∃ ret, parse_operations env data length curve bip32_path = some ret ∧ ret.code = 0 ∧
      ret.state.ix = length ∧
      ret.state.out.operations =
        records.map (fun r => r.apply env (empty_operation env)) ++
          List.replicate (env.MAX_OPERATIONS_PER_GROUP - records.length) (empty_operation env) ∧
      (∀ (i : Nat) (r : OpRecord), records[i]? = some r →
        ∃ op : parsed_operation, ret.state.out.operations[i]? = some op ∧ op.tag = (r.tag : Int) ∧
          op.source = (parse_contract env r.source).2 ∧
          (∀ amount destination params,
            r.contents = Contents.transaction amount destination params →
            op.amount = z_value env amount ∧
              (amount.length ≤ 5 → z_ideal amount < 2 ^ 31 → op.amount = z_ideal amount) ∧
              op.destination = (parse_contract env destination).2) ∧
          (∀ present curve_code h, r.contents = Contents.delegation present curve_code h →
            op.destination = { originated := 0, curve_code := curve_code, hash := h })) ∧
      (∀ i : Nat, records.length ≤ i → i < env.MAX_OPERATIONS_PER_GROUP →
        ∃ op : parsed_operation,
          ret.state.out.operations[i]? = some op ∧ op.tag = env.OPERATION_TAG_NONE) ∧
      ret.state.out.signing =
        { originated := 0
          curve_code := env.curve_to_curve_code curve
          hash := (env.public_key_hash curve (env.generate_key_pair curve bip32_path)).1 } ∧
      ret.state.out.public_key =
        (env.public_key_hash curve (env.generate_key_pair curve bip32_path)).2 := by
  have hops : (state_after env (loop_start env curve bip32_path) records).out.operations =
      records.map (fun r => r.apply env (empty_operation env)) ++
        List.replicate (env.MAX_OPERATIONS_PER_GROUP - records.length) (empty_operation env) := by
    have := state_after_operations env records (loop_start env curve bip32_path) []
      (empty_operation env) env.MAX_OPERATIONS_PER_GROUP
      (initial_out_operations env curve bip32_path) rfl hk
    simpa using this
  have hbuf1 : slice data 0 length =
      env.MAGIC_BYTE_UNSAFE_OP :: (hash ++ (encode_records records ++ [])) := by
    rw [List.append_nil]; exact hbuf
  obtain ⟨hl, _, _, _⟩ := group_layout env data length hash records [] hh hbuf1
  refine ⟨_, parse_operations_of_group env data length curve bip32_path hash records hh hwf hk
    hbuf, rfl, ?_, hops, ?_, ?_, ?_, ?_⟩
  · simp only [state_after_ix, loop_start, List.length_nil] at hl ⊢
    omega
  · intro i r hi
    have hlt : i < records.length := by
      rcases Nat.lt_or_ge i records.length with h | h
      · exact h
      · rw [List.getElem?_eq_none h] at hi; simp at hi
    refine ⟨r.apply env (empty_operation env), ?_, ?_, ?_, ?_, ?_⟩
    · simp only [hops]
      rw [List.getElem?_append_left (by simpa using hlt), List.getElem?_map, hi]
      rfl
    · unfold OpRecord.apply
      cases r.contents <;> rfl
    · unfold OpRecord.apply
      cases r.contents <;> rfl
    · intro amount destination params hc
      simp only [OpRecord.apply, hc, Contents.apply_transaction, and_true, true_and]
      exact fun h1 h2 => z_value_exact env amount h1 h2
    · intro present curve_code h hc
      simp only [OpRecord.apply, hc, Contents.apply_delegation]
  · intro i h1 h2
    refine ⟨empty_operation env, ?_, rfl⟩
    simp only [hops]
    rw [List.getElem?_append_right (by simpa using h1)]
    simp only [List.length_map]
    rw [List.getElem?_replicate]
    simp only [ite_eq_left_iff, not_lt, reduceCtorEq, imp_false, not_le]
    omega
  · rw [state_after_signing]; rfl
  · rw [state_after_public_key]; rfl

theorem parse_operations_populates_output_witness :
    ∃ ret, parse_operations sampleEnv (ofList sampleGroup) sampleGroup.length 0 samplePath =
        some ret ∧
      ret.code = 0 ∧ ret.state.out.operations.map (fun op => op.tag) = [7, 10, 8] :=
  let ⟨ret, h1, h2, _, h4, _⟩ := parse_operations_populates_output sampleEnv
    (ofList sampleGroup) sampleGroup.length 0 samplePath
    sampleHash [sampleReveal, sampleDelegation, sampleTransaction] (by decide) (by decide)
    (by decide) (slice_ofList _)
  ⟨ret, h1, h2, by rw [h4]; decide⟩

theorem z_value_sampleVarint31 (env : Env) :
    z_value env sampleVarint31 = int_to_uint64 (wrap_int32 (env.shl_undefined 8 28)) := by
  have h0 : ∀ s, s < 32 → int_to_uint64 (shl_int env 0 s) = 0 := by
    intro s hs
    rw [shl_int_exact env 0 s hs (by simp)]
    simp [int_to_uint64]
  have h8 : shl_int env 8 28 = wrap_int32 (env.shl_undefined 8 28) := by
    unfold shl_int
    rw [if_neg (by decide)]
  have e1 : (128 &&& 127 : Nat) = 0 := by decide
  have e2 : (8 &&& 127 : Nat) = 8 := by decide
  simp only [z_value, sampleVarint31, z_fold]
  norm_num
  simp only [e1, e2, h0 0 (by decide), h0 7 (by decide), h0 14 (by decide), h0 21 (by decide),
    h8, Nat.zero_or]

theorem z_value_sampleVarint31_ne (env : Env) : z_value env sampleVarint31 % 2 ^ 64 ≠ 2 ^ 31 := by
  rw [z_value_sampleVarint31]
  unfold int_to_uint64 wrap_int32
  omega

theorem sampleTransaction31_wellFormed (u : Nat → Nat → Int) :
    sampleTransaction31.WellFormed { sampleEnv with shl_undefined := u }
      (initial_out { sampleEnv with shl_undefined := u } 0 samplePath).signing
      (initial_out { sampleEnv with shl_undefined := u } 0 samplePath).public_key :=
  ⟨rfl, rfl, rfl, rfl, rfl, rfl, rfl, rfl, rfl⟩

/-- C9: the amount stored for a transaction is not the amount the record
encodes.  The group `sampleGroup31` is a header with the correct marker
followed by one well-formed transaction record whose amount varint,
80 80 80 80 08, encodes `2 ^ 31`.  `parse_operations` returns 0 on it and
populates the first entry with the tag of the record, but the amount it stores
is `0xFFFFFFFF80000000`; whatever the `int` shift of `PARSE_Z` yields where C
leaves it undefined, the call returns 0 and the amount stored is not
`2 ^ 31`. -/
theorem parse_operations_amount_not_decoded :
    sampleGroup31 = encode_group sampleEnv sampleHash [sampleTransaction31] ∧
    sampleTransaction31.WellFormed sampleEnv (initial_out sampleEnv 0 samplePath).signing
      (initial_out sampleEnv 0 samplePath).public_key ∧
    sampleTransaction31.contents = Contents.transaction sampleVarint31 sampleOriginated 0 ∧
    is_varint sampleVarint31 = true ∧ z_ideal sampleVarint31 = 2 ^ 31 ∧
    (parse_operations sampleEnv (ofList sampleGroup31) sampleGroup31.length 0 samplePath).map
        (fun ret => (ret.code, ret.state.out.operations.map (fun op => (op.tag, op.amount)))) =
      some (0, [(8, 0xFFFFFFFF80000000), (-1, 0), (-1, 0)]) ∧
    (∀ u : Nat → Nat → Int, ∃ (ret : Returned) (op : parsed_operation),
      parse_operations { sampleEnv with shl_undefined := u } (ofList sampleGroup31)
        sampleGroup31.length 0 samplePath = some ret ∧
      ret.code = 0 ∧ ret.state.out.operations[0]? = some op ∧ op.tag = 8 ∧
      op.amount ≠ z_ideal sampleVarint31) := by
  refine ⟨rfl, by decide, rfl, by decide, by decide, by rfl, ?_⟩
  intro u
  obtain ⟨ret, h1, h2, _, _, h5, _⟩ := parse_operations_populates_output
    { sampleEnv with shl_undefined := u } (ofList sampleGroup31) sampleGroup31.length 0
    samplePath sampleHash [sampleTransaction31] (by decide) (show 1 ≤ 3 by decide)
    (by
      intro r hr
      rw [List.mem_singleton] at hr
      subst hr
      exact sampleTransaction31_wellFormed u)
    (slice_ofList sampleGroup31)
  obtain ⟨op, ho, ht, _, ha, _⟩ := h5 0 sampleTransaction31 rfl
  refine ⟨ret, op, h1, h2, ho, ht, ?_⟩
  rw [(ha sampleVarint31 sampleOriginated 0 rfl).1]
  have hz : z_ideal sampleVarint31 = 2 ^ 31 := by decide
  rw [hz]
  intro h
  apply z_value_sampleVarint31_ne { sampleEnv with shl_undefined := u }
  rw [h]
  norm_num

/-- C5: exceeding the operation capacity is a failure, not a truncation.  For
a buffer that starts with a valid header and well-formed records: with
exactly `MAX_OPERATIONS_PER_GROUP` records followed by at least one more byte
the code is 55; with exactly `MAX_OPERATIONS_PER_GROUP` records and nothing
after them the code is 0; with more than `MAX_OPERATIONS_PER_GROUP` records
(whatever follows) the code is 55, never 0. -/
theorem parse_operations_capacity (env : Env) (data : Nat → Nat) (length curve : Nat)
    (bip32_path : List Nat) (hash : List Nat) (records : List OpRecord) (tail : List Nat)
    (hh : hash.length = 32)
    (hwf : ∀ r ∈ records, r.WellFormed env (initial_out env curve bip32_path).signing
      (initial_out env curve bip32_path).public_key)
    (hbuf : slice data 0 length =
      env.MAGIC_BYTE_UNSAFE_OP :: (hash ++ (encode_records records ++ tail))) :
    (records.length = env.MAX_OPERATIONS_PER_GROUP → tail ≠ [] →
      ∃ st, parse_operations env data length curve bip32_path = some { code := 55, state := st }) ∧
    (records.length = env.MAX_OPERATIONS_PER_GROUP → tail = [] →
      ∃ st, parse_operations env data length curve bip32_path = some { code := 0, state := st }) ∧
    (env.MAX_OPERATIONS_PER_GROUP < records.length →
      ∃ st, parse_operations env data length curve bip32_path = some { code := 55, state := st })
    := by
  refine ⟨?_, ?_, ?_⟩
  · intro hk ht
    exact ⟨_, parse_operations_over_capacity env data length curve bip32_path hash records tail
      hh hwf (by omega) (Or.inr ht) hbuf⟩
  · intro hk ht
    subst ht
    rw [List.append_nil] at hbuf
    exact ⟨_, parse_operations_of_group env data length curve bip32_path hash records hh hwf
      (by omega) hbuf⟩
  · intro hk
    exact ⟨_, parse_operations_over_capacity env data length curve bip32_path hash records tail
      hh hwf (by omega) (Or.inl hk) hbuf⟩

theorem parse_operations_capacity_witness :
    ∃ st, parse_operations sampleEnv
        (ofList (sampleEnv.MAGIC_BYTE_UNSAFE_OP :: (sampleHash ++
          (encode_records [sampleReveal, sampleDelegation, sampleTransaction] ++ [8]))))
        (sampleEnv.MAGIC_BYTE_UNSAFE_OP :: (sampleHash ++
          (encode_records [sampleReveal, sampleDelegation, sampleTransaction] ++ [8]))).length
        0 samplePath = some { code := 55, state := st } :=
  (parse_operations_capacity sampleEnv _ _ 0 samplePath sampleHash
    [sampleReveal, sampleDelegation, sampleTransaction] [8] (by decide) (by decide)
    (slice_ofList _)).1 (by decide) (by decide)

/-- Supporting fact for C10: on every buffer on which `parse_operations`
succeeds, the buffer is a header followed by records such that `total_fee` is the sum modulo `2 ^ 64` of
the values read for the fee varints of the records (which are the integers
the varints encode when each has at most five bytes and encodes less than
`2 ^ 31`), and the counter, gas limit and storage limit varints have no effect
on the result: a buffer with the same header whose records differ only in the
values of those three varints (each keeping its encoded length) yields the
same code and the same state, hence the same output structure. -/
theorem parse_operations_fee_and_discarded_varints (env : Env) (data : Nat → Nat)
    (length curve : Nat) (bip32_path : List Nat) (ret : Returned)
    (h : parse_operations env data length curve bip32_path = some ret) (hc : ret.code = 0) :
    ∃ (hash : List Nat) (records : List OpRecord), hash.length = 32 ∧
      (∀ r ∈ records, r.WellFormed env (initial_out env curve bip32_path).signing
        (initial_out env curve bip32_path).public_key) ∧
      slice data 0 length = encode_group env hash records ∧
      ret.state.out.total_fee = (records.map (fun r => z_value env r.fee)).sum % 2 ^ 64 ∧
      ((∀ r ∈ records, r.fee.length ≤ 5 ∧ z_ideal r.fee < 2 ^ 31) →
        ret.state.out.total_fee = (records.map (fun r => z_ideal r.fee)).sum % 2 ^ 64) ∧
      ∀ (data1 : Nat → Nat) (length1 : Nat) (records1 : List OpRecord),
        List.Forall₂ same_but_discarded records records1 →
        (∀ r ∈ records1, r.WellFormed env (initial_out env curve bip32_path).signing
          (initial_out env curve bip32_path).public_key) →
        slice data1 0 length1 = encode_group env hash records1 →
        parse_operations env data1 length1 curve bip32_path = some ret := by
  obtain ⟨hash, records, hh, hk, hwf, hbuf, hst⟩ :=
    parse_operations_success_inv env data length curve bip32_path ret h hc
  have hfee : ret.state.out.total_fee =
      (records.map (fun r => z_value env r.fee)).sum % 2 ^ 64 := by
    rw [hst, state_after_total_fee]
    split
    · rename_i h0; subst h0; rfl
    · simp only [loop_start, initial_out, compute_pkh, Nat.zero_add]
  refine ⟨hash, records, hh, hwf, hbuf, hfee, ?_, ?_⟩
  · intro hsmall
    rw [hfee]
    have : records.map (fun r => z_value env r.fee) = records.map (fun r => z_ideal r.fee) :=
      List.map_congr_left (fun r hr => z_value_exact env r.fee (hsmall r hr).1 (hsmall r hr).2)
    rw [this]
  · intro data1 length1 records1 hsame hwf1 hbuf1
    rw [parse_operations_of_group env data1 length1 curve bip32_path hash records1 hh hwf1
      (by rw [← hsame.length_eq]; exact hk) hbuf1,
      ← same_but_discarded_state_after env records records1 hsame, ← hst]
    cases ret
    simp only [] at hc
    subst hc
    rfl

theorem parse_operations_fee_and_discarded_varints_witness :
    ∃ (hash : List Nat) (records : List OpRecord), hash.length = 32 ∧
      slice (ofList sampleGroup) 0 sampleGroup.length = encode_group sampleEnv hash records ∧
      (state_after sampleEnv (loop_start sampleEnv 0 samplePath)
        [sampleReveal, sampleDelegation, sampleTransaction]).out.total_fee =
        (records.map (fun r => z_value sampleEnv r.fee)).sum % 2 ^ 64 :=
  let ⟨hash, records, h1, _, h3, h4, _, _⟩ :=
    parse_operations_fee_and_discarded_varints sampleEnv (ofList sampleGroup)
      sampleGroup.length 0 samplePath
      { code := 0
        state := state_after sampleEnv (loop_start sampleEnv 0 samplePath)
          [sampleReveal, sampleDelegation, sampleTransaction] }
      (parse_operations_of_group sampleEnv _ _ 0 samplePath sampleHash
        [sampleReveal, sampleDelegation, sampleTransaction] (by decide) (by decide) (by decide)
        (slice_ofList _))
      rfl
  ⟨hash, records, h1, h3, h4⟩

/-- C10: the total fee is not the sum of the fees the records encode.  The
group `sampleGroup31` holds one well-formed record whose fee varint,
80 80 80 80 08, encodes `2 ^ 31`, so the sum of the fees modulo `2 ^ 64` is
`2 ^ 31`.  `parse_operations` succeeds on it with `total_fee` equal to
`0xFFFFFFFF80000000`; whatever the `int` shift of `PARSE_Z` yields where C
leaves it undefined, the call succeeds and `total_fee` is not that sum. -/
theorem parse_operations_total_fee_not_sum :
    sampleGroup31 = encode_group sampleEnv sampleHash [sampleTransaction31] ∧
    sampleTransaction31.fee = sampleVarint31 ∧ is_varint sampleVarint31 = true ∧
    ([sampleTransaction31].map (fun r => z_ideal r.fee)).sum % 2 ^ 64 = 2 ^ 31 ∧
    (parse_operations sampleEnv (ofList sampleGroup31) sampleGroup31.length 0 samplePath).map
        (fun ret => (ret.code, ret.state.out.total_fee)) =
      some (0, 0xFFFFFFFF80000000) ∧
    (∀ u : Nat → Nat → Int, ∃ ret : Returned,
      parse_operations { sampleEnv with shl_undefined := u } (ofList sampleGroup31)
        sampleGroup31.length 0 samplePath = some ret ∧
      ret.code = 0 ∧
      ret.state.out.total_fee ≠
        ([sampleTransaction31].map (fun r => z_ideal r.fee)).sum % 2 ^ 64) := by
  refine ⟨rfl, rfl, by decide, by decide, by rfl, ?_⟩
  intro u
  have h := parse_operations_of_group { sampleEnv with shl_undefined := u }
    (ofList sampleGroup31) sampleGroup31.length 0 samplePath sampleHash [sampleTransaction31]
    (by decide)
    (by
      intro r hr
      rw [List.mem_singleton] at hr
      subst hr
      exact sampleTransaction31_wellFormed u)
    (show 1 ≤ 3 by decide) (slice_ofList sampleGroup31)
  refine ⟨_, h, rfl, ?_⟩
  have hs : ([sampleTransaction31].map (fun r => z_ideal r.fee)).sum % 2 ^ 64 = 2 ^ 31 := by
    decide
  rw [hs]
  simp only [state_after_total_fee, reduceCtorEq, if_false, List.map_cons, List.map_nil,
    List.sum_cons, List.sum_nil, Nat.add_zero]
  have hz := z_value_sampleVarint31_ne { sampleEnv with shl_undefined := u }
  have e : (loop_start { sampleEnv with shl_undefined := u } 0 samplePath).out.total_fee = 0 :=
    rfl
  rw [e, Nat.zero_add]
  exact hz

/-! ## Decoding up to the `switch` statement of a record -/

theorem parse_operations_at_switch (env : Env) (data : Nat → Nat) (length curve : Nat)
    (bip32_path : List Nat) (hash : List Nat) (records : List OpRecord) (hd : OpHead)
    (rest : List Nat)
    (h : RecordAt env data length curve bip32_path hash records hd rest)
    (hk : records.length < env.MAX_OPERATIONS_PER_GROUP) :
    parse_operations env data length curve bip32_path =
      loop_continue env data length (env.MAX_OPERATIONS_PER_GROUP - records.length)
        (after_switch (parse_operations_switch env data length (hd.tag : Int)
          (reached_state env curve bip32_path records hd))) ∧
      (reached_state env curve bip32_path records hd).ix + rest.length = length ∧
      slice data (reached_state env curve bip32_path records hd).ix rest.length = rest := by
  obtain ⟨hh, hwf, ⟨hsrc, h1, h2, h3, h4⟩, hbuf⟩ := h
  obtain ⟨hl, _, _, ht⟩ := group_layout env data length hash records _ hh hbuf
  obtain ⟨hl2, hhd, hrest⟩ := slice_append_inv _ _ _ _ _ ht
  have hix : (state_after env (loop_start env curve bip32_path) records).ix =
      sizeof_operation_group_header + (encode_records records).length := by
    rw [state_after_ix]; rfl
  refine ⟨?_, ?_, ?_⟩
  · rw [parse_operations_after_records env data length curve bip32_path hash records _ hh hwf
      (by omega) hbuf,
      parse_operations_loop_step env data length _ _ (by
        rw [hix]
        have : 0 < hd.encode.length := by simp [OpHead.encode]
        simp only [List.length_append] at hl
        omega),
      parse_operations_body_to_switch env data length _ hd.tag hd.source hd.fee hd.counter
        hd.gas_limit hd.storage_limit hsrc h1 h2 h3 h4 (by rw [hix]; exact hhd)
        (by rw [hix]; simp only [List.length_append] at hl; exact (by
          have : (hd.tag :: (hd.source ++ (hd.fee ++ (hd.counter ++
            (hd.gas_limit ++ hd.storage_limit))))).length = hd.encode.length := rfl
          omega))
        (by rw [state_after_op_index]; simp only [loop_start]; omega)]
    unfold reached_state OpHead.encode
    generalize parse_operations_switch env data length (hd.tag : Int) _ = sw
    cases sw with
    | none => rfl
    | some f => cases f <;> rfl
  · simp only [reached_state, switch_state, hix]
    simp only [List.length_append] at hl
    omega
  · simp only [reached_state, switch_state, hix]
    exact hrest

theorem parse_operations_switch_reveal (env : Env) (data : Nat → Nat) (length : Nat)
    (tag : Int) (s : PState) (ht : tag = env.OPERATION_TAG_REVEAL) :
    parse_operations_switch env data length tag s =
      if length ≤ s.ix then some (Flow.ret 1 s)
      else if data s.ix ≠ s.out.signing.curve_code then
        some (Flow.ret 64 { s with ix := s.ix + 1 })
      else if s.ix + 1 + s.out.public_key.W_len > length then
        some (Flow.ret s.out.public_key.W_len { s with ix := s.ix + 1 })
      else if s.out.public_key.W ≠ slice data (s.ix + 1) s.out.public_key.W_len then
        some (Flow.ret 4 { s with ix := s.ix + 1 })
      else some (Flow.next { s with ix := s.ix + 1 + s.out.public_key.W_len }) := by
  unfold parse_operations_switch
  simp only [ht, if_true]
  by_cases hix : s.ix < length
  · rw [NEXT_BYTE_val data length s.ix hix]
    simp only [Nat.not_le.mpr hix, if_false]
  · rw [NEXT_BYTE_ret data length s.ix (by omega)]
    simp only [Nat.not_lt.mp hix, if_true]

theorem parse_operations_switch_default (env : Env) (data : Nat → Nat) (length : Nat)
    (tag : Int) (s : PState) (h1 : tag ≠ env.OPERATION_TAG_REVEAL)
    (h2 : tag ≠ env.OPERATION_TAG_DELEGATION) (h3 : tag ≠ env.OPERATION_TAG_TRANSACTION) :
    parse_operations_switch env data length tag s = some (Flow.ret 8 s) := by
  unfold parse_operations_switch
  simp only [h1, h2, h3, if_false]

theorem parse_operations_switch_params (env : Env) (data : Nat → Nat) (length : Nat)
    (tag : Int) (s : PState) (amount destination : List Nat) (params : Nat)
    (ht : tag = env.OPERATION_TAG_TRANSACTION) (ha : is_varint amount = true)
    (hd : destination.length = sizeof_contract env) (hp : params ≠ 0)
    (hs : slice data s.ix (amount ++ (destination ++ [params])).length =
      amount ++ (destination ++ [params]))
    (hlen : s.ix + (amount ++ (destination ++ [params])).length ≤ length) :
    ∃ s1, parse_operations_switch env data length tag s = some (Flow.ret 101 s1) := by
  obtain ⟨_, hsa, hs⟩ := slice_append_inv _ _ _ _ _ hs
  obtain ⟨_, hsd, hsp⟩ := slice_append_inv _ _ _ _ _ hs
  simp only [List.length_append, List.length_singleton] at hlen hsp
  have hb : data (s.ix + amount.length + destination.length) = params := by
    simpa [slice] using hsp
  unfold parse_operations_switch
  simp only [ht, env.reveal_ne_transaction.symm, env.delegation_ne_transaction.symm, if_false,
    if_true]
  rw [PARSE_Z_of_varint env data length amount s.ix ha hsa (by omega)]
  simp only [PState.with_cur]
  rw [NEXT_TYPE_val data length _ _ (by omega), ← hd]
  simp only [parse_contract_fst, ne_eq, not_true_eq_false, if_false]
  rw [NEXT_BYTE_val data length _ (by omega), hb]
  simp only [ne_eq, hp, not_false_eq_true, if_true]
  exact ⟨_, rfl⟩

theorem reached_state_signing (env : Env) (curve : Nat) (bip32_path : List Nat)
    (records : List OpRecord) (hd : OpHead) :
    (reached_state env curve bip32_path records hd).out.signing =
      (initial_out env curve bip32_path).signing := by
  simp only [reached_state, switch_state, state_after_signing, loop_start]

theorem reached_state_public_key (env : Env) (curve : Nat) (bip32_path : List Nat)
    (records : List OpRecord) (hd : OpHead) :
    (reached_state env curve bip32_path records hd).out.public_key =
      (initial_out env curve bip32_path).public_key := by
  simp only [reached_state, switch_state, state_after_public_key, loop_start]

theorem OpHead.with_contents_encode (hd : OpHead) (c : Contents) :
    (hd.with_contents c).encode = hd.encode ++ c.encode := by
  simp [OpHead.with_contents, OpRecord.encode, OpRecord.varints, OpHead.encode]

theorem OpHead.with_contents_wellFormed (env : Env) (signing : parsed_contract)
    (key : cx_ecfp_public_key_t) (hd : OpHead) (c : Contents) (hwf : hd.WellFormed env)
    (ht : (hd.tag : Int) = c.tag env) (hc : c.WellFormed env signing key) :
    (hd.with_contents c).WellFormed env signing key := by
  obtain ⟨h0, h1, h2, h3, h4⟩ := hwf
  exact ⟨ht, h0, h1, h2, h3, h4, hc⟩

/-- Decoding continues after a record that follows `records` and is accepted. -/
theorem parse_operations_after_accepted (env : Env) (data : Nat → Nat) (length curve : Nat)
    (bip32_path : List Nat) (hash : List Nat) (records : List OpRecord) (hd : OpHead)
    (c : Contents) (rest1 : List Nat)
    (h : RecordAt env data length curve bip32_path hash records hd (c.encode ++ rest1))
    (hk : records.length < env.MAX_OPERATIONS_PER_GROUP)
    (ht : (hd.tag : Int) = c.tag env)
    (hc : c.WellFormed env (initial_out env curve bip32_path).signing
      (initial_out env curve bip32_path).public_key) :
    parse_operations env data length curve bip32_path =
        parse_operations_loop env data length (env.MAX_OPERATIONS_PER_GROUP - records.length)
          (state_after env (loop_start env curve bip32_path)
            (records ++ [hd.with_contents c])) ∧
      (state_after env (loop_start env curve bip32_path) (records ++ [hd.with_contents c])).ix =
        (reached_state env curve bip32_path records hd).ix + c.encode.length ∧
      (state_after env (loop_start env curve bip32_path) (records ++ [hd.with_contents c])).ix +
        rest1.length = length := by
  obtain ⟨hh, hwf, hhd, hbuf⟩ := h
  have hbuf1 : slice data 0 length = env.MAGIC_BYTE_UNSAFE_OP ::
      (hash ++ (encode_records (records ++ [hd.with_contents c]) ++ rest1)) := by
    rw [hbuf, encode_records_append]
    simp [encode_records, OpHead.with_contents_encode]
  have hwf1 : ∀ r ∈ records ++ [hd.with_contents c],
      r.WellFormed env (initial_out env curve bip32_path).signing
        (initial_out env curve bip32_path).public_key := by
    intro r hr
    rcases List.mem_append.mp hr with hr | hr
    · exact hwf r hr
    · rw [List.mem_singleton.mp hr]
      exact OpHead.with_contents_wellFormed env _ _ hd c hhd ht hc
  have hlen : (records ++ [hd.with_contents c]).length = records.length + 1 := by simp
  obtain ⟨hl, _, _, _⟩ := group_layout env data length hash _ rest1 hh hbuf1
  refine ⟨?_, ?_, ?_⟩
  · rw [parse_operations_after_records env data length curve bip32_path hash _ rest1 hh hwf1
      (by omega) hbuf1, hlen]
    have e : env.MAX_OPERATIONS_PER_GROUP - (records.length + 1) + 1 =
        env.MAX_OPERATIONS_PER_GROUP - records.length := by omega
    rw [e]
  · simp only [state_after_ix, reached_state, switch_state, encode_records_append,
      encode_records, OpHead.with_contents_encode, List.length_append, List.length_nil]
    omega
  · rw [state_after_ix]
    simp only [loop_start]
    omega

/-- C4: a record whose operation-kind tag is none of reveal, delegation and
transaction, and whose source header and four varints are complete, makes
`parse_operations` return 8 when the decoder reaches it (fewer than
`MAX_OPERATIONS_PER_GROUP` well-formed records precede it); and whatever the
number of well-formed records before it, the buffer is never decoded with
success. -/
theorem parse_operations_unknown_tag (env : Env) (data : Nat → Nat) (length curve : Nat)
    (bip32_path : List Nat) (hash : List Nat) (records : List OpRecord) (hd : OpHead)
    (rest : List Nat)
    (h : RecordAt env data length curve bip32_path hash records hd rest)
    (h1 : (hd.tag : Int) ≠ env.OPERATION_TAG_REVEAL)
    (h2 : (hd.tag : Int) ≠ env.OPERATION_TAG_DELEGATION)
    (h3 : (hd.tag : Int) ≠ env.OPERATION_TAG_TRANSACTION) :
    (records.length < env.MAX_OPERATIONS_PER_GROUP →
      ∃ st, parse_operations env data length curve bip32_path = some { code := 8, state := st }) ∧
    ∃ ret, parse_operations env data length curve bip32_path = some ret ∧ ret.code ≠ 0 := by
  have part1 : records.length < env.MAX_OPERATIONS_PER_GROUP →
      ∃ st, parse_operations env data length curve bip32_path =
        some { code := 8, state := st } := by
    intro hk
    obtain ⟨hp, _, _⟩ := parse_operations_at_switch env data length curve bip32_path hash
      records hd rest h hk
    rw [parse_operations_switch_default env data length _ _ h1 h2 h3] at hp
    exact ⟨_, hp⟩
  refine ⟨part1, ?_⟩
  by_cases hk : records.length < env.MAX_OPERATIONS_PER_GROUP
  · obtain ⟨st, hst⟩ := part1 hk
    exact ⟨_, hst, by simp⟩
  · obtain ⟨hh, hwf, _, hbuf⟩ := h
    refine ⟨_, parse_operations_over_capacity env data length curve bip32_path hash records _
      hh hwf (by omega) (Or.inr ?_) hbuf, by simp⟩
    simp [OpHead.encode]

theorem parse_operations_unknown_tag_witness :
    ∃ st, parse_operations sampleEnv
        (ofList (sampleEnv.MAGIC_BYTE_UNSAFE_OP :: (sampleHash ++
          (encode_records [sampleDelegation] ++ (sampleUnknownHead.encode ++ [1, 2, 3])))))
        (sampleEnv.MAGIC_BYTE_UNSAFE_OP :: (sampleHash ++
          (encode_records [sampleDelegation] ++ (sampleUnknownHead.encode ++ [1, 2, 3])))).length
        0 samplePath = some { code := 8, state := st } :=
  (parse_operations_unknown_tag sampleEnv _ _ 0 samplePath sampleHash [sampleDelegation]
    sampleUnknownHead [1, 2, 3] ⟨by decide, by decide, by decide, slice_ofList _⟩
    (by decide) (by decide) (by decide)).1 (by decide)

/-- C2: for a reveal record the decoder reaches (header and four varints
complete): if the byte after the varints differs from the signing curve code
the code is 64; if it matches, `W_len` bytes follow and they differ from the
signing key, the code is 4; if they are the signing key, the record is
accepted, decoding continues behind it and the cursor has advanced by
`1 + W_len`; and the record is accepted (the `switch` statement falls through
to the next turn of the loop), or the buffer decoded with success, only if the
record holds the signing curve code followed by the signing key. -/
theorem parse_operations_reveal_key_check (env : Env) (data : Nat → Nat) (length curve : Nat)
    (bip32_path : List Nat) (hash : List Nat) (records : List OpRecord) (hd : OpHead)
    (rest : List Nat)
    (h : RecordAt env data length curve bip32_path hash records hd rest)
    (hk : records.length < env.MAX_OPERATIONS_PER_GROUP)
    (ht : (hd.tag : Int) = env.OPERATION_TAG_REVEAL) :
    (∀ (c : Nat) (rest1 : List Nat), rest = c :: rest1 →
      c ≠ (initial_out env curve bip32_path).signing.curve_code →
      ∃ st, parse_operations env data length curve bip32_path =
        some { code := 64, state := st }) ∧
    (∀ (k rest1 : List Nat),
      rest = (initial_out env curve bip32_path).signing.curve_code :: (k ++ rest1) →
      k.length = (initial_out env curve bip32_path).public_key.W_len →
      k ≠ (initial_out env curve bip32_path).public_key.W →
      ∃ st, parse_operations env data length curve bip32_path =
        some { code := 4, state := st }) ∧
    (∀ rest1 : List Nat,
      rest = (initial_out env curve bip32_path).signing.curve_code ::
        ((initial_out env curve bip32_path).public_key.W ++ rest1) →
      parse_operations env data length curve bip32_path =
        parse_operations_loop env data length (env.MAX_OPERATIONS_PER_GROUP - records.length)
          (state_after env (loop_start env curve bip32_path)
            (records ++ [hd.with_contents
              (Contents.reveal (initial_out env curve bip32_path).signing.curve_code
                (initial_out env curve bip32_path).public_key.W)])) ∧
      (state_after env (loop_start env curve bip32_path)
        (records ++ [hd.with_contents
          (Contents.reveal (initial_out env curve bip32_path).signing.curve_code
            (initial_out env curve bip32_path).public_key.W)])).ix =
        (reached_state env curve bip32_path records hd).ix +
          (1 + (initial_out env curve bip32_path).public_key.W_len)) ∧
    (∀ s1, parse_operations_switch env data length (hd.tag : Int)
        (reached_state env curve bip32_path records hd) = some (Flow.next s1) →
      ∃ rest1 : List Nat,
        rest = (initial_out env curve bip32_path).signing.curve_code ::
          ((initial_out env curve bip32_path).public_key.W ++ rest1)) ∧
    (∀ ret, parse_operations env data length curve bip32_path = some ret → ret.code = 0 →
      ∃ rest1 : List Nat,
        rest = (initial_out env curve bip32_path).signing.curve_code ::
          ((initial_out env curve bip32_path).public_key.W ++ rest1)) := by
  obtain ⟨hp, hix, hrest⟩ := parse_operations_at_switch env data length curve bip32_path hash
    records hd rest h hk
  have hacc : ∀ s1, parse_operations_switch env data length (hd.tag : Int)
      (reached_state env curve bip32_path records hd) = some (Flow.next s1) →
      ∃ rest1 : List Nat,
        rest = (initial_out env curve bip32_path).signing.curve_code ::
          ((initial_out env curve bip32_path).public_key.W ++ rest1) := by
    intro s1 hsw
    obtain ⟨c, hc, htag, hsc, hlc, _⟩ := parse_operations_switch_next_inv _ _ _ _ _ _ hsw
    rw [reached_state_signing, reached_state_public_key] at hc
    obtain ⟨m, hm⟩ : ∃ m, rest.length = c.encode.length + m :=
      ⟨rest.length - c.encode.length, by omega⟩
    have e1 := slice_add data c.encode.length m (reached_state env curve bip32_path records hd).ix
    rw [← hm, hrest, hsc] at e1
    cases c with
    | reveal cc k =>
      obtain ⟨h1, h2⟩ := hc
      subst h1 h2
      exact ⟨_, e1⟩
    | delegation p cc hsh =>
      rw [ht] at htag
      exact absurd htag env.reveal_ne_delegation
    | transaction a d p =>
      rw [ht] at htag
      exact absurd htag env.reveal_ne_transaction
  rw [parse_operations_switch_reveal env data length _ _ ht, reached_state_signing,
    reached_state_public_key] at hp
  refine ⟨?_, ?_, ?_, hacc, ?_⟩
  · intro c rest1 hr hc
    subst hr
    simp only [List.length_cons, slice, List.cons.injEq] at hix hrest
    have h1 : ¬ length ≤ (reached_state env curve bip32_path records hd).ix := by omega
    simp only [h1, if_false, hrest.1, ne_eq, hc, not_false_eq_true, if_true] at hp
    exact ⟨_, hp⟩
  · intro k rest1 hr hkl hkw
    subst hr
    simp only [List.length_cons, List.length_append, slice, List.cons.injEq] at hix hrest
    obtain ⟨hb, hrest⟩ := hrest
    rw [slice_add] at hrest
    have hsk := (List.append_inj hrest (by simp [slice_length])).1
    have h1 : ¬ length ≤ (reached_state env curve bip32_path records hd).ix := by omega
    have h2 : ¬ ((reached_state env curve bip32_path records hd).ix + 1 +
        (initial_out env curve bip32_path).public_key.W_len > length) := by omega
    rw [← hkl, hsk] at hp
    simp only [h1, if_false, hb, ne_eq, not_true_eq_false, hkl, h2, Ne.symm hkw,
      not_false_eq_true, if_true] at hp
    exact ⟨_, hp⟩
  · intro rest1 hr
    subst hr
    have := parse_operations_after_accepted env data length curve bip32_path hash records hd
      (Contents.reveal (initial_out env curve bip32_path).signing.curve_code
        (initial_out env curve bip32_path).public_key.W) rest1 h hk ht ⟨rfl, rfl⟩
    refine ⟨this.1, ?_⟩
    rw [this.2.1]
    simp only [Contents.encode, List.length_cons, cx_ecfp_public_key_t.W_len]
    omega
  · intro ret hret hc
    rw [hret] at hp
    by_cases h1 : length ≤ (reached_state env curve bip32_path records hd).ix
    · simp only [h1, if_true, after_switch, loop_continue, Option.some.injEq] at hp
      rw [hp] at hc; simp at hc
    simp only [h1, if_false] at hp
    by_cases h2 : data (reached_state env curve bip32_path records hd).ix =
        (initial_out env curve bip32_path).signing.curve_code
    swap
    · simp only [ne_eq, h2, not_false_eq_true, if_true, after_switch, loop_continue,
        Option.some.injEq] at hp
      rw [hp] at hc; simp at hc
    simp only [ne_eq, h2, not_true_eq_false, if_false] at hp
    by_cases h3 : (reached_state env curve bip32_path records hd).ix + 1 +
        (initial_out env curve bip32_path).public_key.W_len > length
    · simp only [h3, if_true, after_switch, loop_continue, Option.some.injEq] at hp
      rw [hp] at hc
      simp only [] at hc
      omega
    simp only [h3, if_false] at hp
    by_cases h4 : (initial_out env curve bip32_path).public_key.W =
        slice data ((reached_state env curve bip32_path records hd).ix + 1)
          (initial_out env curve bip32_path).public_key.W_len
    swap
    · simp only [h4, not_false_eq_true, if_true, after_switch, loop_continue,
        Option.some.injEq] at hp
      rw [hp] at hc; simp at hc
    obtain ⟨m, hm⟩ : ∃ m, rest.length =
        1 + ((initial_out env curve bip32_path).public_key.W_len + m) :=
      ⟨rest.length - (1 + (initial_out env curve bip32_path).public_key.W_len), by omega⟩
    have e1 := slice_add data 1 ((initial_out env curve bip32_path).public_key.W_len + m)
      (reached_state env curve bip32_path records hd).ix
    have e2 := slice_add data (initial_out env curve bip32_path).public_key.W_len m
      ((reached_state env curve bip32_path records hd).ix + 1)
    rw [← hm, hrest, e2, ← h4] at e1
    refine ⟨slice data ((reached_state env curve bip32_path records hd).ix + 1 +
      (initial_out env curve bip32_path).public_key.W_len) m, ?_⟩
    rw [e1]
    simp only [slice, h2, List.singleton_append]

theorem parse_operations_reveal_key_check_witness :
    ∃ st, parse_operations sampleEnv
        (ofList (sampleEnv.MAGIC_BYTE_UNSAFE_OP :: (sampleHash ++
          (encode_records [sampleDelegation] ++
            (sampleRevealHead.encode ++ (0 :: (sampleOtherKey ++ [])))))))
        (sampleEnv.MAGIC_BYTE_UNSAFE_OP :: (sampleHash ++
          (encode_records [sampleDelegation] ++
            (sampleRevealHead.encode ++ (0 :: (sampleOtherKey ++ [])))))).length
        0 samplePath = some { code := 4, state := st } :=
  (parse_operations_reveal_key_check sampleEnv _ _ 0 samplePath sampleHash [sampleDelegation]
    sampleRevealHead (0 :: (sampleOtherKey ++ []))
    ⟨by decide, by decide, by decide, slice_ofList _⟩ (by decide) (by decide)).2.1
    sampleOtherKey [] rfl (by decide) (by decide)

/-- C3: for a transaction record the decoder reaches, whose amount varint and
destination account reference are complete and followed by the parameters
byte: a non-zero parameters byte makes `parse_operations` return 101 (and,
whatever the number of well-formed records before it, never 0); with a zero
byte the record is accepted, its entry of the operation array holds the
amount read and the decoded destination, decoding continues with the bytes
behind the record, and succeeds if the buffer ends there. -/
theorem parse_operations_transaction_params (env : Env) (data : Nat → Nat) (length curve : Nat)
    (bip32_path : List Nat) (hash : List Nat) (records : List OpRecord) (hd : OpHead)
    (amount destination : List Nat) (params : Nat) (rest1 : List Nat)
    (h : RecordAt env data length curve bip32_path hash records hd
      ((Contents.transaction amount destination params).encode ++ rest1))
    (ht : (hd.tag : Int) = env.OPERATION_TAG_TRANSACTION)
    (ha : is_varint amount = true) (hdest : destination.length = sizeof_contract env) :
    (params ≠ 0 →
      (records.length < env.MAX_OPERATIONS_PER_GROUP →
        ∃ st, parse_operations env data length curve bip32_path =
          some { code := 101, state := st }) ∧
      ∃ ret, parse_operations env data length curve bip32_path = some ret ∧ ret.code ≠ 0) ∧
    (params = 0 → records.length < env.MAX_OPERATIONS_PER_GROUP →
      parse_operations env data length curve bip32_path =
        parse_operations_loop env data length (env.MAX_OPERATIONS_PER_GROUP - records.length)
          (state_after env (loop_start env curve bip32_path)
            (records ++ [hd.with_contents (Contents.transaction amount destination 0)])) ∧
      (state_after env (loop_start env curve bip32_path)
        (records ++ [hd.with_contents (Contents.transaction amount destination 0)])
        ).out.operations[records.length]? =
        some { tag := (hd.tag : Int)
               source := (parse_contract env hd.source).2
               destination := (parse_contract env destination).2
               amount := z_value env amount } ∧
      (rest1 = [] →
        parse_operations env data length curve bip32_path =
          some { code := 0
                 state := state_after env (loop_start env curve bip32_path)
                   (records ++ [hd.with_contents
                     (Contents.transaction amount destination 0)]) })) := by
  refine ⟨?_, ?_⟩
  · intro hp0
    have part1 : records.length < env.MAX_OPERATIONS_PER_GROUP →
        ∃ st, parse_operations env data length curve bip32_path =
          some { code := 101, state := st } := by
      intro hk
      obtain ⟨hp, hix, hrest⟩ := parse_operations_at_switch env data length curve bip32_path
        hash records hd _ h hk
      obtain ⟨_, hs, _⟩ := slice_append_inv _ _ _ _ _ hrest
      simp only [Contents.encode] at hs hix
      obtain ⟨s1, hsw⟩ := parse_operations_switch_params env data length _
        (reached_state env curve bip32_path records hd) amount destination params ht ha hdest
        hp0 hs (by simp only [List.length_append] at hix ⊢; omega)
      rw [hsw] at hp
      exact ⟨_, hp⟩
    refine ⟨part1, ?_⟩
    by_cases hk : records.length < env.MAX_OPERATIONS_PER_GROUP
    · obtain ⟨st, hst⟩ := part1 hk
      exact ⟨_, hst, by simp⟩
    · obtain ⟨hh, hwf, _, hbuf⟩ := h
      refine ⟨_, parse_operations_over_capacity env data length curve bip32_path hash records _
        hh hwf (by omega) (Or.inr ?_) hbuf, by simp⟩
      simp [OpHead.encode]
  · intro hp0 hk
    subst hp0
    obtain ⟨h1, _, h3⟩ := parse_operations_after_accepted env data length curve bip32_path hash
      records hd (Contents.transaction amount destination 0) rest1 h hk ht ⟨ha, hdest, rfl⟩
    refine ⟨h1, ?_, ?_⟩
    · rw [state_after_operations env _ (loop_start env curve bip32_path) []
        (empty_operation env) env.MAX_OPERATIONS_PER_GROUP
        (initial_out_operations env curve bip32_path) rfl (by simp; omega)]
      simp only [List.nil_append, List.map_append, List.map_cons, List.map_nil,
        List.append_assoc]
      rw [List.getElem?_append_right (by simp)]
      simp only [List.length_map, Nat.sub_self, List.singleton_append, List.getElem?_cons_zero,
        OpRecord.apply, OpHead.with_contents, Contents.apply_transaction]
    · intro hr
      subst hr
      rw [h1]
      have e : env.MAX_OPERATIONS_PER_GROUP - records.length =
          (env.MAX_OPERATIONS_PER_GROUP - records.length - 1) + 1 := by omega
      rw [e]
      exact parse_operations_loop_end env data length _ _
        (by simp only [List.length_nil] at h3; omega)

theorem parse_operations_transaction_params_witness :
    ∃ st, parse_operations sampleEnv
        (ofList (sampleEnv.MAGIC_BYTE_UNSAFE_OP :: (sampleHash ++
          (encode_records [sampleReveal] ++ (sampleTransactionHead.encode ++
            ((Contents.transaction [0x80, 0x01] sampleOriginated 1).encode ++ []))))))
        (sampleEnv.MAGIC_BYTE_UNSAFE_OP :: (sampleHash ++
          (encode_records [sampleReveal] ++ (sampleTransactionHead.encode ++
            ((Contents.transaction [0x80, 0x01] sampleOriginated 1).encode ++ []))))).length
        0 samplePath = some { code := 101, state := st } :=
  (parse_operations_transaction_params sampleEnv _ _ 0 samplePath sampleHash [sampleReveal]
    sampleTransactionHead [0x80, 0x01] sampleOriginated 1 []
    ⟨by decide, by decide, by decide, slice_ofList _⟩ (by decide) (by decide)
    (by decide)).1 (by decide) |>.1 (by decide)

/-! ## Truncated varints -/

theorem slice_forall (data : Nat → Nat) (P : Nat → Prop) (l : List Nat) :
    ∀ (ix : Nat), slice data ix l.length = l → (∀ b ∈ l, P b) →
      ∀ i, ix ≤ i → i < ix + l.length → P (data i) := by
  induction l with
  | nil => intro ix _ _ i h1 h2; simp at h2; omega
  | cons b l ih =>
    intro ix hs hall i h1 h2
    simp only [List.length_cons, slice, List.cons.injEq] at hs h2
    by_cases hi : i = ix
    · subst hi; rw [hs.1]; exact hall b (List.mem_cons_self _ _)
    · exact ih (ix + 1) hs.2 (fun x hx => hall x (List.mem_cons_of_mem _ hx)) i (by omega)
        (by omega)

theorem parse_operations_varints_truncated (env : Env) (data : Nat → Nat) (length : Nat)
    (s : PState) (done : List (List Nat)) (tail : List Nat) (hn : done.length < 4)
    (hv : ∀ v ∈ done, is_varint v = true) (ht : ∀ b ∈ tail, b &&& 0x80 ≠ 0)
    (hs : slice data s.ix (done.flatten ++ tail).length = done.flatten ++ tail)
    (hlen : s.ix + (done.flatten ++ tail).length = length) :
    parse_operations_varints env data length s =
      some (Flow.ret 23
        { s with ix := length
                 out := { s.out with total_fee := fee_after env s.out.total_fee done } }) := by
  obtain ⟨_, hsd, hst⟩ := slice_append_inv _ _ _ _ _ hs
  simp only [List.length_append] at hlen
  have hall := slice_forall data (fun b => b &&& 0x80 ≠ 0) tail _ hst ht
  have htr : PARSE_Z env data length (s.ix + done.flatten.length) = some (Res.ret 23 length) :=
    PARSE_Z_truncated env data length _ (by omega)
      (fun i h1 h2 => hall i h1 (by omega))
  unfold parse_operations_varints
  match done, hn, hv, hsd, hlen, htr with
  | [], _, _, _, _, htr =>
    simp only [List.flatten_nil, List.length_nil, Nat.add_zero] at htr
    rw [htr]
    rfl
  | [a], _, hv, hsd, hlen, htr =>
    simp only [List.flatten_cons, List.flatten_nil, List.append_nil] at hsd hlen htr
    rw [PARSE_Z_of_varint env data length a s.ix (hv a (by simp)) hsd (by omega)]
    simp only []
    rw [htr]
    rfl
  | [a, b], _, hv, hsd, hlen, htr =>
    simp only [List.flatten_cons, List.flatten_nil, List.append_nil] at hsd hlen htr
    obtain ⟨_, ha, hb⟩ := slice_append_inv _ _ _ _ _ hsd
    simp only [List.length_append] at hlen htr
    rw [PARSE_Z_of_varint env data length a s.ix (hv a (by simp)) ha (by omega)]
    simp only []
    rw [PARSE_Z_of_varint env data length b _ (hv b (by simp)) hb (by omega)]
    simp only []
    rw [Nat.add_assoc, htr]
    rfl
  | [a, b, c], _, hv, hsd, hlen, htr =>
    simp only [List.flatten_cons, List.flatten_nil, List.append_nil] at hsd hlen htr
    obtain ⟨_, ha, hbc⟩ := slice_append_inv _ _ _ _ _ hsd
    obtain ⟨_, hb, hc⟩ := slice_append_inv _ _ _ _ _ hbc
    simp only [List.length_append] at hlen htr
    rw [PARSE_Z_of_varint env data length a s.ix (hv a (by simp)) ha (by omega)]
    simp only []
    rw [PARSE_Z_of_varint env data length b _ (hv b (by simp)) hb (by omega)]
    simp only []
    rw [PARSE_Z_of_varint env data length c _ (hv c (by simp)) hc (by omega)]
    simp only []
    rw [Nat.add_assoc, Nat.add_assoc, htr]
    rfl
  | _ :: _ :: _ :: _ :: _, hn, _, _, _, _ => simp at hn; omega

theorem parse_operations_body_truncated (env : Env) (data : Nat → Nat) (length : Nat)
    (s : PState) (tag : Nat) (source : List Nat) (done : List (List Nat)) (tail : List Nat)
    (hsrc : source.length = sizeof_contract env) (hn : done.length < 4)
    (hv : ∀ v ∈ done, is_varint v = true) (ht : ∀ b ∈ tail, b &&& 0x80 ≠ 0)
    (hs : slice data s.ix (tag :: (source ++ (done.flatten ++ tail))).length =
      tag :: (source ++ (done.flatten ++ tail)))
    (hlen : s.ix + (tag :: (source ++ (done.flatten ++ tail))).length = length)
    (hop : s.op_index < env.MAX_OPERATIONS_PER_GROUP) :
    parse_operations_body env data length s =
      some (Flow.ret 23
        { ix := length
          op_index := s.op_index
          out :=
            { s.out with
              total_fee := fee_after env s.out.total_fee done
              operations :=
                update_op (fun cur => { cur with source := (parse_contract env source).2 })
                  s.out.operations s.op_index } }) := by
  have hs0 : slice data s.ix ([tag] ++ (source ++ (done.flatten ++ tail))).length =
      [tag] ++ (source ++ (done.flatten ++ tail)) := hs
  obtain ⟨_, htag, hs1⟩ := slice_append_inv _ _ _ _ _ hs0
  obtain ⟨_, hso, hrest⟩ := slice_append_inv _ _ _ _ _ hs1
  simp only [List.length_cons, List.length_append, List.length_singleton, List.length_nil]
    at hlen htag hso hrest
  have hsz : sizeof_operation_header env = source.length + 1 := by
    unfold sizeof_operation_header; omega
  have hhdr : slice data s.ix (sizeof_operation_header env) = tag :: source := by
    have : sizeof_operation_header env = 1 + source.length := by omega
    rw [this, slice_add, htag, hso]; rfl
  unfold parse_operations_body
  simp only [ge_iff_le, Nat.not_le.mpr hop, if_false]
  rw [NEXT_TYPE_val data length _ s.ix (by omega), hhdr]
  simp only [parse_contract_fst, ne_eq, not_true_eq_false, if_false, List.drop_succ_cons,
    List.drop_zero, PState.with_cur]
  rw [parse_operations_varints_truncated env data length _ done tail hn hv ht
    (by
      simp only [List.length_append]
      have e : s.ix + sizeof_operation_header env = s.ix + (0 + 1) + source.length := by omega
      rw [e]; exact hrest)
    (by simp only [List.length_append]; omega)]

theorem update_op_map_amount (f : parsed_operation → parsed_operation)
    (hf : ∀ op, (f op).amount = op.amount) (ops : List parsed_operation) :
    ∀ i, (update_op f ops i).map (fun op => op.amount) = ops.map (fun op => op.amount) := by
  induction ops with
  | nil => intro i; rfl
  | cons op ops ih =>
    intro i
    cases i with
    | zero => simp [update_op, hf]
    | succ i => simp [update_op, ih]

theorem parse_operations_switch_amount_ret (env : Env) (data : Nat → Nat) (length : Nat)
    (tag : Int) (s : PState) (code ix1 : Nat) (ht : tag = env.OPERATION_TAG_TRANSACTION)
    (hz : PARSE_Z env data length s.ix = some (Res.ret code ix1)) :
    parse_operations_switch env data length tag s = some (Flow.ret code { s with ix := ix1 }) := by
  unfold parse_operations_switch
  simp only [ht, env.reveal_ne_transaction.symm, env.delegation_ne_transaction.symm, if_false,
    if_true, hz]

theorem parse_operations_cut_varint (env : Env) (data : Nat → Nat) (length curve : Nat)
    (bip32_path hash : List Nat) (records : List OpRecord) (tag : Nat) (source : List Nat)
    (done : List (List Nat)) (tail : List Nat)
    (h : CutInVarint env data length curve bip32_path hash records tag source done tail)
    (hk : records.length < env.MAX_OPERATIONS_PER_GROUP)
    (hcase : done.length < 4 ∨
      (done.length = 4 ∧ (tag : Int) = env.OPERATION_TAG_TRANSACTION)) :
    ∃ st, parse_operations env data length curve bip32_path =
        some { code := 23, state := st } ∧
      st.ix = length ∧
      st.out.total_fee =
        fee_after env
          (state_after env (loop_start env curve bip32_path) records).out.total_fee done ∧
      st.out.operations.map (fun op => op.amount) =
        (state_after env (loop_start env curve bip32_path) records).out.operations.map
          (fun op => op.amount) := by
  obtain ⟨hh, hwf, hsrc, hv, ht, hbuf⟩ := h
  rcases hcase with hn | ⟨hn, htag⟩
  · obtain ⟨hl, _, _, hrec⟩ := group_layout env data length hash records _ hh hbuf
    have hix : (state_after env (loop_start env curve bip32_path) records).ix =
        sizeof_operation_group_header + (encode_records records).length := by
      rw [state_after_ix]; rfl
    rw [parse_operations_after_records env data length curve bip32_path hash records _ hh hwf
      (by omega) hbuf,
      parse_operations_loop_step env data length _ _ (by
        rw [hix]; simp only [List.length_cons] at hl; omega),
      parse_operations_body_truncated env data length _ tag source done tail hsrc hn hv ht
        (by rw [hix]; exact hrec) (by rw [hix]; omega)
        (by rw [state_after_op_index]; simp only [loop_start]; omega)]
    refine ⟨_, rfl, rfl, rfl, ?_⟩
    exact update_op_map_amount
      (fun cur => { cur with source := (parse_contract env source).2 }) (fun _ => rfl) _ _
  · obtain ⟨a, b, c, d, rfl⟩ : ∃ a b c d, done = [a, b, c, d] := by
      match done, hn with
      | [a, b, c, d], _ => exact ⟨a, b, c, d, rfl⟩
    have hrec : RecordAt env data length curve bip32_path hash records
        ⟨tag, source, a, b, c, d⟩ tail := by
      refine ⟨hh, hwf, ⟨hsrc, hv a (by simp), hv b (by simp), hv c (by simp), hv d (by simp)⟩,
        ?_⟩
      rw [hbuf]
      simp [OpHead.encode]
    obtain ⟨hp, hix, hrest⟩ := parse_operations_at_switch env data length curve bip32_path hash
      records _ tail hrec hk
    have hall := slice_forall data (fun b => b &&& 0x80 ≠ 0) tail _ hrest ht
    have htr := PARSE_Z_truncated env data length
      (reached_state env curve bip32_path records ⟨tag, source, a, b, c, d⟩).ix (by omega)
      (fun i h1 h2 => hall i h1 (by omega))
    rw [parse_operations_switch_amount_ret env data length _ _ 23 length htag htr] at hp
    refine ⟨_, hp, rfl, rfl, ?_⟩
    exact update_op_map_amount
      (fun cur => { cur with source := (parse_contract env source).2, tag := (tag : Int) })
      (fun _ => rfl) _ _

/-- C7: a varint read that finds only bytes with the high bit set from the
cursor to the end of the buffer (possibly no byte at all) executes
`return 23`; so a buffer cut inside one of the four varints of a record the
decoder reaches, or inside the amount varint of a transaction, makes
`parse_operations` return 23, with the cursor at the end of the buffer, and
nothing of the cut varint is used: `total_fee` holds the fees of the complete
fee varints only and no amount of the operation array has changed; and
whatever the number of well-formed records before the cut record, the code is
never 0. -/
theorem parse_operations_truncated_varint (env : Env) :
    (∀ (data : Nat → Nat) (length ix : Nat), ix ≤ length →
      (∀ i, ix ≤ i → i < length → data i &&& 0x80 ≠ 0) →
      PARSE_Z env data length ix = some (Res.ret 23 length)) ∧
    (∀ (data : Nat → Nat) (length curve : Nat) (bip32_path hash : List Nat)
      (records : List OpRecord) (tag : Nat) (source : List Nat) (done : List (List Nat))
      (tail : List Nat),
      CutInVarint env data length curve bip32_path hash records tag source done tail →
      (done.length < 4 ∨
        (done.length = 4 ∧ (tag : Int) = env.OPERATION_TAG_TRANSACTION)) →
      (records.length < env.MAX_OPERATIONS_PER_GROUP →
        ∃ st, parse_operations env data length curve bip32_path =
            some { code := 23, state := st } ∧
          st.ix = length ∧
          st.out.total_fee =
            fee_after env
              (state_after env (loop_start env curve bip32_path) records).out.total_fee done ∧
          st.out.operations.map (fun op => op.amount) =
            (state_after env (loop_start env curve bip32_path) records).out.operations.map
              (fun op => op.amount)) ∧
      ∃ ret, parse_operations env data length curve bip32_path = some ret ∧ ret.code ≠ 0) := by
  refine ⟨fun data length ix h1 h2 => PARSE_Z_truncated env data length ix h1 h2, ?_⟩
  intro data length curve bip32_path hash records tag source done tail h hcase
  have part1 : records.length < env.MAX_OPERATIONS_PER_GROUP →
      ∃ st, parse_operations env data length curve bip32_path =
          some { code := 23, state := st } ∧
        st.ix = length ∧
        st.out.total_fee =
          fee_after env
            (state_after env (loop_start env curve bip32_path) records).out.total_fee done ∧
        st.out.operations.map (fun op => op.amount) =
          (state_after env (loop_start env curve bip32_path) records).out.operations.map
            (fun op => op.amount) := by
    intro hk
    exact parse_operations_cut_varint env data length curve bip32_path hash records tag source
      done tail h hk hcase
  refine ⟨part1, ?_⟩
  by_cases hk : records.length < env.MAX_OPERATIONS_PER_GROUP
  · obtain ⟨st, hst, _⟩ := part1 hk
    exact ⟨_, hst, by simp⟩
  · obtain ⟨hh, hwf, _, _, _, hbuf⟩ := h
    exact ⟨_, parse_operations_over_capacity env data length curve bip32_path hash records _
      hh hwf (by omega) (Or.inr (by simp)) hbuf, by simp⟩

theorem parse_operations_truncated_varint_witness :
    ∃ st, parse_operations sampleEnv (ofList sampleCutBuffer) sampleCutBuffer.length 0
        samplePath = some { code := 23, state := st } ∧ st.out.total_fee = 10010 :=
  let ⟨st, h1, _, h3, _⟩ := ((parse_operations_truncated_varint sampleEnv).2
    (ofList sampleCutBuffer) sampleCutBuffer.length 0 samplePath sampleHash [sampleReveal] 10
    sampleSource [[0x0A]] [0x80, 0xFF]
    ⟨by decide, by decide, by decide, by decide, by decide, slice_ofList _⟩
    (Or.inl (by decide))).1 (by decide)
  ⟨st, h1, by rw [h3]; decide⟩

/-! ## Fixed-size reads -/

theorem parse_operations_body_short_header (env : Env) (data : Nat → Nat) (length : Nat)
    (s : PState) (hop : s.op_index < env.MAX_OPERATIONS_PER_GROUP)
    (h : length < s.ix + sizeof_operation_header env) :
    parse_operations_body env data length s =
      some (Flow.ret (sizeof_operation_header env) s) := by
  unfold parse_operations_body
  simp only [ge_iff_le, Nat.not_le.mpr hop, if_false]
  rw [NEXT_TYPE_ret data length _ s.ix h]

theorem PARSE_Z_ix_le (env : Env) (data : Nat → Nat) (length ix : Nat) (hle : ix ≤ length) :
    (∀ a ix1, PARSE_Z env data length ix = some (Res.val a ix1) → ix1 ≤ length) ∧
    (∀ code ix1, PARSE_Z env data length ix = some (Res.ret code ix1) → ix1 ≤ length) := by
  refine ⟨?_, ?_⟩
  · intro a ix1 h
    obtain ⟨_, _, _, _, h4, _⟩ := PARSE_Z_val_inv env data length ix a ix1 h
    exact h4
  · intro code ix1 h
    obtain ⟨_, _, h3, _⟩ := PARSE_Z_loop_ret_inv env data length _ _ _ _ _ _ h
    exact le_of_eq (h3 hle)

/-- C8: a fixed-size read of `n` bytes at cursor `ix` over a buffer of length
`len` (`NEXT_TYPE`, `NEXT_BYTE`, the key read of a reveal): when
`ix + n ≤ len` it yields the bytes at `ix .. ix + n - 1` and moves the cursor
to `ix + n` (the key read compares these bytes with the signing key and moves
the cursor when they are equal; when they differ the function returns 4);
otherwise it returns the code `n` with the cursor where it was, whatever the
memory holds (nothing is read).  `parse_operations` returns 33 with the
cursor at 0 when the group header does not fit and
`sizeof(struct operation_header)` with the cursor at the start of the record
when an operation header does not fit; its result depends only on the bytes
below `len`; and the cursor never exceeds `len`, after a varint read and when
the function returns. -/
theorem fixed_size_reads_stay_in_bounds (env : Env) :
    (∀ (data : Nat → Nat) (length n ix : Nat), ix + n ≤ length →
      NEXT_TYPE data length n ix = Res.val (slice data ix n) (ix + n)) ∧
    (∀ (data : Nat → Nat) (length n ix : Nat), length < ix + n →
      NEXT_TYPE data length n ix = Res.ret n ix) ∧
    (∀ (data : Nat → Nat) (length ix : Nat), ix + 1 ≤ length →
      NEXT_BYTE data length ix = Res.val (data ix) (ix + 1)) ∧
    (∀ (data : Nat → Nat) (length ix : Nat), length < ix + 1 →
      NEXT_BYTE data length ix = Res.ret 1 ix) ∧
    (∀ (data : Nat → Nat) (length : Nat) (s : PState), s.ix + 1 ≤ length →
      data s.ix = s.out.signing.curve_code →
      (s.ix + 1 + s.out.public_key.W_len ≤ length →
        parse_operations_switch env data length env.OPERATION_TAG_REVEAL s =
          if s.out.public_key.W = slice data (s.ix + 1) s.out.public_key.W_len then
            some (Flow.next { s with ix := s.ix + 1 + s.out.public_key.W_len })
          else some (Flow.ret 4 { s with ix := s.ix + 1 })) ∧
      (length < s.ix + 1 + s.out.public_key.W_len →
        parse_operations_switch env data length env.OPERATION_TAG_REVEAL s =
          some (Flow.ret s.out.public_key.W_len { s with ix := s.ix + 1 }))) ∧
    (∀ (data : Nat → Nat) (length curve : Nat) (bip32_path : List Nat),
      length < sizeof_operation_group_header →
      parse_operations env data length curve bip32_path =
        some { code := 33
               state := { ix := 0, op_index := 0, out := initial_out env curve bip32_path } }) ∧
    (∀ (data : Nat → Nat) (length curve : Nat) (bip32_path hash : List Nat)
      (records : List OpRecord) (tail : List Nat), hash.length = 32 →
      (∀ r ∈ records, r.WellFormed env (initial_out env curve bip32_path).signing
        (initial_out env curve bip32_path).public_key) →
      records.length < env.MAX_OPERATIONS_PER_GROUP →
      slice data 0 length =
        env.MAGIC_BYTE_UNSAFE_OP :: (hash ++ (encode_records records ++ tail)) →
      0 < tail.length → tail.length < sizeof_operation_header env →
      parse_operations env data length curve bip32_path =
        some { code := sizeof_operation_header env
               state := state_after env (loop_start env curve bip32_path) records } ∧
      (state_after env (loop_start env curve bip32_path) records).ix + tail.length = length) ∧
    (∀ (data data1 : Nat → Nat) (length curve : Nat) (bip32_path : List Nat),
      (∀ i, i < length → data i = data1 i) →
      parse_operations env data length curve bip32_path =
        parse_operations env data1 length curve bip32_path) ∧
    (∀ (data : Nat → Nat) (length ix : Nat), ix ≤ length →
      (∀ a ix1, PARSE_Z env data length ix = some (Res.val a ix1) → ix1 ≤ length) ∧
      (∀ code ix1, PARSE_Z env data length ix = some (Res.ret code ix1) → ix1 ≤ length)) ∧
    (∀ (data : Nat → Nat) (length curve : Nat) (bip32_path : List Nat) (ret : Returned),
      parse_operations env data length curve bip32_path = some ret → ret.state.ix ≤ length) := by
  refine ⟨NEXT_TYPE_val, NEXT_TYPE_ret, ?_, ?_, ?_, ?_, ?_, ?_, PARSE_Z_ix_le env,
    parse_operations_ix_le env⟩
  · intro data length ix h
    exact NEXT_BYTE_val data length ix (by omega)
  · intro data length ix h
    exact NEXT_BYTE_ret data length ix (by omega)
  · intro data length s h1 h2
    refine ⟨?_, ?_⟩
    · intro h3
      rw [parse_operations_switch_reveal env data length _ s rfl]
      have e1 : ¬ length ≤ s.ix := by omega
      have e2 : ¬ (s.ix + 1 + s.out.public_key.W_len > length) := by omega
      simp only [e1, if_false, h2, ne_eq, not_true_eq_false, e2, ite_not]
    · intro h3
      rw [parse_operations_switch_reveal env data length _ s rfl]
      have e1 : ¬ length ≤ s.ix := by omega
      have e2 : s.ix + 1 + s.out.public_key.W_len > length := by omega
      simp only [e1, if_false, h2, ne_eq, not_true_eq_false, e2, if_true]
  · intro data length curve bip32_path h
    exact parse_operations_short env data length curve bip32_path h
  · intro data length curve bip32_path hash records tail hh hwf hk hbuf ht1 ht2
    obtain ⟨hl, _, _, _⟩ := group_layout env data length hash records tail hh hbuf
    have hix : (state_after env (loop_start env curve bip32_path) records).ix =
        sizeof_operation_group_header + (encode_records records).length := by
      rw [state_after_ix]; rfl
    refine ⟨?_, by omega⟩
    rw [parse_operations_after_records env data length curve bip32_path hash records tail hh hwf
      (by omega) hbuf,
      parse_operations_loop_step env data length _ _ (by omega),
      parse_operations_body_short_header env data length _
        (by rw [state_after_op_index]; simp only [loop_start]; omega) (by omega)]
  · intro data data1 length curve bip32_path hd
    exact parse_operations_congr env data data1 length hd curve bip32_path

theorem fixed_size_reads_stay_in_bounds_witness :
    NEXT_TYPE (ofList [1, 2, 3]) 3 2 2 = Res.ret 2 2 ∧
      NEXT_TYPE (ofList [1, 2, 3]) 3 2 1 = Res.val [2, 3] 3 :=
  ⟨(fixed_size_reads_stay_in_bounds sampleEnv).2.1 (ofList [1, 2, 3]) 3 2 2 (by decide),
    (fixed_size_reads_stay_in_bounds sampleEnv).1 (ofList [1, 2, 3]) 3 2 1 (by decide)⟩

/-! ## Account references -/

theorem parse_contract_implicit (env : Env) (curve_code : Nat) (hash : List Nat)
    (hh : hash.length = env.HASH_SIZE) :
    parse_contract env (0 :: curve_code :: hash) =
      (0, { originated := 0, curve_code := curve_code, hash := hash }) := by
  simp [parse_contract, ← hh]

theorem parse_contract_originated (env : Env) (tag padding : Nat) (hash : List Nat)
    (hh : hash.length = env.HASH_SIZE) (ht : tag ≠ 0) :
    parse_contract env (tag :: (hash ++ [padding])) =
      (0, { originated := tag, curve_code := env.TEZOS_NO_CURVE, hash := hash }) := by
  simp [parse_contract, ht, ← hh]

/-- C11: `parse_contract` always returns 0.  On an implicit account
reference (tag byte 0, a curve code, a hash of `HASH_SIZE` bytes) it yields
`originated = 0`, that curve code and that hash; on an originated one (a
non-zero tag byte, a hash of `HASH_SIZE` bytes, a padding byte) it yields the
tag byte as `originated`, the hash, and `TEZOS_NO_CURVE` as curve code,
whatever the padding byte is. -/
theorem parse_contract_account_reference (env : Env) (hash : List Nat)
    (hh : hash.length = env.HASH_SIZE) :
    (∀ c : List Nat, (parse_contract env c).1 = 0) ∧
    (∀ curve_code : Nat,
      (0 :: curve_code :: hash).length = sizeof_contract env ∧
      parse_contract env (0 :: curve_code :: hash) =
        (0, { originated := 0, curve_code := curve_code, hash := hash })) ∧
    (∀ tag padding : Nat, tag ≠ 0 →
      (tag :: (hash ++ [padding])).length = sizeof_contract env ∧
      parse_contract env (tag :: (hash ++ [padding])) =
        (0, { originated := tag, curve_code := env.TEZOS_NO_CURVE, hash := hash })) := by
  refine ⟨parse_contract_fst env, fun curve_code => ⟨?_, parse_contract_implicit env _ _ hh⟩,
    fun tag padding ht => ⟨?_, parse_contract_originated env _ _ _ hh ht⟩⟩
  · simp [sizeof_contract, hh]; omega
  · simp [sizeof_contract, hh]; omega

theorem parse_contract_account_reference_witness :
    (List.replicate 20 9).length = sampleEnv.HASH_SIZE ∧
    parse_contract sampleEnv sampleSource =
      (0, { originated := 0, curve_code := 0, hash := List.replicate 20 9 }) ∧
    parse_contract sampleEnv (1 :: (List.replicate 20 5 ++ [5])) =
      (0, { originated := 1, curve_code := 255, hash := List.replicate 20 5 }) :=
  ⟨by decide,
    ((parse_contract_account_reference sampleEnv (List.replicate 20 9) (by decide)).2.1 0).2,
    ((parse_contract_account_reference sampleEnv (List.replicate 20 5) (by decide)).2.2 1 5
      (by decide)).2⟩

/-! ## The decoder reads from the cursor on -/

theorem NEXT_TYPE_congr_from (data data1 : Nat → Nat) (length lo : Nat)
    (hd : ∀ i, lo ≤ i → i < length → data i = data1 i) (sz ix : Nat) (hlo : lo ≤ ix) :
    NEXT_TYPE data length sz ix = NEXT_TYPE data1 length sz ix := by
  by_cases h : ix + sz ≤ length
  · rw [NEXT_TYPE_val data length sz ix h, NEXT_TYPE_val data1 length sz ix h,
      slice_congr data data1 sz ix (fun i h1 h2 => hd i (by omega) (by omega))]
  · rw [NEXT_TYPE_ret data length sz ix (by omega), NEXT_TYPE_ret data1 length sz ix (by omega)]

theorem NEXT_BYTE_congr_from (data data1 : Nat → Nat) (length lo : Nat)
    (hd : ∀ i, lo ≤ i → i < length → data i = data1 i) (ix : Nat) (hlo : lo ≤ ix) :
    NEXT_BYTE data length ix = NEXT_BYTE data1 length ix := by
  unfold NEXT_BYTE
  rw [NEXT_TYPE_congr_from data data1 length lo hd 1 ix hlo]

theorem PARSE_Z_loop_congr_from (env : Env) (data data1 : Nat → Nat) (length lo : Nat)
    (hd : ∀ i, lo ≤ i → i < length → data i = data1 i) :
    ∀ (fuel acc shift ix : Nat), lo ≤ ix →
      PARSE_Z_loop env data length fuel acc shift ix =
        PARSE_Z_loop env data1 length fuel acc shift ix := by
  intro fuel
  induction fuel with
  | zero => intro acc shift ix _; rfl
  | succ fuel ih =>
    intro acc shift ix hlo
    by_cases h : ix < length
    · rw [PARSE_Z_loop_step env data length fuel acc shift ix h,
        PARSE_Z_loop_step env data1 length fuel acc shift ix h, hd ix hlo h,
        ih _ _ (ix + 1) (by omega)]
    · rw [PARSE_Z_loop_end env data length fuel acc shift ix (by omega),
        PARSE_Z_loop_end env data1 length fuel acc shift ix (by omega)]

theorem PARSE_Z_congr_from (env : Env) (data data1 : Nat → Nat) (length lo : Nat)
    (hd : ∀ i, lo ≤ i → i < length → data i = data1 i) (ix : Nat) (hlo : lo ≤ ix) :
    PARSE_Z env data length ix = PARSE_Z env data1 length ix :=
  PARSE_Z_loop_congr_from env data data1 length lo hd _ 0 0 ix hlo

theorem PARSE_Z_val_ix (env : Env) (data : Nat → Nat) (length ix a ix1 : Nat)
    (h : PARSE_Z env data length ix = some (Res.val a ix1)) : ix ≤ ix1 := by
  obtain ⟨v, -, -, e, -, -⟩ := PARSE_Z_val_inv env data length ix a ix1 h
  omega

theorem parse_operations_varints_congr_from (env : Env) (data data1 : Nat → Nat)
    (length lo : Nat) (hd : ∀ i, lo ≤ i → i < length → data i = data1 i) (s : PState)
    (hlo : lo ≤ s.ix) :
    parse_operations_varints env data length s =
      parse_operations_varints env data1 length s := by
  unfold parse_operations_varints
  rw [PARSE_Z_congr_from env data data1 length lo hd s.ix hlo]
  cases h1 : PARSE_Z env data1 length s.ix with
  | none => rfl
  | some r1 =>
    cases r1 with
    | ret c i => rfl
    | val fee ix1 =>
      have l1 := PARSE_Z_val_ix env data1 length s.ix fee ix1 h1
      simp only []
      rw [PARSE_Z_congr_from env data data1 length lo hd ix1 (by omega)]
      cases h2 : PARSE_Z env data1 length ix1 with
      | none => rfl
      | some r2 =>
        cases r2 with
        | ret c i => rfl
        | val v2 ix2 =>
          have l2 := PARSE_Z_val_ix env data1 length ix1 v2 ix2 h2
          simp only []
          rw [PARSE_Z_congr_from env data data1 length lo hd ix2 (by omega)]
          cases h3 : PARSE_Z env data1 length ix2 with
          | none => rfl
          | some r3 =>
            cases r3 with
            | ret c i => rfl
            | val v3 ix3 =>
              have l3 := PARSE_Z_val_ix env data1 length ix2 v3 ix3 h3
              simp only []
              rw [PARSE_Z_congr_from env data data1 length lo hd ix3 (by omega)]

theorem NEXT_TYPE_val_ix (data : Nat → Nat) (length sz ix : Nat) (v : List Nat) (ix1 : Nat)
    (h : NEXT_TYPE data length sz ix = Res.val v ix1) :
    ix1 = ix + sz ∧ ix + sz ≤ length ∧ v = slice data ix sz := by
  unfold NEXT_TYPE at h
  split at h
  · cases h
  · simp only [Res.val.injEq] at h
    exact ⟨h.2.symm, by omega, h.1.symm⟩

theorem NEXT_BYTE_val_ix (data : Nat → Nat) (length ix b ix1 : Nat)
    (h : NEXT_BYTE data length ix = Res.val b ix1) :
    ix1 = ix + 1 ∧ ix < length ∧ b = data ix := by
  by_cases hl : ix < length
  · rw [NEXT_BYTE_val data length ix hl] at h
    simp only [Res.val.injEq] at h
    exact ⟨h.2.symm, hl, h.1.symm⟩
  · rw [NEXT_BYTE_ret data length ix (by omega)] at h
    cases h

theorem parse_operations_switch_congr_from (env : Env) (data data1 : Nat → Nat)
    (length lo : Nat) (hd : ∀ i, lo ≤ i → i < length → data i = data1 i) (tag : Int)
    (s : PState) (hlo : lo ≤ s.ix) :
    parse_operations_switch env data length tag s =
      parse_operations_switch env data1 length tag s := by
  unfold parse_operations_switch
  rw [NEXT_BYTE_congr_from data data1 length lo hd s.ix hlo,
    NEXT_TYPE_congr_from data data1 length lo hd _ s.ix hlo,
    PARSE_Z_congr_from env data data1 length lo hd s.ix hlo]
  split
  · cases h1 : NEXT_BYTE data1 length s.ix with
    | ret c i => rfl
    | val b ix1 =>
      obtain ⟨e1, -, -⟩ := NEXT_BYTE_val_ix data1 length s.ix b ix1 h1
      simp only []
      split
      · rfl
      · split
        · rfl
        · rename_i hk
          rw [slice_congr data data1 _ ix1 (fun i h2 h3 => hd i (by omega) (by omega))]
  · split
    · rfl
    · split
      · cases h1 : PARSE_Z env data1 length s.ix with
        | none => rfl
        | some r1 =>
          cases r1 with
          | ret c i => rfl
          | val amount ix1 =>
            have l1 := PARSE_Z_val_ix env data1 length s.ix amount ix1 h1
            simp only [PState.with_cur]
            rw [NEXT_TYPE_congr_from data data1 length lo hd _ ix1 (by omega)]
            cases h2 : NEXT_TYPE data1 length (sizeof_contract env) ix1 with
            | ret c i => rfl
            | val dst ix2 =>
              obtain ⟨e2, -, -⟩ := NEXT_TYPE_val_ix data1 length _ ix1 dst ix2 h2
              simp only []
              rw [NEXT_BYTE_congr_from data data1 length lo hd ix2 (by omega)]
      · rfl

theorem parse_operations_body_congr_from (env : Env) (data data1 : Nat → Nat)
    (length lo : Nat) (hd : ∀ i, lo ≤ i → i < length → data i = data1 i)
    (s : PState) (hlo : lo ≤ s.ix) :
    parse_operations_body env data length s = parse_operations_body env data1 length s := by
  unfold parse_operations_body
  rw [NEXT_TYPE_congr_from data data1 length lo hd _ s.ix hlo]
  split
  · rfl
  · cases h1 : NEXT_TYPE data1 length (sizeof_operation_header env) s.ix with
    | ret c i => rfl
    | val hdr ix1 =>
      obtain ⟨e1, -, -⟩ := NEXT_TYPE_val_ix data1 length _ s.ix hdr ix1 h1
      simp only []
      split
      · rfl
      · rw [parse_operations_varints_congr_from env data data1 length lo hd _
          (by simp only [PState.with_cur]; omega)]
        cases h2 : parse_operations_varints env data1 length
            ({ s with ix := ix1 }.with_cur
              (fun cur => { cur with source := (parse_contract env (hdr.drop 1)).2 })) with
        | none => rfl
        | some f2 =>
          cases f2 with
          | ret c s2 => rfl
          | next s2 =>
            obtain ⟨fee, counter, gas, storage, -, -, -, -, -, -, e2⟩ :=
              parse_operations_varints_next_inv env data1 length _ s2 h2
            simp only []
            rw [parse_operations_switch_congr_from env data data1 length lo hd _ _
              (by rw [e2]; simp only [PState.with_cur]; omega)]

theorem parse_operations_loop_congr_from (env : Env) (data data1 : Nat → Nat)
    (length lo : Nat) (hd : ∀ i, lo ≤ i → i < length → data i = data1 i) :
    ∀ (fuel : Nat) (s : PState), lo ≤ s.ix →
      parse_operations_loop env data length fuel s =
        parse_operations_loop env data1 length fuel s := by
  intro fuel
  induction fuel with
  | zero => intro s _; rfl
  | succ fuel ih =>
    intro s hlo
    rw [parse_operations_loop, parse_operations_loop,
      parse_operations_body_congr_from env data data1 length lo hd s hlo]
    split
    · cases h1 : parse_operations_body env data1 length s with
      | none => rfl
      | some f1 =>
        cases f1 with
        | ret c s1 => rfl
        | next s1 =>
          obtain ⟨r, -, -, -, -, e1⟩ := parse_operations_body_next_inv env data1 length s s1 h1
          simp only []
          exact ih s1 (by rw [e1]; simp only [OpRecord.step]; omega)
    · rfl

theorem parse_operations_congr_header (env : Env) (data data1 : Nat → Nat) (length : Nat)
    (h0 : 0 < length → data 0 = data1 0)
    (hd : ∀ i, sizeof_operation_group_header ≤ i → i < length → data i = data1 i)
    (curve : Nat) (bip32_path : List Nat) :
    parse_operations env data length curve bip32_path =
      parse_operations env data1 length curve bip32_path := by
  by_cases hl : sizeof_operation_group_header ≤ length
  · have e0 : data 0 = data1 0 := h0 (by unfold sizeof_operation_group_header at hl; omega)
    by_cases hm : data 0 = env.MAGIC_BYTE_UNSAFE_OP
    · rw [parse_operations_start env data length curve bip32_path hl hm,
        parse_operations_start env data1 length curve bip32_path hl (e0 ▸ hm)]
      exact parse_operations_loop_congr_from env data data1 length _ hd _ _ (le_refl _)
    · rw [parse_operations_bad_magic env data length curve bip32_path hl hm,
        parse_operations_bad_magic env data1 length curve bip32_path hl (e0 ▸ hm)]
  · rw [parse_operations_short env data length curve bip32_path (by omega),
      parse_operations_short env data1 length curve bip32_path (by omega)]

/-- C15: the branch hash of the group header does not influence decoding.
Two buffers of the same length that agree at every offset other than 1 .. 32
give, for the same curve and path, the same result: the same code, the same
output structure, the same cursor and record count.  The function returns in
both cases. -/
theorem parse_operations_ignores_branch_hash (env : Env) (data data1 : Nat → Nat)
    (length curve : Nat) (bip32_path : List Nat)
    (hd : ∀ i, i < length → (i < 1 ∨ 32 < i) → data i = data1 i) :
    parse_operations env data length curve bip32_path =
      parse_operations env data1 length curve bip32_path ∧
    ∃ ret, parse_operations env data length curve bip32_path = some ret ∧
      parse_operations env data1 length curve bip32_path = some ret := by
  have e : parse_operations env data length curve bip32_path =
      parse_operations env data1 length curve bip32_path :=
    parse_operations_congr_header env data data1 length
      (fun h => hd 0 h (Or.inl (by omega)))
      (fun i h1 h2 => hd i h2 (Or.inr (by unfold sizeof_operation_group_header at h1; omega)))
      curve bip32_path
  obtain ⟨ret, hr⟩ := parse_operations_total env data length curve bip32_path
  exact ⟨e, ret, hr, e ▸ hr⟩

theorem parse_operations_ignores_branch_hash_witness :
    (∀ i, i < sampleGroup.length → (i < 1 ∨ 32 < i) →
      ofList sampleGroup i =
        (fun j => if 1 ≤ j ∧ j ≤ 32 then 0x11 else ofList sampleGroup j) i) ∧
    ofList sampleGroup 1 ≠ (fun j => if 1 ≤ j ∧ j ≤ 32 then 0x11 else ofList sampleGroup j) 1 ∧
    parse_operations sampleEnv (ofList sampleGroup) sampleGroup.length 0 samplePath =
      parse_operations sampleEnv
        (fun j => if 1 ≤ j ∧ j ≤ 32 then 0x11 else ofList sampleGroup j) sampleGroup.length 0
        samplePath :=
  ⟨fun i _ h => by
      have hn : ¬ (1 ≤ i ∧ i ≤ 32) := by omega
      simp only [hn, if_false],
    by decide,
    (parse_operations_ignores_branch_hash sampleEnv (ofList sampleGroup)
      (fun j => if 1 ≤ j ∧ j ≤ 32 then 0x11 else ofList sampleGroup j) sampleGroup.length 0
      samplePath (fun i _ h => by
        have hn : ¬ (1 ≤ i ∧ i ≤ 32) := by omega
        simp only [hn, if_false])).1⟩

/-! ## The layout of a record -/

theorem OpRecord.apply_tag (env : Env) (r : OpRecord) (cur : parsed_operation) :
    (r.apply env cur).tag = (r.tag : Int) := by
  unfold OpRecord.apply
  cases r.contents <;> rfl

theorem state_after_loop_start_operations (env : Env) (curve : Nat) (bip32_path : List Nat)
    (records : List OpRecord) (hk : records.length ≤ env.MAX_OPERATIONS_PER_GROUP) :
    (state_after env (loop_start env curve bip32_path) records).out.operations =
      records.map (fun r => r.apply env (empty_operation env)) ++
        List.replicate (env.MAX_OPERATIONS_PER_GROUP - records.length) (empty_operation env) := by
  have := state_after_operations env records (loop_start env curve bip32_path) []
    (empty_operation env) env.MAX_OPERATIONS_PER_GROUP
    (initial_out_operations env curve bip32_path) rfl hk
  simpa using this

/-- C14 (as stated) fails: the reveal `sampleReveal`, well formed for the
signing key, laid out in the order the claim gives (account reference, four
varints, kind tag 7, contents) is rejected with code 8, because the decoder
takes the first byte of the record (the 0 of the account reference) as the
kind tag.  Laid out with the kind tag first it is decoded with success and tag
7; in that buffer the first byte of the record (offset 33) is 7 and the byte
that follows the fourth varint (offset 33 + 1 + 22 + 5) is the curve code 0 of
the contents. -/
theorem record_layout_as_specified_rejected :
    sampleReveal.WellFormed sampleEnv (initial_out sampleEnv 0 samplePath).signing
      (initial_out sampleEnv 0 samplePath).public_key ∧
    (parse_operations sampleEnv (ofList sampleGroupAsSpecified) sampleGroupAsSpecified.length 0
      samplePath).map (fun ret => ret.code) = some 8 ∧
    (parse_operations sampleEnv (ofList sampleGroupReveal) sampleGroupReveal.length 0
      samplePath).map (fun ret => (ret.code, ret.state.out.operations.map (fun op => op.tag))) =
        some (0, [7, -1, -1]) ∧
    sampleGroupReveal.getD 33 0 = 7 ∧
    sampleReveal.varints.length = 5 ∧
    sampleGroupReveal.getD (33 + 1 + 22 + 5) 0 = 0 := by
  refine ⟨by decide, by decide, by decide, by decide, by decide, by decide⟩

/-- C14 (amended): in every operation record decoded by `parse_operations`
the fields are laid out in this order: first the one-byte operation-kind tag,
then the account reference of the source (`sizeof(struct contract)` bytes),
then the four varints (fee, counter, gas limit, storage limit), then the
kind-specific fields.  Whenever the function returns 0 the buffer is the group
header followed by records of that layout, entry `i` of the operation array
carries the first byte of record `i` as its tag, and that byte is the `case`
label of the contents that follow the fourth varint. -/
theorem parse_operations_record_layout (env : Env) (data : Nat → Nat) (length curve : Nat)
    (bip32_path : List Nat) (ret : Returned)
    (h : parse_operations env data length curve bip32_path = some ret) (hc : ret.code = 0) :
    ∃ (hash : List Nat) (records : List OpRecord), hash.length = 32 ∧
      slice data 0 length = env.MAGIC_BYTE_UNSAFE_OP :: (hash ++ encode_records records) ∧
      (∀ r ∈ records,
        r.encode = [r.tag] ++ r.source ++ r.fee ++ r.counter ++ r.gas_limit ++ r.storage_limit
          ++ r.contents.encode ∧
        r.source.length = sizeof_contract env ∧ is_varint r.fee = true ∧
        is_varint r.counter = true ∧ is_varint r.gas_limit = true ∧
        is_varint r.storage_limit = true ∧ (r.tag : Int) = r.contents.tag env) ∧
      (∀ (i : Nat) (r : OpRecord), records[i]? = some r →
        ∃ op : parsed_operation, ret.state.out.operations[i]? = some op ∧
          op.tag = (r.tag : Int) ∧ r.encode.head? = some r.tag) := by
  obtain ⟨hash, records, hh, hk, hwf, hbuf, hst⟩ :=
    parse_operations_success_inv env data length curve bip32_path ret h hc
  refine ⟨hash, records, hh, hbuf, ?_, ?_⟩
  · intro r hr
    obtain ⟨h1, h2, h3, h4, h5, h6, _⟩ := hwf r hr
    refine ⟨?_, h2, h3, h4, h5, h6, h1⟩
    simp [OpRecord.encode, OpRecord.varints]
  · intro i r hi
    have hlt : i < records.length := by
      rcases Nat.lt_or_ge i records.length with h | h
      · exact h
      · rw [List.getElem?_eq_none h] at hi; simp at hi
    refine ⟨r.apply env (empty_operation env), ?_, OpRecord.apply_tag env r _, rfl⟩
    rw [hst, state_after_loop_start_operations env curve bip32_path records hk,
      List.getElem?_append_left (by simpa using hlt), List.getElem?_map, hi]
    rfl

theorem parse_operations_record_layout_witness :
    ∃ (hash : List Nat) (records : List OpRecord), hash.length = 32 ∧
      slice (ofList sampleGroup) 0 sampleGroup.length =
        sampleEnv.MAGIC_BYTE_UNSAFE_OP :: (hash ++ encode_records records) :=
  let ⟨hash, records, h1, h2, _⟩ := parse_operations_record_layout sampleEnv
    (ofList sampleGroup) sampleGroup.length 0 samplePath
    { code := 0
      state := state_after sampleEnv (loop_start sampleEnv 0 samplePath)
        [sampleReveal, sampleDelegation, sampleTransaction] }
    (parse_operations_of_group sampleEnv (ofList sampleGroup) sampleGroup.length 0 samplePath
      sampleHash [sampleReveal, sampleDelegation, sampleTransaction] (by decide) (by decide)
      (by decide) (slice_ofList _)) rfl
  ⟨hash, records, h1, h2⟩

/-! ## The failure codes -/

theorem NEXT_TYPE_ret_inv (data : Nat → Nat) (length sz ix code ix1 : Nat)
    (h : NEXT_TYPE data length sz ix = Res.ret code ix1) :
    code = sz ∧ ix1 = ix ∧ length < ix + sz := by
  unfold NEXT_TYPE at h
  split at h
  · simp only [Res.ret.injEq] at h
    exact ⟨h.1.symm, h.2.symm, by omega⟩
  · cases h

theorem PARSE_Z_ret_inv (env : Env) (data : Nat → Nat) (length ix code ix1 : Nat)
    (h : PARSE_Z env data length ix = some (Res.ret code ix1)) : code = 23 :=
  (PARSE_Z_loop_ret_inv env data length _ 0 0 ix code ix1 h).1

/-- C13 (as stated) fails for 20-byte hashes: `sizeof(struct
operation_header)` is then 23, the code of a truncated varint.  A buffer that
ends inside the operation header of its first record and a buffer that ends
inside the fee varint of its first record both make `parse_operations` return
23. -/
theorem truncated_varint_code_not_distinct :
    sizeof_operation_header sampleEnv = 23 ∧
    (parse_operations sampleEnv (ofList sampleCutHeader) sampleCutHeader.length 0
      samplePath).map (fun ret => (ret.code, ret.state.ix)) = some (23, 33) ∧
    NEXT_TYPE (ofList sampleCutHeader) sampleCutHeader.length
      (sizeof_operation_header sampleEnv) 33 = Res.ret 23 33 ∧
    (parse_operations sampleEnv (ofList sampleCutFee) sampleCutFee.length 0
      samplePath).map (fun ret => (ret.code, ret.state.ix)) = some (23, 57) ∧
    PARSE_Z sampleEnv (ofList sampleCutFee) sampleCutFee.length 56 = some (Res.ret 23 57) := by
  refine ⟨by decide, by decide, by decide, by decide, by decide⟩

/-- C13 (amended): an out-of-bounds fixed-size read returns the size of what
it reads and a truncated varint returns 23.  The code 23 differs from the size
of the group header (33) and of a single byte (1); it differs from the sizes
of the operation header (`HASH_SIZE + 3`), of the delegation contents and of
the account reference (`HASH_SIZE + 2`) and from the public key length
exactly when `HASH_SIZE` is neither 20 nor 21 and the key length is not 23.
With `HASH_SIZE = 20` the operation header takes 23 bytes. -/
theorem truncated_varint_code_vs_read_sizes (env : Env) (key : cx_ecfp_public_key_t) :
    (∀ (data : Nat → Nat) (length sz ix code ix1 : Nat),
      NEXT_TYPE data length sz ix = Res.ret code ix1 → code = sz) ∧
    (∀ (data : Nat → Nat) (length ix code ix1 : Nat),
      PARSE_Z env data length ix = some (Res.ret code ix1) → code = 23) ∧
    23 ≠ sizeof_operation_group_header ∧ 23 ≠ 1 ∧
    ((23 ≠ sizeof_operation_header env ∧ 23 ≠ sizeof_delegation_contents env ∧
        23 ≠ sizeof_contract env ∧ 23 ≠ key.W_len) ↔
      (env.HASH_SIZE ≠ 20 ∧ env.HASH_SIZE ≠ 21 ∧ key.W_len ≠ 23)) ∧
    (env.HASH_SIZE = 20 → sizeof_operation_header env = 23) := by
  refine ⟨fun data length sz ix code ix1 h => (NEXT_TYPE_ret_inv data length sz ix code ix1 h).1,
    fun data length ix code ix1 h => PARSE_Z_ret_inv env data length ix code ix1 h,
    by decide, by decide, ?_, ?_⟩
  · unfold sizeof_operation_header sizeof_delegation_contents sizeof_contract
    constructor
    · rintro ⟨h1, h2, h3, h4⟩
      exact ⟨by omega, by omega, by omega⟩
    · rintro ⟨h1, h2, h3⟩
      exact ⟨by omega, by omega, by omega, by omega⟩
  · intro h
    unfold sizeof_operation_header sizeof_contract
    omega

theorem truncated_varint_code_vs_read_sizes_witness :
    sampleEnv.HASH_SIZE = 20 ∧ sizeof_operation_header sampleEnv = 23 :=
  ⟨rfl, (truncated_varint_code_vs_read_sizes sampleEnv { W := sampleKey }).2.2.2.2.2 rfl⟩

/-! ## Failures that persist when the buffer is extended -/

theorem slice_extends (data data1 : Nat → Nat) (length length1 : Nat)
    (hx : Extends data length data1 length1) (ix n : Nat) (h : ix + n ≤ length) :
    slice data1 ix n = slice data ix n :=
  slice_congr data1 data n ix (fun i _ h2 => hx.2 i (by omega))

theorem NEXT_TYPE_extends (data data1 : Nat → Nat) (length length1 : Nat)
    (hx : Extends data length data1 length1) (sz ix : Nat) (h : ix + sz ≤ length) :
    NEXT_TYPE data1 length1 sz ix = Res.val (slice data ix sz) (ix + sz) := by
  rw [NEXT_TYPE_val data1 length1 sz ix (le_trans h hx.1),
    slice_extends data data1 length length1 hx ix sz h]

theorem NEXT_BYTE_extends (data data1 : Nat → Nat) (length length1 : Nat)
    (hx : Extends data length data1 length1) (ix : Nat) (h : ix < length) :
    NEXT_BYTE data1 length1 ix = Res.val (data ix) (ix + 1) := by
  rw [NEXT_BYTE_val data1 length1 ix (lt_of_lt_of_le h hx.1), hx.2 ix h]

theorem PARSE_Z_extends (env : Env) (data data1 : Nat → Nat) (length length1 : Nat)
    (hx : Extends data length data1 length1) (ix a ix1 : Nat)
    (h : PARSE_Z env data length ix = some (Res.val a ix1)) :
    PARSE_Z env data1 length1 ix = some (Res.val a ix1) := by
  obtain ⟨v, hv, hs, e1, hle, ea⟩ := PARSE_Z_val_inv env data length ix a ix1 h
  rw [e1, ea]
  exact PARSE_Z_of_varint env data1 length1 v ix hv
    (by rw [slice_extends data data1 length length1 hx ix v.length (by omega)]; exact hs)
    (by have := hx.1; omega)

theorem parse_operations_varints_extends (env : Env) (data data1 : Nat → Nat)
    (length length1 : Nat) (hx : Extends data length data1 length1) (s : PState) (f : Flow)
    (hle : s.ix ≤ length) (h : parse_operations_varints env data length s = some f) :
    f.Short [23] length ∨
      (parse_operations_varints env data1 length1 s = some f ∧ f.CodeIn []) := by
  cases f with
  | next s1 =>
    right
    obtain ⟨fee, counter, gas, storage, h1, h2, h3, h4, hs, hlen, rfl⟩ :=
      parse_operations_varints_next_inv env data length s s1 h
    exact ⟨parse_operations_varints_of_varints env data1 length1 s fee counter gas storage
      h1 h2 h3 h4
      (by rw [slice_extends data data1 length length1 hx _ _ hlen]; exact hs)
      (le_trans hlen hx.1), trivial⟩
  | ret code s1 =>
    left
    obtain ⟨e1, e2, _⟩ := parse_operations_varints_ret_inv env data length s s1 code hle h
    simp only [Flow.Short, e1, e2, List.mem_singleton, true_and]
    omega

theorem parse_operations_switch_extends (env : Env) (data data1 : Nat → Nat)
    (length length1 : Nat) (hx : Extends data length data1 length1) (tag : Int) (s : PState)
    (f : Flow) (hle : s.ix ≤ length)
    (h : parse_operations_switch env data length tag s = some f) :
    f.Short (insufficient_codes env s.out.public_key) length ∨
      (parse_operations_switch env data1 length1 tag s = some f ∧ f.CodeIn [64, 4, 101, 8]) := by
  cases f with
  | next s1 =>
    right
    obtain ⟨c, hwf, htag, hs, hlen, rfl⟩ :=
      parse_operations_switch_next_inv env data length tag s s1 h
    exact ⟨parse_operations_switch_of_contents env data1 length1 tag s c hwf htag
      (by rw [slice_extends data data1 length length1 hx _ _ hlen]; exact hs)
      (le_trans hlen hx.1), trivial⟩
  | ret code s1 =>
    have hl1 := hx.1
    by_cases ht1 : tag = env.OPERATION_TAG_REVEAL
    · rw [parse_operations_switch_reveal env data length tag s ht1] at h
      rw [parse_operations_switch_reveal env data1 length1 tag s ht1]
      by_cases hix : s.ix < length
      · rw [if_neg (by omega)] at h
        rw [if_neg (by omega), hx.2 s.ix hix]
        by_cases hb : data s.ix ≠ s.out.signing.curve_code
        · rw [if_pos hb] at h
          rw [if_pos hb]
          simp only [Option.some.injEq, Flow.ret.injEq] at h
          obtain ⟨rfl, rfl⟩ := h
          exact Or.inr ⟨rfl, by simp [Flow.CodeIn]⟩
        · rw [if_neg hb] at h
          rw [if_neg hb]
          by_cases hk : s.ix + 1 + s.out.public_key.W_len > length
          · rw [if_pos hk] at h
            simp only [Option.some.injEq, Flow.ret.injEq] at h
            obtain ⟨rfl, rfl⟩ := h
            left
            simp only [Flow.Short, insufficient_codes, List.mem_cons, true_or, or_true, true_and]
            omega
          · rw [if_neg hk] at h
            rw [if_neg (by omega),
              slice_extends data data1 length length1 hx _ _ (by omega)]
            by_cases hw : s.out.public_key.W ≠ slice data (s.ix + 1) s.out.public_key.W_len
            · rw [if_pos hw] at h
              rw [if_pos hw]
              simp only [Option.some.injEq, Flow.ret.injEq] at h
              obtain ⟨rfl, rfl⟩ := h
              exact Or.inr ⟨rfl, by simp [Flow.CodeIn]⟩
            · rw [if_neg hw] at h
              simp at h
      · rw [if_pos (by omega)] at h
        simp only [Option.some.injEq, Flow.ret.injEq] at h
        obtain ⟨rfl, rfl⟩ := h
        left
        simp only [Flow.Short, insufficient_codes, List.mem_cons, true_or, or_true, true_and]
        omega
    · unfold parse_operations_switch at h ⊢
      simp only [ht1, if_false] at h ⊢
      by_cases ht2 : tag = env.OPERATION_TAG_DELEGATION
      · simp only [ht2, if_true] at h ⊢
        by_cases hix : s.ix + sizeof_delegation_contents env ≤ length
        · rw [NEXT_TYPE_val data length _ s.ix hix] at h
          simp [parse_implicit] at h
        · rw [NEXT_TYPE_ret data length _ s.ix (by omega)] at h
          simp only [Option.some.injEq, Flow.ret.injEq] at h
          obtain ⟨rfl, rfl⟩ := h
          left
          simp only [Flow.Short, insufficient_codes, List.mem_cons, true_or, or_true, true_and]
          omega
      · simp only [ht2, if_false] at h ⊢
        by_cases ht3 : tag = env.OPERATION_TAG_TRANSACTION
        · simp only [ht3, if_true] at h ⊢
          cases e1 : PARSE_Z env data length s.ix with
          | none => rw [e1] at h; simp at h
          | some r1 =>
            cases r1 with
            | ret c ix1 =>
              rw [e1] at h
              obtain ⟨a, _, b, _⟩ := PARSE_Z_loop_ret_inv _ _ _ _ _ _ _ _ _ e1
              simp only [Option.some.injEq, Flow.ret.injEq] at h
              obtain ⟨rfl, rfl⟩ := h
              left
              rw [a]
              refine ⟨by simp [insufficient_codes], ?_⟩
              have := b hle
              simp only []
              omega
            | val amount ix1 =>
              rw [e1] at h
              rw [PARSE_Z_extends env data data1 length length1 hx s.ix amount ix1 e1]
              obtain ⟨v, _, _, c1, d1, _⟩ := PARSE_Z_val_inv _ _ _ _ _ _ e1
              simp only [PState.with_cur] at h ⊢
              by_cases hix : ix1 + sizeof_contract env ≤ length
              · rw [NEXT_TYPE_val data length _ _ hix] at h
                rw [NEXT_TYPE_extends data data1 length length1 hx _ _ hix]
                simp only [parse_contract_fst, ne_eq, not_true_eq_false, if_false] at h ⊢
                by_cases hix2 : ix1 + sizeof_contract env < length
                · rw [NEXT_BYTE_val data length _ hix2] at h
                  rw [NEXT_BYTE_extends data data1 length length1 hx _ hix2]
                  simp only [] at h ⊢
                  by_cases hp : data (ix1 + sizeof_contract env) = 0
                  · simp [hp] at h
                  · simp only [hp, ne_eq, not_false_eq_true, if_true, Option.some.injEq,
                      Flow.ret.injEq] at h ⊢
                    obtain ⟨rfl, rfl⟩ := h
                    exact Or.inr ⟨⟨rfl, rfl⟩, by simp [Flow.CodeIn]⟩
                · rw [NEXT_BYTE_ret data length _ (by omega)] at h
                  simp only [Option.some.injEq, Flow.ret.injEq] at h
                  obtain ⟨rfl, rfl⟩ := h
                  left
                  simp only [Flow.Short, insufficient_codes, List.mem_cons, true_or, or_true,
                    true_and]
                  omega
              · rw [NEXT_TYPE_ret data length _ _ (by omega)] at h
                simp only [Option.some.injEq, Flow.ret.injEq] at h
                obtain ⟨rfl, rfl⟩ := h
                left
                simp only [Flow.Short, insufficient_codes, List.mem_cons, true_or, or_true,
                  true_and]
                omega
        · simp only [ht3, if_false, Option.some.injEq, Flow.ret.injEq] at h ⊢
          obtain ⟨rfl, rfl⟩ := h
          exact Or.inr ⟨⟨rfl, rfl⟩, by simp [Flow.CodeIn]⟩

theorem parse_operations_body_extends (env : Env) (data data1 : Nat → Nat)
    (length length1 : Nat) (hx : Extends data length data1 length1) (s : PState)
    (f : Flow) (h : parse_operations_body env data length s = some f) :
    f.Short (insufficient_codes env s.out.public_key) length ∨
      (parse_operations_body env data1 length1 s = some f ∧
        f.CodeIn [55, 64, 4, 101, 8]) := by
  unfold parse_operations_body at h ⊢
  by_cases hop : s.op_index < env.MAX_OPERATIONS_PER_GROUP
  swap
  · simp only [ge_iff_le, Nat.not_lt.mp hop, if_true, Option.some.injEq] at h ⊢
    subst h
    exact Or.inr ⟨rfl, by simp [Flow.CodeIn]⟩
  simp only [ge_iff_le, Nat.not_le.mpr hop, if_false] at h ⊢
  by_cases hix : s.ix + sizeof_operation_header env ≤ length
  swap
  · rw [NEXT_TYPE_ret data length _ s.ix (by omega)] at h
    simp only [Option.some.injEq] at h
    subst h
    left
    simp only [Flow.Short, insufficient_codes, List.mem_cons, true_or, or_true, true_and]
    omega
  rw [NEXT_TYPE_val data length _ s.ix hix] at h
  rw [NEXT_TYPE_extends data data1 length length1 hx _ _ hix]
  simp only [parse_contract_fst, ne_eq, not_true_eq_false, if_false] at h ⊢
  split at h
  · simp at h
  · rename_i c s2 e2
    simp only [Option.some.injEq] at h
    subst h
    left
    obtain ⟨a, b, _⟩ := parse_operations_varints_ret_inv _ _ _ _ _ _ hix e2
    rw [a]
    refine ⟨by simp [insufficient_codes], ?_⟩
    omega
  · rename_i s2 e2
    rcases parse_operations_varints_extends env data data1 length length1 hx _ _
      (by simp only [PState.with_cur]; exact hix) e2 with hs | ⟨hst, _⟩
    · exact absurd hs (by simp [Flow.Short])
    rw [hst]
    obtain ⟨fee, counter, gas, storage, _, _, _, _, _, hlv, rfl⟩ :=
      parse_operations_varints_next_inv _ _ _ _ _ e2
    simp only [] at h ⊢
    split at h
    · simp at h
    · rename_i c s4 e4
      simp only [Option.some.injEq] at h
      subst h
      rcases parse_operations_switch_extends env data data1 length length1 hx _ _ _
        (by simp only [PState.with_cur]; exact hlv) e4 with hs | ⟨hst4, hc4⟩
      · exact Or.inl hs
      · right
        rw [hst4]
        refine ⟨rfl, ?_⟩
        simp only [Flow.CodeIn, List.mem_cons] at hc4 ⊢
        exact Or.inr hc4
    · rename_i s4 e4
      simp only [Option.some.injEq] at h
      subst h
      rcases parse_operations_switch_extends env data data1 length length1 hx _ _ _
        (by simp only [PState.with_cur]; exact hlv) e4 with hs | ⟨hst4, _⟩
      · exact absurd hs (by simp [Flow.Short])
      · right
        rw [hst4]
        exact ⟨rfl, trivial⟩

theorem parse_operations_loop_extends (env : Env) (data data1 : Nat → Nat)
    (length length1 : Nat) (hx : Extends data length data1 length1) :
    ∀ (fuel : Nat) (s : PState) (ret : Returned),
      parse_operations_loop env data length fuel s = some ret →
      ret.code = 0 ∨
        (ret.code ∈ insufficient_codes env s.out.public_key ∧
          length < ret.state.ix + ret.code) ∨
        (ret.code ∈ [55, 64, 4, 101, 8] ∧
          parse_operations_loop env data1 length1 fuel s = some ret) := by
  intro fuel
  induction fuel with
  | zero => intro s ret h; cases h
  | succ fuel ih =>
    intro s ret h
    by_cases hix : s.ix < length
    · rw [parse_operations_loop_step env data length fuel s hix] at h
      rw [parse_operations_loop_step env data1 length1 fuel s (lt_of_lt_of_le hix hx.1)]
      split at h
      · cases h
      · rename_i c s1 e1
        simp only [Option.some.injEq] at h
        subst h
        rcases parse_operations_body_extends env data data1 length length1 hx s _ e1 with
          hs | ⟨hst, hc⟩
        · exact Or.inr (Or.inl hs)
        · rw [hst]
          exact Or.inr (Or.inr ⟨hc, rfl⟩)
      · rename_i s1 e1
        rcases parse_operations_body_extends env data data1 length length1 hx s _ e1 with
          hs | ⟨hst, _⟩
        · exact absurd hs (by simp [Flow.Short])
        · rw [hst]
          obtain ⟨r, -, -, -, -, e⟩ := parse_operations_body_next_inv env data length s s1 e1
          have hk : s1.out.public_key = s.out.public_key := by rw [e]; rfl
          have := ih s1 ret h
          rw [hk] at this
          exact this
    · rw [parse_operations_loop_end env data length fuel s (by omega)] at h
      simp only [Option.some.injEq] at h
      subst h
      exact Or.inl rfl

theorem parse_operations_extends (env : Env) (data data1 : Nat → Nat)
    (length length1 : Nat) (hx : Extends data length data1 length1) (curve : Nat)
    (bip32_path : List Nat) (ret : Returned)
    (h : parse_operations env data length curve bip32_path = some ret) :
    ret.code = 0 ∨
      (ret.code ∈ insufficient_codes env (initial_out env curve bip32_path).public_key ∧
        length < ret.state.ix + ret.code) ∨
      (ret.code ∈ semantic_codes ∧
        parse_operations env data1 length1 curve bip32_path = some ret) := by
  by_cases hl : sizeof_operation_group_header ≤ length
  · have h0 : data1 0 = data 0 := hx.2 0 (by unfold sizeof_operation_group_header at hl; omega)
    by_cases hm : data 0 = env.MAGIC_BYTE_UNSAFE_OP
    · rw [parse_operations_start env data length curve bip32_path hl hm] at h
      rw [parse_operations_start env data1 length1 curve bip32_path (le_trans hl hx.1)
        (h0 ▸ hm)]
      rcases parse_operations_loop_extends env data data1 length length1 hx _ _ ret h with
        h1 | h1 | ⟨h1, h2⟩
      · exact Or.inl h1
      · exact Or.inr (Or.inl h1)
      · refine Or.inr (Or.inr ⟨?_, h2⟩)
        simp only [semantic_codes, List.mem_cons, List.mem_singleton, List.not_mem_nil,
          or_false] at h1 ⊢
        omega
    · rw [parse_operations_bad_magic env data length curve bip32_path hl hm] at h
      rw [parse_operations_bad_magic env data1 length1 curve bip32_path (le_trans hl hx.1)
        (h0 ▸ hm)]
      simp only [Option.some.injEq] at h
      subst h
      exact Or.inr (Or.inr ⟨by simp [semantic_codes], rfl⟩)
  · rw [parse_operations_short env data length curve bip32_path (by omega)] at h
    simp only [Option.some.injEq] at h
    subst h
    refine Or.inr (Or.inl ⟨by simp [insufficient_codes], ?_⟩)
    simp only []
    omega

theorem Extends.refl (data : Nat → Nat) (length : Nat) : Extends data length data length :=
  ⟨le_refl _, fun _ _ => rfl⟩

theorem insufficient_codes_not_semantic (env : Env) (key : cx_ecfp_public_key_t)
    (hH : env.HASH_SIZE ∉ [1, 2, 5, 6, 12, 13, 52, 53, 61, 62, 98, 99])
    (hW : key.W_len = 33 ∨ key.W_len = 65) :
    ∀ c ∈ insufficient_codes env key, c ∉ semantic_codes := by
  intro c hc
  simp only [insufficient_codes, sizeof_operation_group_header, sizeof_operation_header,
    sizeof_contract, sizeof_delegation_contents, List.mem_cons, List.mem_singleton,
    List.not_mem_nil, or_false] at hc
  simp only [List.mem_cons, List.mem_singleton, List.not_mem_nil, or_false, not_or] at hH
  simp only [semantic_codes, List.mem_cons, List.mem_singleton, List.not_mem_nil, or_false,
    not_or]
  omega

/-- C12: the code of `parse_operations` tells the two failure classes apart
(for `HASH_SIZE` outside 1, 2, 5, 6, 12, 13, 52, 53, 61, 62, 98, 99, so for
20-byte hashes, and a signing key of 33 or 65 bytes).  The function returns,
and a non-zero code is either
* one of the sizes of the fixed-size reads or the varint code 23, returned
  where that many bytes counted from the cursor run past the end of the
  buffer, and then it is none of 15, 4, 64, 8, 101, 55; or
* one of 15, 4, 64, 8, 101, 55, and then it is none of the former and the
  failure is not for want of bytes: every buffer that extends this one gives
  the same code and state.
The six codes are pairwise distinct, and they are returned for, in this order,
a bad magic byte, a key mismatch, a curve mismatch, an unsupported tag,
non-zero parameters, and a record beyond the capacity. -/
theorem parse_operations_failure_classes (env : Env) (data : Nat → Nat) (length curve : Nat)
    (bip32_path : List Nat)
    (hH : env.HASH_SIZE ∉ [1, 2, 5, 6, 12, 13, 52, 53, 61, 62, 98, 99])
    (hW : (initial_out env curve bip32_path).public_key.W_len = 33 ∨
      (initial_out env curve bip32_path).public_key.W_len = 65) :
    (∃ ret, parse_operations env data length curve bip32_path = some ret ∧
      (ret.code = 0 ∨
        (ret.code ∈ insufficient_codes env (initial_out env curve bip32_path).public_key ∧
          length < ret.state.ix + ret.code ∧ ret.code ∉ semantic_codes) ∨
        (ret.code ∈ semantic_codes ∧
          ret.code ∉ insufficient_codes env (initial_out env curve bip32_path).public_key ∧
          ∀ (data1 : Nat → Nat) (length1 : Nat), Extends data length data1 length1 →
            parse_operations env data1 length1 curve bip32_path = some ret))) ∧
    semantic_codes = [15, 4, 64, 8, 101, 55] ∧ semantic_codes.Nodup ∧
    (sizeof_operation_group_header ≤ length → data 0 ≠ env.MAGIC_BYTE_UNSAFE_OP →
      parse_operations env data length curve bip32_path =
        some { code := 15, state := loop_start env curve bip32_path }) ∧
    (∀ s : PState, s.ix + 1 + s.out.public_key.W_len ≤ length →
      data s.ix = s.out.signing.curve_code →
      s.out.public_key.W ≠ slice data (s.ix + 1) s.out.public_key.W_len →
      parse_operations_switch env data length env.OPERATION_TAG_REVEAL s =
        some (Flow.ret 4 { s with ix := s.ix + 1 })) ∧
    (∀ s : PState, s.ix < length → data s.ix ≠ s.out.signing.curve_code →
      parse_operations_switch env data length env.OPERATION_TAG_REVEAL s =
        some (Flow.ret 64 { s with ix := s.ix + 1 })) ∧
    (∀ (tag : Int) (s : PState), tag ≠ env.OPERATION_TAG_REVEAL →
      tag ≠ env.OPERATION_TAG_DELEGATION → tag ≠ env.OPERATION_TAG_TRANSACTION →
      parse_operations_switch env data length tag s = some (Flow.ret 8 s)) ∧
    (∀ (s : PState) (amount destination : List Nat) (params : Nat),
      is_varint amount = true → destination.length = sizeof_contract env → params ≠ 0 →
      slice data s.ix (amount ++ (destination ++ [params])).length =
        amount ++ (destination ++ [params]) →
      s.ix + (amount ++ (destination ++ [params])).length ≤ length →
      ∃ s1, parse_operations_switch env data length env.OPERATION_TAG_TRANSACTION s =
        some (Flow.ret 101 s1)) ∧
    (∀ s : PState, env.MAX_OPERATIONS_PER_GROUP ≤ s.op_index →
      parse_operations_body env data length s = some (Flow.ret 55 s)) := by
  have hdis := insufficient_codes_not_semantic env _ hH hW
  refine ⟨?_, rfl, by decide, ?_, ?_, ?_, ?_, ?_, ?_⟩
  · obtain ⟨ret, hr⟩ := parse_operations_total env data length curve bip32_path
    refine ⟨ret, hr, ?_⟩
    by_cases h0 : ret.code = 0
    · exact Or.inl h0
    by_cases hA : ret.code ∈ insufficient_codes env (initial_out env curve bip32_path).public_key
    · rcases parse_operations_extends env data data length length (Extends.refl _ _) curve
        bip32_path ret hr with h1 | ⟨_, h1⟩ | ⟨h1, _⟩
      · exact absurd h1 h0
      · exact Or.inr (Or.inl ⟨hA, h1, hdis _ hA⟩)
      · exact absurd h1 (hdis _ hA)
    · refine Or.inr (Or.inr ?_)
      have hS : ret.code ∈ semantic_codes := by
        rcases parse_operations_extends env data data length length (Extends.refl _ _) curve
          bip32_path ret hr with h1 | ⟨h1, _⟩ | ⟨h1, _⟩
        · exact absurd h1 h0
        · exact absurd h1 hA
        · exact h1
      refine ⟨hS, hA, fun data1 length1 hx => ?_⟩
      rcases parse_operations_extends env data data1 length length1 hx curve bip32_path ret hr
        with h1 | ⟨h1, _⟩ | ⟨_, h1⟩
      · exact absurd h1 h0
      · exact absurd h1 hA
      · exact h1
  · exact fun hl hm => parse_operations_bad_magic env data length curve bip32_path hl hm
  · intro s hl hc hw
    rw [parse_operations_switch_reveal env data length _ s rfl, if_neg (by omega),
      if_neg (by simpa using hc), if_neg (by omega), if_pos hw]
  · intro s hl hc
    rw [parse_operations_switch_reveal env data length _ s rfl, if_neg (by omega), if_pos hc]
  · exact fun tag s h1 h2 h3 => parse_operations_switch_default env data length tag s h1 h2 h3
  · exact fun s amount destination params ha hd hp hs hlen =>
      parse_operations_switch_params env data length _ s amount destination params rfl ha hd hp
        hs hlen
  · intro s hop
    unfold parse_operations_body
    rw [if_pos hop]

theorem parse_operations_failure_classes_witness :
    sampleEnv.HASH_SIZE ∉ [1, 2, 5, 6, 12, 13, 52, 53, 61, 62, 98, 99] ∧
    (initial_out sampleEnv 0 samplePath).public_key.W_len = 33 ∧
    ∃ ret, parse_operations sampleEnv (ofList sampleCutFee) sampleCutFee.length 0 samplePath =
      some ret :=
  ⟨by decide, by decide,
    let ⟨ret, h, _⟩ := (parse_operations_failure_classes sampleEnv (ofList sampleCutFee)
      sampleCutFee.length 0 samplePath (by decide) (Or.inl (by decide))).1
    ⟨ret, h⟩⟩

/-! ## The baking-data classifier -/

theorem READ_UNALIGNED_BIG_ENDIAN_four (data : Nat → Nat) (ix : Nat) :
    READ_UNALIGNED_BIG_ENDIAN (slice data ix sizeof_level_t) =
      data ix * 2 ^ 24 + data (ix + 1) * 2 ^ 16 + data (ix + 2) * 2 ^ 8 + data (ix + 3) := by
  simp only [READ_UNALIGNED_BIG_ENDIAN, sizeof_level_t, slice, List.foldl]
  ring

theorem parse_baking_data_endorsement (benv : BakingEnv) (data : Nat → Nat) (length : Nat)
    (out : parsed_baking_data)
    (hm : benv.get_magic_byte data length = benv.MAGIC_BYTE_BAKING_OP) :
    parse_baking_data benv data length out =
      if length ≠ sizeof_endorsement then (false, out)
      else
        (true,
          { out with
            is_endorsement := true
            level :=
              READ_UNALIGNED_BIG_ENDIAN (slice data offsetof_endorsement_level sizeof_level_t) }) := by
  simp only [parse_baking_data, hm, if_true]

theorem parse_baking_data_block (benv : BakingEnv) (data : Nat → Nat) (length : Nat)
    (out : parsed_baking_data)
    (hm : benv.get_magic_byte data length = benv.MAGIC_BYTE_BLOCK) :
    parse_baking_data benv data length out =
      if length < sizeof_block then (false, out)
      else
        (true,
          { out with
            is_endorsement := false
            level := READ_UNALIGNED_BIG_ENDIAN (slice data offsetof_block_level sizeof_level_t) }) := by
  simp only [parse_baking_data, hm, benv.baking_op_ne_block.symm, if_true, if_false]

theorem parse_baking_data_other (benv : BakingEnv) (data : Nat → Nat) (length : Nat)
    (out : parsed_baking_data)
    (h1 : benv.get_magic_byte data length ≠ benv.MAGIC_BYTE_BAKING_OP)
    (h2 : benv.get_magic_byte data length ≠ benv.MAGIC_BYTE_BLOCK) :
    parse_baking_data benv data length out = (false, out) := by
  simp only [parse_baking_data, h1, h2, if_false]

/-- C16 (as stated) fails: an endorsement of 43 bytes (a complete 42-byte
endorsement and one more byte) has the endorsement magic byte and is at least
42 bytes long, yet `parse_baking_data` returns false for it and leaves the
output as it was. -/
theorem parse_baking_data_long_endorsement_rejected :
    sampleBakingEnv.get_magic_byte (ofList sampleLongEndorsement) sampleLongEndorsement.length =
      sampleBakingEnv.MAGIC_BYTE_BAKING_OP ∧
    sizeof_endorsement = 42 ∧ sizeof_endorsement ≤ sampleLongEndorsement.length ∧
    parse_baking_data sampleBakingEnv (ofList sampleLongEndorsement)
      sampleLongEndorsement.length sampleBakingOut = (false, sampleBakingOut) := by
  refine ⟨by decide, by decide, by decide, by decide⟩

/-- C16 (amended): `struct block` takes 10 bytes and `struct endorsement` 42.
`parse_baking_data` returns true exactly when the magic byte of the message
classifies it as a block and its length is at least 10, or classifies it as an
endorsement and its length is exactly 42; so it returns false for every
shorter message, for every endorsement longer than 42 bytes and for every
other magic byte.  Beyond what `get_magic_byte` reads it reads no byte outside
the message: the result is the same for any memory that holds the same
message and has the same magic byte. -/
theorem parse_baking_data_length_check (benv : BakingEnv) (data : Nat → Nat) (length : Nat)
    (out : parsed_baking_data) :
    sizeof_block = 10 ∧ sizeof_endorsement = 42 ∧
    ((parse_baking_data benv data length out).1 = true ↔
      (benv.get_magic_byte data length = benv.MAGIC_BYTE_BLOCK ∧ 10 ≤ length) ∨
      (benv.get_magic_byte data length = benv.MAGIC_BYTE_BAKING_OP ∧ length = 42)) ∧
    (∀ data1 : Nat → Nat, (∀ i, i < length → data1 i = data i) →
      benv.get_magic_byte data1 length = benv.get_magic_byte data length →
      parse_baking_data benv data1 length out = parse_baking_data benv data length out) := by
  refine ⟨rfl, rfl, ?_, ?_⟩
  · by_cases h1 : benv.get_magic_byte data length = benv.MAGIC_BYTE_BAKING_OP
    · rw [parse_baking_data_endorsement benv data length out h1]
      have hne : benv.get_magic_byte data length ≠ benv.MAGIC_BYTE_BLOCK := by
        rw [h1]; exact benv.baking_op_ne_block
      by_cases hl : length = 42
      · subst hl
        simp [sizeof_endorsement, h1]
      · simp [hl, sizeof_endorsement, hne]
    · by_cases h2 : benv.get_magic_byte data length = benv.MAGIC_BYTE_BLOCK
      · rw [parse_baking_data_block benv data length out h2]
        by_cases hl : length < sizeof_block
        · have : ¬ 10 ≤ length := by
            simp only [sizeof_block, sizeof_level_t] at hl; omega
          simp [hl, h1, this]
        · have : 10 ≤ length := by
            simp only [sizeof_block, sizeof_level_t] at hl; omega
          simp [hl, h2, this]
      · rw [parse_baking_data_other benv data length out h1 h2]
        simp [h1, h2]
  · intro data1 hd hm
    by_cases h1 : benv.get_magic_byte data length = benv.MAGIC_BYTE_BAKING_OP
    · rw [parse_baking_data_endorsement benv data length out h1,
        parse_baking_data_endorsement benv data1 length out (hm ▸ h1)]
      by_cases hl : length = sizeof_endorsement
      · rw [if_neg (by simpa using hl), if_neg (by simpa using hl),
          slice_congr data1 data sizeof_level_t offsetof_endorsement_level (fun i _ h3 => hd i (by
            simp only [offsetof_endorsement_level, sizeof_level_t, sizeof_endorsement] at h3 hl
            omega))]
      · rw [if_pos hl, if_pos hl]
    · by_cases h2 : benv.get_magic_byte data length = benv.MAGIC_BYTE_BLOCK
      · rw [parse_baking_data_block benv data length out h2,
          parse_baking_data_block benv data1 length out (hm ▸ h2)]
        by_cases hl : length < sizeof_block
        · rw [if_pos hl, if_pos hl]
        · rw [if_neg hl, if_neg hl,
            slice_congr data1 data sizeof_level_t offsetof_block_level (fun i _ h3 => hd i (by
              simp only [offsetof_block_level, sizeof_level_t, sizeof_block] at h3 hl
              omega))]
      · rw [parse_baking_data_other benv data length out h1 h2,
          parse_baking_data_other benv data1 length out (hm ▸ h1) (hm ▸ h2)]

theorem parse_baking_data_length_check_witness :
    (parse_baking_data sampleBakingEnv (ofList sampleEndorsement) sampleEndorsement.length
      sampleBakingOut).1 = true ∧
    (parse_baking_data sampleBakingEnv (ofList sampleBlock) sampleBlock.length
      sampleBakingOut).1 = true :=
  ⟨(parse_baking_data_length_check sampleBakingEnv (ofList sampleEndorsement)
      sampleEndorsement.length sampleBakingOut).2.2.1.mpr (Or.inr ⟨by decide, by decide⟩),
    (parse_baking_data_length_check sampleBakingEnv (ofList sampleBlock)
      sampleBlock.length sampleBakingOut).2.2.1.mpr (Or.inl ⟨by decide, by decide⟩)⟩

/-- C17: for every message `parse_baking_data` accepts, `is_endorsement` is
true exactly when the magic byte is the endorsement one and false exactly when
it is the block one, and the level written is the big-endian 32-bit integer
stored at offset 5 of a block or at offset 38 of an endorsement, four bytes
that lie inside the message; when the function returns false the output
structure is the one before the call. -/
theorem parse_baking_data_classification (benv : BakingEnv) (data : Nat → Nat) (length : Nat)
    (out : parsed_baking_data) :
    ((parse_baking_data benv data length out).1 = true →
      ((parse_baking_data benv data length out).2.is_endorsement = true ↔
        benv.get_magic_byte data length = benv.MAGIC_BYTE_BAKING_OP) ∧
      ((parse_baking_data benv data length out).2.is_endorsement = false ↔
        benv.get_magic_byte data length = benv.MAGIC_BYTE_BLOCK) ∧
      (benv.get_magic_byte data length = benv.MAGIC_BYTE_BLOCK →
        5 + 4 ≤ length ∧
        (parse_baking_data benv data length out).2.level =
          data 5 * 2 ^ 24 + data 6 * 2 ^ 16 + data 7 * 2 ^ 8 + data 8) ∧
      (benv.get_magic_byte data length = benv.MAGIC_BYTE_BAKING_OP →
        38 + 4 ≤ length ∧
        (parse_baking_data benv data length out).2.level =
          data 38 * 2 ^ 24 + data 39 * 2 ^ 16 + data 40 * 2 ^ 8 + data 41)) ∧
    ((parse_baking_data benv data length out).1 = false →
      (parse_baking_data benv data length out).2 = out) := by
  by_cases h1 : benv.get_magic_byte data length = benv.MAGIC_BYTE_BAKING_OP
  · have hne : benv.get_magic_byte data length ≠ benv.MAGIC_BYTE_BLOCK := by
      rw [h1]; exact benv.baking_op_ne_block
    rw [parse_baking_data_endorsement benv data length out h1]
    by_cases hl : length = sizeof_endorsement
    · rw [if_neg (by simpa using hl)]
      refine ⟨fun _ => ⟨by simp [h1], by simp [hne], fun h => absurd h hne, fun _ => ⟨?_, ?_⟩⟩,
        fun h => by simp at h⟩
      · rw [hl]; decide
      · simp only [READ_UNALIGNED_BIG_ENDIAN_four, offsetof_endorsement_level]
    · rw [if_pos hl]
      exact ⟨fun h => by simp at h, fun _ => rfl⟩
  · by_cases h2 : benv.get_magic_byte data length = benv.MAGIC_BYTE_BLOCK
    · rw [parse_baking_data_block benv data length out h2]
      by_cases hl : length < sizeof_block
      · rw [if_pos hl]
        exact ⟨fun h => by simp at h, fun _ => rfl⟩
      · rw [if_neg hl]
        refine ⟨fun _ => ⟨by simp [h1], by simp [h2], fun _ => ⟨?_, ?_⟩, fun h => absurd h h1⟩,
          fun h => by simp at h⟩
        · simp only [sizeof_block, sizeof_level_t] at hl; omega
        · simp only [READ_UNALIGNED_BIG_ENDIAN_four, offsetof_block_level]
    · rw [parse_baking_data_other benv data length out h1 h2]
      exact ⟨fun h => by simp at h, fun _ => rfl⟩

theorem parse_baking_data_classification_witness :
    (parse_baking_data sampleBakingEnv (ofList sampleBlock) sampleBlock.length
      sampleBakingOut).1 = true ∧
    (parse_baking_data sampleBakingEnv (ofList sampleBlock) sampleBlock.length
      sampleBakingOut).2.level = 0x01020304 ∧
    (parse_baking_data sampleBakingEnv (ofList sampleEndorsement) sampleEndorsement.length
      sampleBakingOut).2.level = 0x0A0B0C0D :=
  ⟨by decide,
    (((parse_baking_data_classification sampleBakingEnv (ofList sampleBlock) sampleBlock.length
      sampleBakingOut).1 (by decide)).2.2.1 (by decide)).2.trans (by decide),
    (((parse_baking_data_classification sampleBakingEnv (ofList sampleEndorsement)
      sampleEndorsement.length sampleBakingOut).1 (by decide)).2.2.2 (by decide)).2.trans
      (by decide)⟩

/-! ## The path shown on the confirmation screens -/

theorem write_write (mem : Nat → Nat) (p a b : Nat) :
    write (write mem p a) p b = write mem p b := by
  funext j
  simp only [write]
  split <;> rfl

theorem write_list_append (a b : List Nat) :
    ∀ (mem : Nat → Nat) (p : Nat),
      write_list mem p (a ++ b) = write_list (write_list mem p a) (p + a.length) b := by
  induction a with
  | nil => intro mem p; rfl
  | cons x a ih =>
    intro mem p
    show write_list (write mem p x) (p + 1) (a ++ b) = _
    rw [ih]
    simp only [write_list, List.length_cons]
    rw [Nat.add_assoc, Nat.add_comm 1]

theorem write_list_snoc (mem : Nat → Nat) (p : Nat) (a : List Nat) (v : Nat) :
    write_list mem p (a ++ [v]) = write (write_list mem p a) (p + a.length) v := by
  rw [write_list_append]
  rfl

theorem write_snoc_overwrite (mem : Nat → Nat) (p : Nat) (a : List Nat) (x y : Nat) :
    write (write_list mem p (a ++ [x])) (p + a.length) y = write_list mem p (a ++ [y]) := by
  rw [write_list_snoc, write_list_snoc, write_write]

theorem write_list_frame (l : List Nat) :
    ∀ (mem : Nat → Nat) (p j : Nat), j < p ∨ p + l.length ≤ j → write_list mem p l j = mem j := by
  induction l with
  | nil => intro mem p j _; rfl
  | cons x l ih =>
    intro mem p j h
    simp only [write_list, List.length_cons] at h ⊢
    rw [ih _ _ _ (by omega)]
    simp only [write]
    rw [if_neg (by omega)]

theorem slice_write_list (l : List Nat) :
    ∀ (mem : Nat → Nat) (p : Nat), slice (write_list mem p l) p l.length = l := by
  induction l with
  | nil => intro mem p; rfl
  | cons x l ih =>
    intro mem p
    simp only [write_list, List.length_cons, slice]
    rw [ih, write_list_frame l _ _ _ (Or.inl (by omega))]
    simp [write]

theorem div_index_div (k : Nat) : div_index (k + 1) / 10 = div_index k := by
  cases k with
  | zero => rfl
  | succ k =>
    simp only [div_index, Nat.pow_succ]
    omega

theorem div_index_ne_zero (k : Nat) : div_index (k + 1) ≠ 0 := by
  simp only [div_index]
  exact Nat.pos_iff_ne_zero.mp (Nat.pow_pos (by decide))

theorem msd_digits_cons (k : Nat) :
    ∀ n, msd_digits (k + 1) n = ((n / 10 ^ k) % 10) :: msd_digits k n := by
  induction k with
  | zero => intro n; simp [msd_digits]
  | succ k ih =>
    intro n
    have e : msd_digits (k + 1 + 1) n = msd_digits (k + 1) (n / 10) ++ [n % 10] := rfl
    have e1 : msd_digits (k + 1) n = msd_digits k (n / 10) ++ [n % 10] := rfl
    rw [e, ih (n / 10), e1, List.cons_append, Nat.div_div_eq_div_mul, Nat.pow_succ,
      Nat.mul_comm 10]

theorem msd_digits_length (k : Nat) : ∀ n, (msd_digits k n).length = k := by
  induction k with
  | zero => intro n; rfl
  | succ k ih => intro n; simp [msd_digits, ih]

theorem path_item_digits_eq (number : Nat) :
    ∀ (k fuel : Nat) (tmp : List Nat), k < fuel →
      path_item_digits number fuel (div_index k) tmp =
        some (tmp ++ (msd_digits k number).map (fun d => 48 + d)) := by
  intro k
  induction k with
  | zero =>
    intro fuel tmp h
    obtain ⟨f, rfl⟩ : ∃ f, fuel = f + 1 := ⟨fuel - 1, by omega⟩
    simp [path_item_digits, div_index, msd_digits]
  | succ k ih =>
    intro fuel tmp h
    obtain ⟨f, rfl⟩ : ∃ f, fuel = f + 1 := ⟨fuel - 1, by omega⟩
    rw [path_item_digits, if_pos (div_index_ne_zero k), div_index_div, ih f _ (by omega),
      msd_digits_cons]
    simp [div_index]
theorem getD_append_cons (pre : List Nat) (x : Nat) (rest : List Nat) (d : Nat) :
    (pre ++ x :: rest).getD pre.length d = x := by
  induction pre with
  | nil => rfl
  | cons y pre ih => simpa using ih

theorem path_item_skip_eq (ds : List Nat) :
    ∀ (suf pre : List Nat) (fuel : Nat), ds = pre ++ suf → suf.length < fuel →
      path_item_skip (ds ++ [0]) ds.length fuel pre.length =
        some (pre.length + (suf.takeWhile (fun d => d = 48)).length) := by
  intro suf
  induction suf with
  | nil =>
    intro pre fuel hds h
    obtain ⟨f, rfl⟩ : ∃ f, fuel = f + 1 := ⟨fuel - 1, by omega⟩
    have hl : pre.length = ds.length := by rw [hds]; simp
    rw [path_item_skip, if_neg (by omega)]
    simp
  | cons x suf ih =>
    intro pre fuel hds h
    obtain ⟨f, rfl⟩ : ∃ f, fuel = f + 1 := ⟨fuel - 1, by omega⟩
    simp only [List.length_cons] at h
    have hx : (ds ++ [0]).getD pre.length 0 = x := by
      rw [hds, List.append_assoc, List.cons_append]
      exact getD_append_cons pre x _ 0
    have hlt : pre.length < ds.length := by rw [hds]; simp
    rw [path_item_skip, hx]
    by_cases h48 : x = 48
    · rw [if_pos ⟨h48, hlt⟩]
      have := ih (pre ++ [x]) f (by rw [hds]; simp) (by omega)
      simp only [List.length_append, List.length_singleton] at this
      rw [this, List.takeWhile_cons_of_pos (by simpa using h48)]
      simp only [List.length_cons]
      congr 1
      omega
    · rw [if_neg (by intro hh; exact h48 hh.1),
        List.takeWhile_cons_of_neg (by simpa using h48)]
      rfl

theorem drop_takeWhile_length (p : Nat → Bool) (l : List Nat) :
    l.drop (l.takeWhile p).length = l.dropWhile p := by
  induction l with
  | nil => rfl
  | cons x l ih =>
    by_cases hx : p x = true
    · rw [List.takeWhile_cons_of_pos hx, List.dropWhile_cons_of_pos hx]
      simpa using ih
    · rw [List.takeWhile_cons_of_neg hx, List.dropWhile_cons_of_neg hx]
      rfl

theorem path_item_copy_eq (ds : List Nat) (base : Nat) :
    ∀ (suf pre : List Nat) (fuel : Nat) (mem : Nat → Nat) (destOffset : Nat),
      ds = pre ++ suf → suf.length < fuel →
      path_item_copy (ds ++ [0]) ds.length base fuel pre.length mem destOffset =
        some (write_list mem (base + destOffset) suf, destOffset + suf.length) := by
  intro suf
  induction suf with
  | nil =>
    intro pre fuel mem destOffset hds h
    obtain ⟨f, rfl⟩ : ∃ f, fuel = f + 1 := ⟨fuel - 1, by omega⟩
    have hl : pre.length = ds.length := by rw [hds]; simp
    rw [path_item_copy, if_neg (by omega)]
    rfl
  | cons x suf ih =>
    intro pre fuel mem destOffset hds h
    obtain ⟨f, rfl⟩ : ∃ f, fuel = f + 1 := ⟨fuel - 1, by omega⟩
    simp only [List.length_cons] at h
    have hx : (ds ++ [0]).getD pre.length 0 = x := by
      rw [hds, List.append_assoc, List.cons_append]
      exact getD_append_cons pre x _ 0
    have hlt : pre.length < ds.length := by rw [hds]; simp
    rw [path_item_copy, if_pos hlt, hx]
    have := ih (pre ++ [x]) f (write mem (base + destOffset) x) (destOffset + 1)
      (by rw [hds]; simp) (by omega)
    simp only [List.length_append, List.length_singleton] at this
    rw [this]
    simp only [write_list, List.length_cons, Option.some.injEq, Prod.mk.injEq]
    constructor
    · rw [Nat.add_assoc]
    · omega

theorem dropWhile_append_of_ne_nil (p : Nat → Bool) (l m : List Nat)
    (h : l.dropWhile p ≠ []) : (l ++ m).dropWhile p = l.dropWhile p ++ m := by
  induction l with
  | nil => exact absurd rfl h
  | cons x l ih =>
    by_cases hx : p x = true
    · rw [List.cons_append, List.dropWhile_cons_of_pos hx, List.dropWhile_cons_of_pos hx]
      rw [List.dropWhile_cons_of_pos hx] at h
      exact ih h
    · rw [List.cons_append, List.dropWhile_cons_of_neg hx, List.dropWhile_cons_of_neg hx]
      rfl

theorem msd_digits_zero (k : Nat) : msd_digits k 0 = List.replicate k 0 := by
  induction k with
  | zero => rfl
  | succ k ih =>
    have e : msd_digits (k + 1) 0 = msd_digits k (0 / 10) ++ [0 % 10] := rfl
    rw [e, Nat.zero_div, ih, List.replicate_succ']

theorem dropWhile_replicate_zero (k : Nat) (m : List Nat) :
    (List.replicate k 0 ++ m).dropWhile (fun d => d = 0) = m.dropWhile (fun d => d = 0) := by
  induction k with
  | zero => rfl
  | succ k ih =>
    rw [List.replicate_succ, List.cons_append, List.dropWhile_cons_of_pos (by simp)]
    exact ih

theorem dropWhile_msd_digits (k : Nat) :
    ∀ n, n < 10 ^ k →
      (msd_digits k n).dropWhile (fun d => d = 0) = (Nat.digits 10 n).reverse := by
  induction k with
  | zero =>
    intro n h
    have : n = 0 := by simpa using h
    subst this
    simp [msd_digits]
  | succ k ih =>
    intro n h
    have e : msd_digits (k + 1) n = msd_digits k (n / 10) ++ [n % 10] := rfl
    have hq : n / 10 < 10 ^ k := by
      rw [Nat.pow_succ] at h
      omega
    by_cases h0 : n = 0
    · subst h0
      rw [msd_digits_zero]
      have := dropWhile_replicate_zero (k + 1) []
      simp at this ⊢
    · rw [e, Nat.digits_def' (by decide) (Nat.pos_of_ne_zero h0), List.reverse_cons]
      by_cases hq0 : n / 10 = 0
      · rw [hq0, msd_digits_zero, dropWhile_replicate_zero]
        have hn : n % 10 ≠ 0 := by omega
        rw [List.dropWhile_cons_of_neg (by simpa using hn)]
        simp
      · have hih := ih (n / 10) hq
        have hne : (msd_digits k (n / 10)).dropWhile (fun d => d = 0) ≠ [] := by
          rw [hih]
          intro hnil
          have := List.reverse_eq_nil_iff.mp hnil
          exact hq0 (Nat.digits_eq_nil_iff_eq_zero.mp this)
        rw [dropWhile_append_of_ne_nil _ _ _ hne, hih]

theorem dropWhile_map_digit (l : List Nat) :
    (l.map (fun d => 48 + d)).dropWhile (fun d => d = 48) =
      (l.dropWhile (fun d => d = 0)).map (fun d => 48 + d) := by
  induction l with
  | nil => rfl
  | cons x l ih =>
    by_cases hx : x = 0
    · subst hx
      rw [List.map_cons, List.dropWhile_cons_of_pos (by simp),
        List.dropWhile_cons_of_pos (by simp)]
      exact ih
    · rw [List.map_cons, List.dropWhile_cons_of_neg (by simpa using hx),
        List.dropWhile_cons_of_neg (by simpa using hx)]
      rfl

theorem and_mask_lt (number : Nat) : number &&& 0x7FFFFFFF < 10 ^ 10 := by
  have : number &&& 0x7FFFFFFF ≤ 0x7FFFFFFF := Nat.and_le_right
  omega

theorem decimal_eq_dropWhile (n : Nat) (h : n < 10 ^ 10) :
    decimal n =
      if ((msd_digits 10 n).map (fun d => 48 + d)).dropWhile (fun d => d = 48) = [] then [48]
      else ((msd_digits 10 n).map (fun d => 48 + d)).dropWhile (fun d => d = 48) := by
  rw [dropWhile_map_digit, dropWhile_msd_digits 10 n h]
  unfold decimal
  by_cases h0 : n = 0
  · subst h0
    simp
  · rw [if_neg h0, if_neg]
    intro hnil
    have h1 := List.map_eq_nil_iff.mp hnil
    have h2 := List.reverse_eq_nil_iff.mp h1
    exact h0 (Nat.digits_eq_nil_iff_eq_zero.mp h2)
theorem takeWhile_length_le (p : Nat → Bool) (l : List Nat) :
    (l.takeWhile p).length ≤ l.length := by
  induction l with
  | nil => exact Nat.le_refl _
  | cons x l ih =>
    by_cases hx : p x = true
    · rw [List.takeWhile_cons_of_pos hx]
      simp only [List.length_cons]
      omega
    · rw [List.takeWhile_cons_of_neg hx]
      simp

theorem dropWhile_length_le (p : Nat → Bool) (l : List Nat) :
    (l.dropWhile p).length ≤ l.length := by
  induction l with
  | nil => exact Nat.le_refl _
  | cons x l ih =>
    by_cases hx : p x = true
    · rw [List.dropWhile_cons_of_pos hx]
      simp only [List.length_cons]
      omega
    · rw [List.dropWhile_cons_of_neg hx]

theorem path_item_to_string_eq (mem : Nat → Nat) (base number : Nat) :
    path_item_to_string mem base number =
      some (write_list mem base (render_item number ++ [0]), (render_item number).length + 1) := by
  have hdiv : (0x3b9aca00 : Nat) = div_index 10 := by decide
  have hdig := path_item_digits_eq (number &&& 0x7FFFFFFF) 10 11 [] (by decide)
  rw [← hdiv, List.nil_append] at hdig
  have hlen : ((msd_digits 10 (number &&& 0x7FFFFFFF)).map (fun d => 48 + d)).length = 10 := by
    rw [List.length_map, msd_digits_length]
  have hskip := path_item_skip_eq ((msd_digits 10 (number &&& 0x7FFFFFFF)).map (fun d => 48 + d))
    ((msd_digits 10 (number &&& 0x7FFFFFFF)).map (fun d => 48 + d)) [] 12 rfl
    (by rw [hlen]; decide)
  simp only [List.length_nil, Nat.zero_add] at hskip
  have hdec := decimal_eq_dropWhile (number &&& 0x7FFFFFFF) (and_mask_lt number)
  have hdrop := drop_takeWhile_length (fun d => decide (d = 48))
    ((msd_digits 10 (number &&& 0x7FFFFFFF)).map (fun d => 48 + d))
  generalize hds : (msd_digits 10 (number &&& 0x7FFFFFFF)).map (fun d => 48 + d) = ds at *
  generalize hz : (ds.takeWhile (fun d => decide (d = 48))).length = z at *
  have hzle : z ≤ ds.length := by
    rw [← hz]
    exact takeWhile_length_le _ _
  have hinner :
      (if z = ds.length then some (write mem (base + 0) 48, 1)
        else path_item_copy (ds ++ [0]) ds.length base 11 z mem 0) =
      some (write_list mem base (decimal (number &&& 0x7FFFFFFF)),
        (decimal (number &&& 0x7FFFFFFF)).length) := by
    by_cases hzl : z = ds.length
    · have hnil : ds.dropWhile (fun d => decide (d = 48)) = [] := by
        rw [← hdrop, hzl]
        exact List.drop_length ds
      rw [if_pos hzl, hdec, if_pos hnil]
      rfl
    · have hne : ds.dropWhile (fun d => decide (d = 48)) ≠ [] := by
        rw [← hdrop]
        intro hnil
        have := List.drop_eq_nil_iff.mp hnil
        omega
      have hpre : (ds.take z).length = z := by
        rw [List.length_take]
        omega
      have hcopy := path_item_copy_eq ds base (ds.drop z) (ds.take z) 11 mem 0
        (List.take_append_drop z ds).symm (by rw [List.length_drop]; omega)
      rw [hpre] at hcopy
      rw [if_neg hzl, hcopy, hdec, if_neg hne, ← hdrop]
      simp
  unfold path_item_to_string
  simp only []
  rw [hdig]
  simp only []
  rw [hskip]
  simp only []
  rw [hinner]
  simp only [render_item]
  by_cases hh : number &&& 0x80000000 = 0
  · simp only [hh, bne_self_eq_false, Bool.false_eq_true, if_false, if_true, List.append_nil,
      write_list_snoc]
  · have hb : (number &&& 0x80000000 != 0) = true := by simpa using hh
    simp only [hb, hh, if_true, if_false, write_list_snoc, List.length_append,
      List.length_singleton, List.append_assoc]
    rw [← List.append_assoc, write_list_snoc, write_list_snoc]
    simp [Nat.add_assoc]

theorem decimal_length_le (n : Nat) (h : n < 10 ^ 10) : (decimal n).length ≤ 10 := by
  rw [decimal_eq_dropWhile n h]
  split
  · decide
  · have := dropWhile_length_le (fun d => decide (d = 48))
      ((msd_digits 10 n).map (fun d => 48 + d))
    rw [List.length_map, msd_digits_length] at this
    exact this

theorem render_item_length_le (entry : Nat) : (render_item entry).length ≤ 11 := by
  unfold render_item
  have := decimal_length_le (entry &&& 0x7FFFFFFF) (and_mask_lt entry)
  rw [List.length_append]
  split
  · simp only [List.length_nil]; omega
  · simp only [List.length_singleton]; omega

theorem render_path_cons_cons (a b : Nat) (l : List Nat) :
    render_path (a :: b :: l) = render_item a ++ (47 :: render_path (b :: l)) := rfl

theorem render_path_length_le :
    ∀ entries : List Nat, entries ≠ [] →
      (render_path entries).length + 1 ≤ 12 * entries.length := by
  intro entries
  induction entries with
  | nil => intro h; exact absurd rfl h
  | cons a l ih =>
    intro _
    cases l with
    | nil =>
      have := render_item_length_le a
      simp only [render_path, List.length_singleton]
      omega
    | cons b l =>
      have := render_item_length_le a
      have ih1 := ih (by simp)
      rw [render_path_cons_cons, List.length_append, List.length_cons]
      simp only [List.length_cons] at ih1 ⊢
      omega
theorem getD_eq_of_drop (l : List Nat) (i e : Nat) (rest : List Nat)
    (h : l.drop i = e :: rest) : l.getD i 0 = e := by
  have h1 : l = l.take i ++ (e :: rest) := by
    rw [← h, List.take_append_drop]
  have hlen : (l.take i).length = i := by
    rw [List.length_take]
    have : (l.drop i).length = l.length - i := List.length_drop i l
    rw [h] at this
    simp only [List.length_cons] at this
    omega
  have h2 := getD_append_cons (l.take i) e rest 0
  rw [hlen, ← h1] at h2
  exact h2

theorem path_to_string_loop_eq (ctx : operationContext_t) :
    ∀ (suf : List Nat) (i fuel : Nat) (mem : Nat → Nat) (offset : Nat),
      ctx.bip32Path.drop i = suf ++ ctx.bip32Path.drop ctx.pathLength →
      i + suf.length = ctx.pathLength → suf.length < fuel →
      path_to_string_loop ctx fuel i mem offset =
        some (if suf = [] then (mem, offset)
          else (write_list mem offset (render_path suf ++ [0]),
            offset + (render_path suf).length)) := by
  intro suf
  induction suf with
  | nil =>
    intro i fuel mem offset _ hi h
    obtain ⟨f, rfl⟩ : ∃ f, fuel = f + 1 := ⟨fuel - 1, by omega⟩
    simp only [List.length_nil, Nat.add_zero] at hi
    rw [path_to_string_loop, if_neg (by omega)]
    rfl
  | cons e suf ih =>
    intro i fuel mem offset hd hi h
    obtain ⟨f, rfl⟩ : ∃ f, fuel = f + 1 := ⟨fuel - 1, by omega⟩
    simp only [List.length_cons] at hi h
    have he : ctx.bip32Path.getD i 0 = e := getD_eq_of_drop _ i e _ hd
    have hd1 : ctx.bip32Path.drop (i + 1) = suf ++ ctx.bip32Path.drop ctx.pathLength := by
      have := congrArg (List.drop 1) hd
      simpa [List.drop_drop, Nat.add_comm] using this
    rw [path_to_string_loop, if_pos (by omega), he, path_item_to_string_eq]
    simp only [Nat.add_sub_cancel, reduceCtorEq, if_false]
    cases suf with
    | nil =>
      simp only [List.length_nil, Nat.add_zero] at hi
      rw [if_neg (by omega), ih (i + 1) f _ _ hd1 (by simp; omega) (by simp; omega)]
      simp only [if_true, render_path]
      have : offset + ((render_item e).length + 1) - 1 = offset + (render_item e).length := by
        omega
      rw [this]
    | cons e1 suf1 =>
      simp only [List.length_cons] at hi h
      have : offset + ((render_item e).length + 1) - 1 = offset + (render_item e).length := by
        omega
      rw [if_pos (by omega), this, write_snoc_overwrite,
        ih (i + 1) f _ _ hd1 (by simp only [List.length_cons]; omega)
          (by simp only [List.length_cons]; omega)]
      simp only [reduceCtorEq, if_false, render_path_cons_cons, Option.some.injEq,
        Prod.mk.injEq]
      constructor
      · have e2 : render_item e ++ 47 :: render_path (e1 :: suf1) ++ [0] =
            (render_item e ++ [47]) ++ (render_path (e1 :: suf1) ++ [0]) := by simp
        rw [e2, write_list_append (render_item e ++ [47])]
        simp [Nat.add_assoc]
      · simp only [List.length_append, List.length_cons]
        omega

theorem render_path_no_nul : ∀ entries : List Nat, ∀ b ∈ render_path entries, b ≠ 0 := by
  have hdec : ∀ n, ∀ b ∈ decimal n, b ≠ 0 := by
    intro n b hb
    unfold decimal at hb
    split at hb
    · simp only [List.mem_singleton] at hb
      omega
    · simp only [List.mem_map] at hb
      obtain ⟨d, _, rfl⟩ := hb
      omega
  have hitem : ∀ e, ∀ b ∈ render_item e, b ≠ 0 := by
    intro e b hb
    unfold render_item at hb
    rw [List.mem_append] at hb
    rcases hb with hb | hb
    · exact hdec _ b hb
    · split at hb
      · cases hb
      · simp only [List.mem_singleton] at hb
        omega
  intro entries
  induction entries with
  | nil => intro b hb; cases hb
  | cons a l ih =>
    cases l with
    | nil => exact hitem a
    | cons c l =>
      intro b hb
      rw [render_path_cons_cons, List.mem_append, List.mem_cons] at hb
      rcases hb with hb | hb | hb
      · exact hitem a b hb
      · omega
      · exact ih b hb

/-- C27: for every stored path of length `n` in 1 .. 10 (entries arbitrary),
`path_to_string` returns, and the memory at `dest` then holds the
NUL-terminated string made of the entries in order joined with `/`, each
rendered as the decimal representation of `entry & 0x7FFFFFFF` without leading
zeros (`0` for zero) followed by an apostrophe exactly when bit 31 is set.  The
string holds no NUL before the terminating one, nothing is written behind it,
and the value returned is the number of bytes written, the NUL included, at
most 120, which fits the 200 bytes of `keyPath`. -/
theorem path_to_string_renders_path (ctx : operationContext_t) (mem : Nat → Nat)
    (h1 : 1 ≤ ctx.pathLength) (h2 : ctx.pathLength ≤ 10)
    (hlen : ctx.pathLength ≤ ctx.bip32Path.length) :
    ∃ (mem1 : Nat → Nat) (ret : Nat), path_to_string ctx mem = some (mem1, ret) ∧
      slice mem1 0 ret = render_path (ctx.bip32Path.take ctx.pathLength) ++ [0] ∧
      (∀ b ∈ render_path (ctx.bip32Path.take ctx.pathLength), b ≠ 0) ∧
      ret = (render_path (ctx.bip32Path.take ctx.pathLength)).length + 1 ∧
      ret ≤ 120 ∧ ret ≤ 200 ∧ (∀ j, ret ≤ j → mem1 j = mem j) := by
  have hne : ctx.bip32Path.take ctx.pathLength ≠ [] := by
    intro hnil
    have := congrArg List.length hnil
    rw [List.length_take] at this
    simp only [List.length_nil] at this
    omega
  have htl : (ctx.bip32Path.take ctx.pathLength).length = ctx.pathLength := by
    rw [List.length_take]
    omega
  have hloop := path_to_string_loop_eq ctx (ctx.bip32Path.take ctx.pathLength) 0
    (ctx.pathLength + 1) mem 0 (by simp) (by rw [htl]; omega) (by rw [htl]; omega)
  rw [if_neg hne] at hloop
  have hbound := render_path_length_le (ctx.bip32Path.take ctx.pathLength) hne
  rw [htl] at hbound
  refine ⟨write_list mem 0 (render_path (ctx.bip32Path.take ctx.pathLength) ++ [0]),
    (render_path (ctx.bip32Path.take ctx.pathLength)).length + 1, ?_, ?_,
    render_path_no_nul _, rfl, by omega, by omega, ?_⟩
  · unfold path_to_string
    rw [hloop]
    simp only [Nat.zero_add]
    have := write_snoc_overwrite mem 0 (render_path (ctx.bip32Path.take ctx.pathLength)) 0 0
    rw [Nat.zero_add] at this
    rw [this]
  · have := slice_write_list (render_path (ctx.bip32Path.take ctx.pathLength) ++ [0]) mem 0
    simpa using this
  · intro j hj
    exact write_list_frame _ mem 0 j (Or.inr (by simpa using hj))

theorem path_to_string_renders_path_witness :
    (∃ (mem1 : Nat → Nat) (ret : Nat),
      path_to_string samplePathContext (fun _ => 0xEE) = some (mem1, ret) ∧
      slice mem1 0 ret =
        render_path (samplePathContext.bip32Path.take samplePathContext.pathLength) ++ [0]) ∧
    (path_to_string samplePathContext (fun _ => 0xEE)).map (fun r => (slice r.1 0 r.2, r.2)) =
      some ([52, 52, 39, 47, 49, 55, 50, 57, 39, 47, 48, 47, 53, 0], 14) :=
  ⟨(path_to_string_renders_path samplePathContext (fun _ => 0xEE) (by decide) (by decide)
      (by decide)).imp (fun _ hm => hm.imp (fun _ hr => ⟨hr.1, hr.2.1⟩)),
    by decide⟩

theorem path_to_string_loop_bound (ctx : operationContext_t) :
    ∀ (fuel i : Nat) (mem : Nat → Nat) (offset : Nat), ctx.pathLength - i < fuel →
      ∃ (mem1 : Nat → Nat) (offset1 : Nat),
        path_to_string_loop ctx fuel i mem offset = some (mem1, offset1) ∧
        offset1 ≤ offset + 12 * (ctx.pathLength - i) := by
  intro fuel
  induction fuel with
  | zero => intro i mem offset h; omega
  | succ f ih =>
    intro i mem offset h
    rw [path_to_string_loop]
    by_cases hi : i < ctx.pathLength
    · rw [if_pos hi, path_item_to_string_eq]
      simp only []
      have hlen := render_item_length_le (ctx.bip32Path.getD i 0)
      by_cases hl : i ≠ ctx.pathLength - 1
      · rw [if_pos hl]
        obtain ⟨mem1, offset1, e, hb⟩ := ih (i + 1) (write _ _ 47) _ (by omega)
        exact ⟨mem1, offset1, e, by omega⟩
      · rw [if_neg hl]
        obtain ⟨mem1, offset1, e, hb⟩ := ih (i + 1) _ _ (by omega)
        exact ⟨mem1, offset1, e, by omega⟩
    · rw [if_neg hi]
      exact ⟨mem, offset, rfl, by omega⟩

theorem path_to_string_keyPath_of_le (ctx : operationContext_t) (keyPath : Nat → Nat)
    (h : ctx.pathLength ≤ 10) : ∃ keyPath1, path_to_string_keyPath ctx keyPath = some keyPath1 := by
  obtain ⟨mem1, offset1, e, hb⟩ :=
    path_to_string_loop_bound ctx (ctx.pathLength + 1) 0 keyPath 0 (by omega)
  unfold path_to_string_keyPath path_to_string
  rw [if_neg (by simp only [MAX_BIP32_PATH]; omega), e]
  simp only []
  rw [if_pos (by simp only [sizeof_keyPath]; omega)]
  exact ⟨_, rfl⟩

theorem path_to_string_keyPath_of_lt (ctx : operationContext_t) (keyPath : Nat → Nat)
    (h : 10 < ctx.pathLength) : path_to_string_keyPath ctx keyPath = none := by
  unfold path_to_string_keyPath
  rw [if_pos (by simp only [MAX_BIP32_PATH]; omega)]

/-! ## The command dispatcher -/

theorem CATCH_OTHER_6982 : CATCH_OTHER 0x6982 = [0x69, 0x82] := by decide

theorem CATCH_OTHER_6E00 : CATCH_OTHER 0x6E00 = [0x6E, 0x00] := by decide

theorem CATCH_OTHER_6D00 : CATCH_OTHER 0x6D00 = [0x6D, 0x00] := by decide

theorem CATCH_OTHER_6A80 : CATCH_OTHER 0x6a80 = [0x6A, 0x80] := by decide

theorem CATCH_OTHER_6B00 : CATCH_OTHER 0x6B00 = [0x6B, 0x00] := by decide

theorem CATCH_OTHER_9000 : CATCH_OTHER 0x9000 = [0x90, 0x00] := by decide

theorem sample_main_command_no_apdu (sdk : Sdk) (ctx : operationContext_t) (buf : Nat → Nat) :
    sample_main_command sdk ctx buf 0 = (ctx, Outcome.reply [0x69, 0x82]) := by
  simp only [sample_main_command, if_true, CATCH_OTHER_6982]

theorem sample_main_command_bad_class (sdk : Sdk) (ctx : operationContext_t) (buf : Nat → Nat)
    (rx : Nat) (hrx : rx ≠ 0) (hcla : buf 0 ≠ 0x80) :
    sample_main_command sdk ctx buf rx = (ctx, Outcome.reply [0x6E, 0x00]) := by
  simp only [sample_main_command, hrx, if_false, OFFSET_CLA, CLA, ne_eq, hcla, not_false_eq_true,
    if_true, CATCH_OTHER_6E00]

theorem sample_main_command_bad_ins (sdk : Sdk) (ctx : operationContext_t) (buf : Nat → Nat)
    (rx : Nat) (hrx : rx ≠ 0) (hcla : buf 0 = 0x80) (h1 : buf 1 ≠ 0x02) (h2 : buf 1 ≠ 0x04)
    (h3 : buf 1 ≠ 0xFF) :
    sample_main_command sdk ctx buf rx = (ctx, Outcome.reply [0x6D, 0x00]) := by
  simp only [sample_main_command, hrx, if_false, OFFSET_CLA, CLA, ne_eq, hcla, not_true_eq_false,
    OFFSET_INS, INS_GET_PUBLIC_KEY, INS_SIGN_BLOB, h1, h2, h3, CATCH_OTHER_6D00]

theorem sample_main_command_get_public_key (sdk : Sdk) (ctx : operationContext_t)
    (buf : Nat → Nat) (rx : Nat) (hrx : rx ≠ 0) (hcla : buf 0 = 0x80) (hins : buf 1 = 0x02) :
    sample_main_command sdk ctx buf rx =
      if buf 5 < 1 ∨ 10 < buf 5 then
        ({ ctx with pathLength := buf 5 }, Outcome.reply [0x6A, 0x80])
      else if buf 2 ≠ 0 ∨ buf 3 ≠ 0 then
        ({ ctx with pathLength := buf 5 }, Outcome.reply [0x6B, 0x00])
      else
        ({ ctx with
            pathLength := buf 5
            bip32Path := store_path ctx.bip32Path (read_path sdk buf 6 (buf 5))
            publicKey :=
              sdk.cx_ecfp_generate_pair
                (sdk.os_perso_derive_seed_bip32
                  ((store_path ctx.bip32Path (read_path sdk buf 6 (buf 5))).take (buf 5))) },
          Outcome.display Screen.address) := by
  simp only [sample_main_command, hrx, if_false, OFFSET_CLA, CLA, ne_eq, hcla, not_true_eq_false,
    OFFSET_INS, INS_GET_PUBLIC_KEY, hins, if_true, OFFSET_CDATA, MAX_BIP32_PATH, OFFSET_P1,
    OFFSET_P2, CATCH_OTHER_6A80, CATCH_OTHER_6B00, gt_iff_lt]
  by_cases ha : buf 5 < 1 ∨ 10 < buf 5
  · rw [if_pos ha, if_pos ha]
  · rw [if_neg ha, if_neg ha]
    by_cases hb : ¬buf 2 = 0 ∨ ¬buf 3 = 0
    · rw [if_pos hb, if_pos hb]
    · rw [if_neg hb, if_neg hb]
      obtain ⟨keyPath1, hk⟩ := path_to_string_keyPath_of_le
        { ctx with
          pathLength := buf 5
          bip32Path := store_path ctx.bip32Path (read_path sdk buf 6 (buf 5))
          publicKey :=
            sdk.cx_ecfp_generate_pair
              (sdk.os_perso_derive_seed_bip32
                ((store_path ctx.bip32Path (read_path sdk buf 6 (buf 5))).take (buf 5))) }
        (fun _ => 0) (by simp only []; omega)
      rw [hk]

theorem sign_blob_tail_eq (ctx : operationContext_t) (buf : Nat → Nat) (off dataLength : Nat)
    (last : Bool) :
    sign_blob_tail ctx buf off dataLength last =
      if buf 3 ≠ 0 then (ctx, Outcome.reply [0x6B, 0x00])
      else if last = false then
        ({ ctx with hash := cx_hash_update ctx.hash (slice buf off dataLength) },
          Outcome.reply [0x90, 0x00])
      else
        ({ ctx with hash := cx_hash_update ctx.hash (slice buf off dataLength) },
          if ctx.pathLength ≤ 10 then Outcome.display Screen.approval else Outcome.undefined) := by
  cases last
  · simp [sign_blob_tail, OFFSET_P2, CATCH_OTHER_6B00, CATCH_OTHER_9000]
  · by_cases hp2 : buf 3 = 0
    · by_cases hl : ctx.pathLength ≤ 10
      · obtain ⟨keyPath1, hk⟩ := path_to_string_keyPath_of_le
          { ctx with hash := cx_hash_update ctx.hash (slice buf off dataLength) } (fun _ => 0) hl
        simp [sign_blob_tail, OFFSET_P2, hp2, hk, hl]
      · have hk := path_to_string_keyPath_of_lt
          { ctx with hash := cx_hash_update ctx.hash (slice buf off dataLength) } (fun _ => 0)
          (by simp only []; omega)
        simp [sign_blob_tail, OFFSET_P2, hp2, hk, hl]
    · simp [sign_blob_tail, OFFSET_P2, hp2, CATCH_OTHER_6B00]

theorem sample_main_command_sign_blob (sdk : Sdk) (ctx : operationContext_t)
    (buf : Nat → Nat) (rx : Nat) (hrx : rx ≠ 0) (hcla : buf 0 = 0x80) (hins : buf 1 = 0x04) :
    sample_main_command sdk ctx buf rx =
      if buf 2 &&& 0x7F = 0 then
        if buf 5 < 1 ∨ 10 < buf 5 then
          ({ ctx with pathLength := buf 5 }, Outcome.reply [0x6A, 0x80])
        else
          sign_blob_tail
            { ctx with
              pathLength := buf 5
              bip32Path := store_path ctx.bip32Path (read_path sdk buf 6 (buf 5))
              hash := cx_sha256_init ctx.hash }
            buf (6 + 4 * buf 5) ((buf 4 + 2 ^ 32 - (1 + 4 * buf 5)) % 2 ^ 32)
            (buf 2 &&& 0x80 != 0)
      else if buf 2 &&& 0x7F ≠ 1 then (ctx, Outcome.reply [0x6B, 0x00])
      else sign_blob_tail ctx buf 5 (buf 4) (buf 2 &&& 0x80 != 0) := by
  have hne : (0x04 : Nat) ≠ 0x02 := by decide
  simp only [sample_main_command, hrx, if_false, OFFSET_CLA, CLA, ne_eq, hcla, not_true_eq_false,
    OFFSET_INS, INS_GET_PUBLIC_KEY, INS_SIGN_BLOB, hins, hne, if_true, OFFSET_CDATA,
    MAX_BIP32_PATH, OFFSET_P1, OFFSET_LC, P1_FIRST, P1_NEXT, P1_LAST_MARKER, CATCH_OTHER_6A80,
    CATCH_OTHER_6B00, gt_iff_lt]

/-- C18 (as stated) fails: the dispatcher does not reset the session context
when it rejects a command.  A get-public-key command with path length byte 11,
sent to the device as it starts, is rejected with status 0x6A80 and leaves 11
as stored path length; a command of the wrong class, sent in the middle of a
signing request (path length 2, three bytes absorbed), is rejected with status
0x6E00 and leaves the context as it was, which is not the freshly initialized
one. -/
theorem rejection_does_not_reset_context :
    sample_main_command sampleSdk boot_context (ofList sampleGetKeyLongPath)
        sampleGetKeyLongPath.length =
      ({ boot_context with pathLength := 11 }, Outcome.reply [0x6A, 0x80]) ∧
    sample_main_command sampleSdk sampleBusyContext (ofList [0x00]) 1 =
      (sampleBusyContext, Outcome.reply [0x6E, 0x00]) ∧
    sampleBusyContext.pathLength = 2 ∧
    sampleBusyContext.hash ≠ cx_sha256_init sampleBusyContext.hash := by
  refine ⟨by decide, by decide, by decide, by decide⟩

/-- C18 (amended): a rejection does not reset the session context.  A command
rejected because nothing was received (0x6982), for its class (0x6E00), for its
instruction (0x6D00), for a P1 of a sign command that is neither first nor next
(0x6B00), or for a non-zero P2 of a sign continuation chunk (0x6B00) leaves the
whole context (path length, path, hash accumulator, public key) exactly as it
was before the command, whatever that was.  No rejected command makes the
accumulator absorb payload bytes or changes the public key: after every
rejection the hash accumulator is the one before the command or a freshly
initialized one, and the public key is the one before. -/
theorem rejected_command_context (sdk : Sdk) (ctx : operationContext_t) (buf : Nat → Nat)
    (rx : Nat) :
    (rx = 0 → sample_main_command sdk ctx buf rx = (ctx, Outcome.reply [0x69, 0x82])) ∧
    (rx ≠ 0 → buf 0 ≠ 0x80 →
      sample_main_command sdk ctx buf rx = (ctx, Outcome.reply [0x6E, 0x00])) ∧
    (rx ≠ 0 → buf 0 = 0x80 → buf 1 ≠ 0x02 → buf 1 ≠ 0x04 → buf 1 ≠ 0xFF →
      sample_main_command sdk ctx buf rx = (ctx, Outcome.reply [0x6D, 0x00])) ∧
    (rx ≠ 0 → buf 0 = 0x80 → buf 1 = 0x04 → buf 2 &&& 0x7F ≠ 0 → buf 2 &&& 0x7F ≠ 1 →
      sample_main_command sdk ctx buf rx = (ctx, Outcome.reply [0x6B, 0x00])) ∧
    (rx ≠ 0 → buf 0 = 0x80 → buf 1 = 0x04 → buf 2 &&& 0x7F = 1 → buf 3 ≠ 0 →
      sample_main_command sdk ctx buf rx = (ctx, Outcome.reply [0x6B, 0x00])) ∧
    (∀ bytes : List Nat, (sample_main_command sdk ctx buf rx).2 = Outcome.reply bytes →
      bytes ≠ [0x90, 0x00] →
      ((sample_main_command sdk ctx buf rx).1.hash = ctx.hash ∨
        (sample_main_command sdk ctx buf rx).1.hash = cx_sha256_init ctx.hash) ∧
      (sample_main_command sdk ctx buf rx).1.publicKey = ctx.publicKey) := by
  refine ⟨?_, ?_, ?_, ?_, ?_, ?_⟩
  · rintro rfl
    exact sample_main_command_no_apdu sdk ctx buf
  · exact fun hrx hcla => sample_main_command_bad_class sdk ctx buf rx hrx hcla
  · exact fun hrx hcla h1 h2 h3 => sample_main_command_bad_ins sdk ctx buf rx hrx hcla h1 h2 h3
  · intro hrx hcla hins h0 h1
    rw [sample_main_command_sign_blob sdk ctx buf rx hrx hcla hins, if_neg h0, if_pos h1]
  · intro hrx hcla hins hp1 hp2
    rw [sample_main_command_sign_blob sdk ctx buf rx hrx hcla hins,
      if_neg (by rw [hp1]; decide), if_neg (by simpa using hp1), sign_blob_tail_eq, if_pos hp2]
  · intro bytes hb hne
    by_cases hrx : rx = 0
    · subst hrx
      rw [sample_main_command_no_apdu sdk ctx buf]
      exact ⟨Or.inl rfl, rfl⟩
    by_cases hcla : buf 0 = 0x80
    swap
    · rw [sample_main_command_bad_class sdk ctx buf rx hrx hcla]
      exact ⟨Or.inl rfl, rfl⟩
    by_cases h1 : buf 1 = 0x02
    · rw [sample_main_command_get_public_key sdk ctx buf rx hrx hcla h1] at hb ⊢
      split at hb
      · rename_i hp
        rw [if_pos hp]
        exact ⟨Or.inl rfl, rfl⟩
      · rename_i hp
        rw [if_neg hp]
        split at hb
        · rename_i hq
          rw [if_pos hq]
          exact ⟨Or.inl rfl, rfl⟩
        · cases hb
    by_cases h2 : buf 1 = 0x04
    · rw [sample_main_command_sign_blob sdk ctx buf rx hrx hcla h2] at hb ⊢
      split at hb
      · rename_i hp1
        rw [if_pos hp1]
        split at hb
        · rename_i hp
          rw [if_pos hp]
          exact ⟨Or.inl rfl, rfl⟩
        · rename_i hp
          rw [if_neg hp]
          rw [sign_blob_tail_eq] at hb ⊢
          split at hb
          · rename_i hp2
            rw [if_pos hp2]
            exact ⟨Or.inr rfl, rfl⟩
          · split at hb
            · simp only [Prod.snd, Outcome.reply.injEq] at hb
              exact absurd hb.symm hne
            · simp only [] at hb
              split at hb <;> cases hb
      · rename_i hp1
        rw [if_neg hp1]
        split at hb
        · rename_i hq
          rw [if_pos hq]
          exact ⟨Or.inl rfl, rfl⟩
        · rename_i hq
          rw [if_neg hq]
          rw [sign_blob_tail_eq] at hb ⊢
          split at hb
          · rename_i hp2
            rw [if_pos hp2]
            exact ⟨Or.inl rfl, rfl⟩
          · split at hb
            · simp only [Prod.snd, Outcome.reply.injEq] at hb
              exact absurd hb.symm hne
            · simp only [] at hb
              split at hb <;> cases hb
    by_cases h3 : buf 1 = 0xFF
    · have e : sample_main_command sdk ctx buf rx = (ctx, Outcome.exit) := by
        have n1 : (0xFF : Nat) ≠ 0x02 := by decide
        have n2 : (0xFF : Nat) ≠ 0x04 := by decide
        simp only [sample_main_command, hrx, if_false, OFFSET_CLA, CLA, ne_eq, hcla,
          not_true_eq_false, OFFSET_INS, INS_GET_PUBLIC_KEY, INS_SIGN_BLOB, h3, n1, n2, if_true]
      rw [e] at hb
      cases hb
    · rw [sample_main_command_bad_ins sdk ctx buf rx hrx hcla h1 h2 h3]
      exact ⟨Or.inl rfl, rfl⟩

theorem rejected_command_context_witness :
    sample_main_command sampleSdk sampleBusyContext (ofList sampleSignBadP2Next)
        sampleSignBadP2Next.length =
      (sampleBusyContext, Outcome.reply [0x6B, 0x00]) ∧
    sampleBusyContext.hash.absorbed = [1, 2, 3] :=
  ⟨(rejected_command_context sampleSdk sampleBusyContext (ofList sampleSignBadP2Next)
    sampleSignBadP2Next.length).2.2.2.2.1 (by decide) (by decide) (by decide) (by decide)
    (by decide), rfl⟩

theorem sample_main_command_sign_next (sdk : Sdk) (ctx : operationContext_t)
    (buf : Nat → Nat) (rx : Nat) (hrx : rx ≠ 0) (hcla : buf 0 = 0x80) (hins : buf 1 = 0x04)
    (hp1 : buf 2 &&& 0x7F = 1) (hp2 : buf 3 = 0) :
    sample_main_command sdk ctx buf rx =
      ({ ctx with hash := cx_hash_update ctx.hash (slice buf 5 (buf 4)) },
        if buf 2 &&& 0x80 = 0 then Outcome.reply [0x90, 0x00]
        else if ctx.pathLength ≤ 10 then Outcome.display Screen.approval
        else Outcome.undefined) := by
  rw [sample_main_command_sign_blob sdk ctx buf rx hrx hcla hins,
    if_neg (by rw [hp1]; decide), if_neg (by simpa using hp1), sign_blob_tail_eq,
    if_neg (by simpa using hp2)]
  by_cases hl : buf 2 &&& 0x80 = 0
  · simp [hl]
  · simp [hl]

theorem sample_main_command_sign_first (sdk : Sdk) (ctx : operationContext_t)
    (buf : Nat → Nat) (rx : Nat) (hrx : rx ≠ 0) (hcla : buf 0 = 0x80) (hins : buf 1 = 0x04)
    (hp1 : buf 2 &&& 0x7F = 0) (h1 : 1 ≤ buf 5) (h2 : buf 5 ≤ 10) (hp2 : buf 3 = 0) :
    sample_main_command sdk ctx buf rx =
      ({ ctx with
          pathLength := buf 5
          bip32Path := store_path ctx.bip32Path (read_path sdk buf 6 (buf 5))
          hash :=
            cx_hash_update (cx_sha256_init ctx.hash)
              (slice buf (6 + 4 * buf 5) ((buf 4 + 2 ^ 32 - (1 + 4 * buf 5)) % 2 ^ 32)) },
        if buf 2 &&& 0x80 = 0 then Outcome.reply [0x90, 0x00]
        else Outcome.display Screen.approval) := by
  rw [sample_main_command_sign_blob sdk ctx buf rx hrx hcla hins, if_pos hp1,
    if_neg (by omega), sign_blob_tail_eq, if_neg (by simpa using hp2)]
  by_cases hl : buf 2 &&& 0x80 = 0
  · simp [hl]
  · simp [hl, h2]

/-- C19 (as stated) fails: the dispatcher keeps no state that a continuation
chunk is checked against.  A sign continuation chunk sent to the device as it
starts (no signing request in progress) is answered with status 0x9000 and its
payload is absorbed by the hash accumulator.  After a complete signing request
(first and last chunk, confirmation, which finalizes the accumulator) a
continuation chunk is again answered 0x9000 and absorbed by the finalized
accumulator, without an initialization in between. -/
theorem continuation_chunk_accepted_when_idle :
    Device.step sampleSdk boot_device (Event.apdu (ofList sampleSignNext) sampleSignNext.length) =
      some
        ({ operationContext :=
             { boot_context with hash := { absorbed := [0xAA, 0xBB], finalized := false } }
           screen := Screen.idle },
          Outcome.reply [0x90, 0x00]) ∧
    (Device.run sampleSdk boot_device
        [Event.apdu (ofList sampleSignOnly) sampleSignOnly.length, Event.confirm]).map
        (fun r => (r.1.operationContext.hash, r.1.screen)) =
      some ({ absorbed := [0x00], finalized := true }, Screen.idle) ∧
    (Device.run sampleSdk boot_device
        [Event.apdu (ofList sampleSignOnly) sampleSignOnly.length, Event.confirm,
          Event.apdu (ofList sampleSignNext) sampleSignNext.length]).map
        (fun r => (r.1.operationContext.hash, r.2.getLast?)) =
      some ({ absorbed := [0x00, 0xAA, 0xBB], finalized := true },
        some (Outcome.reply [0x90, 0x00])) := by
  refine ⟨by decide, by decide, by decide⟩

/-- The stored path length is written before it is checked, and a
continuation chunk marked last uses it unchecked.  The get-public-key command
`80 02 00 00 01 FF` is rejected with 0x6A80 and leaves 255 as stored path
length; the sign continuation chunk `80 04 81 00 00`, marked last, then
reaches `path_to_string`, which reads `bip32Path` beyond its ten entries: the
outcome of the turn is undefined and the device has no defined reaction. -/
theorem stale_path_length_last_chunk_undefined :
    (Device.run sampleSdk boot_device
        [Event.apdu (ofList sampleGetKeyPath255) sampleGetKeyPath255.length]).map
        (fun r => (r.1.operationContext.pathLength, r.1.screen, r.2)) =
      some (255, Screen.idle, [Outcome.reply [0x6A, 0x80]]) ∧
    (sample_main_command sampleSdk { boot_context with pathLength := 255 }
      (ofList sampleSignLastEmpty) sampleSignLastEmpty.length).2 = Outcome.undefined ∧
    (Device.run sampleSdk boot_device
        [Event.apdu (ofList sampleGetKeyPath255) sampleGetKeyPath255.length,
          Event.apdu (ofList sampleSignLastEmpty) sampleSignLastEmpty.length]).isNone = true := by
  refine ⟨by decide, by decide, by decide⟩

/-- C19 (amended): a sign continuation chunk (P1 low bits = 1) is accepted in
every state of the session context.  Whatever the context is (nothing in
progress, accumulator finalized, ...), if the class and instruction are the
sign ones and P2 is 0, the dispatcher absorbs the `LC` payload bytes into the
hash accumulator without initializing it and changes nothing else; it answers
0x9000 when the chunk is not marked last, and requests confirmation when the
chunk is marked last and the stored path length is at most 10.  So the
accumulator can be updated after a finalize without an intervening
initialize. -/
theorem sign_continuation_accepted_in_every_state (sdk : Sdk) (ctx : operationContext_t)
    (buf : Nat → Nat) (rx : Nat) (hrx : rx ≠ 0) (hcla : buf 0 = 0x80) (hins : buf 1 = 0x04)
    (hp1 : buf 2 &&& 0x7F = 1) (hp2 : buf 3 = 0)
    (hpath : buf 2 &&& 0x80 = 0 ∨ ctx.pathLength ≤ 10) :
    sample_main_command sdk ctx buf rx =
      ({ ctx with hash := cx_hash_update ctx.hash (slice buf 5 (buf 4)) },
        if buf 2 &&& 0x80 = 0 then Outcome.reply [0x90, 0x00]
        else Outcome.display Screen.approval) ∧
    (sample_main_command sdk ctx buf rx).1.hash.absorbed =
      ctx.hash.absorbed ++ slice buf 5 (buf 4) ∧
    (sample_main_command sdk ctx buf rx).1.hash.finalized = ctx.hash.finalized ∧
    Device.step sdk { operationContext := ctx, screen := Screen.idle } (Event.apdu buf rx) =
      some
        ({ operationContext :=
             { ctx with hash := cx_hash_update ctx.hash (slice buf 5 (buf 4)) }
           screen := if buf 2 &&& 0x80 = 0 then Screen.idle else Screen.approval },
          if buf 2 &&& 0x80 = 0 then Outcome.reply [0x90, 0x00]
          else Outcome.display Screen.approval) := by
  have e : sample_main_command sdk ctx buf rx =
      ({ ctx with hash := cx_hash_update ctx.hash (slice buf 5 (buf 4)) },
        if buf 2 &&& 0x80 = 0 then Outcome.reply [0x90, 0x00]
        else Outcome.display Screen.approval) := by
    rw [sample_main_command_sign_next sdk ctx buf rx hrx hcla hins hp1 hp2]
    rcases hpath with hl | hl
    · rw [if_pos hl, if_pos hl]
    · rw [if_pos hl]
  refine ⟨e, by rw [e]; rfl, by rw [e]; rfl, ?_⟩
  simp only [Device.step, e]
  by_cases hl : buf 2 &&& 0x80 = 0
  · simp [hl]
  · simp [hl]

theorem sign_continuation_accepted_in_every_state_witness :
    (sample_main_command sampleSdk
        { boot_context with hash := { absorbed := [0x00], finalized := true } }
        (ofList sampleSignNext) sampleSignNext.length).1.hash =
      { absorbed := [0x00, 0xAA, 0xBB], finalized := true } :=
  (congrArg (fun r => r.1.hash)
    (sign_continuation_accepted_in_every_state sampleSdk
      { boot_context with hash := { absorbed := [0x00], finalized := true } }
      (ofList sampleSignNext) sampleSignNext.length (by decide) (by decide) (by decide)
      (by decide) (by decide) (Or.inl (by decide))).1).trans (by decide)

/-- C20 (as stated) fails: the one-byte payload `0x00` is not an operation
group (`parse_operations` returns 33 on it, for the curve and path at hand), yet
the sign command that carries it as first and last chunk makes the dispatcher
request confirmation, and on confirmation the device answers with a signature
followed by 0x9000. -/
theorem last_chunk_not_decoded :
    (parse_operations sampleEnv (ofList [0x00]) 1 0 [0x8000002C]).map (fun ret => ret.code) =
      some 33 ∧
    (Device.run sampleSdk boot_device
        [Event.apdu (ofList sampleSignOnly) sampleSignOnly.length]).map
        (fun r => (r.1.operationContext.pathLength, r.1.operationContext.bip32Path.take 1,
          r.1.operationContext.hash.absorbed, r.2)) =
      some (1, [0x8000002C], [0x00], [Outcome.display Screen.approval]) ∧
    (Device.run sampleSdk boot_device
        [Event.apdu (ofList sampleSignOnly) sampleSignOnly.length, Event.confirm]).map
        (fun r => r.2) =
      some [Outcome.display Screen.approval,
        Outcome.reply (sampleSdk.cx_ecdsa_sign (sampleSdk.os_perso_derive_seed_bip32 [0x8000002C])
          (sampleSdk.sha256 [0x00]) ++ [0x90, 0x00])] := by
  refine ⟨by decide, by decide, by decide⟩

/-- C20 (amended): when the sign chunk marked last passes the checks of the
dispatcher (class, instruction, P2 zero, and either P1 first with a path
length `n` in 1 .. 10 and `1 + 4 * n ≤ LC`, or P1 next with a stored path
length of at most 10) the dispatcher absorbs its payload and requests user
confirmation without running the operation-group decoder: this holds for
every content of the command buffer, so for every payload.  On confirmation
the device answers with the signature of the digest of the bytes absorbed, made
with the key of the stored path, followed by 0x9000. -/
theorem last_chunk_requests_confirmation (sdk : Sdk) (ctx : operationContext_t)
    (buf : Nat → Nat) (rx : Nat) (hrx : rx ≠ 0) (hcla : buf 0 = 0x80) (hins : buf 1 = 0x04)
    (hlast : buf 2 &&& 0x80 ≠ 0) (hp2 : buf 3 = 0)
    (hp1 : (buf 2 &&& 0x7F = 1 ∧ ctx.pathLength ≤ 10) ∨
      (buf 2 &&& 0x7F = 0 ∧ 1 ≤ buf 5 ∧ buf 5 ≤ 10 ∧ 1 + 4 * buf 5 ≤ buf 4 ∧ buf 4 ≤ 255)) :
    (sample_main_command sdk ctx buf rx).2 = Outcome.display Screen.approval ∧
    (sample_main_command sdk ctx buf rx).1.hash.absorbed =
      (if buf 2 &&& 0x7F = 1 then ctx.hash.absorbed ++ slice buf 5 (buf 4)
        else slice buf (6 + 4 * buf 5) (buf 4 - (1 + 4 * buf 5))) ∧
    (sample_main_command sdk ctx buf rx).1.pathLength ≤ 10 ∧
    (∃ d : Device,
      Device.step sdk { operationContext := ctx, screen := Screen.idle } (Event.apdu buf rx) =
        some (d, Outcome.display Screen.approval) ∧
      d.operationContext = (sample_main_command sdk ctx buf rx).1 ∧
      d.screen = Screen.approval ∧
      Device.step sdk d Event.confirm =
        some
          ({ operationContext := { d.operationContext with
               hash := cx_hash_last d.operationContext.hash }
             screen := Screen.idle },
            Outcome.reply
              (sdk.cx_ecdsa_sign
                (sdk.os_perso_derive_seed_bip32
                  (d.operationContext.bip32Path.take d.operationContext.pathLength))
                (sdk.sha256 d.operationContext.hash.absorbed) ++ [0x90, 0x00]))) := by
  have e : (sample_main_command sdk ctx buf rx).2 = Outcome.display Screen.approval ∧
      (sample_main_command sdk ctx buf rx).1.hash.absorbed =
        (if buf 2 &&& 0x7F = 1 then ctx.hash.absorbed ++ slice buf 5 (buf 4)
          else slice buf (6 + 4 * buf 5) (buf 4 - (1 + 4 * buf 5))) ∧
      (sample_main_command sdk ctx buf rx).1.pathLength ≤ 10 := by
    rcases hp1 with ⟨hp1, hl⟩ | ⟨hp1, h1, h2, h3, h4⟩
    · rw [sample_main_command_sign_next sdk ctx buf rx hrx hcla hins hp1 hp2, if_neg hlast,
        if_pos hl, if_pos hp1]
      exact ⟨rfl, rfl, hl⟩
    · have hlen : (buf 4 + 2 ^ 32 - (1 + 4 * buf 5)) % 2 ^ 32 = buf 4 - (1 + 4 * buf 5) := by
        omega
      rw [sample_main_command_sign_first sdk ctx buf rx hrx hcla hins hp1 h1 h2 hp2,
        if_neg hlast, if_neg (by rw [hp1]; decide), hlen]
      refine ⟨rfl, ?_, h2⟩
      simp [cx_hash_update, cx_sha256_init]
  obtain ⟨e1, e2, e3⟩ := e
  refine ⟨e1, e2, e3, ⟨{ operationContext := (sample_main_command sdk ctx buf rx).1
                         screen := Screen.approval }, ?_, rfl, rfl, ?_⟩⟩
  · simp only [Device.step, e1]
  · simp only [Device.step, io_seproxyhal_touch_sign_ok, MAX_BIP32_PATH, gt_iff_lt]
    rw [if_neg (by omega)]

theorem last_chunk_requests_confirmation_witness :
    (sample_main_command sampleSdk boot_context (ofList sampleSignOnly)
      sampleSignOnly.length).2 = Outcome.display Screen.approval :=
  (last_chunk_requests_confirmation sampleSdk boot_context (ofList sampleSignOnly)
    sampleSignOnly.length (by decide) (by decide) (by decide) (by decide) (by decide)
    (Or.inr ⟨by decide, by decide, by decide, by decide, by decide⟩)).1

/-! ## A signing request, chunk by chunk -/

theorem read_path_length (sdk : Sdk) (buf : Nat → Nat) (base n : Nat) :
    (read_path sdk buf base n).length = n := by
  simp [read_path]

theorem store_path_take (bip32Path entries : List Nat) :
    (store_path bip32Path entries).take entries.length = entries := by
  simp [store_path]

theorem store_path_read_path_take (sdk : Sdk) (bip32Path : List Nat) (buf : Nat → Nat)
    (base n : Nat) :
    (store_path bip32Path (read_path sdk buf base n)).take n = read_path sdk buf base n := by
  have h := store_path_take bip32Path (read_path sdk buf base n)
  rw [read_path_length] at h
  exact h

theorem Device.step_apdu_idle (sdk : Sdk) (ctx : operationContext_t) (buf : Nat → Nat)
    (rx : Nat) (h : (sample_main_command sdk ctx buf rx).2 ≠ Outcome.undefined) :
    Device.step sdk { operationContext := ctx, screen := Screen.idle } (Event.apdu buf rx) =
      some
        ({ operationContext := (sample_main_command sdk ctx buf rx).1
           screen := match (sample_main_command sdk ctx buf rx).2 with
             | Outcome.display screen => screen
             | _ => Screen.idle },
          (sample_main_command sdk ctx buf rx).2) := by
  simp only [Device.step]
  generalize sample_main_command sdk ctx buf rx = res at h ⊢
  obtain ⟨c, o⟩ := res
  cases o with
  | undefined => exact absurd rfl h
  | reply bytes => rfl
  | display screen => rfl
  | exit => rfl

/-- C21: a new first chunk starts from a clean accumulator.  For every
session context `ctx` (whatever earlier commands left in it) and every sign
first chunk that passes the checks of the dispatcher (class, instruction, P1
low bits 0, path length in 1 .. 10, P2 zero), the accumulator, the stored path
length and the path entries below that length after the chunk are those the
same chunk gives in the context the device starts with: the accumulator holds
exactly the bytes the chunk folds in and is not finalized, the path is the one
the chunk carries.  The outcome and the digest of the bytes absorbed are the
same too.  This holds in particular for the device reached through any
sequence of events that leaves the idle screen up. -/
theorem sign_first_chunk_starts_clean (sdk : Sdk) (ctx : operationContext_t)
    (buf : Nat → Nat) (rx : Nat) (hrx : rx ≠ 0) (hcla : buf 0 = 0x80) (hins : buf 1 = 0x04)
    (hp1 : buf 2 &&& 0x7F = 0) (h1 : 1 ≤ buf 5) (h2 : buf 5 ≤ 10) (hp2 : buf 3 = 0) :
    (sample_main_command sdk ctx buf rx).1.hash =
        (sample_main_command sdk boot_context buf rx).1.hash ∧
    (sample_main_command sdk ctx buf rx).1.pathLength =
        (sample_main_command sdk boot_context buf rx).1.pathLength ∧
    (sample_main_command sdk ctx buf rx).1.bip32Path.take
          (sample_main_command sdk ctx buf rx).1.pathLength =
        (sample_main_command sdk boot_context buf rx).1.bip32Path.take
          (sample_main_command sdk boot_context buf rx).1.pathLength ∧
    (sample_main_command sdk ctx buf rx).2 = (sample_main_command sdk boot_context buf rx).2 ∧
    sdk.sha256 (sample_main_command sdk ctx buf rx).1.hash.absorbed =
        sdk.sha256 (sample_main_command sdk boot_context buf rx).1.hash.absorbed ∧
    (sample_main_command sdk ctx buf rx).1.hash =
        { absorbed := slice buf (6 + 4 * buf 5) ((buf 4 + 2 ^ 32 - (1 + 4 * buf 5)) % 2 ^ 32)
          finalized := false } ∧
    (sample_main_command sdk ctx buf rx).1.pathLength = buf 5 ∧
    (sample_main_command sdk ctx buf rx).1.bip32Path.take (buf 5) = read_path sdk buf 6 (buf 5) ∧
    (∀ (events : List Event) (d : Device) (outs : List Outcome),
      Device.run sdk boot_device events = some (d, outs) → d.screen = Screen.idle →
      ∃ d1 : Device,
        Device.step sdk d (Event.apdu buf rx) =
          some (d1, (sample_main_command sdk boot_context buf rx).2) ∧
        d1.operationContext.hash = (sample_main_command sdk boot_context buf rx).1.hash ∧
        d1.operationContext.pathLength =
          (sample_main_command sdk boot_context buf rx).1.pathLength ∧
        d1.operationContext.bip32Path.take d1.operationContext.pathLength =
          (sample_main_command sdk boot_context buf rx).1.bip32Path.take
            (sample_main_command sdk boot_context buf rx).1.pathLength) := by
  have e : ∀ c : operationContext_t,
      (sample_main_command sdk c buf rx).1.hash =
          { absorbed := slice buf (6 + 4 * buf 5) ((buf 4 + 2 ^ 32 - (1 + 4 * buf 5)) % 2 ^ 32)
            finalized := false } ∧
        (sample_main_command sdk c buf rx).1.pathLength = buf 5 ∧
        (sample_main_command sdk c buf rx).1.bip32Path.take (buf 5) =
          read_path sdk buf 6 (buf 5) ∧
        (sample_main_command sdk c buf rx).2 =
          if buf 2 &&& 0x80 = 0 then Outcome.reply [0x90, 0x00]
          else Outcome.display Screen.approval := by
    intro c
    rw [sample_main_command_sign_first sdk c buf rx hrx hcla hins hp1 h1 h2 hp2]
    refine ⟨?_, rfl, store_path_read_path_take sdk _ buf 6 (buf 5), rfl⟩
    simp [cx_hash_update, cx_sha256_init]
  obtain ⟨a1, a2, a3, a4⟩ := e ctx
  obtain ⟨b1, b2, b3, b4⟩ := e boot_context
  refine ⟨by rw [a1, b1], by rw [a2, b2], by rw [a2, b2, a3, b3], by rw [a4, b4],
    by rw [a1, b1], a1, a2, a3, ?_⟩
  intro events d outs _ hs
  cases d with
  | mk c s =>
    simp only [] at hs
    subst hs
    obtain ⟨c1, c2, c3, c4⟩ := e c
    refine ⟨{ operationContext := (sample_main_command sdk c buf rx).1
              screen := match (sample_main_command sdk c buf rx).2 with
                | Outcome.display screen => screen
                | _ => Screen.idle }, ?_, ?_, ?_, ?_⟩
    · rw [Device.step_apdu_idle sdk c buf rx (by rw [c4]; split <;> exact Outcome.noConfusion),
        c4, b4]
    · simp only []
      rw [c1, b1]
    · simp only []
      rw [c2, b2]
    · simp only []
      rw [c2, b2, c3, b3]

theorem sign_first_chunk_starts_clean_witness :
    (sample_main_command sampleSdk sampleBusyContext (ofList sampleSignOnly)
        sampleSignOnly.length).1.hash =
      { absorbed := [0x00], finalized := false } ∧
    (sample_main_command sampleSdk boot_context (ofList sampleSignOnly)
        sampleSignOnly.length).1.hash =
      { absorbed := [0x00], finalized := false } :=
  ⟨(sign_first_chunk_starts_clean sampleSdk sampleBusyContext (ofList sampleSignOnly)
      sampleSignOnly.length (by decide) (by decide) (by decide) (by decide) (by decide)
      (by decide) (by decide)).2.2.2.2.2.1.trans (by decide),
    ((sign_first_chunk_starts_clean sampleSdk sampleBusyContext (ofList sampleSignOnly)
      sampleSignOnly.length (by decide) (by decide) (by decide) (by decide) (by decide)
      (by decide) (by decide)).1.symm).trans
      ((sign_first_chunk_starts_clean sampleSdk sampleBusyContext (ofList sampleSignOnly)
        sampleSignOnly.length (by decide) (by decide) (by decide) (by decide) (by decide)
        (by decide) (by decide)).2.2.2.2.2.1.trans (by decide))⟩

theorem Command.last_eq_false_iff (c : Command) : c.last = false ↔ c.buf 2 &&& 0x80 = 0 := by
  simp [Command.last]

theorem Device.step_sign_next (sdk : Sdk) (ctx : operationContext_t) (c : Command)
    (h : c.SignNext) (hpath : c.last = false ∨ ctx.pathLength ≤ 10) :
    Device.step sdk { operationContext := ctx, screen := Screen.idle } c.event =
      some
        ({ operationContext := { ctx with hash := cx_hash_update ctx.hash c.next_payload }
           screen := if c.last = false then Screen.idle else Screen.approval },
          c.sign_outcome) := by
  obtain ⟨hrx, hcla, hins, hp1, hp2⟩ := h
  rw [Command.last_eq_false_iff] at hpath
  have e : sample_main_command sdk ctx c.buf c.rx =
      ({ ctx with hash := cx_hash_update ctx.hash (slice c.buf 5 (c.buf 4)) },
        if c.buf 2 &&& 0x80 = 0 then Outcome.reply [0x90, 0x00]
        else Outcome.display Screen.approval) := by
    rw [sample_main_command_sign_next sdk ctx c.buf c.rx hrx hcla hins hp1 hp2]
    rcases hpath with hl | hl
    · rw [if_pos hl, if_pos hl]
    · rw [if_pos hl]
  rw [Command.event, Device.step_apdu_idle sdk ctx c.buf c.rx
    (by rw [e]; split <;> exact Outcome.noConfusion), e]
  simp only [Command.sign_outcome, Command.next_payload, Command.last_eq_false_iff]
  by_cases hl : c.buf 2 &&& 0x80 = 0
  · simp [hl]
  · simp [hl]

theorem Device.step_sign_first (sdk : Sdk) (ctx : operationContext_t) (c : Command)
    (h : c.SignFirst) :
    Device.step sdk { operationContext := ctx, screen := Screen.idle } c.event =
      some
        ({ operationContext :=
             { ctx with
               pathLength := c.buf 5
               bip32Path := store_path ctx.bip32Path (read_path sdk c.buf 6 (c.buf 5))
               hash := { absorbed := c.first_payload, finalized := false } }
           screen := if c.last = false then Screen.idle else Screen.approval },
          c.sign_outcome) := by
  obtain ⟨hrx, hcla, hins, hp1, hp2, h1, h2, h3, h4⟩ := h
  have hlen : (c.buf 4 + 2 ^ 32 - (1 + 4 * c.buf 5)) % 2 ^ 32 = c.buf 4 - (1 + 4 * c.buf 5) := by
    omega
  have hoff : 6 + 4 * c.buf 5 = 5 + (1 + 4 * c.buf 5) := by omega
  rw [Command.event, Device.step_apdu_idle sdk ctx c.buf c.rx
      (by
        rw [sample_main_command_sign_first sdk ctx c.buf c.rx hrx hcla hins hp1 h1 h2 hp2]
        split <;> exact Outcome.noConfusion),
    sample_main_command_sign_first sdk ctx c.buf c.rx hrx hcla hins hp1 h1 h2 hp2, hlen, hoff]
  simp only [Command.sign_outcome, Command.first_payload, Command.last_eq_false_iff,
    cx_hash_update, cx_sha256_init, List.nil_append]
  by_cases hl : c.buf 2 &&& 0x80 = 0
  · simp [hl]
  · simp [hl]

theorem Device.run_sign_next (sdk : Sdk) :
    ∀ (rest : List Command) (ctx : operationContext_t), ctx.pathLength ≤ 10 →
      (∀ c ∈ rest, c.SignNext) → (∀ c ∈ rest.dropLast, c.last = false) →
      ∃ screen : Screen,
        Device.run sdk { operationContext := ctx, screen := Screen.idle }
            (rest.map Command.event) =
          some
            ({ operationContext :=
                 { ctx with
                   hash :=
                     cx_hash_update ctx.hash (rest.map Command.next_payload).flatten }
               screen := screen },
              rest.map Command.sign_outcome) := by
  intro rest
  induction rest with
  | nil =>
    intro ctx _ _ _
    exact ⟨Screen.idle, by simp [Device.run, cx_hash_update]⟩
  | cons c cs ih =>
    intro ctx hpl hv hl
    have hc := Device.step_sign_next sdk ctx c (hv c (List.mem_cons_self _ _)) (Or.inr hpl)
    cases cs with
    | nil =>
      refine ⟨if c.last = false then Screen.idle else Screen.approval, ?_⟩
      simp only [List.map_cons, List.map_nil, Device.run, hc, List.flatten_cons,
        List.flatten_nil, List.append_nil]
    | cons c1 cs1 =>
      have hcl : c.last = false := hl c (by simp [List.dropLast])
      obtain ⟨screen, hrun⟩ := ih { ctx with hash := cx_hash_update ctx.hash c.next_payload }
        hpl (fun x hx => hv x (List.mem_cons_of_mem _ hx))
        (fun x hx => hl x (by
          simp only [List.dropLast_cons₂, List.mem_cons]
          exact Or.inr hx))
      refine ⟨screen, ?_⟩
      rw [List.map_cons, Device.run, hc, hcl]
      simp only [if_true]
      rw [hrun]
      simp [cx_hash_update, List.append_assoc]

/-- C22: a sign request made of a first chunk that passes the checks of the
dispatcher, with `1 + 4 * n ≤ LC`, followed by any number of continuation
chunks that pass them, none but possibly the final chunk marked last, sent to
the device in any context: every chunk is accepted, every chunk not marked
last is answered with exactly the two bytes 0x90 0x00, and after the chunks
the accumulator, not finalized, has absorbed since its initialization exactly
the payload of the first chunk after the `1 + 4 * n` path bytes followed by
the payloads of the continuation chunks in the order received.  (A prefix of
such a request is such a request, so this holds after each chunk.) -/
theorem sign_request_absorbs_payloads (sdk : Sdk) (ctx : operationContext_t) (first : Command)
    (rest : List Command) (hf : first.SignFirst) (hr : ∀ c ∈ rest, c.SignNext)
    (hl : ∀ c ∈ (first :: rest).dropLast, c.last = false) :
    ∃ d : Device,
      Device.run sdk { operationContext := ctx, screen := Screen.idle }
          ((first :: rest).map Command.event) =
        some (d, (first :: rest).map Command.sign_outcome) ∧
      d.operationContext.hash =
        { absorbed := first.first_payload ++ (rest.map Command.next_payload).flatten
          finalized := false } ∧
      (∀ c ∈ first :: rest, c.last = false → c.sign_outcome = Outcome.reply [0x90, 0x00]) ∧
      (∀ c ∈ (first :: rest).dropLast, c.sign_outcome = Outcome.reply [0x90, 0x00]) := by
  have hans : ∀ c : Command, c.last = false → c.sign_outcome = Outcome.reply [0x90, 0x00] := by
    intro c h
    simp [Command.sign_outcome, h]
  have hc := Device.step_sign_first sdk ctx first hf
  cases rest with
  | nil =>
    refine ⟨{ operationContext :=
                { ctx with
                  pathLength := first.buf 5
                  bip32Path := store_path ctx.bip32Path (read_path sdk first.buf 6 (first.buf 5))
                  hash := { absorbed := first.first_payload, finalized := false } }
              screen := if first.last = false then Screen.idle else Screen.approval },
      ?_, ?_, fun c _ h => hans c h, fun c h => hans c (hl c h)⟩
    · simp only [List.map_cons, List.map_nil, Device.run, hc]
    · simp
  | cons c1 cs1 =>
    have hcl : first.last = false := hl first (by simp [List.dropLast])
    obtain ⟨screen, hrun⟩ := Device.run_sign_next sdk (c1 :: cs1)
      { ctx with
        pathLength := first.buf 5
        bip32Path := store_path ctx.bip32Path (read_path sdk first.buf 6 (first.buf 5))
        hash := { absorbed := first.first_payload, finalized := false } } hf.2.2.2.2.2.2.1 hr
      (fun x hx => hl x (by
        simp only [List.dropLast_cons₂, List.mem_cons]
        exact Or.inr hx))
    refine ⟨{ operationContext :=
                { pathLength := first.buf 5
                  bip32Path := store_path ctx.bip32Path (read_path sdk first.buf 6 (first.buf 5))
                  hash :=
                    cx_hash_update { absorbed := first.first_payload, finalized := false }
                      ((c1 :: cs1).map Command.next_payload).flatten
                  publicKey := ctx.publicKey }
              screen := screen },
      ?_, ?_, fun c _ h => hans c h, fun c h => hans c (hl c h)⟩
    · rw [List.map_cons, Device.run, hc, hcl]
      simp only [if_true]
      rw [hrun]
      rfl
    · simp [cx_hash_update]

theorem sign_request_absorbs_payloads_witness :
    ∃ d : Device,
      Device.run sampleSdk boot_device
          [Event.apdu (ofList sampleSignFirst) sampleSignFirst.length,
            Event.apdu (ofList sampleSignNext) sampleSignNext.length,
            Event.apdu (ofList sampleSignLast) sampleSignLast.length] =
        some (d, [Outcome.reply [0x90, 0x00], Outcome.reply [0x90, 0x00],
          Outcome.display Screen.approval]) ∧
      d.operationContext.hash =
        { absorbed := [0x01, 0x02, 0xAA, 0xBB, 0xCC], finalized := false } :=
  let ⟨d, h1, h2, _⟩ := sign_request_absorbs_payloads sampleSdk boot_context
    (Command.ofBytes sampleSignFirst)
    [Command.ofBytes sampleSignNext, Command.ofBytes sampleSignLast] (by decide)
    (by decide) (by decide)
  ⟨d, h1, h2⟩

/-! ## The status words of rejected commands -/

/-- C23 (as stated) fails for a sign first chunk that has both a path length
out of range and a non-zero P2: the claim gives it 0x6B00 as a sign command
with non-zero P2 (and 0x6A80 as a first chunk with path length 0); the
dispatcher checks the path length first and answers 0x6A80. -/
theorem sign_bad_path_and_p2_status :
    (ofList sampleSignNoPathBadP2) 0 = 0x80 ∧ (ofList sampleSignNoPathBadP2) 1 = 0x04 ∧
    (ofList sampleSignNoPathBadP2) 2 &&& 0x7F = 0 ∧ (ofList sampleSignNoPathBadP2) 3 ≠ 0 ∧
    (ofList sampleSignNoPathBadP2) 5 = 0 ∧
    (sample_main_command sampleSdk boot_context (ofList sampleSignNoPathBadP2)
      sampleSignNoPathBadP2.length).2 = Outcome.reply [0x6A, 0x80] ∧
    (sample_main_command sampleSdk boot_context (ofList sampleSignNoPathBadP2)
      sampleSignNoPathBadP2.length).2 ≠ Outcome.reply [0x6B, 0x00] := by
  refine ⟨by decide, by decide, by decide, by decide, by decide, by decide, by decide⟩

/-- C23 (amended): each validation failure is reported with its own status
word as a response of exactly two bytes.  A command (at least one byte
received) whose class byte is not 0x80 yields 0x6E00 whatever its other bytes;
a command with class 0x80 and an instruction other than 0x02, 0x04 and 0xFF
yields 0x6D00; a get-public-key command or a sign first chunk (P1 low bits 0)
whose path length byte is 0 or greater than 10 yields 0x6A80, whatever P1 and
P2 are; a get-public-key command with a path length in 1 .. 10 and a non-zero
P1 or P2 yields 0x6B00; a sign command with P1 low bits other than 0 and 1
yields 0x6B00; a sign command with a non-zero P2 yields 0x6B00 when its P1 low
bits are 1, or are 0 and its path length is in 1 .. 10. -/
theorem rejected_command_status (sdk : Sdk) (ctx : operationContext_t) (buf : Nat → Nat)
    (rx : Nat) (hrx : rx ≠ 0) :
    (buf 0 ≠ 0x80 → (sample_main_command sdk ctx buf rx).2 = Outcome.reply [0x6E, 0x00]) ∧
    (buf 0 = 0x80 → buf 1 ≠ 0x02 → buf 1 ≠ 0x04 → buf 1 ≠ 0xFF →
      (sample_main_command sdk ctx buf rx).2 = Outcome.reply [0x6D, 0x00]) ∧
    (buf 0 = 0x80 → buf 1 = 0x02 → (buf 5 = 0 ∨ 10 < buf 5) →
      (sample_main_command sdk ctx buf rx).2 = Outcome.reply [0x6A, 0x80]) ∧
    (buf 0 = 0x80 → buf 1 = 0x04 → buf 2 &&& 0x7F = 0 → (buf 5 = 0 ∨ 10 < buf 5) →
      (sample_main_command sdk ctx buf rx).2 = Outcome.reply [0x6A, 0x80]) ∧
    (buf 0 = 0x80 → buf 1 = 0x02 → 1 ≤ buf 5 → buf 5 ≤ 10 → (buf 2 ≠ 0 ∨ buf 3 ≠ 0) →
      (sample_main_command sdk ctx buf rx).2 = Outcome.reply [0x6B, 0x00]) ∧
    (buf 0 = 0x80 → buf 1 = 0x04 → buf 2 &&& 0x7F ≠ 0 → buf 2 &&& 0x7F ≠ 1 →
      (sample_main_command sdk ctx buf rx).2 = Outcome.reply [0x6B, 0x00]) ∧
    (buf 0 = 0x80 → buf 1 = 0x04 → buf 2 &&& 0x7F = 1 → buf 3 ≠ 0 →
      (sample_main_command sdk ctx buf rx).2 = Outcome.reply [0x6B, 0x00]) ∧
    (buf 0 = 0x80 → buf 1 = 0x04 → buf 2 &&& 0x7F = 0 → 1 ≤ buf 5 → buf 5 ≤ 10 → buf 3 ≠ 0 →
      (sample_main_command sdk ctx buf rx).2 = Outcome.reply [0x6B, 0x00]) := by
  refine ⟨?_, ?_, ?_, ?_, ?_, ?_, ?_, ?_⟩
  · intro hcla
    rw [sample_main_command_bad_class sdk ctx buf rx hrx hcla]
  · intro hcla h1 h2 h3
    rw [sample_main_command_bad_ins sdk ctx buf rx hrx hcla h1 h2 h3]
  · intro hcla hins hp
    rw [sample_main_command_get_public_key sdk ctx buf rx hrx hcla hins, if_pos (by omega)]
  · intro hcla hins hp1 hp
    rw [sample_main_command_sign_blob sdk ctx buf rx hrx hcla hins, if_pos hp1,
      if_pos (by omega)]
  · intro hcla hins h1 h2 hp
    rw [sample_main_command_get_public_key sdk ctx buf rx hrx hcla hins, if_neg (by omega),
      if_pos hp]
  · intro hcla hins h0 h1
    rw [sample_main_command_sign_blob sdk ctx buf rx hrx hcla hins, if_neg h0, if_pos h1]
  · intro hcla hins hp1 hp2
    rw [sample_main_command_sign_blob sdk ctx buf rx hrx hcla hins,
      if_neg (by rw [hp1]; decide), if_neg (by simpa using hp1), sign_blob_tail_eq, if_pos hp2]
  · intro hcla hins hp1 h1 h2 hp2
    rw [sample_main_command_sign_blob sdk ctx buf rx hrx hcla hins, if_pos hp1,
      if_neg (by omega), sign_blob_tail_eq, if_pos hp2]

theorem rejected_command_status_witness :
    sampleGetKeyLongPath.length ≠ 0 ∧
    (sample_main_command sampleSdk boot_context (ofList sampleGetKeyLongPath)
      sampleGetKeyLongPath.length).2 = Outcome.reply [0x6A, 0x80] :=
  ⟨by decide,
    (rejected_command_status sampleSdk boot_context (ofList sampleGetKeyLongPath)
      sampleGetKeyLongPath.length (by decide)).2.2.1 (by decide) (by decide)
      (Or.inr (by decide))⟩

/-! ## The get-public-key command -/

theorem int_to_uint32_natCast (n : Nat) (h : n < 2 ^ 32) : int_to_uint32 (n : Int) = n := by
  unfold int_to_uint32
  have : ((n : Int) % 2 ^ 32) = (n : Int) := by
    apply Int.emod_eq_of_lt <;> omega
  rw [this]
  simp

theorem shl_int_with_exact (undefined : Nat → Nat → Int) (v shift : Nat) (h1 : shift < 32)
    (h2 : v * 2 ^ shift ≤ 2 ^ 31 - 1) :
    shl_int_with undefined v shift = ((v * 2 ^ shift : Nat) : Int) := by
  unfold shl_int_with
  rw [if_pos ⟨h1, h2⟩]

theorem be32_eq_or (b0 b1 b2 b3 : Nat) (h1 : b1 < 256) (h2 : b2 < 256) (h3 : b3 < 256) :
    b0 * 2 ^ 24 ||| b1 * 2 ^ 16 ||| b2 * 2 ^ 8 ||| b3 = be32 b0 b1 b2 b3 := by
  have e3 : b2 * 2 ^ 8 ||| b3 = b2 * 2 ^ 8 + b3 := by
    rw [Nat.mul_comm, ← Nat.mul_add_lt_is_or (by omega)]
  have e2 : b1 * 2 ^ 16 ||| (b2 * 2 ^ 8 + b3) = b1 * 2 ^ 16 + (b2 * 2 ^ 8 + b3) := by
    rw [Nat.mul_comm, ← Nat.mul_add_lt_is_or (by omega)]
  have e1 : b0 * 2 ^ 24 ||| (b1 * 2 ^ 16 + (b2 * 2 ^ 8 + b3)) =
      b0 * 2 ^ 24 + (b1 * 2 ^ 16 + (b2 * 2 ^ 8 + b3)) := by
    rw [Nat.mul_comm, ← Nat.mul_add_lt_is_or (by omega)]
  rw [Nat.lor_assoc, Nat.lor_assoc, e3, e2, e1, be32]
  omega

theorem read_path_entry_be32 (sdk : Sdk) (buf : Nat → Nat) (p : Nat)
    (hshl : ∀ v, v < 256 → int_to_uint32 (shl_int_with sdk.shl_undefined v 24) = v * 2 ^ 24)
    (h0 : buf p < 256) (h1 : buf (p + 1) < 256) (h2 : buf (p + 2) < 256)
    (h3 : buf (p + 3) < 256) :
    read_path_entry sdk buf p = be32 (buf p) (buf (p + 1)) (buf (p + 2)) (buf (p + 3)) := by
  unfold read_path_entry
  rw [hshl _ h0, shl_int_with_exact _ _ 16 (by omega) (by omega),
    shl_int_with_exact _ _ 8 (by omega) (by omega), int_to_uint32_natCast _ (by omega),
    int_to_uint32_natCast _ (by omega), int_to_uint32_natCast _ (by omega),
    be32_eq_or _ _ _ _ h1 h2 h3]

theorem read_path_command_path (sdk : Sdk) (buf : Nat → Nat) (n : Nat)
    (hshl : ∀ v, v < 256 → int_to_uint32 (shl_int_with sdk.shl_undefined v 24) = v * 2 ^ 24)
    (hbytes : ∀ i, i < 4 * n → buf (6 + i) < 256) :
    read_path sdk buf 6 n = command_path buf n := by
  unfold read_path command_path
  apply List.map_congr_left
  intro i hi
  have hi : i < n := by simpa using hi
  exact read_path_entry_be32 sdk buf (6 + 4 * i) hshl
    (by have := hbytes (4 * i) (by omega); simpa using this)
    (by have := hbytes (4 * i + 1) (by omega); simpa [Nat.add_assoc] using this)
    (by have := hbytes (4 * i + 2) (by omega); simpa [Nat.add_assoc] using this)
    (by have := hbytes (4 * i + 3) (by omega); simpa [Nat.add_assoc] using this)

theorem io_seproxyhal_touch_address_ok_length (ctx : operationContext_t) :
    (io_seproxyhal_touch_address_ok ctx).length = 68 := by
  simp [io_seproxyhal_touch_address_ok, slice_length]

theorem slice_ofList_all (l : List Nat) (n : Nat) (h : l.length = n) :
    slice (ofList l) 0 n = l := by
  subst h
  exact slice_ofList l

/-- C24: for every session context and every get-public-key command with class
0x80, P1 = P2 = 0 and path length `n` in 1 .. 10 (path bytes being bytes, and
the shift of a byte into the sign bit giving the two's-complement pattern), the
dispatcher stores `n` as path length and, as the first `n` path entries, the
big-endian values of the `n` four-byte groups of the payload; it stores the
public key the SDK derives from these entries and displays the address screen.
On confirmation the device sends exactly 68 bytes: the byte 65, the 65 bytes
of the array `W` of that key, then 0x90 0x00.  The response is a function of
the path of the command alone: it is the same for every context the command
arrives in. -/
theorem get_public_key_stores_path_and_answers (sdk : Sdk) (ctx : operationContext_t)
    (buf : Nat → Nat) (rx : Nat) (hrx : rx ≠ 0) (hcla : buf 0 = 0x80) (hins : buf 1 = 0x02)
    (hp1 : buf 2 = 0) (hp2 : buf 3 = 0) (h1 : 1 ≤ buf 5) (h2 : buf 5 ≤ 10)
    (hbytes : ∀ i, i < 4 * buf 5 → buf (6 + i) < 256)
    (hshl : ∀ v, v < 256 → int_to_uint32 (shl_int_with sdk.shl_undefined v 24) = v * 2 ^ 24) :
    ∃ d : Device,
      Device.step sdk { operationContext := ctx, screen := Screen.idle } (Event.apdu buf rx) =
        some (d, Outcome.display Screen.address) ∧
      d.screen = Screen.address ∧
      d.operationContext.pathLength = buf 5 ∧
      d.operationContext.bip32Path.take (buf 5) = command_path buf (buf 5) ∧
      d.operationContext.publicKey =
        sdk.cx_ecfp_generate_pair (sdk.os_perso_derive_seed_bip32 (command_path buf (buf 5))) ∧
      d.operationContext.hash = ctx.hash ∧
      Device.step sdk d Event.confirm =
        some ({ d with screen := Screen.idle },
          Outcome.reply
            (65 :: (slice (ofList (sdk.cx_ecfp_generate_pair
              (sdk.os_perso_derive_seed_bip32 (command_path buf (buf 5)))).W) 0 65 ++
                [0x90, 0x00]))) ∧
      (65 :: (slice (ofList (sdk.cx_ecfp_generate_pair
          (sdk.os_perso_derive_seed_bip32 (command_path buf (buf 5)))).W) 0 65 ++
            [0x90, 0x00])).length = 68 ∧
      ((sdk.cx_ecfp_generate_pair
          (sdk.os_perso_derive_seed_bip32 (command_path buf (buf 5)))).W.length = 65 →
        slice (ofList (sdk.cx_ecfp_generate_pair
          (sdk.os_perso_derive_seed_bip32 (command_path buf (buf 5)))).W) 0 65 =
        (sdk.cx_ecfp_generate_pair
          (sdk.os_perso_derive_seed_bip32 (command_path buf (buf 5)))).W) := by
  have hpath := read_path_command_path sdk buf (buf 5) hshl hbytes
  have hcmd := sample_main_command_get_public_key sdk ctx buf rx hrx hcla hins
  rw [if_neg (by omega), if_neg (by simp [hp1, hp2]),
    store_path_read_path_take sdk ctx.bip32Path buf 6 (buf 5), hpath] at hcmd
  refine ⟨{ operationContext := (sample_main_command sdk ctx buf rx).1
            screen := Screen.address }, ?_, rfl, ?_, ?_, ?_, ?_, ?_, ?_, ?_⟩
  · rw [Device.step_apdu_idle sdk ctx buf rx (by rw [hcmd]; exact Outcome.noConfusion), hcmd]
  · simp only [hcmd]
  · simp only [hcmd]
    rw [← hpath]
    exact store_path_read_path_take sdk ctx.bip32Path buf 6 (buf 5)
  · simp only [hcmd]
  · simp only [hcmd]
  · simp only [Device.step, io_seproxyhal_touch_address_ok, hcmd]
  · simp [slice_length]
  · intro hlen
    exact slice_ofList_all _ 65 hlen

theorem sampleSdk_shl (v : Nat) (hv : v < 256) :
    int_to_uint32 (shl_int_with sampleSdk.shl_undefined v 24) = v * 2 ^ 24 := by
  by_cases h : v * 2 ^ 24 ≤ 2 ^ 31 - 1
  · rw [shl_int_with_exact _ _ 24 (by omega) h, int_to_uint32_natCast _ (by omega)]
  · have e : shl_int_with sampleSdk.shl_undefined v 24 =
        wrap_int32 ((v * 2 ^ 24 : Nat) : Int) := by
      unfold shl_int_with
      rw [if_neg (by intro hh; exact h hh.2)]
      rfl
    rw [e]
    unfold int_to_uint32 wrap_int32
    have : ((((v * 2 ^ 24 : Nat) : Int) + 2 ^ 31) % 2 ^ 32 - 2 ^ 31) % 2 ^ 32 =
        ((v * 2 ^ 24 : Nat) : Int) := by
      push_cast
      omega
    rw [this]
    exact Int.toNat_ofNat _

theorem get_public_key_stores_path_and_answers_witness :
    ∃ d : Device,
      Device.step sampleSdk boot_device (Event.apdu (ofList sampleGetKey) sampleGetKey.length) =
        some (d, Outcome.display Screen.address) ∧
      d.operationContext.bip32Path.take 1 = [0x8000002C] ∧
      Device.step sampleSdk d Event.confirm =
        some ({ d with screen := Screen.idle },
          Outcome.reply (65 :: (4 :: List.replicate 64 33 ++ [0x90, 0x00]))) :=
  let ⟨d, h1, _, _, h4, _, _, h7, _⟩ := get_public_key_stores_path_and_answers sampleSdk
    boot_context (ofList sampleGetKey) sampleGetKey.length (by decide) (by decide) (by decide)
    (by decide) (by decide) (by decide) (by decide) (by decide) sampleSdk_shl
  ⟨d, h1, h4.trans (by decide), h7.trans rfl⟩

/-! ## The number of bytes a sign chunk folds into the hash -/

/-- C26: the `uint32_t` computation of the data length of a sign first chunk
wraps around when `LC < 1 + 4 * n`.  The first chunk `80 04 00 00 01 01`
(`LC = 1`, path length 1, no path entry) passes the checks of the dispatcher
and is answered 0x9000; `dataLength` becomes `1 - 1 - 4` modulo `2 ^ 32`, that
is 4294967292, and that many bytes, starting at offset 10 of the command
buffer, are folded into the hash.  In general a first chunk that passes the
checks folds `(LC - 1 - 4 * n) mod 2 ^ 32` bytes, which is at most `LC`
exactly when `1 + 4 * n ≤ LC`; a continuation chunk folds `LC` bytes. -/
theorem sign_first_chunk_length_wraps :
    (ofList sampleSignShort) 4 = 1 ∧ (ofList sampleSignShort) 5 = 1 ∧
    (sample_main_command sampleSdk boot_context (ofList sampleSignShort)
      sampleSignShort.length).2 = Outcome.reply [0x90, 0x00] ∧
    (sample_main_command sampleSdk boot_context (ofList sampleSignShort)
      sampleSignShort.length).1.hash.absorbed = slice (ofList sampleSignShort) 10 4294967292 ∧
    (sample_main_command sampleSdk boot_context (ofList sampleSignShort)
      sampleSignShort.length).1.hash.absorbed.length = 4294967292 ∧
    (∀ (sdk : Sdk) (ctx : operationContext_t) (buf : Nat → Nat) (rx : Nat), rx ≠ 0 →
      buf 0 = 0x80 → buf 1 = 0x04 → buf 2 &&& 0x7F = 0 → buf 3 = 0 → 1 ≤ buf 5 → buf 5 ≤ 10 →
      buf 4 ≤ 255 →
      (sample_main_command sdk ctx buf rx).1.hash.absorbed.length =
          (buf 4 + 2 ^ 32 - (1 + 4 * buf 5)) % 2 ^ 32 ∧
        ((sample_main_command sdk ctx buf rx).1.hash.absorbed.length ≤ buf 4 ↔
          1 + 4 * buf 5 ≤ buf 4)) ∧
    (∀ (sdk : Sdk) (ctx : operationContext_t) (buf : Nat → Nat) (rx : Nat), rx ≠ 0 →
      buf 0 = 0x80 → buf 1 = 0x04 → buf 2 &&& 0x7F = 1 → buf 3 = 0 →
      (sample_main_command sdk ctx buf rx).1.hash.absorbed.length =
        ctx.hash.absorbed.length + buf 4) := by
  have e := sample_main_command_sign_first sampleSdk boot_context (ofList sampleSignShort)
    sampleSignShort.length (by decide) (by decide) (by decide) (by decide) (by decide)
    (by decide) (by decide)
  have e4 : (ofList sampleSignShort) 4 = 1 := by decide
  have e5 : (ofList sampleSignShort) 5 = 1 := by decide
  have e2 : (ofList sampleSignShort) 2 &&& 0x80 = 0 := by decide
  rw [e4, e5, e2] at e
  have hn : (1 + 2 ^ 32 - (1 + 4 * 1)) % 2 ^ 32 = 4294967292 := by norm_num
  have ho : 6 + 4 * 1 = 10 := by norm_num
  rw [hn, ho] at e
  refine ⟨e4, e5, ?_, ?_, ?_, ?_, ?_⟩
  · rw [e]; rfl
  · rw [e]
    simp [cx_hash_update, cx_sha256_init]
  · rw [e]
    simp [cx_hash_update, cx_sha256_init, slice_length]
  · intro sdk ctx buf rx hrx hcla hins hp1 hp2 h1 h2 hlc
    rw [sample_main_command_sign_first sdk ctx buf rx hrx hcla hins hp1 h1 h2 hp2]
    simp only [cx_hash_update, cx_sha256_init, List.nil_append, slice_length]
    constructor
    · trivial
    · omega
  · intro sdk ctx buf rx hrx hcla hins hp1 hp2
    rw [sample_main_command_sign_next sdk ctx buf rx hrx hcla hins hp1 hp2]
    simp [cx_hash_update, slice_length]

/-! ## Private key material -/

theorem os_memset_length (a : List Nat) (c n : Nat) : (os_memset a c n).length = a.length := by
  simp only [os_memset, List.length_append, List.length_replicate, List.length_drop]
  omega

theorem os_memmove_length (a src : List Nat) (n : Nat) :
    (os_memmove a src n).length = a.length := by
  simp only [os_memmove, List.length_append, List.length_take, List.length_drop]
  omega

theorem os_memset_all (a : List Nat) (c : Nat) :
    os_memset a c a.length = List.replicate a.length c := by
  simp [os_memset]

theorem os_memset_memmove (a src : List Nat) (c n : Nat) :
    os_memset (os_memmove a src n) c a.length = List.replicate a.length c := by
  have h := os_memset_all (os_memmove a src n) c
  rw [os_memmove_length] at h
  exact h

theorem os_memset_zero_isZero (key : cx_ecfp_private_key_t) : key.os_memset_zero.IsZero := by
  refine ⟨rfl, rfl, ?_⟩
  intro b hb
  simp only [cx_ecfp_private_key_t.os_memset_zero, os_memset_all] at hb
  exact (List.mem_replicate.mp hb).2

theorem os_memset_zero_d_length (key : cx_ecfp_private_key_t) :
    key.os_memset_zero.d.length = key.d.length := by
  simp [cx_ecfp_private_key_t.os_memset_zero, os_memset_length]

theorem get_public_key_locals_eq (sdk : Sdk) (throws : SdkThrows) (curve : Nat)
    (ctx : operationContext_t) (buf : Nat → Nat) (locals : KeyLocals) :
    get_public_key_locals sdk throws curve ctx buf locals =
      if buf 5 < 1 ∨ 10 < buf 5 then (locals, KeyExit.rejected 0x6a80)
      else if buf 2 ≠ 0 ∨ buf 3 ≠ 0 then (locals, KeyExit.rejected 0x6B00)
      else
        match throws.os_perso_derive_seed_bip32
          ((store_path ctx.bip32Path (read_path sdk buf 6 (buf 5))).take (buf 5)) with
        | some (e, stored) =>
          ({ locals with
              privateKeyData :=
                os_memmove locals.privateKeyData stored locals.privateKeyData.length },
            KeyExit.raised e)
        | none =>
          match throws.cx_ecfp_generate_pair
            (os_memmove locals.privateKeyData
              (sdk.os_perso_derive_seed_bip32
                ((store_path ctx.bip32Path (read_path sdk buf 6 (buf 5))).take (buf 5)))
              locals.privateKeyData.length) with
          | some e =>
            ({ privateKeyData :=
                 os_memmove locals.privateKeyData
                   (sdk.os_perso_derive_seed_bip32
                     ((store_path ctx.bip32Path (read_path sdk buf 6 (buf 5))).take (buf 5)))
                   locals.privateKeyData.length
               privateKey :=
                 app_cx_ecfp_init_private_key curve
                   (os_memmove locals.privateKeyData
                     (sdk.os_perso_derive_seed_bip32
                       ((store_path ctx.bip32Path (read_path sdk buf 6 (buf 5))).take (buf 5)))
                     locals.privateKeyData.length) 32 locals.privateKey },
              KeyExit.raised e)
          | none =>
            ({ privateKeyData := List.replicate locals.privateKeyData.length 0
               privateKey :=
                 (app_cx_ecfp_init_private_key curve
                   (os_memmove locals.privateKeyData
                     (sdk.os_perso_derive_seed_bip32
                       ((store_path ctx.bip32Path (read_path sdk buf 6 (buf 5))).take (buf 5)))
                     locals.privateKeyData.length) 32 locals.privateKey).os_memset_zero },
              KeyExit.finished) := by
  simp only [get_public_key_locals, OFFSET_CDATA, MAX_BIP32_PATH, OFFSET_P1, OFFSET_P2,
    gt_iff_lt, os_memmove_length, os_memset_memmove, Nat.reduceAdd]

theorem io_seproxyhal_touch_sign_ok_locals_eq (sdk : Sdk) (throws : SdkThrows) (curve : Nat)
    (ctx : operationContext_t) (locals : KeyLocals) (h : ctx.pathLength ≤ 10) :
    io_seproxyhal_touch_sign_ok_locals sdk throws curve ctx locals =
      match throws.cx_hash ctx.hash.absorbed with
      | some e => some (locals, KeyExit.raised e)
      | none =>
        match throws.os_perso_derive_seed_bip32 (ctx.bip32Path.take ctx.pathLength) with
        | some (e, stored) =>
          some
            ({ locals with
                privateKeyData :=
                  os_memmove locals.privateKeyData stored locals.privateKeyData.length },
              KeyExit.raised e)
        | none =>
          match throws.cx_ecdsa_sign
            (app_cx_ecfp_init_private_key curve
              (os_memmove locals.privateKeyData
                (sdk.os_perso_derive_seed_bip32 (ctx.bip32Path.take ctx.pathLength))
                locals.privateKeyData.length) 32 locals.privateKey).d
            (sdk.sha256 ctx.hash.absorbed) with
          | some e =>
            some
              ({ privateKeyData := List.replicate locals.privateKeyData.length 0
                 privateKey :=
                   app_cx_ecfp_init_private_key curve
                     (os_memmove locals.privateKeyData
                       (sdk.os_perso_derive_seed_bip32 (ctx.bip32Path.take ctx.pathLength))
                       locals.privateKeyData.length) 32 locals.privateKey },
                KeyExit.raised e)
          | none =>
            some
              ({ privateKeyData := List.replicate locals.privateKeyData.length 0
                 privateKey :=
                   (app_cx_ecfp_init_private_key curve
                     (os_memmove locals.privateKeyData
                       (sdk.os_perso_derive_seed_bip32 (ctx.bip32Path.take ctx.pathLength))
                       locals.privateKeyData.length) 32 locals.privateKey).os_memset_zero },
                KeyExit.finished) := by
  have hn : ¬ctx.pathLength > MAX_BIP32_PATH := by
    simp only [MAX_BIP32_PATH]
    omega
  simp only [io_seproxyhal_touch_sign_ok_locals, hn, if_false, os_memmove_length,
    os_memset_memmove]

/-- C25 (as stated) fails on the exits that are not the end of the function.
With an SDK whose `cx_ecdsa_sign` and `cx_ecfp_generate_pair` throw,
`io_seproxyhal_touch_sign_ok` is left with the structure `privateKey` holding
the derived key (`os_memset(&privateKey, ...)` comes after `cx_ecdsa_sign`),
and the get-public-key case is left with both `privateKeyData` and
`privateKey` holding it.  When `generate_key_pair` throws, `compute_pkh` is
left with what that call stored in `private_key`.  A get-public-key command
that is rejected (path length byte 11, status 0x6A80) leaves the two locals
as they were, not zero. -/
theorem private_key_material_kept_on_exception :
    sampleSdk.os_perso_derive_seed_bip32
        (sampleBusyContext.bip32Path.take sampleBusyContext.pathLength) =
      List.replicate 32 3 ∧
    io_seproxyhal_touch_sign_ok_locals sampleSdk sampleThrows 1 sampleBusyContext sampleLocals =
      some
        ({ privateKeyData := List.replicate 32 0
           privateKey := { curve := 1, d_len := 32, d := List.replicate 32 3 } },
          KeyExit.raised 2) ∧
    get_public_key_locals sampleSdk sampleThrows 1 boot_context (ofList sampleGetKey)
        sampleLocals =
      ({ privateKeyData := List.replicate 32 2
         privateKey := { curve := 1, d_len := 32, d := List.replicate 32 2 } },
        KeyExit.raised 2) ∧
    compute_pkh_private_key sampleGenerated (some 2) = (sampleGenerated, KeyExit.raised 2) ∧
    ¬sampleGenerated.IsZero ∧
    get_public_key_locals sampleSdk SdkThrows.never 1 boot_context (ofList sampleGetKeyLongPath)
        sampleLocals =
      (sampleLocals, KeyExit.rejected 0x6a80) ∧
    sampleLocals.privateKeyData = List.replicate 32 0x55 ∧
    ¬sampleLocals.privateKey.IsZero := by
  refine ⟨by decide, by decide, by decide, by decide, by decide, by decide, by decide,
    by decide⟩

/-- C25 (amended): every place that derives private key material zeroes it
before it reaches its end.  When `compute_pkh` (its call of
`generate_key_pair` returning), the get-public-key case and
`io_seproxyhal_touch_sign_ok` (stored path length at most 10) reach their
end, every byte of the private key structure and of the array
`privateKeyData` is zero, at their full size; they reach their end whenever
the checks pass and every SDK call returns.  The only other exits of the
get-public-key case that the code itself takes, the rejections 0x6A80 and
0x6B00, come before the derivation and leave the two locals as they were,
never written.  Nothing is said of the exits through an exception of an SDK
call, on which nothing zeroes the locals. -/
theorem private_key_material_zeroed (sdk : Sdk) (throws : SdkThrows) (curve : Nat)
    (ctx : operationContext_t) (buf : Nat → Nat) (rx : Nat) (locals : KeyLocals)
    (generated : cx_ecfp_private_key_t) (hrx : rx ≠ 0) (hcla : buf 0 = 0x80)
    (hins : buf 1 = 0x02) (hpath : ctx.pathLength ≤ 10) :
    (compute_pkh_private_key generated none).2 = KeyExit.finished ∧
    (compute_pkh_private_key generated none).1.IsZero ∧
    (compute_pkh_private_key generated none).1.d.length = generated.d.length ∧
    ((get_public_key_locals sdk throws curve ctx buf locals).2 = KeyExit.finished →
      (get_public_key_locals sdk throws curve ctx buf locals).1.privateKeyData =
        List.replicate locals.privateKeyData.length 0 ∧
      (get_public_key_locals sdk throws curve ctx buf locals).1.privateKey.IsZero ∧
      (get_public_key_locals sdk throws curve ctx buf locals).1.privateKey.d.length =
        locals.privateKey.d.length) ∧
    (∀ sw, (get_public_key_locals sdk throws curve ctx buf locals).2 = KeyExit.rejected sw →
      (sw = 0x6a80 ∨ sw = 0x6B00) ∧
      (get_public_key_locals sdk throws curve ctx buf locals).1 = locals ∧
      (sample_main_command sdk ctx buf rx).2 = Outcome.reply (CATCH_OTHER sw)) ∧
    ((get_public_key_locals sdk SdkThrows.never curve ctx buf locals).2 = KeyExit.finished ↔
      (sample_main_command sdk ctx buf rx).2 = Outcome.display Screen.address) ∧
    (∀ e, (get_public_key_locals sdk SdkThrows.never curve ctx buf locals).2 ≠
      KeyExit.raised e) ∧
    (∃ r, io_seproxyhal_touch_sign_ok_locals sdk throws curve ctx locals = some r ∧
      (∀ sw, r.2 ≠ KeyExit.rejected sw) ∧
      (r.2 = KeyExit.finished →
        r.1.privateKeyData = List.replicate locals.privateKeyData.length 0 ∧
        r.1.privateKey.IsZero ∧ r.1.privateKey.d.length = locals.privateKey.d.length)) ∧
    (∃ l, io_seproxyhal_touch_sign_ok_locals sdk SdkThrows.never curve ctx locals =
      some (l, KeyExit.finished)) := by
  have hcmd := sample_main_command_get_public_key sdk ctx buf rx hrx hcla hins
  refine ⟨rfl, os_memset_zero_isZero _, os_memset_zero_d_length _, ?_, ?_, ?_, ?_, ?_, ?_⟩
  · rw [get_public_key_locals_eq]
    intro hf
    split at hf
    · cases hf
    · split at hf
      · cases hf
      · split at hf
        · cases hf
        · rename_i ha hb _ hd
          split at hf
          · cases hf
          · rename_i hg
            rw [if_neg ha, if_neg hb]
            simp only [hd, hg]
            refine ⟨trivial, os_memset_zero_isZero _, ?_⟩
            simp only [os_memset_zero_d_length, app_cx_ecfp_init_private_key, os_memmove_length]
  · rw [get_public_key_locals_eq, hcmd]
    intro sw hr
    split at hr
    · rename_i ha
      rw [if_pos ha, if_pos ha]
      simp only [KeyExit.rejected.injEq] at hr
      subst hr
      exact ⟨Or.inl rfl, rfl, by rw [CATCH_OTHER_6A80]⟩
    · rename_i ha
      rw [if_neg ha, if_neg ha]
      split at hr
      · rename_i hb
        rw [if_pos hb, if_pos hb]
        simp only [KeyExit.rejected.injEq] at hr
        subst hr
        exact ⟨Or.inr rfl, rfl, by rw [CATCH_OTHER_6B00]⟩
      · split at hr
        · cases hr
        · split at hr <;> cases hr
  · rw [get_public_key_locals_eq, hcmd]
    by_cases ha : buf 5 < 1 ∨ 10 < buf 5
    · rw [if_pos ha, if_pos ha]
      constructor <;> intro h <;> cases h
    · rw [if_neg ha, if_neg ha]
      by_cases hb : buf 2 ≠ 0 ∨ buf 3 ≠ 0
      · rw [if_pos hb, if_pos hb]
        constructor <;> intro h <;> cases h
      · rw [if_neg hb, if_neg hb]
        simp only [SdkThrows.never]
  · intro e
    rw [get_public_key_locals_eq]
    split
    · exact KeyExit.noConfusion
    · split
      · exact KeyExit.noConfusion
      · simp only [SdkThrows.never]
        exact KeyExit.noConfusion
  · rw [io_seproxyhal_touch_sign_ok_locals_eq sdk throws curve ctx locals hpath]
    split
    · exact ⟨_, rfl, fun sw => KeyExit.noConfusion, fun h => by cases h⟩
    · split
      · exact ⟨_, rfl, fun sw => KeyExit.noConfusion, fun h => by cases h⟩
      · split
        · exact ⟨_, rfl, fun sw => KeyExit.noConfusion, fun h => by cases h⟩
        · refine ⟨_, rfl, fun sw => KeyExit.noConfusion, fun _ => ⟨rfl, os_memset_zero_isZero _, ?_⟩⟩
          simp only [os_memset_zero_d_length, app_cx_ecfp_init_private_key, os_memmove_length]
  · rw [io_seproxyhal_touch_sign_ok_locals_eq sdk SdkThrows.never curve ctx locals hpath]
    simp only [SdkThrows.never]
    exact ⟨_, rfl⟩

theorem private_key_material_zeroed_witness :
    (get_public_key_locals sampleSdk SdkThrows.never 1 boot_context (ofList sampleGetKey)
      sampleLocals).1 =
      { privateKeyData := List.replicate 32 0
        privateKey := { curve := 0, d_len := 0, d := List.replicate 32 0 } } ∧
    (get_public_key_locals sampleSdk SdkThrows.never 1 boot_context (ofList sampleGetKey)
      sampleLocals).1.privateKeyData = List.replicate 32 0 :=
  ⟨by decide,
    ((private_key_material_zeroed sampleSdk SdkThrows.never 1 boot_context (ofList sampleGetKey)
      sampleGetKey.length sampleLocals sampleLocals.privateKey (by decide) (by decide)
      (by decide) (by decide)).2.2.2.1 (by decide)).1⟩

end Tezos
